import Mathlib

/-!
# ptar: plain text archives

A shallow embedding of `ptar.c` and theorems about it: the decoder (field
grammar, entry metadata, the `scan_archive` state machine, payload skipping,
the two consumers, the commands `x` and `t` of `main`) and the encoder
(`add_file`, `archive_file` and the command `c` of `main`).

Conventions of the embedding:

* a C string is the list of its bytes before the terminating NUL;
* `stdin` is the list of unread bytes together with the end-of-file
  indicator; read errors (`ferror`) are not modelled;
* the global variables of the program are fields of explicit state records;
* library functions (`printf`, `strtoul`, `getline`, `readlink`, `nftw`, the
  file system) are modelled by what they return.
-/

namespace Ptar

/-! ## Characters and C strings -/

/-- The terminating byte of a C string. -/
def NUL : Char := Char.ofNat 0

/-- A C string: the bytes before the terminating NUL. -/
abbrev CStr := List Char

/-- The bytes of a buffer that C string functions see: those before the first NUL. -/
def cstr (buf : List Char) : CStr := buf.takeWhile (fun c => c != NUL)

/-- The function `isdigit` of the C locale. -/
def isdigit (c : Char) : Bool := decide (48 ≤ c.toNat) && decide (c.toNat ≤ 57)

/-- The function `isupper` of the C locale. -/
def isupper (c : Char) : Bool := decide (65 ≤ c.toNat) && decide (c.toNat ≤ 90)

/-- The function `islower` of the C locale. -/
def islower (c : Char) : Bool := decide (97 ≤ c.toNat) && decide (c.toNat ≤ 122)

/-- The function `isalnum` of the C locale. -/
def isalnum (c : Char) : Bool := isdigit c || isupper c || islower c

/-- The function `isspace` of the C locale: space, `\t`, `\n`, `\v`, `\f`, `\r`. -/
def isspace (c : Char) : Bool := decide (c.toNat = 32) || (decide (9 ≤ c.toNat) && decide (c.toNat ≤ 13))

/-- The function `tolower` of the C locale. -/
def tolower (c : Char) : Char := if isupper c then Char.ofNat (c.toNat + 32) else c

/-! ## Field grammar (`ptar.c` lines 90-153) -/

/-- `isvalidkeychar`. -/
def isvalidkeychar (c : Char) : Bool := isalnum c || c == ' ' || c == '-' || c == '_'

/-- The loop of `isvalidkey`: runs until `:` or the end of the string. -/
def isvalidkey_loop : CStr → Bool
  | [] => true
  | c :: cs => if c == ':' then true else if isvalidkeychar c then isvalidkey_loop cs else false

/-- `isvalidkey`. -/
def isvalidkey : CStr → Bool
  | [] => false
  | c :: cs => if isalnum c then isvalidkey_loop cs else false

/-- `strchr(line, ':') != NULL`. -/
def hascolon (line : CStr) : Bool := line.any (fun c => c == ':')

/-- `haskey`. -/
def haskey (line : CStr) : Bool := hascolon line && isvalidkey line

/-- The loop of `transformkey`, which rewrites the string in place with two
cursors. The first argument is the text from the write cursor `start` to the
terminator (not yet written, so still the original bytes); the second is the
memory from the read cursor `next` onwards, which is read past the terminator
when the string holds more than one whitespace byte (memory that is not
modelled reads as NUL). The result is the bytes written. -/
def transformkey_loop : CStr → List Char → List Char
  | [], _ => []
  | _ :: start, next =>
    let next := next.dropWhile isspace
    tolower (next.headD NUL) :: transformkey_loop start next.tail

/-- `transformkey`: the C string left in the buffer. -/
def transformkey (s : CStr) : CStr := cstr (transformkey_loop s (s ++ [NUL]))

/-- `trim`: skip leading whitespace, then overwrite trailing whitespace with NUL. -/
def trim (str : CStr) : CStr :=
  ((str.dropWhile isspace).reverse.dropWhile isspace).reverse

/-- What `parsemetadata` hands back: return value 0 with a key, return value
0 with `key = NULL`, or return value 1. -/
inductive Parsed where
  | keyvalue (key value : CStr)
  | bare (value : CStr)
  | blank
  deriving DecidableEq, Repr

/-- The return value of `parsemetadata`. -/
def Parsed.ret : Parsed → Nat
  | .keyvalue _ _ => 0
  | .bare _ => 0
  | .blank => 1

/-- `parsemetadata`. -/
def parsemetadata (line : CStr) : Parsed :=
  if hascolon line && isvalidkey line then
    .keyvalue (transformkey (line.takeWhile (fun c => c != ':')))
      (trim ((line.dropWhile (fun c => c != ':')).drop 1))
  else
    let colon := trim line
    if colon != [] then .bare colon else .blank

/-! ## Number parsing (`strtoull`, `strtoul`, `strtol`)

The platform is LP64: `size_t`, `unsigned long`, `unsigned long long` are 64
bits wide, `long` and `time_t` are 64-bit signed, `uid_t`, `gid_t` and
`mode_t` are 32-bit unsigned. -/

/-- `ULLONG_MAX`, also `ULONG_MAX`. -/
def ULLONG_MAX : Nat := 2 ^ 64 - 1

/-- `LONG_MAX`. -/
def LONG_MAX : Nat := 2 ^ 63 - 1

/-- The value of a digit of the given base (at most 10), if the byte is one. -/
def digitval (base : Nat) (c : Char) : Option Nat :=
  if 48 ≤ c.toNat ∧ c.toNat < 48 + base then some (c.toNat - 48) else none

/-- Whether the byte is a digit of the given base. -/
def isbasedigit (base : Nat) (c : Char) : Bool := (digitval base c).isSome

/-- The number denoted by a run of digits, most significant first. -/
def digitsval (base : Nat) (ds : CStr) : Nat :=
  ds.foldl (fun acc c => acc * base + (digitval base c).getD 0) 0

/-- The subject sequence of the `strto*` functions: leading whitespace is
skipped, then an optional sign, then the longest run of digits. The result is
(negative, digits, text after the digits). -/
def strto_split (base : Nat) (s : CStr) : Bool × CStr × CStr :=
  let s := s.dropWhile isspace
  let (neg, s) :=
    match s with
    | '-' :: t => (true, t)
    | '+' :: t => (false, t)
    | _ => (false, s)
  (neg, s.takeWhile (isbasedigit base), s.dropWhile (isbasedigit base))

/-- The outcome of a `strto*` call together with the test
`errno != 0 || end == value || *end != 0` made on it by `handle_metadata`:
`bad` is the value of that test. -/
structure Strto (α : Type) where
  val : α
  bad : Bool
  deriving DecidableEq, Repr

/-- `strtoull(value, &end, base)`, also `strtoul` (same width). A negative
subject is negated in the unsigned type; a magnitude above `ULLONG_MAX` gives
`ULLONG_MAX` and `ERANGE`. -/
def strtoull (base : Nat) (value : CStr) : Strto Nat :=
  let (neg, ds, rest) := strto_split base value
  let mag := digitsval base ds
  if ds == [] then ⟨0, true⟩
  else if ULLONG_MAX < mag then ⟨ULLONG_MAX, true⟩
  else ⟨if neg then (2 ^ 64 - mag) % 2 ^ 64 else mag, rest != []⟩

/-- `strtol(value, &end, base)`: out of range gives `LONG_MAX` or `LONG_MIN`
and `ERANGE`. -/
def strtol (base : Nat) (value : CStr) : Strto Int :=
  let (neg, ds, rest) := strto_split base value
  let mag := digitsval base ds
  if ds == [] then ⟨0, true⟩
  else if neg then
    if LONG_MAX + 1 < mag then ⟨-((LONG_MAX : Int) + 1), true⟩ else ⟨-(mag : Int), rest != []⟩
  else
    if LONG_MAX < mag then ⟨(LONG_MAX : Int), true⟩ else ⟨(mag : Int), rest != []⟩

/-! ## Entry metadata (`ptar.c` lines 36-63, 292-485) -/

/-- File type IDs. -/
inductive FType where
  | UNKNOWN | REGULARFILE | DIRECTORY | SYMLINK | CHARDEVICE | BLOCKDEVICE | FIFO | SOCKET
  deriving DecidableEq, Repr

/-- The file entry metadata globals. A string pointer that is `NULL` is
`none`; `fmajor` and `fminor` are `-1` when not given. -/
structure Metadata where
  fpath : Option CStr
  ftype : FType
  fsize : Nat
  flinktarget : Option CStr
  fmajor : Int
  fminor : Int
  fusername : Option CStr
  fgroupname : Option CStr
  fuid : Nat
  fgid : Nat
  fmode : Nat
  fmtime : Int
  fsizegiven : Bool
  fuidgiven : Bool
  fgidgiven : Bool
  fmodegiven : Bool
  fmtimegiven : Bool
  deriving DecidableEq, Repr

/-- The initial values of the metadata globals. -/
def Metadata.init : Metadata :=
  { fpath := none, ftype := .UNKNOWN, fsize := 0, flinktarget := none, fmajor := -1,
    fminor := -1, fusername := none, fgroupname := none, fuid := 0, fgid := 0, fmode := 0,
    fmtime := 0, fsizegiven := false, fuidgiven := false, fgidgiven := false,
    fmodegiven := false, fmtimegiven := false }

/-- `S_IFMT`, octal 170000. -/
def S_IFMT : Nat := 61440

/-- Conversion of an `unsigned long long` to `time_t`. -/
def to_time_t (v : Nat) : Int := if v % 2 ^ 64 < 2 ^ 63 then (v % 2 ^ 64 : Nat) else ((v % 2 ^ 64 : Nat) : Int) - 2 ^ 64

/-- The file type named by a transformed `Type` value. -/
def ftype_of_name (value : CStr) : Option FType :=
  if value = "regularfile".toList then some .REGULARFILE
  else if value = "directory".toList then some .DIRECTORY
  else if value = "symboliclink".toList then some .SYMLINK
  else if value = "characterdevice".toList then some .CHARDEVICE
  else if value = "blockdevice".toList then some .BLOCKDEVICE
  else if value = "fifo".toList then some .FIFO
  else if value = "socket".toList then some .SOCKET
  else none

/-- `handle_metadata`: the return value and the metadata globals afterwards.
Every nonzero return prints a diagnostic that starts with `stdin:lineno:`. -/
def handle_metadata (key value : CStr) (m : Metadata) : Nat × Metadata :=
  if value = [] then (1, m)
  else if key = "path".toList then
    if m.fpath.isSome then (1, m) else (0, { m with fpath := some value })
  else if key = "type".toList then
    if m.ftype ≠ .UNKNOWN then (1, m)
    else
      match ftype_of_name (transformkey value) with
      | some t => (0, { m with ftype := t })
      | none => (1, m)
  else if key = "filesize".toList then
    if m.fsizegiven then (1, m)
    else
      let r := strtoull 10 value
      if r.bad then (1, { m with fsize := r.val })
      else (0, { m with fsize := r.val, fsizegiven := true })
  else if key = "linktarget".toList then
    if m.flinktarget.isSome then (1, m) else (0, { m with flinktarget := some value })
  else if key = "major".toList then
    if m.fmajor ≠ -1 then (1, m)
    else
      let r := strtol 10 value
      if r.bad then (1, { m with fmajor := r.val }) else (0, { m with fmajor := r.val })
  else if key = "minor".toList then
    if m.fminor ≠ -1 then (1, m)
    else
      let r := strtol 10 value
      if r.bad then (1, { m with fminor := r.val }) else (0, { m with fminor := r.val })
  else if key = "username".toList then
    if m.fusername.isSome then (1, m) else (0, { m with fusername := some value })
  else if key = "userid".toList then
    if m.fuidgiven then (1, m)
    else
      let r := strtoull 10 value
      if r.bad then (1, { m with fuid := r.val % 2 ^ 32 })
      else (0, { m with fuid := r.val % 2 ^ 32, fuidgiven := true })
  else if key = "groupname".toList then
    if m.fgroupname.isSome then (1, m) else (0, { m with fgroupname := some value })
  else if key = "groupid".toList then
    if m.fgidgiven then (1, m)
    else
      let r := strtoull 10 value
      if r.bad then (1, { m with fgid := r.val % 2 ^ 32 })
      else (0, { m with fgid := r.val % 2 ^ 32, fgidgiven := true })
  else if key = "permissions".toList then
    if m.fmodegiven then (1, m)
    else
      let r := strtoull 8 value
      let fmode := r.val % 2 ^ 32
      if r.bad || (fmode &&& S_IFMT) != 0 then (1, { m with fmode := fmode })
      else (0, { m with fmode := fmode, fmodegiven := true })
  else if key = "modificationtime".toList then
    if m.fmtimegiven then (1, m)
    else
      let r := strtoull 10 value
      if r.bad then (1, { m with fmtime := to_time_t r.val })
      else (0, { m with fmtime := to_time_t r.val, fmtimegiven := true })
  else (1, m)

/-- `is_invalid_metadata`. The `default: abort()` arm of the switch is
unreachable: `ftype` only ever holds one of the eight IDs. -/
def is_invalid_metadata (m : Metadata) : Nat :=
  if m.fpath.isNone then 1
  else
    let rest : Nat :=
      if !m.fuidgiven || !m.fgidgiven || m.fusername.isNone || m.fgroupname.isNone
          || !m.fmtimegiven || !m.fmodegiven then 1 else 0
    match m.ftype with
    | .UNKNOWN => 1
    | .REGULARFILE => if !m.fsizegiven then 1 else rest
    | .DIRECTORY => rest
    | .SYMLINK => if m.flinktarget.isNone then 1 else rest
    | .CHARDEVICE => if m.fmajor = -1 || m.fminor = -1 then 1 else rest
    | .BLOCKDEVICE => if m.fmajor = -1 || m.fminor = -1 then 1 else rest
    | .FIFO => rest
    | .SOCKET => rest

/-- `clear_metadata`. The numeric fields keep their values; only their
`given` flags are reset. -/
def clear_metadata (m : Metadata) : Metadata :=
  { m with fpath := none, ftype := .UNKNOWN, flinktarget := none, fmajor := -1, fminor := -1,
           fusername := none, fgroupname := none, fsizegiven := false, fuidgiven := false,
           fgidgiven := false, fmodegiven := false, fmtimegiven := false }

/-! ## Standard input -/

/-- The stream `stdin`: the bytes not read yet, the end-of-file indicator
(`feof`), and whether the stream can be positioned (`fseek` fails with
`ESPIPE` or `EBADF` when it cannot; other `fseek` failures are not modelled). -/
structure Stdin where
  buf : List Char
  eof : Bool
  seekable : Bool
  deriving DecidableEq, Repr

/-- The first line of a non-empty buffer, through its newline if it has one,
and the bytes after it. -/
def takeline : List Char → List Char × List Char
  | [] => ([], [])
  | c :: cs => if c = '\n' then ([c], cs) else ((c :: (takeline cs).1), (takeline cs).2)

/-- `getline(&line, &linecap, stdin)`: `none` stands for the return value -1.
Reading a last line that has no newline runs into the end of the file and
sets the end-of-file indicator. -/
def getline (s : Stdin) : Option (List Char) × Stdin :=
  match s.buf with
  | [] => (none, { s with eof := true })
  | c :: cs =>
    (some (takeline (c :: cs)).1,
     { s with buf := (takeline (c :: cs)).2, eof := s.eof || !((c :: cs).contains '\n') })

/-- `fread(buffer, 1, n, stdin)`: the bytes read; a short count means end of file. -/
def fread (n : Nat) (s : Stdin) : List Char × Stdin :=
  (s.buf.take n, { s with buf := s.buf.drop n, eof := s.eof || decide (s.buf.length < n) })

/-- `fseek(stdin, off, SEEK_CUR) == 0`: positioning past the end of a
seekable stream succeeds; the end-of-file indicator is cleared. -/
def fseek (off : Nat) (s : Stdin) : Bool × Stdin :=
  if s.seekable then (true, { s with buf := s.buf.drop off, eof := false }) else (false, s)

/-! ## The world outside the metadata globals -/

/-- The file system calls made by `extract`. `utimensat` is always called
with `AT_FDCWD`, the access time `UTIME_OMIT` and flags 0, so the call is
recorded with its path and modification time only. -/
inductive FsOp where
  | unlink (path : CStr)
  | fopen (path : CStr)
  | mkdir (path : CStr) (mode : Nat)
  | lstat (path : CStr)
  | chmod (path : CStr) (mode : Nat)
  | symlink (target path : CStr)
  | mknod (path : CStr) (mode : Nat) (major minor : Int)
  | mkfifo (path : CStr) (mode : Nat)
  | fwrite (path : CStr) (bytes : List Char)
  | fclose (path : CStr)
  | utimensat (path : CStr) (mtime : Int)
  | lchown (path : CStr) (uid gid : Nat)
  deriving DecidableEq, Repr

/-- The outcome of a file system call: success, or failure with `errno`
equal to `ENOENT`, to `EEXIST`, or to something else. -/
inductive SysRes where
  | ok | ENOENT | EEXIST | EFAIL
  deriving DecidableEq, Repr

/-- The value of the function pointer `skip_file_data`. -/
inductive Skip where
  | by_fseek | by_fread
  deriving DecidableEq, Repr

/-- Everything the consumers act on: `stdin`, the lines printed on `stdout`
(writes to `stdout` do not fail), the pointer `skip_file_data`, the file
system (given by the outcome of each call after a history of calls, and
whether `lstat` then reports a directory) and the calls made so far. The
option `verbose` is off. -/
structure World where
  stdin : Stdin
  stdout : List CStr
  skip_file_data : Skip
  fs : List FsOp → FsOp → SysRes
  fs_isdir : List FsOp → CStr → Bool
  ops : List FsOp

/-- A file system call: its outcome, and the world with the call recorded. -/
def sys (op : FsOp) (w : World) : SysRes × World :=
  (w.fs w.ops op, { w with ops := w.ops ++ [op] })

/-- `WRITE_BLOCKSIZE`. -/
def WRITE_BLOCKSIZE : Nat := 32768

/-! ## Payload transfer and the consumers (`ptar.c` lines 619-763) -/

/-- The loop of `skip_file_data_fread`, with `numleft` bytes to go. Every
iteration that does not return reads at least one byte, so `numleft`
iterations are enough (first argument). -/
def skip_fread_loop : Nat → Nat → Stdin → Nat × Stdin
  | 0, _, s => (0, s)
  | fuel + 1, numleft, s =>
    if numleft = 0 then (0, s)
    else
      let r := fread (min numleft WRITE_BLOCKSIZE) s
      let numleft := numleft - r.1.length
      if r.2.eof && decide (0 < numleft) then (1, r.2)
      else skip_fread_loop fuel numleft r.2

/-- `skip_file_data_fread`. -/
def skip_file_data_fread (m : Metadata) (w : World) : Nat × World :=
  let r := skip_fread_loop m.fsize m.fsize w.stdin
  (r.1, { w with stdin := r.2 })

/-- `skip_file_data_fseek`. -/
def skip_file_data_fseek (m : Metadata) (w : World) : Nat × World :=
  if m.fsize ≤ LONG_MAX then
    let r := fseek m.fsize w.stdin
    if r.1 then (0, { w with stdin := r.2 })
    else skip_file_data_fread m { w with stdin := r.2, skip_file_data := .by_fread }
  else skip_file_data_fread m w

/-- `printline`. -/
def printline (line : CStr) (w : World) : World := { w with stdout := w.stdout ++ [line] }

/-- `listfiles`. -/
def listfiles (_lineno : Nat) (m : Metadata) (w : World) : Nat × World :=
  match m.fpath with
  | none => (1, w)
  | some fpath =>
    let w := printline fpath w
    if m.ftype = .REGULARFILE then
      match w.skip_file_data with
      | .by_fseek => skip_file_data_fseek m w
      | .by_fread => skip_file_data_fread m w
    else (0, w)

/-- `S_IFCHR`, `S_IFBLK`, `S_IFSOCK`. -/
def S_IFCHR : Nat := 8192
/-- Octal 060000. -/
def S_IFBLK : Nat := 24576
/-- Octal 140000. -/
def S_IFSOCK : Nat := 49152

/-- The copy loop of `extract`, with `numleft` bytes to go (the first
argument bounds the iterations, as in `skip_fread_loop`). -/
def extract_copy_loop : Nat → Nat → CStr → World → Nat × World
  | 0, _, _, w => (0, w)
  | fuel + 1, numleft, fpath, w =>
    if numleft = 0 then (0, w)
    else
      let r := fread (min numleft WRITE_BLOCKSIZE) w.stdin
      let numleft := numleft - r.1.length
      let w := { w with stdin := r.2 }
      if r.2.eof && decide (0 < numleft) then (1, w)
      else
        let q := sys (.fwrite fpath r.1) w
        if q.1 ≠ .ok then (1, q.2) else extract_copy_loop fuel numleft fpath q.2

/-- The `switch` of `extract` that creates the file system object: whether
`result` is nonzero, whether `fp` was opened, and the world afterwards. -/
def extract_create (m : Metadata) (fpath : CStr) (w : World) : Bool × Bool × World :=
  match m.ftype with
  | .REGULARFILE =>
    let r := sys (.fopen fpath) w
    (r.1 ≠ .ok, r.1 = .ok, r.2)
  | .DIRECTORY =>
    let r := sys (.mkdir fpath m.fmode) w
    if r.1 = .EEXIST then
      let q := sys (.lstat fpath) r.2
      if q.1 = .ok ∧ q.2.fs_isdir q.2.ops fpath then
        let p := sys (.chmod fpath m.fmode) q.2
        (p.1 ≠ .ok, false, p.2)
      else (true, false, q.2)
    else (r.1 ≠ .ok, false, r.2)
  | .SYMLINK =>
    let r := sys (.symlink (m.flinktarget.getD []) fpath) w
    (r.1 ≠ .ok, false, r.2)
  | .CHARDEVICE =>
    let r := sys (.mknod fpath (S_IFCHR ||| m.fmode) m.fmajor m.fminor) w
    (r.1 ≠ .ok, false, r.2)
  | .BLOCKDEVICE =>
    let r := sys (.mknod fpath (S_IFBLK ||| m.fmode) m.fmajor m.fminor) w
    (r.1 ≠ .ok, false, r.2)
  | .FIFO =>
    let r := sys (.mkfifo fpath m.fmode) w
    (r.1 ≠ .ok, false, r.2)
  | .SOCKET =>
    let r := sys (.mknod fpath (S_IFSOCK ||| m.fmode) m.fmajor m.fminor) w
    (r.1 ≠ .ok, false, r.2)
  | .UNKNOWN => (true, false, w)  -- default: abort(); not reached, see is_invalid_metadata

/-- The end of `extract`: modification time, then owner and group. -/
def extract_finish (m : Metadata) (fpath : CStr) (w : World) : Nat × World :=
  let r := sys (.utimensat fpath m.fmtime) w
  if r.1 ≠ .ok then (1, r.2)
  else
    let q := sys (.lchown fpath m.fuid m.fgid) r.2
    if q.1 ≠ .ok then (1, q.2) else (0, q.2)

/-- `extract`. -/
def extract (_lineno : Nat) (m : Metadata) (w : World) : Nat × World :=
  if is_invalid_metadata m ≠ 0 then (1, w)
  else
    let fpath := m.fpath.getD []
    let u := if m.ftype ≠ .DIRECTORY then sys (.unlink fpath) w else (.ok, w)
    if u.1 ≠ .ok ∧ u.1 ≠ .ENOENT then (1, u.2)
    else
      let c := extract_create m fpath u.2
      if c.1 then (1, c.2.2)
      else if c.2.1 then
        let r := extract_copy_loop m.fsize m.fsize fpath c.2.2
        if r.1 ≠ 0 then (1, r.2)
        else
          let f := sys (.fclose fpath) r.2
          let p := sys (.chmod fpath m.fmode) f.2
          if p.1 ≠ .ok then (1, p.2) else extract_finish m fpath p.2
      else extract_finish m fpath c.2.2

/-- A consumer, the argument `onentry` of `scan_archive`: called with the
line number and the metadata globals, it returns zero or nonzero. It acts on
the world, where it can only move the read position of `stdin` forward. -/
structure Consumer where
  run : Nat → Metadata → World → Nat × World
  forward : ∀ lineno m w, (run lineno m w).2.stdin.buf.length ≤ w.stdin.buf.length

/-! ## The decoder (`ptar.c` lines 487-617) -/

/-- Archive parser states. -/
inductive PState where
  | SEEKING_METADATA | METADATA | CONTENTS_END
  deriving DecidableEq, Repr

/-- One call of the consumer by `scan_archive`: the line number passed, the
metadata globals at that moment, and the bytes of `stdin` not read yet. -/
structure Dispatch where
  lineno : Nat
  md : Metadata
  unread : List Char
  deriving DecidableEq, Repr

/-- The variables of the entry loop of `scan_archive` between two
iterations, with the calls of the consumer made so far. -/
structure Config where
  state : PState
  lineno : Nat
  md : Metadata
  w : World
  calls : List Dispatch

/-- How `scan_archive` ended: its return value; the line number of the
diagnostic printed by `scan_archive` or `handle_metadata` themselves, if
there is one (a consumer prints its own); the parser state in which the entry
loop met the end of the input, if it did; and the globals, the world and the
consumer calls at that point. -/
structure Result where
  ret : Nat
  diag : Option Nat
  eofstate : Option PState
  md : Metadata
  w : World
  calls : List Dispatch

/-- A `return 1` after a diagnostic `stdin:lineno: ...`. -/
def Config.fail (cfg : Config) (eofstate : Option PState) : Result :=
  { ret := 1, diag := some cfg.lineno, eofstate := eofstate, md := cfg.md, w := cfg.w,
    calls := cfg.calls }

/-- The call `onentry(lineno)`: the return value and the configuration with
the call recorded. -/
def Config.dispatch (c : Consumer) (cfg : Config) : Nat × Config :=
  let r := c.run cfg.lineno cfg.md cfg.w
  (r.1, { cfg with w := r.2, calls := cfg.calls ++ [⟨cfg.lineno, cfg.md, cfg.w.stdin.buf⟩] })

/-- A `return 1` because the consumer returned nonzero. -/
def Config.consumer_failed (cfg : Config) (eofstate : Option PState) : Result :=
  { ret := 1, diag := none, eofstate := eofstate, md := cfg.md, w := cfg.w, calls := cfg.calls }

/-- What one iteration of the entry loop does: return, or go on. -/
inductive Step where
  | stop (r : Result)
  | next (cfg : Config)

/-- The body of the entry loop of `scan_archive` (the `switch` on `state`)
for the line just read. -/
def scan_step (c : Consumer) (line : List Char) (cfg : Config) : Step :=
  match cfg.state with
  | .SEEKING_METADATA =>
    match parsemetadata (cstr line) with
    | .keyvalue key value =>
      let h := handle_metadata key value cfg.md
      if h.1 ≠ 0 then .stop ({ cfg with md := h.2 }.fail none)
      else .next { cfg with md := h.2, state := .METADATA }
    | .bare _ => .stop (cfg.fail none)
    | .blank => .next cfg
  | .METADATA =>
    match parsemetadata (cstr line) with
    | .keyvalue key value =>
      let h := handle_metadata key value cfg.md
      if h.1 ≠ 0 then .stop ({ cfg with md := h.2 }.fail none)
      else .next { cfg with md := h.2 }
    | .bare value =>
      if value = "---".toList then
        if cfg.md.ftype ≠ .REGULARFILE then .stop (cfg.fail none)
        else if !cfg.md.fsizegiven then .stop (cfg.fail none)
        else
          let d := cfg.dispatch c
          if d.1 ≠ 0 then .stop (d.2.consumer_failed none)
          else .next { d.2 with md := clear_metadata d.2.md, state := .CONTENTS_END }
      else .stop (cfg.fail none)
    | .blank =>
      if cfg.md.ftype = .REGULARFILE then .stop (cfg.fail none)
      else
        let d := cfg.dispatch c
        if d.1 ≠ 0 then .stop (d.2.consumer_failed none)
        else .next { d.2 with md := clear_metadata d.2.md, state := .SEEKING_METADATA }
  | .CONTENTS_END =>
    match parsemetadata (cstr line) with
    | .keyvalue _ _ => .stop (cfg.fail none)
    | .bare value =>
      if value ≠ "---".toList then .stop (cfg.fail none)
      else .next { cfg with state := .SEEKING_METADATA }
    | .blank => .stop (cfg.fail none)

/-- The code of `scan_archive` after the entry loop, reached when `getline`
returns -1. -/
def scan_at_eof (c : Consumer) (cfg : Config) : Result :=
  match cfg.state with
  | .METADATA =>
    if cfg.md.ftype = .REGULARFILE then cfg.fail (some .METADATA)
    else
      let d := cfg.dispatch c
      if d.1 ≠ 0 then d.2.consumer_failed (some .METADATA)
      else { ret := 0, diag := none, eofstate := some .METADATA, md := clear_metadata d.2.md,
             w := d.2.w, calls := d.2.calls }
  | .CONTENTS_END => cfg.fail (some .CONTENTS_END)
  | .SEEKING_METADATA =>
    { ret := 0, diag := none, eofstate := some .SEEKING_METADATA, md := cfg.md, w := cfg.w,
      calls := cfg.calls }

/-- The entry loop of `scan_archive` and the code after it. Every iteration
reads a line, so one more iteration than there are unread bytes is enough
(first argument; `scan_loop_fuel` shows that the bound is never hit). -/
def scan_loop (c : Consumer) : Nat → Config → Result
  | 0, cfg => cfg.consumer_failed none
  | fuel + 1, cfg =>
    match getline cfg.w.stdin with
    | (none, stdin) => scan_at_eof c { cfg with w := { cfg.w with stdin := stdin } }
    | (some line, stdin) =>
      match scan_step c line { cfg with w := { cfg.w with stdin := stdin } } with
      | .stop r => r
      | .next cfg => scan_loop c fuel { cfg with lineno := cfg.lineno + 1 }

/-- The entry loop of `scan_archive`, and the code after it, started from a
configuration. -/
def scan_entries (c : Consumer) (cfg : Config) : Result :=
  scan_loop c (cfg.w.stdin.buf.length + 1) cfg

/-- What the header loop of `scan_archive` does with a line: `return 1`
after a diagnostic, `break`, or go on. -/
inductive HeaderStep where
  | fail | stop | next
  deriving DecidableEq, Repr

/-- The body of the header loop of `scan_archive`. -/
def header_step (line : List Char) : HeaderStep :=
  match parsemetadata (cstr line) with
  | .blank => .stop
  | .bare _ => .fail
  | .keyvalue key value =>
    if key = "metadataencoding".toList then
      if transformkey value ≠ "utf-8".toList ∧ transformkey value ≠ "utf8".toList
          ∧ transformkey value ≠ "ascii".toList then .fail
      else .next
    else if key = "extensions".toList then
      if transformkey value ≠ [] then .fail else .next
    else if key ≠ "archivecreationdate".toList then .fail
    else .next

/-- The header loop of `scan_archive`: whether it returned 1, and `lineno`
and `stdin` when it ended. A `break` leaves `lineno` as it is: the increment
of the `for` statement is skipped. -/
def scan_header : Nat → Nat → Stdin → Bool × Nat × Stdin
  | 0, lineno, s => (true, lineno, s)
  | fuel + 1, lineno, s =>
    match getline s with
    | (none, s) => (false, lineno, s)
    | (some line, s) =>
      match header_step line with
      | .fail => (true, lineno, s)
      | .stop => (false, lineno, s)
      | .next => scan_header fuel (lineno + 1) s

/-- `scan_archive(onentry)`, run in a world with the metadata globals at
their initial values. -/
def scan_archive (c : Consumer) (w : World) : Result :=
  let h := scan_header (w.stdin.buf.length + 1) 1 w.stdin
  let w := { w with stdin := h.2.2 }
  if h.1 then
    { ret := 1, diag := some h.2.1, eofstate := none, md := Metadata.init, w := w, calls := [] }
  else if h.2.2.eof then
    { ret := 0, diag := none, eofstate := none, md := Metadata.init, w := w, calls := [] }
  else
    scan_entries c
      { state := .SEEKING_METADATA, lineno := h.2.1, md := Metadata.init, w := w, calls := [] }

/-! ## The two consumers as arguments of `scan_archive` -/

/-- The world at the start of the program: nothing printed, `skip_file_data`
pointing to `skip_file_data_fseek`, no file system call made. -/
def World.start (input : List Char) (seekable : Bool) (fs : List FsOp → FsOp → SysRes)
    (fs_isdir : List FsOp → CStr → Bool) : World :=
  { stdin := { buf := input, eof := false, seekable := seekable }, stdout := [],
    skip_file_data := .by_fseek, fs := fs, fs_isdir := fs_isdir, ops := [] }

/-- A file system on which every call succeeds. -/
def fs_ok : List FsOp → FsOp → SysRes := fun _ _ => .ok

/-- No path is a directory. -/
def fs_nodir : List FsOp → CStr → Bool := fun _ _ => false

/-- The consumer `listfiles`. -/
def listfiles_consumer : Consumer where
  run := listfiles
  forward := by
    have key : ∀ fuel n (s : Stdin), (skip_fread_loop fuel n s).2.buf.length ≤ s.buf.length := by
      intro fuel
      induction fuel with
      | zero => intro n s; simp [skip_fread_loop]
      | succ k ih =>
        intro n s
        simp only [skip_fread_loop]
        split
        · exact Nat.le_refl _
        · split
          · simp [fread]
          · exact Nat.le_trans (ih _ _) (by simp [fread])
    have hread : ∀ m (w : World),
        (skip_file_data_fread m w).2.stdin.buf.length ≤ w.stdin.buf.length := by
      intro m w
      exact key _ _ _
    have hseek : ∀ m (w : World),
        (skip_file_data_fseek m w).2.stdin.buf.length ≤ w.stdin.buf.length := by
      intro m w
      unfold skip_file_data_fseek
      by_cases h1 : m.fsize ≤ LONG_MAX
      · by_cases h2 : w.stdin.seekable
        · simp [h1, h2, fseek]
        · simp only [h1, fseek, h2, if_true, Bool.false_eq_true, if_false]
          exact hread _ _
      · simp only [h1, if_false]
        exact hread _ _
    intro lineno m w
    cases hp : m.fpath with
    | none => simp [listfiles, hp]
    | some p =>
      by_cases ht : m.ftype = .REGULARFILE
      · cases hs : w.skip_file_data with
        | by_fseek =>
          simp only [listfiles, hp, ht, if_true, printline, hs]
          exact hseek m _
        | by_fread =>
          simp only [listfiles, hp, ht, if_true, printline, hs]
          exact hread m _
      · simp [listfiles, hp, ht, printline]

/-! ## Predicates used to state the properties -/

/-- A valid key: the first character alphanumeric, the others alphanumeric,
space, hyphen or underscore. -/
def IsKeyText (k : CStr) : Prop :=
  ∃ c rest, k = c :: rest ∧ isalnum c = true ∧
    ∀ x ∈ rest, isalnum x = true ∨ x = ' ' ∨ x = '-' ∨ x = '_'

/-- The text `t` is `s` with leading and trailing whitespace removed. -/
def IsTrimOf (s t : CStr) : Prop :=
  ∃ a b, s = a ++ t ++ b ∧ (∀ x ∈ a, isspace x = true) ∧ (∀ x ∈ b, isspace x = true) ∧
    (∀ x, t.head? = some x → isspace x = false) ∧ (∀ x, t.getLast? = some x → isspace x = false)

/-- The line has a colon and the text before its first colon is a valid key. -/
def IsKeyValueLine (line : CStr) : Prop :=
  ∃ k v, line = k ++ ':' :: v ∧ ':' ∉ k ∧ IsKeyText k

/-- The consumer `extract`. -/
def extract_consumer : Consumer where
  run := extract
  forward := by
    have hsys : ∀ op (w : World), (sys op w).2.stdin = w.stdin := fun _ _ => rfl
    have hcopy : ∀ fuel n p (w : World),
        (extract_copy_loop fuel n p w).2.stdin.buf.length ≤ w.stdin.buf.length := by
      intro fuel
      induction fuel with
      | zero => intro n p w; simp [extract_copy_loop]
      | succ k ih =>
        intro n p w
        simp only [extract_copy_loop]
        split
        · exact Nat.le_refl _
        · split
          · simp [fread]
          · split
            · simp [sys, fread]
            · exact Nat.le_trans (ih _ _ _) (by simp [sys, fread])
    have hcreate : ∀ m p (w : World), (extract_create m p w).2.2.stdin = w.stdin := by
      intro m p w
      unfold extract_create
      cases m.ftype <;> simp only [sys] <;> (try split) <;> (try split) <;> rfl
    have hfinish : ∀ m p (w : World), (extract_finish m p w).2.stdin = w.stdin := by
      intro m p w
      unfold extract_finish
      simp only [sys]
      split
      · rfl
      · split <;> rfl
    intro lineno m w
    unfold extract
    split
    · exact Nat.le_refl _
    · dsimp only
      generalize hu_def : (if m.ftype ≠ .DIRECTORY then sys (.unlink (m.fpath.getD [])) w
          else (SysRes.ok, w)) = u
      have hu : u.2.stdin = w.stdin := by
        rw [← hu_def]
        split <;> rfl
      have hc := hcopy m.fsize m.fsize (m.fpath.getD []) (extract_create m (m.fpath.getD []) u.2).2.2
      rw [hcreate, hu] at hc
      split_ifs
      · rw [hu]
      · rw [hcreate, hu]
      · exact hc
      · simpa only [hsys] using hc
      · rw [hfinish]
        simpa only [hsys] using hc
      · rw [hfinish, hcreate, hu]

/-- The twelve keys of the entry metadata, as `parsemetadata` hands them to
`handle_metadata`. -/
def entry_keys : List CStr :=
  ["path".toList, "type".toList, "filesize".toList, "linktarget".toList, "major".toList,
   "minor".toList, "username".toList, "userid".toList, "groupname".toList, "groupid".toList,
   "permissions".toList, "modificationtime".toList]

/-- A configuration of the entry loop at line 7, with the given state,
metadata and unread input, in a world where nothing has happened yet. -/
def demo_config (state : PState) (m : Metadata) (input : String) : Config :=
  { state := state, lineno := 7, md := m, w := World.start input.toList true fs_ok fs_nodir,
    calls := [] }

/-- The metadata of a directory `d` of which nothing else is known. -/
def demo_dir : Metadata := { Metadata.init with fpath := some "d".toList, ftype := .DIRECTORY }

/-- The metadata of a regular file `f` of five bytes. -/
def demo_file : Metadata :=
  { Metadata.init with fpath := some "f".toList, ftype := .REGULARFILE, fsize := 5,
                       fsizegiven := true }

/-- An archive whose first record gives `Major` twice, the first time as -1. -/
def major_twice_archive : List Char :=
  "\nPath: tty\nType: Character Device\nMajor: -1\nMajor: 5\nMinor: 1\n".toList

/-- An archive of four lines whose first record gives `Permissions` twice:
the second `Permissions` line is line 4. -/
def permissions_twice_archive : List Char :=
  "\n".toList ++ "Path: a\n".toList ++ "Permissions: 644\n".toList ++ "Permissions: 644\n".toList

/-- Fewer bytes are left unread at the call than the regular file's declared size. -/
def Dispatch.short (d : Dispatch) : Prop :=
  d.md.ftype = .REGULARFILE ∧ d.unread.length < d.md.fsize

/-- With fewer unread bytes than a regular file's declared size, the
consumer returns nonzero or leaves nothing unread. -/
def Consumer.short_safe (c : Consumer) : Prop :=
  ∀ lineno m (w : World), m.ftype = .REGULARFILE → w.stdin.buf.length < m.fsize →
    (c.run lineno m w).1 ≠ 0 ∨ (c.run lineno m w).2.stdin.buf = []

/-- An archive whose regular file declares five bytes and holds three. -/
def short_archive : List Char :=
  ("\nPath: f\nType: Regular File\nFile Size: 5\nUser Name: u\nUser ID: 1\nGroup Name: g\n"
    ++ "Group ID: 2\nPermissions: 644\nModification Time: 3\n---\nhel").toList

/-- The call of the consumer for the file of `short_archive`. -/
def short_call : Dispatch :=
  ⟨10, { demo_file with fusername := some "u".toList, fuid := 1, fuidgiven := true,
                        fgroupname := some "g".toList, fgid := 2, fgidgiven := true,
                        fmode := 420, fmodegiven := true, fmtime := 3, fmtimegiven := true },
   "hel".toList⟩

/-- The end-of-file indicator is set only when nothing is left to read. -/
def Stdin.sane (s : Stdin) : Prop := s.eof = true → s.buf = []

/-- The paths of the records handed to the consumer, in order. -/
def paths (calls : List Dispatch) : List CStr := calls.filterMap (fun d => d.md.fpath)

/-- What `listfiles` needs from a call: a path and, for a regular file, the
declared number of bytes to skip. -/
def Dispatch.listable (d : Dispatch) : Prop :=
  d.md.fpath.isSome = true ∧ (d.md.ftype = .REGULARFILE → d.md.fsize ≤ d.unread.length)

/-- An archive with one directory record that lacks `User ID`. -/
def no_uid_archive : List Char :=
  ("\nPath: d\nType: Directory\nUser Name: u\nGroup Name: g\nGroup ID: 2\nPermissions: 755\n"
    ++ "Modification Time: 3\n").toList

/-! ## Well-formed archives -/

/-- A line of text: it ends with a newline and has no other newline. -/
def is_line (l : List Char) : Prop := l.getLast? = some '\n' ∧ '\n' ∉ l.dropLast

/-- A record of an archive: its metadata lines, each with its newline, and
the payload (the bytes between the two `---` lines, for a regular file). -/
structure Record where
  lines : List (List Char)
  payload : List Char

/-- The metadata globals after the lines have been handled one by one, if
each of them is a key-value line that `handle_metadata` accepts. -/
def fold_lines : Metadata → List (List Char) → Option Metadata
  | m, [] => some m
  | m, l :: ls =>
    match parsemetadata (cstr l) with
    | .keyvalue key value =>
      if (handle_metadata key value m).1 = 0 then fold_lines (handle_metadata key value m).2 ls
      else none
    | _ => none

/-- The records are well formed and their metadata are `mds`, the metadata
globals being `m0` before the first record: every record has at least one
line, all its lines are accepted, and a regular file has a size, which is the
length of its payload. -/
def records_ok : Metadata → List Record → List Metadata → Prop
  | _, [], [] => True
  | m0, r :: rs, m :: ms =>
    r.lines ≠ [] ∧ (∀ l ∈ r.lines, is_line l) ∧ fold_lines m0 r.lines = some m
      ∧ (m.ftype = .REGULARFILE → m.fsizegiven = true ∧ m.fsize = r.payload.length)
      ∧ records_ok (clear_metadata m) rs ms
  | _, _, _ => False

/-- The text of a record after its leading blank line. -/
def Record.text (r : Record) (m : Metadata) : List Char :=
  r.lines.flatten ++
    (if m.ftype = .REGULARFILE then "---\n".toList ++ r.payload ++ "---\n".toList else [])

/-- The text of the records: each one a blank line, its metadata lines and,
for a regular file, `---`, the payload and `---`. -/
def records_text : List Record → List Metadata → List Char
  | r :: rs, m :: ms => '\n' :: (r.text m ++ records_text rs ms)
  | _, _ => []

/-- What the consumer gets at a call: the metadata and, for a regular file,
the next `fsize` unread bytes. -/
def Dispatch.view (d : Dispatch) : Metadata × List Char :=
  (d.md, if d.md.ftype = .REGULARFILE then d.unread.take d.md.fsize else [])

/-- What the records hold: the metadata and, for a regular file, the payload. -/
def records_view : List Record → List Metadata → List (Metadata × List Char)
  | r :: rs, m :: ms =>
    (m, if m.ftype = .REGULARFILE then r.payload else []) :: records_view rs ms
  | _, _ => []

/-- The consumer takes an entry with these metadata: when, for a regular
file, the declared number of bytes is there to read, it returns 0 having
moved the read position past exactly those bytes. -/
def Consumer.accepts (c : Consumer) (m : Metadata) : Prop :=
  ∀ lineno (w : World), w.stdin.sane →
    (m.ftype = .REGULARFILE → m.fsize ≤ w.stdin.buf.length) →
    (c.run lineno m w).1 = 0 ∧ (c.run lineno m w).2.stdin.sane ∧
    (c.run lineno m w).2.stdin.buf =
      w.stdin.buf.drop (if m.ftype = .REGULARFILE then m.fsize else 0)

instance (l : List Char) : Decidable (is_line l) := by
  unfold is_line
  exact inferInstance

/-- The archive of the end-to-end example: a directory record without
payload, then a regular file of five bytes. -/
def example_records : List Record :=
  [⟨["Path: d\n".toList, "Type: Directory\n".toList], []⟩,
   ⟨["Path: f\n".toList, "Type: Regular File\n".toList, "File Size: 5\n".toList],
    "hello".toList⟩]

/-- The bytes of the archive of the end-to-end example. -/
def example_archive : List Char :=
  "\nPath: d\nType: Directory\n\nPath: f\nType: Regular File\nFile Size: 5\n---\nhello---\n".toList

/-! ## More input -/

/-- The stream with more bytes after those it holds. -/
def Stdin.feed (s : Stdin) (t : List Char) : Stdin := { s with buf := s.buf ++ t }

/-- The world with more bytes at the end of `stdin`. -/
def World.feed (w : World) (t : List Char) : World := { w with stdin := w.stdin.feed t }

/-- The configuration with more bytes at the end of `stdin`. -/
def Config.feed (cfg : Config) (t : List Char) : Config := { cfg with w := cfg.w.feed t }

/-- The consumer looks at `stdin` only to read a payload: for an entry that
is not a regular file it neither reads `stdin` nor depends on it, and when it
returns 0 leaving bytes unread, it does the same with more bytes after them. -/
def Consumer.local (c : Consumer) : Prop :=
  (∀ lineno m (w : World) (s : Stdin), m.ftype ≠ .REGULARFILE →
      c.run lineno m { w with stdin := s }
        = ((c.run lineno m w).1, { (c.run lineno m w).2 with stdin := s }))
  ∧ (∀ lineno m (w : World) (t : List Char), (c.run lineno m w).1 = 0 →
      (c.run lineno m w).2.stdin.buf ≠ [] →
      c.run lineno m (w.feed t) = (0, (c.run lineno m w).2.feed t))

/-- What an iteration of the entry loop decides from the parsed line, the
state and the metadata, before any call of the consumer: to return 1 after a
diagnostic, to go on in a state with new metadata, or to call the consumer
and, when it returns 0, to go on in a state with the metadata cleared. -/
inductive Decision where
  | fail (md : Metadata)
  | goon (state : PState) (md : Metadata)
  | call (state : PState)

/-- The decision taken by `scan_step`. -/
def scan_decision (p : Parsed) (state : PState) (md : Metadata) : Decision :=
  match state with
  | .SEEKING_METADATA =>
    match p with
    | .keyvalue key value =>
      if (handle_metadata key value md).1 ≠ 0 then .fail (handle_metadata key value md).2
      else .goon .METADATA (handle_metadata key value md).2
    | .bare _ => .fail md
    | .blank => .goon .SEEKING_METADATA md
  | .METADATA =>
    match p with
    | .keyvalue key value =>
      if (handle_metadata key value md).1 ≠ 0 then .fail (handle_metadata key value md).2
      else .goon .METADATA (handle_metadata key value md).2
    | .bare value =>
      if value = "---".toList then
        if md.ftype ≠ .REGULARFILE then .fail md
        else if !md.fsizegiven then .fail md
        else .call .CONTENTS_END
      else .fail md
    | .blank => if md.ftype = .REGULARFILE then .fail md else .call .SEEKING_METADATA
  | .CONTENTS_END =>
    match p with
    | .keyvalue _ _ => .fail md
    | .bare value => if value ≠ "---".toList then .fail md else .goon .SEEKING_METADATA md
    | .blank => .fail md

/-- The same return value, diagnostic, final metadata, output and file
system calls, and the same entries dispatched with the same line numbers. -/
def Result.same (r r2 : Result) : Prop :=
  r2.ret = r.ret ∧ r2.diag = r.diag
    ∧ r2.calls.map (fun d => (d.lineno, d.md)) = r.calls.map (fun d => (d.lineno, d.md))
    ∧ r2.md = r.md ∧ r2.w.stdout = r.w.stdout ∧ r2.w.ops = r.w.ops

/-- An archive that ends, after the metadata of a directory, without the
blank line that closes a record. -/
def pending_dir_archive : List Char := "\nPath: d\nType: Directory\n".toList

/-- The text lower-cased, with every whitespace byte removed. -/
def lower_nospace (s : CStr) : CStr := (s.filter (fun c => !isspace c)).map tolower

/-- Equality of two texts when letter case is ignored. -/
def caseless_eq (a b : CStr) : Bool := a.map tolower == b.map tolower

/-- The three values of `Metadata Encoding` that the header loop knows. -/
def known_encodings : List CStr := ["utf-8".toList, "utf8".toList, "ascii".toList]

/-- The three keys of the archive metadata, as `parsemetadata` hands them over. -/
def header_keys : List CStr :=
  ["metadataencoding".toList, "extensions".toList, "archivecreationdate".toList]

/-! ## The encoder (`ptar.c` lines 166-290 and 842-877)

What the encoder writes on `stdout` is a list of bytes; writes to `stdout` do
not fail, read errors on files (`ferror`) are not modelled and the option
`verbose` is off. -/

/-- The byte of a digit. -/
def digitchar (d : Nat) : Char := Char.ofNat (48 + d)

/-- The digits of a number in the given base, least significant first. The
first argument bounds the number of digits. -/
def digits_rev (base : Nat) : Nat → Nat → List Char
  | 0, _ => []
  | fuel + 1, n =>
    digitchar (n % base) :: (if n / base = 0 then [] else digits_rev base fuel (n / base))

/-- The conversions `%llu` (base 10) and `%o` (base 8) of `printf`: the
numeral without leading zeros, `0` for zero. A number has at most as many
digits as its value plus one. -/
def numeral (base n : Nat) : CStr := (digits_rev base (n + 1) n).reverse

/-- The conversion `%.7o` of `printf`: at least seven octal digits, with
leading zeros. -/
def octal7 (n : Nat) : CStr := List.replicate (7 - (numeral 8 n).length) '0' ++ numeral 8 n

/-- `write_metadata`: the bytes written. -/
def write_metadata (key value : CStr) : List Char := key ++ ":\t".toList ++ value ++ ['\n']

/-- `write_numeric_metadata`: the argument is an `unsigned long long`. -/
def write_numeric_metadata (key : CStr) (value : Nat) : List Char :=
  key ++ ":\t".toList ++ numeral 10 (value % 2 ^ 64) ++ ['\n']

/-- `write_octal_metadata`: the argument is an `unsigned int`. -/
def write_octal_metadata (key : CStr) (value : Nat) : List Char :=
  key ++ ":\t".toList ++ octal7 (value % 2 ^ 32) ++ ['\n']

/-- `write_blank`. -/
def write_blank : List Char := ['\n']

/-- `write_divider`. -/
def write_divider : List Char := "---\n".toList

/-- The fields of `struct stat` that the encoder reads. -/
structure Stat where
  st_dev : Nat
  st_ino : Nat
  st_mode : Nat
  st_uid : Nat
  st_gid : Nat
  st_size : Nat
  st_rdev : Nat
  st_mtime : Int
  deriving DecidableEq, Repr

/-- `S_IFREG`, octal 100000. -/
def S_IFREG : Nat := 32768
/-- `S_IFDIR`, octal 040000. -/
def S_IFDIR : Nat := 16384
/-- `S_IFLNK`, octal 120000. -/
def S_IFLNK : Nat := 40960
/-- `S_IFIFO`, octal 010000. -/
def S_IFIFO : Nat := 4096

/-- The test `(mode & S_IFMT) == kind` behind `S_ISREG` and its siblings. -/
def S_IS (kind mode : Nat) : Bool := (mode &&& S_IFMT) == kind

/-- The expression `sb->st_mode & ~S_IFMT`, in the 32 bits of `mode_t`. -/
def permission_bits (mode : Nat) : Nat := mode &&& (2 ^ 32 - 1 - S_IFMT)

/-- What the encoder asks of the system: the identity of `stdout`
(`fstat(1)`), the user and group databases (`pw_name`, `gr_name`), the
contents of the files it can open, the targets of the symbolic links
(`readlink`), the macros `major` and `minor`, `lstat`, and for a directory the
entries that `nftw` visits, in order (with `FTW_PHYS`: the directory itself
first). -/
structure EncEnv where
  fstat_stdout : Option Stat
  getpwuid : Nat → Option CStr
  getgrgid : Nat → Option CStr
  fopen : CStr → Option (List Char)
  readlink : CStr → Option (List Char)
  major : Nat → Nat
  minor : Nat → Nat
  lstat : CStr → Option Stat
  walk : CStr → List (CStr × Stat)

/-- The state of the encoder: the bytes written on `stdout` so far, the
bytes of the static buffer `linkpath` (the bytes after those listed are NUL:
the buffer is zero-initialised) and the globals `stdoutdev` and `stdoutino`. -/
structure Enc where
  stdout : List Char
  linkpath : List Char
  stdoutdev : Nat
  stdoutino : Nat
  deriving DecidableEq, Repr

/-- The size of `linkpath`. -/
def LINKPATH_SIZE : Nat := 8192

/-- Bytes stored at the start of a buffer; the bytes after them stay. -/
def store (bytes buf : List Char) : List Char := bytes ++ buf.drop bytes.length

/-- Bytes written on `stdout`. -/
def Enc.put (e : Enc) (bytes : List Char) : Enc := { e with stdout := e.stdout ++ bytes }

/-- The loop `while (!feof(fp))` of `add_file`, which copies the file to
`stdout` in blocks: the stream and the bytes written when it ends. Every
iteration but the last reads a whole block, so one more iteration than there
are bytes is enough (first argument). -/
def copy_loop : Nat → Stdin → List Char → Stdin × List Char
  | 0, fp, out => (fp, out)
  | fuel + 1, fp, out =>
    if fp.eof then (fp, out)
    else
      let r := fread WRITE_BLOCKSIZE fp
      copy_loop fuel r.2 (out ++ r.1)

/-- The part of `add_file` after the `Type` line and the fields that depend
on the type: owner, group, permissions, modification time and, if a file was
opened, its contents between two dividers. -/
def add_file_tail (sb : Stat) (pw_name gr_name : CStr) (fp : Option (List Char)) (e : Enc) :
    Nat × Enc :=
  let e := e.put (write_metadata "User Name".toList pw_name)
  let e := e.put (write_numeric_metadata "User ID".toList sb.st_uid)
  let e := e.put (write_metadata "Group Name".toList gr_name)
  let e := e.put (write_numeric_metadata "Group ID".toList sb.st_gid)
  let e := e.put (write_octal_metadata "Permissions".toList (permission_bits sb.st_mode))
  let e := e.put (write_numeric_metadata "Modification Time".toList (sb.st_mtime % 2 ^ 64).toNat)
  match fp with
  | some contents =>
    let e := e.put write_divider
    let r := copy_loop (contents.length + 1) { buf := contents, eof := false, seekable := true } []
    let e := e.put r.2
    (0, e.put write_divider)
  | none => (0, e)

/-- `add_file`: the return value and the state afterwards. -/
def add_file (env : EncEnv) (fname : CStr) (sb : Stat) (e : Enc) : Nat × Enc :=
  if (sb.st_dev = e.stdoutdev ∧ sb.st_ino = e.stdoutino) ∨ fname = ".".toList then (0, e)
  else
    match env.getpwuid sb.st_uid, env.getgrgid sb.st_gid with
    | some pw_name, some gr_name =>
      let e := e.put write_blank
      let e := e.put (write_metadata "Path".toList fname)
      if S_IS S_IFREG sb.st_mode then
        let e := e.put (write_metadata "Type".toList "Regular File".toList)
        let e := e.put (write_numeric_metadata "File Size".toList sb.st_size)
        match env.fopen fname with
        | none => (1, e)
        | some contents => add_file_tail sb pw_name gr_name (some contents) e
      else if S_IS S_IFDIR sb.st_mode then
        add_file_tail sb pw_name gr_name none
          (e.put (write_metadata "Type".toList "Directory".toList))
      else if S_IS S_IFLNK sb.st_mode then
        let e := e.put (write_metadata "Type".toList "Symbolic Link".toList)
        match env.readlink fname with
        | none => (1, e)
        | some target =>
          let e := { e with linkpath := store (target.take (LINKPATH_SIZE - 1)) e.linkpath }
          add_file_tail sb pw_name gr_name none
            (e.put (write_metadata "Link Target".toList (cstr e.linkpath)))
      else if S_IS S_IFCHR sb.st_mode then
        let e := e.put (write_metadata "Type".toList "Character Device".toList)
        let e := e.put (write_numeric_metadata "Major".toList (env.major sb.st_rdev % 2 ^ 32))
        let e := e.put (write_numeric_metadata "Minor".toList (env.minor sb.st_rdev % 2 ^ 32))
        add_file_tail sb pw_name gr_name none e
      else if S_IS S_IFBLK sb.st_mode then
        let e := e.put (write_metadata "Type".toList "Block Device".toList)
        let e := e.put (write_numeric_metadata "Major".toList (env.major sb.st_rdev % 2 ^ 32))
        let e := e.put (write_numeric_metadata "Minor".toList (env.minor sb.st_rdev % 2 ^ 32))
        add_file_tail sb pw_name gr_name none e
      else if S_IS S_IFIFO sb.st_mode then
        add_file_tail sb pw_name gr_name none (e.put (write_metadata "Type".toList "FIFO".toList))
      else if S_IS S_IFSOCK sb.st_mode then
        add_file_tail sb pw_name gr_name none
          (e.put (write_metadata "Type".toList "Socket".toList))
      else (1, e)
    | _, _ => (1, e)

/-- The tree walk `nftw(fname, add_file, open_max(), FTW_PHYS)` over the
entries it visits: it stops at the first entry for which `add_file` returns
nonzero and returns that value. Failures of `nftw` itself are not modelled. -/
def nftw_loop (env : EncEnv) : List (CStr × Stat) → Enc → Nat × Enc
  | [], e => (0, e)
  | (fname, sb) :: rest, e =>
    let r := add_file env fname sb e
    if r.1 ≠ 0 then r else nftw_loop env rest r.2

/-- `archive_file`. -/
def archive_file (env : EncEnv) (fname : CStr) (e : Enc) : Nat × Enc :=
  match env.lstat fname with
  | none => (1, e)
  | some sb =>
    if S_IS S_IFDIR sb.st_mode then nftw_loop env (env.walk fname) e
    else add_file env fname sb e

/-- The loop of `main` over the paths of the command line:
`for (n++; !error && n < argc; n++) error = archive_file(argv[n])`. -/
def archive_args (env : EncEnv) : List CStr → Enc → Nat × Enc
  | [], e => (0, e)
  | fname :: rest, e =>
    let r := archive_file env fname e
    if r.1 ≠ 0 then r else archive_args env rest r.2

/-- The loop of `main` over the paths read from `stdin` (option
`--paths-from-stdin`): the newline that ends a line is cut off, and the
return value of `archive_file` is not looked at. Every iteration reads a line,
so one more iteration than there are unread bytes is enough (first argument). -/
def archive_stdin (env : EncEnv) : Nat → Stdin → Enc → Enc
  | 0, _, e => e
  | fuel + 1, s, e =>
    match getline s with
    | (none, _) => e
    | (some line, s) =>
      let line := if line.getLast? = some '\n' then line.dropLast else line
      archive_stdin env fuel s (archive_file env (cstr line) e).2

/-- The command `c` of `main`: the exit status (1 for `EXIT_FAILURE`) and
the state at the end. The arguments are the environment, the text that
`strftime` makes of the current time, the paths after the command letter,
whether `--paths-from-stdin` was given, and `stdin`. The state at the start
has nothing written and `linkpath` zeroed. -/
def main_create (env : EncEnv) (date : CStr) (args : List CStr) (pathsfromstdin : Bool)
    (stdin : Stdin) : Nat × Enc :=
  let e : Enc := { stdout := [], linkpath := [], stdoutdev := 0, stdoutino := 0 }
  match env.fstat_stdout with
  | none => (1, e)
  | some sb =>
    let e := { e with stdoutdev := sb.st_dev, stdoutino := sb.st_ino }
    if date = [] ∨ LINKPATH_SIZE ≤ date.length then (1, e)
    else
      let e := { e with linkpath := store (date ++ [NUL]) e.linkpath }
      let e := e.put (write_metadata "Metadata Encoding".toList "utf-8".toList)
      let e := e.put (write_metadata "Archive Creation Date".toList (cstr e.linkpath))
      let r := archive_args env args e
      let e := if pathsfromstdin ∧ r.1 = 0 then archive_stdin env (stdin.buf.length + 1) stdin r.2
        else r.2
      (if r.1 ≠ 0 then 1 else 0, e)

/-- A value that a metadata line carries unchanged: not empty, without NUL
and newline, and without whitespace at its start and at its end. -/
def IsPlain (v : CStr) : Prop :=
  v ≠ [] ∧ NUL ∉ v ∧ '\n' ∉ v ∧ isspace (v.headD NUL) = false ∧ isspace (v.getLastD NUL) = false

instance (v : CStr) : Decidable (IsPlain v) := by
  unfold IsPlain
  exact inferInstance

/-! ## The text of a record, field by field -/

/-- A field as one line: the key, a colon, a tab, the value, a newline. -/
def field (key value : CStr) : List Char := key ++ [':', '\t'] ++ value ++ ['\n']

/-- The canonical label of a file type. -/
def type_label : FType → CStr
  | .REGULARFILE => "Regular File".toList
  | .DIRECTORY => "Directory".toList
  | .SYMLINK => "Symbolic Link".toList
  | .CHARDEVICE => "Character Device".toList
  | .BLOCKDEVICE => "Block Device".toList
  | .FIFO => "FIFO".toList
  | .SOCKET => "Socket".toList
  | .UNKNOWN => []

/-- The file type that the file-type bits of a mode stand for; `UNKNOWN` if
they are none of the seven. -/
def kind_of_mode (mode : Nat) : FType :=
  if (mode &&& S_IFMT) = S_IFREG then .REGULARFILE
  else if (mode &&& S_IFMT) = S_IFDIR then .DIRECTORY
  else if (mode &&& S_IFMT) = S_IFLNK then .SYMLINK
  else if (mode &&& S_IFMT) = S_IFCHR then .CHARDEVICE
  else if (mode &&& S_IFMT) = S_IFBLK then .BLOCKDEVICE
  else if (mode &&& S_IFMT) = S_IFIFO then .FIFO
  else if (mode &&& S_IFMT) = S_IFSOCK then .SOCKET
  else .UNKNOWN

/-- The fields of a record in their order, after the empty line that starts
the record. -/
def entry_fields (t : FType) (fname : CStr) (size major minor : Nat) (linktext : CStr)
    (pw_name : CStr) (uid : Nat) (gr_name : CStr) (gid perm mtime : Nat) : List (List Char) :=
  [field "Path".toList fname, field "Type".toList (type_label t)]
    ++ (match t with
      | .REGULARFILE => [field "File Size".toList (numeral 10 size)]
      | .SYMLINK => [field "Link Target".toList linktext]
      | .CHARDEVICE =>
        [field "Major".toList (numeral 10 major), field "Minor".toList (numeral 10 minor)]
      | .BLOCKDEVICE =>
        [field "Major".toList (numeral 10 major), field "Minor".toList (numeral 10 minor)]
      | _ => [])
    ++ [field "User Name".toList pw_name, field "User ID".toList (numeral 10 uid),
        field "Group Name".toList gr_name, field "Group ID".toList (numeral 10 gid),
        field "Permissions".toList (octal7 perm),
        field "Modification Time".toList (numeral 10 mtime)]

/-- The bytes of a record: an empty line, the fields, and for a regular file
a `---` line, the contents and a `---` line. -/
def entry_text (t : FType) (fname : CStr) (size major minor : Nat) (linktext : CStr)
    (pw_name : CStr) (uid : Nat) (gr_name : CStr) (gid perm mtime : Nat)
    (contents : List Char) : List Char :=
  ['\n'] ++ (entry_fields t fname size major minor linktext pw_name uid gr_name gid perm
      mtime).flatten
    ++ (if t = .REGULARFILE then "---\n".toList ++ contents ++ "---\n".toList else [])

/-- The record of a file system entry as the encoder sees it. -/
def Stat.record (sb : Stat) (env : EncEnv) (fname linktext pw_name gr_name : CStr)
    (contents : List Char) : List Char :=
  entry_text (kind_of_mode sb.st_mode) fname (sb.st_size % 2 ^ 64)
    (env.major sb.st_rdev % 2 ^ 32) (env.minor sb.st_rdev % 2 ^ 32) linktext pw_name
    (sb.st_uid % 2 ^ 64) gr_name (sb.st_gid % 2 ^ 64) (permission_bits sb.st_mode)
    (sb.st_mtime % 2 ^ 64).toNat contents

/-- A system for the examples: user `u`, group `g`; a regular file `f` that
holds `hello`, a symbolic link `l` to `t`, a symbolic link `k` to `target`,
a directory `d` that holds the file `d/f`, and an entry `x` whose mode has
none of the seven file types. -/
def demo_env : EncEnv :=
  { fstat_stdout := some ⟨1, 1, 8592, 0, 0, 0, 0, 0⟩,
    getpwuid := fun _ => some "u".toList,
    getgrgid := fun _ => some "g".toList,
    fopen := fun p =>
      if p = "f".toList ∨ p = "d/f".toList then some "hello".toList else none,
    readlink := fun p =>
      if p = "l".toList then some "t".toList
      else if p = "k".toList then some "target".toList else none,
    major := fun d => d / 256,
    minor := fun d => d % 256,
    lstat := fun p =>
      if p = "f".toList then some ⟨2, 5, 33188, 1000, 100, 5, 0, 1700000000⟩
      else if p = "l".toList then some ⟨2, 6, 41471, 1000, 100, 1, 0, 1700000000⟩
      else if p = "k".toList then some ⟨2, 9, 41471, 1000, 100, 6, 0, 1700000000⟩
      else if p = "x".toList then some ⟨2, 7, 420, 1000, 100, 0, 0, 1700000000⟩
      else if p = "d".toList then some ⟨2, 8, 16877, 1000, 100, 0, 0, 1700000000⟩
      else none,
    walk := fun p =>
      if p = "d".toList then
        [("d".toList, ⟨2, 8, 16877, 1000, 100, 0, 0, 1700000000⟩),
         ("d/f".toList, ⟨2, 5, 33188, 1000, 100, 5, 0, 1700000000⟩)]
      else [] }

/-- The `struct stat` of the regular file `f` of `demo_env`. -/
def demo_stat : Stat := ⟨2, 5, 33188, 1000, 100, 5, 0, 1700000000⟩

/-- The state of the encoder after the header of the archive was written at
the time `2013-01-01T00:00:00Z`, `stdout` being the device 1, inode 1. -/
def demo_enc : Enc :=
  { stdout := [], linkpath := "2013-01-01T00:00:00Z".toList ++ [NUL], stdoutdev := 1,
    stdoutino := 1 }

/-- The text that `strftime` makes of the time of the examples. -/
def demo_date : CStr := "2013-01-01T00:00:00Z".toList

/-- The header that `main` writes at the time of the examples. -/
def demo_header : List Char :=
  "Metadata Encoding:\tutf-8\nArchive Creation Date:\t2013-01-01T00:00:00Z\n".toList

/-- An empty `stdin`. -/
def no_stdin : Stdin := { buf := [], eof := false, seekable := false }

/-- The metadata that the fields of a record stand for: what the decoder is
to hold after it has read them. -/
def entry_metadata (t : FType) (fname : CStr) (size major minor : Nat) (linktext : CStr)
    (pw_name : CStr) (uid : Nat) (gr_name : CStr) (gid perm : Nat) (mtime : Int) : Metadata :=
  { fpath := some fname, ftype := t,
    fsize := if t = .REGULARFILE then size else 0,
    flinktarget := if t = .SYMLINK then some linktext else none,
    fmajor := if t = .CHARDEVICE ∨ t = .BLOCKDEVICE then (major : Int) else -1,
    fminor := if t = .CHARDEVICE ∨ t = .BLOCKDEVICE then (minor : Int) else -1,
    fusername := some pw_name, fgroupname := some gr_name, fuid := uid, fgid := gid,
    fmode := perm, fmtime := mtime,
    fsizegiven := decide (t = .REGULARFILE), fuidgiven := true, fgidgiven := true,
    fmodegiven := true, fmtimegiven := true }

/-- The `struct stat` of a directory, as in `demo_env`. -/
def demo_dir_stat : Stat := ⟨2, 8, 16877, 1000, 100, 0, 0, 1700000000⟩

/-- The bytes written to the file `p` by the `fwrite` calls among the file
system calls, in order. -/
def written (p : CStr) : List FsOp → List Char
  | [] => []
  | .fwrite q bytes :: ops => (if q = p then bytes else []) ++ written p ops
  | _ :: ops => written p ops

/-- The file system calls of `extract` for a complete entry when no call
fails, given the `fwrite` calls of the copy loop: a directory is not
unlinked, and `chmod` follows only the copy into a regular file; the other
types get their mode from the call that creates them. -/
def extract_calls (m : Metadata) (blocks : List FsOp) : List FsOp :=
  let p := m.fpath.getD []
  let finish : List FsOp := [.utimensat p m.fmtime, .lchown p m.fuid m.fgid]
  match m.ftype with
  | .REGULARFILE => [.unlink p, .fopen p] ++ blocks ++ [.fclose p, .chmod p m.fmode] ++ finish
  | .DIRECTORY => [.mkdir p m.fmode] ++ finish
  | .SYMLINK => [.unlink p, .symlink (m.flinktarget.getD []) p] ++ finish
  | .CHARDEVICE => [.unlink p, .mknod p (S_IFCHR ||| m.fmode) m.fmajor m.fminor] ++ finish
  | .BLOCKDEVICE => [.unlink p, .mknod p (S_IFBLK ||| m.fmode) m.fmajor m.fminor] ++ finish
  | .FIFO => [.unlink p, .mkfifo p m.fmode] ++ finish
  | .SOCKET => [.unlink p, .mknod p (S_IFSOCK ||| m.fmode) m.fmajor m.fminor] ++ finish
  | .UNKNOWN => []

/-- A complete entry of the given type, named `x`, with permissions 0755,
modification time 3, owner 1 and group 2; a regular file has five bytes, a
link points to `t`, a device has numbers 4 and 5. -/
def demo_entry (t : FType) : Metadata :=
  entry_metadata t "x".toList 5 4 5 "t".toList "u".toList 1 "g".toList 2 493 3

/-- Two configurations of the entry loop at the same point of the same
input: same parser state, line number and metadata, same unread bytes, same
lines printed. The pointer `skip_file_data`, the end-of-file indicator and
whether the stream can be positioned are left open. -/
def Config.same_point (a b : Config) : Prop :=
  a.state = b.state ∧ a.lineno = b.lineno ∧ a.md = b.md ∧ a.w.stdin.buf = b.w.stdin.buf
    ∧ a.w.stdin.sane ∧ b.w.stdin.sane ∧ a.w.stdout = b.w.stdout

/-- The metadata globals as they read: a numeric field whose `given` flag
is off reads as 0, whatever value the variable still holds. -/
def Metadata.seen (m : Metadata) : Metadata :=
  { m with fsize := if m.fsizegiven then m.fsize else 0,
           fuid := if m.fuidgiven then m.fuid else 0,
           fgid := if m.fgidgiven then m.fgid else 0,
           fmode := if m.fmodegiven then m.fmode else 0,
           fmtime := if m.fmtimegiven then m.fmtime else 0 }

/-- A call of the consumer with the metadata as they read. -/
def Dispatch.seen (d : Dispatch) : Dispatch := { d with md := d.md.seen }

/-- The consumer reads a numeric field only when its `given` flag is on:
for an entry that can be dispatched (a regular file has its size given), it
does the same on metadata that read the same. -/
def Consumer.reads_given (c : Consumer) : Prop :=
  ∀ lineno (m m2 : Metadata) (w : World), m.seen = m2.seen →
    (m.ftype = .REGULARFILE → m.fsizegiven = true) → c.run lineno m w = c.run lineno m2 w

/-- Two ends of a decode that differ at most in numeric fields whose `given`
flag is off: the same return value, diagnostic and parser state at the end of
the input, the same world, and the same calls with metadata that read the
same. -/
def Result.same_seen (a b : Result) : Prop :=
  a.ret = b.ret ∧ a.diag = b.diag ∧ a.eofstate = b.eofstate ∧ a.md.seen = b.md.seen ∧ a.w = b.w
    ∧ a.calls.map Dispatch.seen = b.calls.map Dispatch.seen

/-- Two configurations of the entry loop that differ at most in numeric
fields whose `given` flag is off. -/
def Config.same_seen (a b : Config) : Prop :=
  a.state = b.state ∧ a.lineno = b.lineno ∧ a.md.seen = b.md.seen ∧ a.w = b.w
    ∧ a.calls.map Dispatch.seen = b.calls.map Dispatch.seen

/-- `main` for the commands `x` and `t` (`ptar.c` lines 877-889):
`scan_archive` with the consumer of the command, then `clear_metadata`. The
exit status (0 for `EXIT_SUCCESS`, 1 for `EXIT_FAILURE`), the metadata globals
at exit, and the world. -/
def main_scan (c : Consumer) (w : World) : Nat × Metadata × World :=
  let r := scan_archive c w
  (if r.ret ≠ 0 then 1 else 0, clear_metadata r.md, r.w)

/-- An archive of two directory records: the first gives `User ID: 7`, the
second gives no user id. -/
def two_dirs_archive : List Char :=
  "\nPath: a\nType: Directory\nUser ID: 7\n\nPath: b\nType: Directory\n".toList

/-- The metadata lines of a character device record that gives every
field, `Major` as -1. -/
def major_minus_one_lines : List (List Char) :=
  ["Path: tty\n".toList, "Type: Character Device\n".toList, "Major: -1\n".toList,
   "Minor: 1\n".toList, "User Name: u\n".toList, "User ID: 1\n".toList,
   "Group Name: g\n".toList, "Group ID: 2\n".toList, "Permissions: 620\n".toList,
   "Modification Time: 3\n".toList]

/-- An archive whose only record has the lines `major_minus_one_lines`. -/
def major_minus_one_archive : List Char := '\n' :: major_minus_one_lines.flatten

/-- The same archive with `Major: 5` in place of `Major: -1`. -/
def major_five_archive : List Char :=
  ("\nPath: tty\nType: Character Device\nMajor: 5\nMinor: 1\nUser Name: u\nUser ID: 1\n"
    ++ "Group Name: g\nGroup ID: 2\nPermissions: 620\nModification Time: 3\n").toList

/-! ## Basic facts about the stream and the entry loop -/

theorem takeline_append (b : List Char) : (takeline b).1 ++ (takeline b).2 = b := by
  induction b with
  | nil => rfl
  | cons c cs ih =>
    by_cases h : c = '\n'
    · simp [takeline, h]
    · simp [takeline, h, ih]

theorem takeline_length (c : Char) (cs : List Char) :
    (takeline (c :: cs)).2.length < (c :: cs).length := by
  have h := congrArg List.length (takeline_append (c :: cs))
  have h1 : 0 < (takeline (c :: cs)).1.length := by
    by_cases hc : c = '\n' <;> simp [takeline, hc]
  simp only [List.length_append] at h
  omega

theorem getline_some_length {s s' : Stdin} {line : List Char}
    (h : getline s = (some line, s')) : s'.buf.length < s.buf.length := by
  unfold getline at h
  cases hb : s.buf with
  | nil => simp [hb] at h
  | cons c cs =>
    simp only [hb, Prod.mk.injEq, Option.some.injEq] at h
    rw [← h.2]
    exact takeline_length c cs

theorem scan_step_forward (c : Consumer) (line : List Char) (cfg cfg' : Config)
    (h : scan_step c line cfg = .next cfg') :
    cfg'.w.stdin.buf.length ≤ cfg.w.stdin.buf.length := by
  have hd : (cfg.dispatch c).2.w.stdin.buf.length ≤ cfg.w.stdin.buf.length :=
    c.forward _ _ _
  unfold scan_step at h
  dsimp only at h
  repeat' split at h
  all_goals first
    | (cases h; done)
    | (cases h; exact Nat.le_refl _)
    | (cases h; exact hd)

/-- The iteration bound of `scan_loop` is never hit: any two bounds above the
number of unread bytes give the same run. -/
theorem scan_loop_fuel (c : Consumer) (fuel1 : Nat) :
    ∀ (fuel2 : Nat) (cfg : Config), cfg.w.stdin.buf.length < fuel1 →
      cfg.w.stdin.buf.length < fuel2 → scan_loop c fuel1 cfg = scan_loop c fuel2 cfg := by
  induction fuel1 with
  | zero => intro fuel2 cfg h1; omega
  | succ k ih =>
    intro fuel2 cfg h1 h2
    cases fuel2 with
    | zero => omega
    | succ j =>
      simp only [scan_loop]
      cases hg : getline cfg.w.stdin with
      | mk o s' =>
        cases o with
        | none => rfl
        | some line =>
          have hlen := getline_some_length hg
          simp only
          cases hs : scan_step c line { cfg with w := { cfg.w with stdin := s' } } with
          | stop r => rfl
          | next cfg' =>
            have hf := scan_step_forward c line _ cfg' hs
            simp only at hf
            simp only
            apply ih <;> simp only <;> omega

/-- The entry loop, one iteration unfolded. -/
theorem scan_entries_eq (c : Consumer) (cfg : Config) :
    scan_entries c cfg =
      match getline cfg.w.stdin with
      | (none, stdin) => scan_at_eof c { cfg with w := { cfg.w with stdin := stdin } }
      | (some line, stdin) =>
        match scan_step c line { cfg with w := { cfg.w with stdin := stdin } } with
        | .stop r => r
        | .next cfg' => scan_entries c { cfg' with lineno := cfg'.lineno + 1 } := by
  show scan_loop c (cfg.w.stdin.buf.length + 1) cfg = _
  rw [scan_loop]
  cases hg : getline cfg.w.stdin with
  | mk o s' =>
    cases o with
    | none => rfl
    | some line =>
      have hlen := getline_some_length hg
      simp only
      cases hs : scan_step c line { cfg with w := { cfg.w with stdin := s' } } with
      | stop r => rfl
      | next cfg' =>
        have hf := scan_step_forward c line _ cfg' hs
        simp only at hf
        simp only
        unfold scan_entries
        apply scan_loop_fuel <;> simp only <;> omega

/-! ## Field grammar -/

theorem isspace_NUL : isspace NUL = false := by decide

theorem tolower_ne_NUL (c : Char) (h : c ≠ NUL) : tolower c ≠ NUL := by
  unfold tolower
  split
  · rename_i hu
    have key : ∀ n, n < 91 → 65 ≤ n → Char.ofNat (n + 32) ≠ NUL := by decide
    simp only [isupper, Bool.and_eq_true, decide_eq_true_eq] at hu
    exact key c.toNat (by omega) hu.1
  · exact h

theorem cstr_cons_ne (c : Char) (l : List Char) (h : c ≠ NUL) : cstr (c :: l) = c :: cstr l := by
  simp [cstr, h]

theorem cstr_NUL_cons (l : List Char) : cstr (NUL :: l) = [] := by
  simp [cstr]

theorem dropWhile_isspace_append_NUL (t mem : List Char) :
    (t ++ NUL :: mem).dropWhile isspace = t.dropWhile isspace ++ NUL :: mem := by
  induction t with
  | nil => simp [isspace_NUL]
  | cons c t ih =>
    by_cases h : isspace c = true
    · simp [h, ih]
    · simp [h]

theorem filter_dropWhile_isspace (t : List Char) :
    (t.dropWhile isspace).filter (fun c => !isspace c) = t.filter (fun c => !isspace c) := by
  induction t with
  | nil => rfl
  | cons c t ih =>
    by_cases h : isspace c = true
    · simp [h, ih]
    · simp [h]

/-- The loop of `transformkey` leaves the non-whitespace bytes, lower-cased,
whatever the memory after the terminator holds. -/
theorem transformkey_loop_spec (start : CStr) :
    ∀ (t mem : List Char), NUL ∉ t →
      (t.filter (fun c => !isspace c)).length ≤ start.length →
      cstr (transformkey_loop start (t ++ NUL :: mem)) =
        (t.filter (fun c => !isspace c)).map tolower := by
  induction start with
  | nil =>
    intro t mem _ hlen
    have : t.filter (fun c => !isspace c) = [] := List.length_eq_zero.mp (Nat.le_zero.mp hlen)
    simp [transformkey_loop, this, cstr]
  | cons x st ih =>
    intro t mem hnul hlen
    simp only [transformkey_loop, dropWhile_isspace_append_NUL]
    rw [← filter_dropWhile_isspace t] at hlen ⊢
    have hnul2 : NUL ∉ t.dropWhile isspace := fun h => hnul ((List.dropWhile_subset _) h)
    cases ht : t.dropWhile isspace with
    | nil =>
      have h0 : tolower NUL = NUL := by decide
      simp [h0, cstr_NUL_cons]
    | cons c t2 =>
      have hc : isspace c = false := by
        have := List.head?_dropWhile_not isspace t
        rw [ht] at this
        simpa using this
      rw [ht] at hlen hnul2
      have hcn : c ≠ NUL := fun h => hnul2 (by simp [h])
      have hn2 : NUL ∉ t2 := fun h => hnul2 (by simp [h])
      simp only [List.cons_append, List.headD_cons, List.tail_cons]
      rw [cstr_cons_ne _ _ (tolower_ne_NUL c hcn)]
      simp only [List.filter_cons, hc, Bool.not_false, if_true, List.map_cons, List.length_cons] at hlen ⊢
      rw [ih t2 mem hn2 (by omega)]

theorem transformkey_spec (s : CStr) (h : NUL ∉ s) :
    transformkey s = (s.filter (fun c => !isspace c)).map tolower := by
  unfold transformkey
  exact transformkey_loop_spec s s [] h (List.length_filter_le _ _)

theorem trim_isTrimOf (s : CStr) : IsTrimOf s (trim s) := by
  refine ⟨s.takeWhile isspace, ((s.dropWhile isspace).reverse.takeWhile isspace).reverse,
    ?_, ?_, ?_, ?_, ?_⟩
  · have h1 := List.takeWhile_append_dropWhile isspace (s.dropWhile isspace).reverse
    have h2 : s.dropWhile isspace = trim s ++
        ((s.dropWhile isspace).reverse.takeWhile isspace).reverse := by
      have := congrArg List.reverse h1
      simp only [List.reverse_append, List.reverse_reverse] at this
      exact this.symm
    calc s = s.takeWhile isspace ++ s.dropWhile isspace :=
          (List.takeWhile_append_dropWhile isspace s).symm
      _ = _ := by rw [List.append_assoc, ← h2]
  · intro x hx
    exact (List.mem_takeWhile_imp hx)
  · intro x hx
    exact (List.mem_takeWhile_imp (List.mem_reverse.mp hx))
  · intro x hx
    have h1 := List.takeWhile_append_dropWhile isspace (s.dropWhile isspace).reverse
    have h2 : s.dropWhile isspace = trim s ++
        ((s.dropWhile isspace).reverse.takeWhile isspace).reverse := by
      have := congrArg List.reverse h1
      simp only [List.reverse_append, List.reverse_reverse] at this
      exact this.symm
    have h3 := List.head?_dropWhile_not isspace s
    rw [h2] at h3
    cases ht : trim s with
    | nil => rw [ht] at hx; simp at hx
    | cons y t =>
      rw [ht] at hx h3
      simp at hx h3
      rw [← hx]; simpa using h3
  · intro x hx
    have h3 := List.head?_dropWhile_not isspace (s.dropWhile isspace).reverse
    unfold trim at hx
    rw [List.getLast?_reverse] at hx
    rw [hx] at h3
    simpa using h3

theorem isvalidkeychar_iff (x : Char) :
    isvalidkeychar x = true ↔ (isalnum x = true ∨ x = ' ' ∨ x = '-' ∨ x = '_') := by
  simp [isvalidkeychar, or_assoc]

theorem isvalidkey_loop_append (k v : CStr) (hk : ':' ∉ k) :
    isvalidkey_loop (k ++ ':' :: v) = k.all isvalidkeychar := by
  induction k with
  | nil => simp [isvalidkey_loop]
  | cons c r ih =>
    have hc : c ≠ ':' := fun h => hk (by simp [h])
    have hr : ':' ∉ r := fun h => hk (by simp [h])
    simp only [List.cons_append, isvalidkey_loop, beq_iff_eq, hc, if_false, List.all_cons]
    cases isvalidkeychar c <;> simp [ih hr]

theorem isvalidkey_iff (k v : CStr) (hk : ':' ∉ k) :
    isvalidkey (k ++ ':' :: v) = true ↔ IsKeyText k := by
  cases k with
  | nil =>
    have : isalnum ':' = false := by decide
    simp [isvalidkey, IsKeyText, this]
  | cons c r =>
    have hr : ':' ∉ r := fun h => hk (by simp [h])
    simp only [List.cons_append, isvalidkey, IsKeyText]
    constructor
    · intro h
      by_cases hc : isalnum c = true
      · simp only [hc, if_true, isvalidkey_loop_append r v hr, List.all_eq_true] at h
        exact ⟨c, r, rfl, hc, fun x hx => (isvalidkeychar_iff x).mp (h x hx)⟩
      · simp [hc] at h
    · rintro ⟨c2, r2, heq, hc, hall⟩
      cases heq
      simp only [hc, if_true, isvalidkey_loop_append r v hr, List.all_eq_true]
      exact fun x hx => (isvalidkeychar_iff x).mpr (hall x hx)

theorem split_at_colon (k v : CStr) (hk : ':' ∉ k) :
    hascolon (k ++ ':' :: v) = true ∧
    (k ++ ':' :: v).takeWhile (fun c => c != ':') = k ∧
    ((k ++ ':' :: v).dropWhile (fun c => c != ':')).drop 1 = v := by
  refine ⟨by simp [hascolon], ?_, ?_⟩
  · induction k with
    | nil => simp
    | cons c r ih =>
      have hc : c ≠ ':' := fun h => hk (by simp [h])
      have hr : ':' ∉ r := fun h => hk (by simp [h])
      simp [hc, ih hr]
  · induction k with
    | nil => simp
    | cons c r ih =>
      have hc : c ≠ ':' := fun h => hk (by simp [h])
      have hr : ':' ∉ r := fun h => hk (by simp [h])
      simp [hc, ih hr]

theorem hascolon_split (line : CStr) (h : hascolon line = true) :
    ∃ k v, line = k ++ ':' :: v ∧ ':' ∉ k := by
  induction line with
  | nil => simp [hascolon] at h
  | cons c r ih =>
    by_cases hc : c = ':'
    · exact ⟨[], r, by simp [hc], by simp⟩
    · have : hascolon r = true := by simpa [hascolon, hc] using h
      obtain ⟨k, v, hkv, hk⟩ := ih this
      refine ⟨c :: k, v, by simp [hkv], ?_⟩
      simp only [List.mem_cons, not_or]
      exact ⟨fun h => hc h.symm, hk⟩

theorem IsKeyText.no_NUL {k : CStr} (h : IsKeyText k) : NUL ∉ k := by
  obtain ⟨c, r, rfl, hc, hall⟩ := h
  have h0 : isalnum NUL = false := by decide
  intro hmem
  rcases List.mem_cons.mp hmem with h1 | h1
  · rw [← h1, h0] at hc; cases hc
  · rcases hall NUL h1 with h2 | h2 | h2 | h2
    · rw [h0] at h2; cases h2
    · exact absurd h2 (by decide)
    · exact absurd h2 (by decide)
    · exact absurd h2 (by decide)

theorem parsemetadata_not_keyvalue (line : CStr) (h : ¬ IsKeyValueLine line) :
    parsemetadata line = if trim line != [] then .bare (trim line) else .blank := by
  unfold parsemetadata
  by_cases hc : hascolon line = true
  · obtain ⟨k, v, hkv, hk⟩ := hascolon_split line hc
    have hv : isvalidkey line = false := by
      by_contra hv
      simp only [Bool.not_eq_false] at hv
      rw [hkv] at hv
      exact h ⟨k, v, hkv, hk, (isvalidkey_iff k v hk).mp hv⟩
    simp [hc, hv]
  · simp [hc]

theorem trim_eq_nil_iff (s : CStr) : trim s = [] ↔ ∀ x ∈ s, isspace x = true := by
  obtain ⟨a, b, hs, ha, hb, hh, _⟩ := trim_isTrimOf s
  constructor
  · intro ht x hx
    rw [hs, ht] at hx
    simp only [List.append_nil, List.mem_append] at hx
    rcases hx with hx | hx
    · exact ha x hx
    · exact hb x hx
  · intro hall
    cases ht : trim s with
    | nil => rfl
    | cons y t =>
      have h1 := hh y (by rw [ht]; rfl)
      have h2 := hall y (by rw [hs, ht]; simp)
      rw [h1] at h2; cases h2

/-- C10: `parsemetadata` classifies every line. A line with a colon whose
text before the first colon is a valid key is a key-value line: the key is
that text without its whitespace bytes and lower-cased, the value is the text
after the first colon trimmed. Any other line whose trimmed text is not empty
is a bare value, that trimmed text. Any other line is blank, return value 1. -/
theorem parsemetadata_classifies (line : CStr) :
    (∀ k v, line = k ++ ':' :: v → ':' ∉ k → IsKeyText k →
      ∃ value, parsemetadata line =
          .keyvalue ((k.filter (fun c => !isspace c)).map tolower) value ∧ IsTrimOf v value)
    ∧ (¬ IsKeyValueLine line → (∃ x ∈ line, isspace x = false) →
      ∃ value, parsemetadata line = .bare value ∧ IsTrimOf line value)
    ∧ (¬ IsKeyValueLine line → (∀ x ∈ line, isspace x = true) →
      parsemetadata line = .blank ∧ (parsemetadata line).ret = 1) := by
  refine ⟨?_, ?_, ?_⟩
  · intro k v hkv hk hkey
    refine ⟨trim v, ?_, trim_isTrimOf v⟩
    obtain ⟨h1, h2, h3⟩ := split_at_colon k v hk
    have h4 := (isvalidkey_iff k v hk).mpr hkey
    unfold parsemetadata
    rw [hkv, h1, h4, h2, h3, transformkey_spec k hkey.no_NUL]
    simp
  · intro hnk hex
    refine ⟨trim line, ?_, trim_isTrimOf line⟩
    rw [parsemetadata_not_keyvalue line hnk]
    have : trim line ≠ [] := by
      intro h
      obtain ⟨x, hx, hsp⟩ := hex
      have := (trim_eq_nil_iff line).mp h x hx
      rw [hsp] at this; cases this
    simp [this]
  · intro hnk hall
    have h : parsemetadata line = .blank := by
      rw [parsemetadata_not_keyvalue line hnk]
      simp [(trim_eq_nil_iff line).mpr hall]
    exact ⟨h, by rw [h]; rfl⟩

/-! ## Entry metadata -/

/-- What `is_invalid_metadata` tests: it returns 0 exactly when a path is
present, the type is known, the size was given for a regular file, the link
target for a symbolic link, `fmajor` and `fminor` are both different from -1
for a character or block device, and user name, user id, group name, group
id, permissions and modification time were all given. -/
theorem is_invalid_metadata_zero_iff (m : Metadata) :
    is_invalid_metadata m = 0 ↔
      m.fpath.isSome ∧ m.ftype ≠ .UNKNOWN ∧
      (m.ftype = .REGULARFILE → m.fsizegiven = true) ∧
      (m.ftype = .SYMLINK → m.flinktarget.isSome) ∧
      (m.ftype = .CHARDEVICE ∨ m.ftype = .BLOCKDEVICE → m.fmajor ≠ -1 ∧ m.fminor ≠ -1) ∧
      m.fusername.isSome ∧ m.fuidgiven = true ∧ m.fgroupname.isSome ∧ m.fgidgiven = true ∧
      m.fmodegiven = true ∧ m.fmtimegiven = true := by
  have hrest : ((if (!m.fuidgiven || !m.fgidgiven || m.fusername.isNone || m.fgroupname.isNone
          || !m.fmtimegiven || !m.fmodegiven) = true then 1 else 0 : Nat) = 0) ↔
      (m.fusername.isSome ∧ m.fuidgiven = true ∧ m.fgroupname.isSome ∧ m.fgidgiven = true ∧
      m.fmodegiven = true ∧ m.fmtimegiven = true) := by
    cases m.fuidgiven <;> cases m.fgidgiven <;> cases m.fmtimegiven <;>
      cases m.fmodegiven <;> cases m.fusername <;> cases m.fgroupname <;> simp
  unfold is_invalid_metadata
  cases hp : m.fpath with
  | none => simp
  | some p =>
    simp only [Option.isNone_some, Bool.false_eq_true, if_false, Option.isSome_some, true_and]
    cases ht : m.ftype
    · simp
    · cases h5 : m.fsizegiven
      · simp
      · simpa using hrest
    · simpa using hrest
    · cases h6 : m.flinktarget
      · simp
      · simpa using hrest
    · by_cases h7 : m.fmajor = -1
      · simp [h7]
      · by_cases h8 : m.fminor = -1
        · simp [h8]
        · simpa [h7, h8] using hrest
    · by_cases h7 : m.fmajor = -1
      · simp [h7]
      · by_cases h8 : m.fminor = -1
        · simp [h8]
        · simpa [h7, h8] using hrest
    · simpa using hrest
    · simpa using hrest

/-! ## Transitions of the decoder -/

theorem scan_entries_line (c : Consumer) (cfg : Config) (line : List Char) (s : Stdin)
    (h : getline cfg.w.stdin = (some line, s)) :
    scan_entries c cfg =
      match scan_step c line { cfg with w := { cfg.w with stdin := s } } with
      | .stop r => r
      | .next cfg' => scan_entries c { cfg' with lineno := cfg'.lineno + 1 } := by
  rw [scan_entries_eq, h]

theorem scan_entries_eof (c : Consumer) (cfg : Config) (s : Stdin)
    (h : getline cfg.w.stdin = (none, s)) :
    scan_entries c cfg = scan_at_eof c { cfg with w := { cfg.w with stdin := s } } := by
  rw [scan_entries_eq, h]

/-- C3: in state `METADATA`, a bare line `---` makes `scan_archive` fail
without calling the consumer when the type is not Regular File or no File
Size was given (the other fields, `Major` and `Minor` among them, play no
part); otherwise the consumer is called once with the metadata, and its
nonzero return value ends the decode, its zero return value is followed by
`clear_metadata` and state `CONTENTS_END`. -/
theorem metadata_contents_marker (c : Consumer) (cfg : Config) (line : List Char) (s : Stdin)
    (hstate : cfg.state = .METADATA)
    (hline : getline cfg.w.stdin = (some line, s))
    (hmark : parsemetadata (cstr line) = .bare "---".toList) :
    ((cfg.md.ftype ≠ .REGULARFILE ∨ cfg.md.fsizegiven = false) →
        scan_entries c cfg =
          { ret := 1, diag := some cfg.lineno, eofstate := none, md := cfg.md,
            w := { cfg.w with stdin := s }, calls := cfg.calls })
    ∧ (cfg.md.ftype = .REGULARFILE → cfg.md.fsizegiven = true →
        (c.run cfg.lineno cfg.md { cfg.w with stdin := s }).1 ≠ 0 →
        scan_entries c cfg =
          { ret := 1, diag := none, eofstate := none, md := cfg.md,
            w := (c.run cfg.lineno cfg.md { cfg.w with stdin := s }).2,
            calls := cfg.calls ++ [⟨cfg.lineno, cfg.md, s.buf⟩] })
    ∧ (cfg.md.ftype = .REGULARFILE → cfg.md.fsizegiven = true →
        (c.run cfg.lineno cfg.md { cfg.w with stdin := s }).1 = 0 →
        scan_entries c cfg =
          scan_entries c
            { state := .CONTENTS_END, lineno := cfg.lineno + 1, md := clear_metadata cfg.md,
              w := (c.run cfg.lineno cfg.md { cfg.w with stdin := s }).2,
              calls := cfg.calls ++ [⟨cfg.lineno, cfg.md, s.buf⟩] }) := by
  rw [scan_entries_line c cfg line s hline]
  refine ⟨?_, ?_, ?_⟩
  · intro h
    rcases h with h | h
    · simp [scan_step, hstate, hmark, h, Config.fail]
    · by_cases ht : cfg.md.ftype = .REGULARFILE
      · simp [scan_step, hstate, hmark, h, ht, Config.fail]
      · simp [scan_step, hstate, hmark, ht, Config.fail]
  · intro ht hs hr
    simp [scan_step, hstate, hmark, ht, hs, Config.dispatch, hr, Config.consumer_failed]
  · intro ht hs hr
    simp [scan_step, hstate, hmark, ht, hs, Config.dispatch, hr]

/-- C5: in state `CONTENTS_END` a bare line `---` leads to
`SEEKING_METADATA` and nothing is dispatched; any other line makes the decode
fail, and so does the end of the input. -/
theorem contents_end_lines (c : Consumer) (cfg : Config) (hstate : cfg.state = .CONTENTS_END) :
    (∀ line s, getline cfg.w.stdin = (some line, s) →
        parsemetadata (cstr line) = .bare "---".toList →
        scan_entries c cfg =
          scan_entries c
            { state := .SEEKING_METADATA, lineno := cfg.lineno + 1, md := cfg.md,
              w := { cfg.w with stdin := s }, calls := cfg.calls })
    ∧ (∀ line s, getline cfg.w.stdin = (some line, s) →
        parsemetadata (cstr line) ≠ .bare "---".toList →
        scan_entries c cfg =
          { ret := 1, diag := some cfg.lineno, eofstate := none, md := cfg.md,
            w := { cfg.w with stdin := s }, calls := cfg.calls })
    ∧ (∀ s, getline cfg.w.stdin = (none, s) →
        scan_entries c cfg =
          { ret := 1, diag := some cfg.lineno, eofstate := some .CONTENTS_END, md := cfg.md,
            w := { cfg.w with stdin := s }, calls := cfg.calls }) := by
  refine ⟨?_, ?_, ?_⟩
  · intro line s hline hmark
    rw [scan_entries_line c cfg line s hline]
    simp [scan_step, hstate, hmark]
  · intro line s hline hmark
    rw [scan_entries_line c cfg line s hline]
    cases hp : parsemetadata (cstr line) with
    | keyvalue k v => simp [scan_step, hstate, hp, Config.fail]
    | bare v =>
      have hv : v ≠ "---".toList := by
        intro hv; apply hmark; rw [hp, hv]
      have hv2 : v ≠ ['-', '-', '-'] := hv
      simp [scan_step, hstate, hp, hv2, Config.fail]
    | blank => simp [scan_step, hstate, hp, Config.fail]
  · intro s hline
    rw [scan_entries_eof c cfg s hline]
    simp [scan_at_eof, hstate, Config.fail]

/-! ## Duplicate fields and line numbers -/

theorem handle_metadata_empty (key : CStr) (m : Metadata) : handle_metadata key [] m = (1, m) := by
  simp [handle_metadata]

theorem ftype_of_name_known (v : CStr) (t : FType) (h : ftype_of_name v = some t) :
    t ≠ .UNKNOWN := by
  unfold ftype_of_name at h
  split_ifs at h <;> simp at h <;> subst h <;> simp

/-- A second line with one of the twelve keys is an error and leaves the
metadata as they are, once the first line was accepted; for `major` and
`minor` this needs the first value to differ from -1. -/
theorem handle_metadata_duplicate (key : CStr) (hkey : key ∈ entry_keys) (v1 v2 : CStr)
    (m m1 : Metadata) (h : handle_metadata key v1 m = (0, m1))
    (hmajor : key = "major".toList → m1.fmajor ≠ -1)
    (hminor : key = "minor".toList → m1.fminor ≠ -1) :
    handle_metadata key v2 m1 = (1, m1) := by
  by_cases hv2 : v2 = []
  · rw [hv2, handle_metadata_empty]
  by_cases hv1 : v1 = []
  · rw [hv1, handle_metadata_empty] at h; cases h
  simp only [entry_keys, List.mem_cons, List.mem_singleton, List.not_mem_nil, or_false] at hkey
  rcases hkey with rfl | rfl | rfl | rfl | rfl | rfl | rfl | rfl | rfl | rfl | rfl | rfl
  all_goals
    simp [handle_metadata, hv1, hv2] at h hmajor hminor ⊢
    split_ifs at h
    all_goals first
      | (simp at h; done)
      | (simp only [Prod.mk.injEq, true_and] at h; subst h; simp_all; done)
      | (cases hf : ftype_of_name (transformkey v1) with
          | none => rw [hf] at h; simp at h
          | some t =>
            rw [hf] at h
            simp only [Prod.mk.injEq, true_and] at h
            subst h
            intro hu
            exact absurd hu (ftype_of_name_known _ _ hf))

/-- C7 fails on the code: after `Major: -1` was accepted, `fmajor` still
holds -1, the value that stands for "not given", so a second `Major` line is
accepted and its value stored; the archive lists without error and the entry
is dispatched with major 5. -/
theorem major_twice_accepted :
    handle_metadata "major".toList "-1".toList Metadata.init = (0, Metadata.init)
    ∧ handle_metadata "major".toList "5".toList Metadata.init
        = (0, { Metadata.init with fmajor := 5 })
    ∧ (scan_archive listfiles_consumer
        (World.start major_twice_archive true fs_ok fs_nodir)).ret = 0
    ∧ (scan_archive listfiles_consumer
        (World.start major_twice_archive true fs_ok fs_nodir)).calls.map (fun d => d.md.fmajor)
        = [5] := by
  refine ⟨by decide, by decide, by decide, by decide⟩

/-- C8 fails on the code: the second `Permissions` line of
`permissions_twice_archive` is line 4 of the input, and the diagnostic names
line 3. The `break` that ends the header loop skips the increment of
`lineno`, so every line of the entry section is reported one too low. -/
theorem permissions_twice_line_number :
    (scan_archive listfiles_consumer
        (World.start permissions_twice_archive true fs_ok fs_nodir)).ret = 1
    ∧ (scan_archive listfiles_consumer
        (World.start permissions_twice_archive true fs_ok fs_nodir)).diag = some 3 := by
  refine ⟨by decide, by decide⟩

/-! ## The transitions at concrete configurations -/

/-- C3 at concrete configurations: a directory record and a five-byte file. -/
theorem metadata_contents_marker_witness :
    (scan_entries listfiles_consumer (demo_config .METADATA demo_dir "---\nhello---\n")).ret = 1
    ∧ (scan_entries listfiles_consumer (demo_config .METADATA demo_dir "---\nhello---\n")).calls
        = []
    ∧ scan_entries listfiles_consumer (demo_config .METADATA demo_file "---\nhello---\n")
        = scan_entries listfiles_consumer
            { state := .CONTENTS_END, lineno := 8, md := clear_metadata demo_file,
              w := (listfiles 7 demo_file (World.start "hello---\n".toList true fs_ok fs_nodir)).2,
              calls := [⟨7, demo_file, "hello---\n".toList⟩] } := by
  have h := metadata_contents_marker listfiles_consumer
    (demo_config .METADATA demo_dir "---\nhello---\n") "---\n".toList
    ⟨"hello---\n".toList, false, true⟩ rfl (by decide) (by decide)
  have h2 := metadata_contents_marker listfiles_consumer
    (demo_config .METADATA demo_file "---\nhello---\n") "---\n".toList
    ⟨"hello---\n".toList, false, true⟩ rfl (by decide) (by decide)
  refine ⟨?_, ?_, ?_⟩
  · rw [h.1 (Or.inl (by decide))]
  · rw [h.1 (Or.inl (by decide))]; rfl
  · exact h2.2.2 (by decide) (by decide) (by decide)

/-- C5 at concrete configurations: end of input, a blank line, a key-value
line, another bare line, and the closing marker. -/
theorem contents_end_lines_witness :
    (scan_entries listfiles_consumer (demo_config .CONTENTS_END demo_file "")).ret = 1
    ∧ (scan_entries listfiles_consumer (demo_config .CONTENTS_END demo_file "\n")).ret = 1
    ∧ (scan_entries listfiles_consumer (demo_config .CONTENTS_END demo_file "Path: x\n")).ret = 1
    ∧ (scan_entries listfiles_consumer (demo_config .CONTENTS_END demo_file "hello\n")).ret = 1
    ∧ (scan_entries listfiles_consumer (demo_config .CONTENTS_END demo_file "---\n")).ret = 0 := by
  refine ⟨?_, ?_, ?_, ?_, ?_⟩
  · rw [(contents_end_lines listfiles_consumer
      (demo_config .CONTENTS_END demo_file "") rfl).2.2 ⟨[], true, true⟩ (by decide)]
  · rw [(contents_end_lines listfiles_consumer
      (demo_config .CONTENTS_END demo_file "\n") rfl).2.1 "\n".toList ⟨[], false, true⟩
      (by decide) (by decide)]
  · rw [(contents_end_lines listfiles_consumer
      (demo_config .CONTENTS_END demo_file "Path: x\n") rfl).2.1 "Path: x\n".toList
      ⟨[], false, true⟩ (by decide) (by decide)]
  · rw [(contents_end_lines listfiles_consumer
      (demo_config .CONTENTS_END demo_file "hello\n") rfl).2.1 "hello\n".toList
      ⟨[], false, true⟩ (by decide) (by decide)]
  · rw [(contents_end_lines listfiles_consumer
      (demo_config .CONTENTS_END demo_file "---\n") rfl).1 "---\n".toList
      ⟨[], false, true⟩ (by decide) (by decide)]
    decide

/-! ## Payload transfer -/

theorem skip_fread_short (fuel : Nat) :
    ∀ (n : Nat) (s : Stdin), n ≤ fuel → s.buf.length < n → (skip_fread_loop fuel n s).1 = 1 := by
  induction fuel with
  | zero => intro n s h1 h2; omega
  | succ k ih =>
    intro n s h1 h2
    have hn : n ≠ 0 := by omega
    simp only [skip_fread_loop, hn, if_false]
    split
    · rfl
    · rename_i hcond
      simp only [fread, List.length_take, Bool.and_eq_true, Bool.or_eq_true, decide_eq_true_eq,
        not_and, WRITE_BLOCKSIZE] at hcond
      by_cases hlt : s.buf.length < min n 32768
      · exact absurd (hcond (Or.inr hlt)) (by omega)
      · apply ih
        · simp only [fread, List.length_take, WRITE_BLOCKSIZE]; omega
        · simp only [fread, List.length_take, List.length_drop, WRITE_BLOCKSIZE]; omega

theorem extract_copy_short (fuel : Nat) :
    ∀ (n : Nat) (p : CStr) (w : World), n ≤ fuel → w.stdin.buf.length < n →
      (extract_copy_loop fuel n p w).1 = 1 := by
  induction fuel with
  | zero => intro n p w h1 h2; omega
  | succ k ih =>
    intro n p w h1 h2
    have hn : n ≠ 0 := by omega
    simp only [extract_copy_loop, hn, if_false]
    split
    · rfl
    · rename_i hcond
      simp only [fread, List.length_take, Bool.and_eq_true, Bool.or_eq_true, decide_eq_true_eq,
        not_and, WRITE_BLOCKSIZE] at hcond
      split
      · rfl
      · by_cases hlt : w.stdin.buf.length < min n 32768
        · exact absurd (hcond (Or.inr hlt)) (by omega)
        · apply ih
          · simp only [fread, List.length_take, WRITE_BLOCKSIZE]; omega
          · simp only [sys, fread, List.length_take, List.length_drop, WRITE_BLOCKSIZE]; omega

/-- With fewer unread bytes than the declared size, `listfiles` returns
nonzero or leaves nothing unread (the seek went past the end). -/
theorem listfiles_short (lineno : Nat) (m : Metadata) (w : World)
    (hreg : m.ftype = .REGULARFILE) (hshort : w.stdin.buf.length < m.fsize) :
    (listfiles lineno m w).1 ≠ 0 ∨ (listfiles lineno m w).2.stdin.buf = [] := by
  have hread : ∀ w' : World, w'.stdin.buf = w.stdin.buf → (skip_file_data_fread m w').1 = 1 := by
    intro w' hw
    exact skip_fread_short _ _ _ (Nat.le_refl _) (by rw [hw]; exact hshort)
  cases hp : m.fpath with
  | none => left; simp [listfiles, hp]
  | some p =>
    cases hs : w.skip_file_data with
    | by_fread =>
      left
      simp only [listfiles, hp, hreg, if_true, printline, hs]
      exact ne_of_eq_of_ne (hread _ rfl) Nat.one_ne_zero
    | by_fseek =>
      simp only [listfiles, hp, hreg, if_true, printline, hs, skip_file_data_fseek]
      by_cases h1 : m.fsize ≤ LONG_MAX
      · by_cases h2 : w.stdin.seekable = true
        · right
          simp only [h1, if_true, fseek, h2]
          exact List.drop_eq_nil_of_le (Nat.le_of_lt hshort)
        · left
          simp only [h1, if_true, fseek, h2, Bool.false_eq_true, if_false]
          exact ne_of_eq_of_ne (hread _ rfl) Nat.one_ne_zero
      · left
        simp only [h1, if_false]
        exact ne_of_eq_of_ne (hread _ rfl) Nat.one_ne_zero

/-- With fewer unread bytes than the declared size, `extract` returns nonzero. -/
theorem extract_short (lineno : Nat) (m : Metadata) (w : World)
    (hreg : m.ftype = .REGULARFILE) (hshort : w.stdin.buf.length < m.fsize) :
    (extract lineno m w).1 ≠ 0 := by
  unfold extract
  split
  · exact Nat.one_ne_zero
  · dsimp only
    generalize hu_def : (if m.ftype ≠ .DIRECTORY then sys (.unlink (m.fpath.getD [])) w
        else (SysRes.ok, w)) = u
    have hu : u.2.stdin = w.stdin := by
      rw [← hu_def]
      split <;> rfl
    have hcreate : (extract_create m (m.fpath.getD []) u.2).2.2.stdin = w.stdin := by
      rw [← hu]
      simp only [extract_create, hreg, sys]
    have hfp : (extract_create m (m.fpath.getD []) u.2).2.1 = true ∨
        (extract_create m (m.fpath.getD []) u.2).1 = true := by
      simp only [extract_create, hreg, sys]
      by_cases hf : u.2.fs u.2.ops (FsOp.fopen (m.fpath.getD [])) = SysRes.ok
      · left; simp [hf]
      · right; simp [hf]
    have hc := extract_copy_short m.fsize m.fsize (m.fpath.getD [])
      (extract_create m (m.fpath.getD []) u.2).2.2 (Nat.le_refl _) (by rw [hcreate]; exact hshort)
    split_ifs with h1 h2 h3 h4 h5
    · exact Nat.one_ne_zero
    · exact Nat.one_ne_zero
    · exact Nat.one_ne_zero
    · exact absurd (ne_of_eq_of_ne hc Nat.one_ne_zero) h4
    · exact absurd (ne_of_eq_of_ne hc Nat.one_ne_zero) h4
    · rcases hfp with h | h
      · exact absurd h h3
      · exact absurd h h2

/-! ## The shape of one iteration of the entry loop -/

/-- One iteration of the entry loop does one of three things: it returns 1
after a diagnostic of the decoder, without calling the consumer; it goes on
without calling the consumer and without touching the world; or, in state
`METADATA`, it calls the consumer (at `---` for a regular file with a size,
at a blank line for another type) and returns 1 if the consumer returned
nonzero, else clears the metadata and goes on. -/
theorem scan_step_cases (c : Consumer) (line : List Char) (cfg : Config) :
    (∃ md', scan_step c line cfg = .stop ({ cfg with md := md' }.fail none))
    ∨ (∃ st md', scan_step c line cfg = .next { cfg with state := st, md := md' })
    ∨ (cfg.state = .METADATA
        ∧ scan_step c line cfg =
          (if (cfg.dispatch c).1 ≠ 0 then .stop ((cfg.dispatch c).2.consumer_failed none)
           else .next { (cfg.dispatch c).2 with
                          md := clear_metadata cfg.md,
                          state := if cfg.md.ftype = .REGULARFILE then .CONTENTS_END
                                   else .SEEKING_METADATA })
        ∧ (cfg.md.ftype = .REGULARFILE →
            cfg.md.fsizegiven = true ∧ parsemetadata (cstr line) = .bare "---".toList)
        ∧ (cfg.md.ftype ≠ .REGULARFILE → parsemetadata (cstr line) = .blank)) := by
  rcases cfg with ⟨state, lineno, md, w, calls⟩
  unfold scan_step
  cases state with
  | SEEKING_METADATA =>
    dsimp only
    cases hp : parsemetadata (cstr line) with
    | keyvalue k v =>
      dsimp only
      split
      · exact Or.inl ⟨_, rfl⟩
      · exact Or.inr (Or.inl ⟨_, _, rfl⟩)
    | bare v => exact Or.inl ⟨md, rfl⟩
    | blank => exact Or.inr (Or.inl ⟨_, md, rfl⟩)
  | METADATA =>
    dsimp only
    cases hp : parsemetadata (cstr line) with
    | keyvalue k v =>
      dsimp only
      split
      · exact Or.inl ⟨_, rfl⟩
      · exact Or.inr (Or.inl ⟨_, _, rfl⟩)
    | bare v =>
      dsimp only
      by_cases hv : v = "---".toList
      · by_cases ht : md.ftype = .REGULARFILE
        · cases hs : md.fsizegiven with
          | false =>
            left
            exact ⟨md, by simp [hv, ht, hs]⟩
          | true =>
            right; right
            refine ⟨rfl, ?_, fun _ => ⟨rfl, by rw [hv]⟩, fun h => absurd ht h⟩
            simp only [hv, ht, hs, if_true, ne_eq, not_true_eq_false, if_false, Bool.not_true,
              Bool.false_eq_true, Config.dispatch]
        · left
          exact ⟨md, by simp [hv, ht]⟩
      · left
        exact ⟨md, by
          have hv2 : ¬ v = ['-', '-', '-'] := hv
          simp [hv2]⟩
    | blank =>
      dsimp only
      by_cases ht : md.ftype = .REGULARFILE
      · left
        exact ⟨md, by simp [ht]⟩
      · right; right
        refine ⟨rfl, ?_, fun h => absurd h ht, fun _ => rfl⟩
        simp only [ht, if_false, Config.dispatch]
  | CONTENTS_END =>
    dsimp only
    cases hp : parsemetadata (cstr line) with
    | keyvalue k v => exact Or.inl ⟨md, rfl⟩
    | bare v =>
      dsimp only
      split
      · exact Or.inl ⟨md, rfl⟩
      · exact Or.inr (Or.inl ⟨_, md, rfl⟩)
    | blank => exact Or.inl ⟨md, rfl⟩

/-! ## Induction over the entry loop -/

theorem getline_nil (s : Stdin) (h : s.buf = []) : getline s = (none, { s with eof := true }) := by
  unfold getline
  rw [h]

theorem getline_none {s s' : Stdin} (h : getline s = (none, s')) :
    s.buf = [] ∧ s' = { s with eof := true } := by
  unfold getline at h
  cases hb : s.buf with
  | nil =>
    rw [hb] at h
    simp only [Prod.mk.injEq, true_and] at h
    exact ⟨rfl, h.symm⟩
  | cons c cs => rw [hb] at h; simp at h

/-- To prove a property of every run of the entry loop it is enough to prove
it for the end of the input, for an iteration that returns, and for an
iteration that goes on, given the property for the rest of the run. -/
theorem scan_entries_induction (c : Consumer) (P : Config → Result → Prop)
    (h_eof : ∀ cfg s, getline cfg.w.stdin = (none, s) →
      P cfg (scan_at_eof c { cfg with w := { cfg.w with stdin := s } }))
    (h_stop : ∀ cfg line s r, getline cfg.w.stdin = (some line, s) →
      scan_step c line { cfg with w := { cfg.w with stdin := s } } = .stop r → P cfg r)
    (h_next : ∀ cfg line s cfg', getline cfg.w.stdin = (some line, s) →
      scan_step c line { cfg with w := { cfg.w with stdin := s } } = .next cfg' →
      P { cfg' with lineno := cfg'.lineno + 1 }
        (scan_entries c { cfg' with lineno := cfg'.lineno + 1 }) →
      P cfg (scan_entries c { cfg' with lineno := cfg'.lineno + 1 })) :
    ∀ cfg, P cfg (scan_entries c cfg) := by
  have key : ∀ n (cfg : Config), cfg.w.stdin.buf.length ≤ n → P cfg (scan_entries c cfg) := by
    intro n
    induction n with
    | zero =>
      intro cfg hlen
      have hbuf : cfg.w.stdin.buf = [] := List.length_eq_zero.mp (Nat.le_zero.mp hlen)
      rw [scan_entries_eof c cfg _ (getline_nil _ hbuf)]
      exact h_eof cfg _ (getline_nil _ hbuf)
    | succ k ih =>
      intro cfg hlen
      cases hg : getline cfg.w.stdin with
      | mk o s =>
        cases o with
        | none =>
          rw [scan_entries_eof c cfg _ hg]
          exact h_eof cfg _ hg
        | some line =>
          rw [scan_entries_line c cfg line s hg]
          cases hs : scan_step c line { cfg with w := { cfg.w with stdin := s } } with
          | stop r => exact h_stop cfg line s r hg hs
          | next cfg' =>
            have h1 := getline_some_length hg
            have h2 := scan_step_forward c line _ cfg' hs
            simp only at h2
            exact h_next cfg line s cfg' hg hs (ih _ (by simp only; omega))
  exact fun cfg => key _ cfg (Nat.le_refl _)

/-! ## A payload shorter than declared -/

/-- In state `CONTENTS_END` with nothing left to read the decode fails. -/
theorem scan_entries_contents_end_nil (c : Consumer) (cfg : Config)
    (hst : cfg.state = .CONTENTS_END) (hbuf : cfg.w.stdin.buf = []) :
    (scan_entries c cfg).ret = 1 := by
  rw [scan_entries_eof c cfg _ (getline_nil _ hbuf)]
  simp [scan_at_eof, hst, Config.fail]

/-- At the end of the input the decoder does one of three things: it
returns 1 after a diagnostic, without calling the consumer; in state
`SEEKING_METADATA` it returns 0; or, in state `METADATA` with a type other
than Regular File, it calls the consumer and returns 1 if the consumer
returned nonzero, else clears the metadata and returns 0. -/
theorem scan_at_eof_cases (c : Consumer) (cfg : Config) :
    scan_at_eof c cfg = cfg.fail (some cfg.state)
    ∨ (cfg.state = .SEEKING_METADATA ∧ scan_at_eof c cfg =
        { ret := 0, diag := none, eofstate := some .SEEKING_METADATA, md := cfg.md, w := cfg.w,
          calls := cfg.calls })
    ∨ (cfg.state = .METADATA ∧ cfg.md.ftype ≠ .REGULARFILE ∧ scan_at_eof c cfg =
        (if (cfg.dispatch c).1 ≠ 0 then (cfg.dispatch c).2.consumer_failed (some .METADATA)
         else { ret := 0, diag := none, eofstate := some .METADATA, md := clear_metadata cfg.md,
                w := (cfg.dispatch c).2.w, calls := (cfg.dispatch c).2.calls })) := by
  rcases cfg with ⟨state, lineno, md, w, calls⟩
  unfold scan_at_eof
  cases state with
  | SEEKING_METADATA => exact Or.inr (Or.inl ⟨rfl, rfl⟩)
  | CONTENTS_END => exact Or.inl rfl
  | METADATA =>
    dsimp only
    by_cases ht : md.ftype = .REGULARFILE
    · left; simp [ht]
    · right; right
      exact ⟨rfl, ht, by simp only [ht, if_false, Config.dispatch]⟩

theorem short_payload_entries (c : Consumer) (hc : c.short_safe) :
    ∀ cfg : Config, (∀ d ∈ cfg.calls, ¬ d.short) →
      ∀ d ∈ (scan_entries c cfg).calls, d.short → (scan_entries c cfg).ret = 1 := by
  apply scan_entries_induction c
    (fun cfg r => (∀ d ∈ cfg.calls, ¬ d.short) → ∀ d ∈ r.calls, d.short → r.ret = 1)
  · intro cfg s _ hcalls d hd hshort
    rcases scan_at_eof_cases c { cfg with w := { cfg.w with stdin := s } } with
      h | ⟨_, h⟩ | ⟨_, ht, h⟩
    · rw [h]; rfl
    · rw [h] at hd
      exact absurd hshort (hcalls d hd)
    · rw [h] at hd ⊢
      split at hd
      · rw [if_pos (by assumption)]; rfl
      · simp only [Config.dispatch, List.mem_append, List.mem_singleton] at hd
        rcases hd with hd | hd
        · exact absurd hshort (hcalls d hd)
        · rw [hd] at hshort
          exact absurd hshort.1 ht
  · intro cfg line s r _ hs hcalls d hd hshort
    rcases scan_step_cases c line { cfg with w := { cfg.w with stdin := s } } with
      ⟨md', h⟩ | ⟨st, md', h⟩ | ⟨_, h, _, _⟩
    · rw [h] at hs; cases hs; rfl
    · rw [h] at hs; cases hs
    · rw [h] at hs
      split at hs
      · cases hs; rfl
      · cases hs
  · intro cfg line s cfg' _ hs ih hcalls d hd hshort
    rcases scan_step_cases c line { cfg with w := { cfg.w with stdin := s } } with
      ⟨md', h⟩ | ⟨st, md', h⟩ | ⟨_, h, hreg, _⟩
    · rw [h] at hs; cases hs
    · rw [h] at hs; cases hs
      exact ih hcalls d hd hshort
    · rw [h] at hs
      split at hs
      · cases hs
      · rename_i hrc
        cases hs
        by_cases hnew : (⟨cfg.lineno, cfg.md, s.buf⟩ : Dispatch).short
        · have ht : cfg.md.ftype = .REGULARFILE := hnew.1
          rcases hc cfg.lineno cfg.md { cfg.w with stdin := s } ht hnew.2 with h1 | h1
          · exact absurd h1 hrc
          · apply scan_entries_contents_end_nil
            · simp [ht]
            · exact h1
        · apply ih _ d hd hshort
          intro d' hd'
          simp only [Config.dispatch, List.mem_append, List.mem_singleton] at hd'
          rcases hd' with hd' | hd'
          · exact hcalls d' hd'
          · rw [hd']; exact hnew

theorem scan_archive_calls_nil_or (c : Consumer) (w : World) :
    (scan_archive c w).calls = [] ∨
      ∃ lineno stdin, scan_archive c w = scan_entries c
        { state := .SEEKING_METADATA, lineno := lineno, md := Metadata.init,
          w := { w with stdin := stdin }, calls := [] } := by
  unfold scan_archive
  dsimp only
  split
  · exact Or.inl rfl
  · split
    · exact Or.inl rfl
    · exact Or.inr ⟨_, _, rfl⟩

theorem listfiles_short_safe : listfiles_consumer.short_safe := listfiles_short

theorem extract_short_safe : extract_consumer.short_safe :=
  fun lineno m w h1 h2 => Or.inl (extract_short lineno m w h1 h2)

/-- C6: whenever a regular file is dispatched with fewer unread bytes left
than its declared size, the decode returns 1, under `listfiles` and under
`extract`, in every world: with `skip_file_data` pointing to
`skip_file_data_fseek` or to `skip_file_data_fread`, on a seekable or a
non-seekable input, on every file system. (After a seek past the end the
failure comes from the end of input in state `CONTENTS_END`.) -/
theorem short_payload_fails (w : World) :
    (∀ d ∈ (scan_archive listfiles_consumer w).calls, d.md.ftype = .REGULARFILE →
        d.unread.length < d.md.fsize → (scan_archive listfiles_consumer w).ret = 1)
    ∧ (∀ d ∈ (scan_archive extract_consumer w).calls, d.md.ftype = .REGULARFILE →
        d.unread.length < d.md.fsize → (scan_archive extract_consumer w).ret = 1) := by
  constructor
  · intro d hd h1 h2
    rcases scan_archive_calls_nil_or listfiles_consumer w with h | ⟨lineno, stdin, h⟩
    · rw [h] at hd; cases hd
    · rw [h] at hd ⊢
      exact short_payload_entries _ listfiles_short_safe _ (by simp) d hd ⟨h1, h2⟩
  · intro d hd h1 h2
    rcases scan_archive_calls_nil_or extract_consumer w with h | ⟨lineno, stdin, h⟩
    · rw [h] at hd; cases hd
    · rw [h] at hd ⊢
      exact short_payload_entries _ extract_short_safe _ (by simp) d hd ⟨h1, h2⟩

set_option maxRecDepth 100000 in
/-- C6 at a concrete archive: five bytes declared, three present. -/
theorem short_payload_fails_witness :
    (scan_archive listfiles_consumer (World.start short_archive true fs_ok fs_nodir)).ret = 1
    ∧ (scan_archive listfiles_consumer (World.start short_archive false fs_ok fs_nodir)).ret = 1
    ∧ (scan_archive extract_consumer (World.start short_archive false fs_ok fs_nodir)).ret = 1 := by
  refine ⟨?_, ?_, ?_⟩
  · exact (short_payload_fails (World.start short_archive true fs_ok fs_nodir)).1
      short_call (by decide) (by decide) (by decide)
  · exact (short_payload_fails (World.start short_archive false fs_ok fs_nodir)).1
      short_call (by decide) (by decide) (by decide)
  · exact (short_payload_fails (World.start short_archive false fs_ok fs_nodir)).2
      short_call (by decide) (by decide) (by decide)

/-! ## Listing -/

theorem takeline_snd_nil (b : List Char) (h : b.contains '\n' = false) : (takeline b).2 = [] := by
  induction b with
  | nil => rfl
  | cons c cs ih =>
    simp only [List.contains_cons, Bool.or_eq_false_iff, beq_eq_false_iff_ne, ne_eq] at h
    have hc : c ≠ '\n' := fun hc => h.1 hc.symm
    simp only [takeline, hc, if_false]
    exact ih h.2

theorem getline_sane {s s' : Stdin} {o : Option (List Char)} (hs : s.sane)
    (h : getline s = (o, s')) : s'.sane := by
  unfold getline at h
  cases hb : s.buf with
  | nil =>
    rw [hb] at h
    simp only [Prod.mk.injEq] at h
    rw [← h.2]
    intro _
    rfl
  | cons c cs =>
    rw [hb] at h
    simp only [Prod.mk.injEq] at h
    rw [← h.2]
    intro he
    have h0 : s.eof = false := by
      cases hse : s.eof with
      | false => rfl
      | true => have := hs hse; rw [hb] at this; cases this
    simp only [h0, Bool.false_or, Bool.not_eq_true'] at he
    exact takeline_snd_nil _ he

theorem fread_sane (n : Nat) (s : Stdin) (hs : s.sane) : (fread n s).2.sane := by
  intro he
  simp only [fread, Bool.or_eq_true, decide_eq_true_eq] at he ⊢
  rcases he with he | he
  · rw [hs he]; exact List.drop_nil
  · exact List.drop_eq_nil_of_le (Nat.le_of_lt he)

theorem skip_fread_sane (fuel : Nat) :
    ∀ (n : Nat) (s : Stdin), s.sane → (skip_fread_loop fuel n s).2.sane := by
  induction fuel with
  | zero => intro n s hs; exact hs
  | succ k ih =>
    intro n s hs
    simp only [skip_fread_loop]
    split
    · exact hs
    · split
      · exact fread_sane _ _ hs
      · exact ih _ _ (fread_sane _ _ hs)

/-- With enough bytes to read, the loop of `skip_file_data_fread` returns 0
having read exactly `numleft` bytes. -/
theorem skip_fread_enough (fuel : Nat) :
    ∀ (n : Nat) (s : Stdin), s.sane → n ≤ fuel → n ≤ s.buf.length →
      skip_fread_loop fuel n s = (0, { s with buf := s.buf.drop n }) := by
  induction fuel with
  | zero =>
    intro n s _ h1 _
    have : n = 0 := by omega
    subst this
    simp [skip_fread_loop]
  | succ k ih =>
    intro n s hs h1 h2
    by_cases hn : n = 0
    · subst hn
      simp [skip_fread_loop]
    · have hne : s.buf ≠ [] := by
        intro h; rw [h] at h2; simp at h2; exact hn h2
      have h0 : s.eof = false := by
        cases hse : s.eof with
        | false => rfl
        | true => exact absurd (hs hse) hne
      have hge : ¬ s.buf.length < min n WRITE_BLOCKSIZE := by
        have := Nat.min_le_left n WRITE_BLOCKSIZE
        omega
      have hlen : (List.take (min n WRITE_BLOCKSIZE) s.buf).length = min n WRITE_BLOCKSIZE := by
        rw [List.length_take]; omega
      simp only [skip_fread_loop, hn, if_false, fread, h0, Bool.false_or, hge, decide_False,
        Bool.false_and, Bool.false_eq_true, hlen]
      rw [ih]
      · simp only [List.drop_drop, Prod.mk.injEq, true_and]
        have : min n WRITE_BLOCKSIZE + (n - min n WRITE_BLOCKSIZE) = n := by omega
        rw [Nat.add_comm] at this
        simp [this]
      · intro he; simp at he
      · have : 0 < min n WRITE_BLOCKSIZE := by
          simp only [WRITE_BLOCKSIZE]; omega
        omega
      · simp only [List.length_drop]; omega

theorem skip_file_data_fread_sane (m : Metadata) (w : World) (hs : w.stdin.sane) :
    (skip_file_data_fread m w).2.stdin.sane :=
  skip_fread_sane _ _ _ hs

theorem skip_file_data_fseek_sane (m : Metadata) (w : World) (hs : w.stdin.sane) :
    (skip_file_data_fseek m w).2.stdin.sane := by
  unfold skip_file_data_fseek
  by_cases h1 : m.fsize ≤ LONG_MAX
  · by_cases h2 : w.stdin.seekable = true
    · simp only [h1, if_true, fseek, h2]
      intro he; cases he
    · simp only [h1, if_true, fseek, h2, Bool.false_eq_true, if_false]
      exact skip_file_data_fread_sane m _ hs
  · simp only [h1, if_false]
    exact skip_file_data_fread_sane m _ hs

theorem listfiles_sane (lineno : Nat) (m : Metadata) (w : World) (hs : w.stdin.sane) :
    (listfiles lineno m w).2.stdin.sane := by
  cases hp : m.fpath with
  | none => simpa [listfiles, hp] using hs
  | some p =>
    by_cases ht : m.ftype = .REGULARFILE
    · cases hk : w.skip_file_data with
      | by_fseek =>
        simp only [listfiles, hp, ht, if_true, printline, hk]
        exact skip_file_data_fseek_sane m _ hs
      | by_fread =>
        simp only [listfiles, hp, ht, if_true, printline, hk]
        exact skip_file_data_fread_sane m _ hs
    · simpa [listfiles, hp, ht, printline] using hs

/-- What `listfiles` prints: the path, when there is one. -/
theorem listfiles_stdout (lineno : Nat) (m : Metadata) (w : World) :
    (listfiles lineno m w).2.stdout = w.stdout ++ m.fpath.toList := by
  have hread : ∀ w' : World, (skip_file_data_fread m w').2.stdout = w'.stdout := fun _ => rfl
  have hseek : ∀ w' : World, (skip_file_data_fseek m w').2.stdout = w'.stdout := by
    intro w'
    unfold skip_file_data_fseek
    split
    · dsimp only
      split
      · rfl
      · rfl
    · rfl
  cases hp : m.fpath with
  | none => simp [listfiles, hp]
  | some p =>
    by_cases ht : m.ftype = .REGULARFILE
    · cases hk : w.skip_file_data with
      | by_fseek =>
        simp only [listfiles, hp, ht, if_true, printline, hk, hseek, Option.toList]
      | by_fread =>
        simp only [listfiles, hp, ht, if_true, printline, hk, hread, Option.toList]
    · simp [listfiles, hp, ht, printline, Option.toList]

/-- When the record has a path and, for a regular file, the declared number
of bytes is there to read, `listfiles` returns 0 having moved the read
position past the payload. -/
theorem listfiles_ok (lineno : Nat) (m : Metadata) (w : World) (hs : w.stdin.sane)
    (hp : m.fpath.isSome = true)
    (hlen : m.ftype = .REGULARFILE → m.fsize ≤ w.stdin.buf.length) :
    (listfiles lineno m w).1 = 0
    ∧ (listfiles lineno m w).2.stdin.buf =
        w.stdin.buf.drop (if m.ftype = .REGULARFILE then m.fsize else 0) := by
  obtain ⟨p, hp⟩ := Option.isSome_iff_exists.mp hp
  by_cases ht : m.ftype = .REGULARFILE
  · have hread : ∀ w' : World, w'.stdin = w.stdin →
        (skip_file_data_fread m w').1 = 0 ∧
        (skip_file_data_fread m w').2.stdin.buf = w.stdin.buf.drop m.fsize := by
      intro w' hw
      unfold skip_file_data_fread
      rw [skip_fread_enough _ _ _ (by rw [hw]; exact hs) (Nat.le_refl _) (by rw [hw]; exact hlen ht)]
      simp [hw]
    cases hk : w.skip_file_data with
    | by_fread =>
      simp only [listfiles, hp, ht, if_true, printline, hk]
      exact hread _ rfl
    | by_fseek =>
      simp only [listfiles, hp, ht, if_true, printline, hk, skip_file_data_fseek]
      by_cases h1 : m.fsize ≤ LONG_MAX
      · by_cases h2 : w.stdin.seekable = true
        · simp [h1, fseek, h2]
        · simp only [h1, if_true, fseek, h2, Bool.false_eq_true, if_false]
          exact hread _ rfl
      · simp only [h1, if_false]
        exact hread _ rfl
  · simp [listfiles, hp, ht, printline]

/-- On incomplete metadata `extract` returns 1 and leaves the world as it is:
no file system call is made, nothing is read. -/
theorem extract_invalid (lineno : Nat) (m : Metadata) (w : World)
    (h : is_invalid_metadata m ≠ 0) : extract lineno m w = (1, w) := by
  unfold extract
  rw [if_pos h]

theorem paths_append_one (calls : List Dispatch) (d : Dispatch) :
    paths (calls ++ [d]) = paths calls ++ d.md.fpath.toList := by
  unfold paths
  rw [List.filterMap_append]
  cases h : d.md.fpath <;> simp [List.filterMap_cons, h, Option.toList]

theorem dispatch_listfiles_paths (cfg : Config) (h : cfg.w.stdout = paths cfg.calls) :
    (cfg.dispatch listfiles_consumer).2.w.stdout = paths (cfg.dispatch listfiles_consumer).2.calls := by
  simp only [Config.dispatch, paths_append_one, ← h]
  exact listfiles_stdout cfg.lineno cfg.md cfg.w

theorem dispatch_listfiles_sane (cfg : Config) (h : cfg.w.stdin.sane) :
    (cfg.dispatch listfiles_consumer).2.w.stdin.sane :=
  listfiles_sane _ _ _ h

theorem dispatch_listfiles_ok (cfg : Config) (h : cfg.w.stdin.sane)
    (hd : (⟨cfg.lineno, cfg.md, cfg.w.stdin.buf⟩ : Dispatch).listable) :
    (cfg.dispatch listfiles_consumer).1 = 0 :=
  (listfiles_ok _ _ _ h hd.1 hd.2).1

/-- Listing fails only on a diagnostic of the decoder, on a record without a
path, or on a payload shorter than declared; and what it prints is the paths
of the records dispatched. -/
theorem listing_entries :
    ∀ cfg : Config, cfg.w.stdin.sane → cfg.w.stdout = paths cfg.calls →
      (scan_entries listfiles_consumer cfg).w.stdout
          = paths (scan_entries listfiles_consumer cfg).calls
      ∧ ((scan_entries listfiles_consumer cfg).diag = none →
          (∀ d ∈ (scan_entries listfiles_consumer cfg).calls, d.listable) →
          (scan_entries listfiles_consumer cfg).ret = 0) := by
  apply scan_entries_induction listfiles_consumer
    (fun cfg r => cfg.w.stdin.sane → cfg.w.stdout = paths cfg.calls →
      r.w.stdout = paths r.calls ∧ (r.diag = none → (∀ d ∈ r.calls, d.listable) → r.ret = 0))
  · intro cfg s hg hsane hout
    have hs1 : s.sane := getline_sane hsane hg
    rcases scan_at_eof_cases listfiles_consumer { cfg with w := { cfg.w with stdin := s } } with
      h | ⟨_, h⟩ | ⟨_, ht, h⟩
    · rw [h]
      exact ⟨hout, fun hd => by simp [Config.fail] at hd⟩
    · rw [h]
      exact ⟨hout, fun _ _ => rfl⟩
    · rw [h]
      have hp := dispatch_listfiles_paths { cfg with w := { cfg.w with stdin := s } } hout
      split
      · rename_i hrc
        refine ⟨hp, fun _ hall => ?_⟩
        exact absurd (dispatch_listfiles_ok { cfg with w := { cfg.w with stdin := s } } hs1
          (hall _ (by simp [Config.consumer_failed, Config.dispatch]))) hrc
      · exact ⟨hp, fun _ _ => rfl⟩
  · intro cfg line s r hg hs hsane hout
    have hs1 : s.sane := getline_sane hsane hg
    rcases scan_step_cases listfiles_consumer line { cfg with w := { cfg.w with stdin := s } } with
      ⟨md', h⟩ | ⟨st, md', h⟩ | ⟨_, h, _, _⟩
    · rw [h] at hs; cases hs
      exact ⟨hout, fun hd => by simp [Config.fail] at hd⟩
    · rw [h] at hs; cases hs
    · rw [h] at hs
      have hp := dispatch_listfiles_paths { cfg with w := { cfg.w with stdin := s } } hout
      split at hs
      · rename_i hrc
        cases hs
        refine ⟨hp, fun _ hall => ?_⟩
        exact absurd (dispatch_listfiles_ok { cfg with w := { cfg.w with stdin := s } } hs1
          (hall _ (by simp [Config.consumer_failed, Config.dispatch]))) hrc
      · cases hs
  · intro cfg line s cfg' hg hs ih hsane hout
    have hs1 : s.sane := getline_sane hsane hg
    rcases scan_step_cases listfiles_consumer line { cfg with w := { cfg.w with stdin := s } } with
      ⟨md', h⟩ | ⟨st, md', h⟩ | ⟨_, h, _, _⟩
    · rw [h] at hs; cases hs
    · rw [h] at hs; cases hs
      exact ih hs1 hout
    · rw [h] at hs
      split at hs
      · cases hs
      · cases hs
        exact ih (dispatch_listfiles_sane { cfg with w := { cfg.w with stdin := s } } hs1)
          (dispatch_listfiles_paths { cfg with w := { cfg.w with stdin := s } } hout)

theorem scan_header_sane (fuel : Nat) :
    ∀ (lineno : Nat) (s : Stdin), s.sane → (scan_header fuel lineno s).2.2.sane := by
  induction fuel with
  | zero => intro lineno s hs; exact hs
  | succ k ih =>
    intro lineno s hs
    simp only [scan_header]
    cases hg : getline s with
    | mk o s' =>
      have hs' := getline_sane hs hg
      cases o with
      | none => exact hs'
      | some line =>
        dsimp only
        cases header_step line with
        | fail => exact hs'
        | stop => exact hs'
        | next => exact ih _ _ hs'

/-- Extraction stops at the first record with incomplete metadata: that
record is the last one dispatched and the decode returns 1. -/
theorem extract_entries :
    ∀ cfg : Config, (∀ d ∈ cfg.calls, is_invalid_metadata d.md = 0) →
      ∀ d ∈ (scan_entries extract_consumer cfg).calls, is_invalid_metadata d.md ≠ 0 →
        (scan_entries extract_consumer cfg).ret = 1
        ∧ (scan_entries extract_consumer cfg).calls.getLast? = some d := by
  have hrun : ∀ cfg : Config, is_invalid_metadata cfg.md ≠ 0 →
      (cfg.dispatch extract_consumer).1 ≠ 0 := by
    intro cfg h
    show (extract cfg.lineno cfg.md cfg.w).1 ≠ 0
    rw [extract_invalid _ _ _ h]
    exact Nat.one_ne_zero
  apply scan_entries_induction extract_consumer
    (fun cfg r => (∀ d ∈ cfg.calls, is_invalid_metadata d.md = 0) →
      ∀ d ∈ r.calls, is_invalid_metadata d.md ≠ 0 → r.ret = 1 ∧ r.calls.getLast? = some d)
  · intro cfg s _ hcalls d hd hinv
    rcases scan_at_eof_cases extract_consumer { cfg with w := { cfg.w with stdin := s } } with
      h | ⟨_, h⟩ | ⟨_, ht, h⟩
    · rw [h] at hd; exact absurd (hcalls d hd) hinv
    · rw [h] at hd; exact absurd (hcalls d hd) hinv
    · rw [h] at hd ⊢
      split at hd
      · rw [if_pos (by assumption)]
        simp only [Config.consumer_failed, Config.dispatch, List.mem_append,
          List.mem_singleton] at hd ⊢
        rcases hd with hd | hd
        · exact absurd (hcalls d hd) hinv
        · rw [hd]; simp
      · rename_i hrc
        simp only [Config.dispatch, List.mem_append, List.mem_singleton] at hd
        rcases hd with hd | hd
        · exact absurd (hcalls d hd) hinv
        · rw [hd] at hinv
          exact absurd (hrun { cfg with w := { cfg.w with stdin := s } } hinv) hrc
  · intro cfg line s r _ hs hcalls d hd hinv
    rcases scan_step_cases extract_consumer line { cfg with w := { cfg.w with stdin := s } } with
      ⟨md', h⟩ | ⟨st, md', h⟩ | ⟨_, h, _, _⟩
    · rw [h] at hs; cases hs
      exact absurd (hcalls d hd) hinv
    · rw [h] at hs; cases hs
    · rw [h] at hs
      split at hs
      · cases hs
        simp only [Config.consumer_failed, Config.dispatch, List.mem_append,
          List.mem_singleton] at hd ⊢
        rcases hd with hd | hd
        · exact absurd (hcalls d hd) hinv
        · rw [hd]; simp
      · cases hs
  · intro cfg line s cfg' _ hs ih hcalls d hd hinv
    rcases scan_step_cases extract_consumer line { cfg with w := { cfg.w with stdin := s } } with
      ⟨md', h⟩ | ⟨st, md', h⟩ | ⟨_, h, _, _⟩
    · rw [h] at hs; cases hs
    · rw [h] at hs; cases hs
      exact ih hcalls d hd hinv
    · rw [h] at hs
      split at hs
      · cases hs
      · rename_i hrc
        cases hs
        apply ih _ d hd hinv
        intro d' hd'
        simp only [Config.dispatch, List.mem_append, List.mem_singleton] at hd'
        rcases hd' with hd' | hd'
        · exact hcalls d' hd'
        · rw [hd']
          by_contra hne
          exact hrc (hrun { cfg with w := { cfg.w with stdin := s } } hne)

set_option maxRecDepth 100000 in
/-- C9: an archive on which the decoder prints no diagnostic of its own, in
which every record dispatched has a path and every payload has its declared
length, lists successfully, whatever other fields are missing, and the lines
printed are the paths of the records in order. Under `extract` a record that
`is_invalid_metadata` rejects is the last one dispatched, the decode returns
1, and the call of `extract` for it leaves the world as it is (no file system
call). A directory record without `User ID` lists successfully and fails to
extract, before any file system call. -/
theorem list_needs_path_extract_needs_all (input : List Char) (seekable : Bool)
    (fs : List FsOp → FsOp → SysRes) (fs_isdir : List FsOp → CStr → Bool) :
    ((scan_archive listfiles_consumer (World.start input seekable fs fs_isdir)).diag = none →
      (∀ d ∈ (scan_archive listfiles_consumer (World.start input seekable fs fs_isdir)).calls,
        d.md.fpath.isSome = true ∧ (d.md.ftype = .REGULARFILE → d.md.fsize ≤ d.unread.length)) →
      (scan_archive listfiles_consumer (World.start input seekable fs fs_isdir)).ret = 0
      ∧ (scan_archive listfiles_consumer (World.start input seekable fs fs_isdir)).w.stdout.map some
          = (scan_archive listfiles_consumer (World.start input seekable fs fs_isdir)).calls.map
              (fun d => d.md.fpath))
    ∧ (∀ d ∈ (scan_archive extract_consumer (World.start input seekable fs fs_isdir)).calls,
        is_invalid_metadata d.md ≠ 0 →
        (scan_archive extract_consumer (World.start input seekable fs fs_isdir)).ret = 1
        ∧ (scan_archive extract_consumer (World.start input seekable fs fs_isdir)).calls.getLast?
            = some d
        ∧ ∀ w, extract d.lineno d.md w = (1, w))
    ∧ ((scan_archive listfiles_consumer (World.start no_uid_archive true fs_ok fs_nodir)).ret = 0
        ∧ (scan_archive listfiles_consumer (World.start no_uid_archive true fs_ok fs_nodir)).w.stdout
            = ["d".toList]
        ∧ (scan_archive extract_consumer (World.start no_uid_archive true fs_ok fs_nodir)).ret = 1
        ∧ (scan_archive extract_consumer (World.start no_uid_archive true fs_ok fs_nodir)).w.ops
            = []) := by
  refine ⟨?_, ?_, ⟨by decide, by decide, by decide, by decide⟩⟩
  · intro hdiag hall
    have hsane : (World.start input seekable fs fs_isdir).stdin.sane := by
      intro h; cases h
    have hh := scan_header_sane (input.length + 1) 1 _ hsane
    have key : (scan_archive listfiles_consumer (World.start input seekable fs fs_isdir)).w.stdout
          = paths (scan_archive listfiles_consumer (World.start input seekable fs fs_isdir)).calls
        ∧ (scan_archive listfiles_consumer (World.start input seekable fs fs_isdir)).ret = 0 := by
      revert hdiag hall
      unfold scan_archive
      dsimp only
      split
      · intro hdiag; simp at hdiag
      · split
        · intro _ _; exact ⟨rfl, rfl⟩
        · intro hdiag hall
          have := listing_entries
            { state := .SEEKING_METADATA,
              lineno := (scan_header (input.length + 1) 1
                (World.start input seekable fs fs_isdir).stdin).2.1,
              md := Metadata.init,
              w := { World.start input seekable fs fs_isdir with
                       stdin := (scan_header (input.length + 1) 1
                         (World.start input seekable fs fs_isdir).stdin).2.2 },
              calls := [] } hh rfl
          exact ⟨this.1, this.2 hdiag hall⟩
    refine ⟨key.2, ?_⟩
    rw [key.1]
    unfold paths
    generalize (scan_archive listfiles_consumer (World.start input seekable fs fs_isdir)).calls
      = cs at hall
    induction cs with
    | nil => rfl
    | cons d ds ih =>
      obtain ⟨p, hp⟩ := Option.isSome_iff_exists.mp (hall d (by simp)).1
      simp only [List.filterMap_cons, hp, List.map_cons]
      rw [ih (fun d' hd' => hall d' (by simp [hd']))]
  · intro d hd hinv
    have h3 : ∀ w, extract d.lineno d.md w = (1, w) := fun w => extract_invalid _ _ _ hinv
    rcases scan_archive_calls_nil_or extract_consumer (World.start input seekable fs fs_isdir) with
      h | ⟨lineno, stdin, h⟩
    · rw [h] at hd; cases hd
    · rw [h] at hd ⊢
      have := extract_entries _ (by simp) d hd hinv
      exact ⟨this.1, this.2, h3⟩

/-! ## Well-formed archives -/

theorem takeline_line (l rest : List Char) (h : is_line l) : takeline (l ++ rest) = (l, rest) := by
  obtain ⟨h1, h2⟩ := h
  have hl : l = l.dropLast ++ ['\n'] := by
    have := List.dropLast_append_getLast? '\n' (by simpa using h1)
    exact this.symm
  generalize l.dropLast = t at hl h2
  subst hl
  clear h1
  induction t with
  | nil => simp [takeline]
  | cons c t ih =>
    have hc : c ≠ '\n' := fun hc => h2 (by simp [hc])
    have ht : '\n' ∉ t := fun ht => h2 (by simp [ht])
    have := ih ht
    simp only [List.cons_append, takeline, hc, if_false]
    simp only [List.append_eq] at this ⊢
    rw [this]

theorem is_line_ne_nil (l : List Char) (h : is_line l) : l ≠ [] := by
  intro hl; rw [hl] at h; simp [is_line] at h

theorem is_line_contains (l rest : List Char) (h : is_line l) :
    (l ++ rest).contains '\n' = true := by
  have : '\n' ∈ l := List.mem_of_mem_getLast? h.1
  simp [this]

/-- Reading a line from a stream that starts with one. -/
theorem getline_line (s : Stdin) (l rest : List Char) (h : is_line l) (hs : s.sane)
    (hb : s.buf = l ++ rest) : getline s = (some l, { s with buf := rest }) := by
  have hne : l ++ rest ≠ [] := by
    intro h0
    exact is_line_ne_nil l h (List.append_eq_nil.mp h0).1
  have h0 : s.eof = false := by
    cases hse : s.eof with
    | false => rfl
    | true => exact absurd (hb ▸ hs hse) hne
  unfold getline
  rw [hb]
  cases hlr : l ++ rest with
  | nil => exact absurd hlr hne
  | cons c cs =>
    simp only
    rw [← hlr, takeline_line l rest h, is_line_contains l rest h, h0]
    rfl

theorem scan_step_keyvalue (c : Consumer) (line : List Char) (cfg : Config) (key value : CStr)
    (hst : cfg.state ≠ .CONTENTS_END) (hp : parsemetadata (cstr line) = .keyvalue key value)
    (hh : (handle_metadata key value cfg.md).1 = 0) :
    scan_step c line cfg =
      .next { cfg with md := (handle_metadata key value cfg.md).2, state := .METADATA } := by
  rcases cfg with ⟨state, lineno, md, w, calls⟩
  cases state with
  | CONTENTS_END => exact absurd rfl hst
  | SEEKING_METADATA => simp only [scan_step, hp]; simp only at hh; simp [hh]
  | METADATA => simp only [scan_step, hp]; simp only at hh; simp [hh]

/-- The metadata lines of a record are read one by one and leave the decoder
in state `METADATA` with the metadata they add up to. -/
theorem scan_entries_lines (c : Consumer) :
    ∀ (ls : List (List Char)) (cfg : Config) (m : Metadata) (rest : List Char),
      cfg.state ≠ .CONTENTS_END → cfg.w.stdin.sane → (∀ l ∈ ls, is_line l) →
      fold_lines cfg.md ls = some m → cfg.w.stdin.buf = ls.flatten ++ rest →
      scan_entries c cfg = scan_entries c
        { state := if ls = [] then cfg.state else .METADATA, lineno := cfg.lineno + ls.length,
          md := m, w := { cfg.w with stdin := { cfg.w.stdin with buf := rest } },
          calls := cfg.calls } := by
  intro ls
  induction ls with
  | nil =>
    intro cfg m rest _ _ _ hf hb
    simp only [fold_lines, Option.some.injEq] at hf
    simp only [List.flatten_nil, List.nil_append] at hb
    subst hf
    rw [← hb]
    rfl
  | cons l ls ih =>
    intro cfg m rest hst hs hl hf hb
    have hline : is_line l := hl l (by simp)
    simp only [List.flatten_cons, List.append_assoc] at hb
    rw [scan_entries_line c cfg l _ (getline_line _ l _ hline hs hb)]
    simp only [fold_lines] at hf
    cases hp : parsemetadata (cstr l) with
    | bare v => rw [hp] at hf; cases hf
    | blank => rw [hp] at hf; cases hf
    | keyvalue key value =>
      rw [hp] at hf
      simp only at hf
      by_cases hh : (handle_metadata key value cfg.md).1 = 0
      · rw [if_pos hh] at hf
        have h0 : cfg.w.stdin.eof = false := by
          cases hse : cfg.w.stdin.eof with
          | false => rfl
          | true =>
            have := hs hse
            rw [hb] at this
            exact absurd (List.append_eq_nil.mp this).1 (is_line_ne_nil l hline)
        have hstep := scan_step_keyvalue c l
          { cfg with w := { cfg.w with stdin := { cfg.w.stdin with buf := ls.flatten ++ rest } } }
          key value hst hp hh
        rw [hstep]
        simp only
        rw [ih _ m rest (by simp) (by intro he; rw [h0] at he; cases he)
          (fun l' hl' => hl l' (by simp [hl'])) hf rfl]
        simp only [List.length_cons, List.cons_ne_nil, if_false]
        congr 2
        · split <;> rfl
        · omega
      · rw [if_neg hh] at hf; cases hf

theorem sane_of_eof_false (s : Stdin) (h : s.eof = false) : s.sane := by
  intro he; rw [h] at he; cases he

theorem eof_false_of_sane (s : Stdin) (hs : s.sane) (hne : s.buf ≠ []) : s.eof = false := by
  cases hse : s.eof with
  | false => rfl
  | true => exact absurd (hs hse) hne

/-- A blank line between records is skipped in state `SEEKING_METADATA`. -/
theorem scan_entries_blank_seeking (c : Consumer) (cfg : Config) (tail : List Char)
    (hst : cfg.state = .SEEKING_METADATA) (hs : cfg.w.stdin.sane)
    (hb : cfg.w.stdin.buf = '\n' :: tail) :
    scan_entries c cfg = scan_entries c
      { cfg with lineno := cfg.lineno + 1,
                 w := { cfg.w with stdin := { cfg.w.stdin with buf := tail } } } := by
  have hline : is_line ['\n'] := by decide
  rw [scan_entries_line c cfg ['\n'] _ (getline_line _ ['\n'] tail hline hs hb)]
  have hp : parsemetadata (cstr ['\n']) = .blank := by decide
  simp only [scan_step, hst, hp]

/-- A blank line after the metadata of an entry that is not a regular file
dispatches the entry. -/
theorem scan_entries_blank_metadata (c : Consumer) (cfg : Config) (tail : List Char)
    (hst : cfg.state = .METADATA) (hs : cfg.w.stdin.sane)
    (hb : cfg.w.stdin.buf = '\n' :: tail) (ht : cfg.md.ftype ≠ .REGULARFILE)
    (hc : c.accepts cfg.md) :
    ∃ w' : World, w'.stdin.sane ∧ w'.stdin.buf = tail ∧
      scan_entries c cfg = scan_entries c
        { state := .SEEKING_METADATA, lineno := cfg.lineno + 1, md := clear_metadata cfg.md,
          w := w', calls := cfg.calls ++ [⟨cfg.lineno, cfg.md, tail⟩] } := by
  have hline : is_line ['\n'] := by decide
  have hp : parsemetadata (cstr ['\n']) = .blank := by decide
  have h0 := eof_false_of_sane _ hs (by rw [hb]; simp)
  obtain ⟨h1, h2, h3⟩ := hc cfg.lineno
    { cfg.w with stdin := { cfg.w.stdin with buf := tail } }
    (sane_of_eof_false _ h0) (fun h => absurd h ht)
  refine ⟨(c.run cfg.lineno cfg.md { cfg.w with stdin := { cfg.w.stdin with buf := tail } }).2,
    h2, by simpa [ht] using h3, ?_⟩
  rw [scan_entries_line c cfg ['\n'] _ (getline_line _ ['\n'] tail hline hs hb)]
  simp only [scan_step, hst, hp, ht, if_false, Config.dispatch, h1, ne_eq, not_true_eq_false]

/-- The opening `---`, the payload and the closing `---` of a regular file:
the entry is dispatched and the decoder is back in `SEEKING_METADATA`. -/
theorem scan_entries_payload (c : Consumer) (cfg : Config) (payload tail : List Char)
    (hst : cfg.state = .METADATA) (hs : cfg.w.stdin.sane)
    (hb : cfg.w.stdin.buf = "---\n".toList ++ payload ++ "---\n".toList ++ tail)
    (ht : cfg.md.ftype = .REGULARFILE) (hg : cfg.md.fsizegiven = true)
    (hsize : cfg.md.fsize = payload.length) (hc : c.accepts cfg.md) :
    ∃ w' : World, w'.stdin.sane ∧ w'.stdin.buf = tail ∧
      scan_entries c cfg = scan_entries c
        { state := .SEEKING_METADATA, lineno := cfg.lineno + 2, md := clear_metadata cfg.md,
          w := w',
          calls := cfg.calls ++ [⟨cfg.lineno, cfg.md, payload ++ "---\n".toList ++ tail⟩] } := by
  have hline : is_line "---\n".toList := by decide
  have hp : parsemetadata (cstr "---\n".toList) = .bare "---".toList := by decide
  have h0 := eof_false_of_sane _ hs (by rw [hb]; simp)
  have hb1 : cfg.w.stdin.buf = "---\n".toList ++ (payload ++ "---\n".toList ++ tail) := by
    rw [hb]; simp
  obtain ⟨h1, h2, h3⟩ := hc cfg.lineno
    { cfg.w with stdin := { cfg.w.stdin with buf := payload ++ "---\n".toList ++ tail } }
    (sane_of_eof_false _ h0) (fun _ => by rw [hsize]; simp)
  have h3' : (c.run cfg.lineno cfg.md { cfg.w with
      stdin := { cfg.w.stdin with buf := payload ++ "---\n".toList ++ tail } }).2.stdin.buf
      = "---\n".toList ++ tail := by
    rw [h3]
    simp only [ht, if_true, hsize, List.append_assoc, List.drop_left]
  refine ⟨{ (c.run cfg.lineno cfg.md { cfg.w with
      stdin := { cfg.w.stdin with buf := payload ++ "---\n".toList ++ tail } }).2 with
      stdin := { (c.run cfg.lineno cfg.md { cfg.w with
        stdin := { cfg.w.stdin with buf := payload ++ "---\n".toList ++ tail } }).2.stdin with
        buf := tail } }, ?_, rfl, ?_⟩
  · intro he
    have := h2 he
    rw [h3'] at this
    cases this
  · rw [scan_entries_line c cfg "---\n".toList _ (getline_line _ _ _ hline hs hb1)]
    have hstep : scan_step c "---\n".toList
        { cfg with w := { cfg.w with
            stdin := { cfg.w.stdin with buf := payload ++ "---\n".toList ++ tail } } }
        = .next { state := .CONTENTS_END, lineno := cfg.lineno, md := clear_metadata cfg.md,
                  w := (c.run cfg.lineno cfg.md { cfg.w with
                    stdin := { cfg.w.stdin with buf := payload ++ "---\n".toList ++ tail } }).2,
                  calls := cfg.calls ++ [⟨cfg.lineno, cfg.md, payload ++ "---\n".toList ++ tail⟩] } := by
      simp only [scan_step, hst, hp, ht, hg, Config.dispatch, h1]
      simp
    rw [hstep]
    simp only
    rw [scan_entries_line c _ "---\n".toList _ (getline_line _ _ _ hline h2 h3')]
    simp only [scan_step, hp]
    simp

/-- The end of the input in state `SEEKING_METADATA`. -/
theorem scan_entries_end_seeking (c : Consumer) (cfg : Config)
    (hst : cfg.state = .SEEKING_METADATA) (hb : cfg.w.stdin.buf = []) :
    (scan_entries c cfg).ret = 0 ∧ (scan_entries c cfg).calls = cfg.calls := by
  rw [scan_entries_eof c cfg _ (getline_nil _ hb)]
  simp [scan_at_eof, hst]

/-- The end of the input after the metadata of an entry that is not a
regular file dispatches the entry. -/
theorem scan_entries_end_metadata (c : Consumer) (cfg : Config)
    (hst : cfg.state = .METADATA) (hb : cfg.w.stdin.buf = [])
    (ht : cfg.md.ftype ≠ .REGULARFILE) (hc : c.accepts cfg.md) :
    (scan_entries c cfg).ret = 0
    ∧ (scan_entries c cfg).calls = cfg.calls ++ [⟨cfg.lineno, cfg.md, []⟩] := by
  rw [scan_entries_eof c cfg _ (getline_nil _ hb)]
  obtain ⟨h1, _, _⟩ := hc cfg.lineno { cfg.w with stdin := { cfg.w.stdin with eof := true } }
    (by intro _; exact hb) (fun h => absurd h ht)
  simp only [scan_at_eof, hst, ht, if_false, Config.dispatch, h1, ne_eq, not_true_eq_false]
  rw [hb]
  exact ⟨trivial, rfl⟩

/-- The metadata lines of a record, read from state `SEEKING_METADATA`. -/
theorem scan_entries_record_lines (c : Consumer) (cfg : Config) (r : Record) (m : Metadata)
    (rest : List Char) (hst : cfg.state = .SEEKING_METADATA) (hs : cfg.w.stdin.sane)
    (hne : r.lines ≠ []) (hlines : ∀ l ∈ r.lines, is_line l)
    (hfold : fold_lines cfg.md r.lines = some m)
    (hb : cfg.w.stdin.buf = r.lines.flatten ++ rest) :
    ∃ cfgL : Config, scan_entries c cfg = scan_entries c cfgL ∧ cfgL.state = .METADATA
      ∧ cfgL.md = m ∧ cfgL.calls = cfg.calls ∧ cfgL.w.stdin.buf = rest ∧ cfgL.w.stdin.sane := by
  have hL := scan_entries_lines c r.lines cfg m rest (by rw [hst]; decide) hs hlines hfold hb
  refine ⟨_, hL, by simp [hne], rfl, rfl, rfl, ?_⟩
  have hne2 : cfg.w.stdin.buf ≠ [] := by
    rw [hb]
    cases hl : r.lines with
    | nil => exact absurd hl hne
    | cons l ls =>
      have := is_line_ne_nil l (hlines l (by simp [hl]))
      simp [this]
  exact sane_of_eof_false _ (eof_false_of_sane cfg.w.stdin hs hne2)

/-- The entry loop on the text of well-formed records: every record is
dispatched, in order, and the decode succeeds. -/
theorem scan_entries_records (c : Consumer) :
    ∀ (rs : List Record) (ms : List Metadata) (r : Record) (m : Metadata) (cfg : Config),
      cfg.state = .SEEKING_METADATA → cfg.w.stdin.sane →
      records_ok cfg.md (r :: rs) (m :: ms) →
      (∀ m' ∈ m :: ms, c.accepts m') →
      cfg.w.stdin.buf = r.text m ++ records_text rs ms →
      (scan_entries c cfg).ret = 0 ∧
      (scan_entries c cfg).calls.map Dispatch.view
        = cfg.calls.map Dispatch.view ++ records_view (r :: rs) (m :: ms) := by
  intro rs
  induction rs with
  | nil =>
    intro ms r m cfg hst hs hok hacc hb
    cases ms with
    | cons m' ms' => simp [records_ok] at hok
    | nil =>
      obtain ⟨hne, hlines, hfold, hreg, _⟩ := hok
      by_cases ht : m.ftype = .REGULARFILE
      · obtain ⟨hg, hsize⟩ := hreg ht
        obtain ⟨cfgL, heqL, hstL, hmdL, hcL, hbL, hsL⟩ := scan_entries_record_lines c cfg r m
          ("---\n".toList ++ r.payload ++ "---\n".toList ++ []) hst hs hne hlines hfold
          (by rw [hb]; simp [Record.text, records_text, ht])
        obtain ⟨w', hs', hb', heq⟩ := scan_entries_payload c cfgL r.payload [] hstL hsL hbL
          (by rw [hmdL]; exact ht) (by rw [hmdL]; exact hg) (by rw [hmdL]; exact hsize)
          (by rw [hmdL]; exact hacc m (by simp))
        obtain ⟨h1, h2⟩ := scan_entries_end_seeking c
          { state := .SEEKING_METADATA, lineno := cfgL.lineno + 2, md := clear_metadata cfgL.md,
            w := w',
            calls := cfgL.calls ++ [⟨cfgL.lineno, cfgL.md, r.payload ++ "---\n".toList ++ []⟩] }
          rfl hb'
        rw [heqL, heq, h1, h2]
        refine ⟨rfl, ?_⟩
        simp [Dispatch.view, records_view, ht, hsize, hmdL, hcL]
      · obtain ⟨cfgL, heqL, hstL, hmdL, hcL, hbL, hsL⟩ := scan_entries_record_lines c cfg r m
          [] hst hs hne hlines hfold
          (by rw [hb]; simp [Record.text, records_text, ht])
        obtain ⟨h1, h2⟩ := scan_entries_end_metadata c cfgL hstL hbL
          (by rw [hmdL]; exact ht) (by rw [hmdL]; exact hacc m (by simp))
        rw [heqL, h1, h2]
        refine ⟨rfl, ?_⟩
        simp [Dispatch.view, records_view, ht, hmdL, hcL]
  | cons r' rs' ih =>
    intro ms r m cfg hst hs hok hacc hb
    cases ms with
    | nil => simp [records_ok] at hok
    | cons m' ms' =>
      obtain ⟨hne, hlines, hfold, hreg, hok'⟩ := hok
      have hacc' : ∀ x ∈ m' :: ms', c.accepts x := fun x hx => hacc x (List.mem_cons_of_mem _ hx)
      by_cases ht : m.ftype = .REGULARFILE
      · obtain ⟨hg, hsize⟩ := hreg ht
        obtain ⟨cfgL, heqL, hstL, hmdL, hcL, hbL, hsL⟩ := scan_entries_record_lines c cfg r m
          ("---\n".toList ++ r.payload ++ "---\n".toList ++
            '\n' :: (r'.text m' ++ records_text rs' ms')) hst hs hne hlines hfold
          (by rw [hb]; simp [Record.text, records_text, ht])
        obtain ⟨w', hs', hb', heq⟩ := scan_entries_payload c cfgL r.payload
          ('\n' :: (r'.text m' ++ records_text rs' ms')) hstL hsL hbL
          (by rw [hmdL]; exact ht) (by rw [hmdL]; exact hg) (by rw [hmdL]; exact hsize)
          (by rw [hmdL]; exact hacc m (by simp))
        have hblank := scan_entries_blank_seeking c
          { state := .SEEKING_METADATA, lineno := cfgL.lineno + 2, md := clear_metadata cfgL.md,
            w := w',
            calls := cfgL.calls ++ [⟨cfgL.lineno, cfgL.md, r.payload ++ "---\n".toList ++
              '\n' :: (r'.text m' ++ records_text rs' ms')⟩] }
          (r'.text m' ++ records_text rs' ms') rfl hs' hb'
        have hs'' : ({ w'.stdin with buf := r'.text m' ++ records_text rs' ms' } : Stdin).sane :=
          sane_of_eof_false _ (eof_false_of_sane w'.stdin hs' (by rw [hb']; simp))
        obtain ⟨h1, h2⟩ := ih ms' r' m'
          { state := .SEEKING_METADATA, lineno := cfgL.lineno + 2 + 1,
            md := clear_metadata cfgL.md,
            w := { w' with stdin := { w'.stdin with buf := r'.text m' ++ records_text rs' ms' } },
            calls := cfgL.calls ++ [⟨cfgL.lineno, cfgL.md, r.payload ++ "---\n".toList ++
              '\n' :: (r'.text m' ++ records_text rs' ms')⟩] }
          rfl hs'' (by rw [hmdL]; exact hok') hacc' rfl
        rw [heqL, heq, hblank, h1, h2]
        refine ⟨rfl, ?_⟩
        simp [Dispatch.view, records_view, ht, hsize, hmdL, hcL]
      · obtain ⟨cfgL, heqL, hstL, hmdL, hcL, hbL, hsL⟩ := scan_entries_record_lines c cfg r m
          ('\n' :: (r'.text m' ++ records_text rs' ms')) hst hs hne hlines hfold
          (by rw [hb]; simp [Record.text, records_text, ht])
        obtain ⟨w', hs', hb', heq⟩ := scan_entries_blank_metadata c cfgL
          (r'.text m' ++ records_text rs' ms') hstL hsL hbL
          (by rw [hmdL]; exact ht) (by rw [hmdL]; exact hacc m (by simp))
        obtain ⟨h1, h2⟩ := ih ms' r' m'
          { state := .SEEKING_METADATA, lineno := cfgL.lineno + 1,
            md := clear_metadata cfgL.md, w := w',
            calls := cfgL.calls ++ [⟨cfgL.lineno, cfgL.md, r'.text m' ++ records_text rs' ms'⟩] }
          rfl hs' (by rw [hmdL]; exact hok') hacc' hb'
        rw [heqL, heq, h1, h2]
        refine ⟨rfl, ?_⟩
        simp [Dispatch.view, records_view, ht, hmdL, hcL]

theorem listfiles_accepts (m : Metadata) (hp : m.fpath.isSome = true) :
    listfiles_consumer.accepts m := by
  intro lineno w hs hlen
  have := listfiles_ok lineno m w hs hp hlen
  exact ⟨this.1, listfiles_sane lineno m w hs, this.2⟩

theorem scan_header_lines :
    ∀ (header : List (List Char)) (fuel lineno : Nat) (s : Stdin) (rest : List Char),
      s.sane → s.buf = header.flatten ++ rest →
      (∀ l ∈ header, is_line l ∧ header_step l = .next) →
      scan_header (fuel + header.length) lineno s
        = scan_header fuel (lineno + header.length) { s with buf := rest } := by
  intro header
  induction header with
  | nil =>
    intro fuel lineno s rest _ hb _
    simp only [List.flatten_nil, List.nil_append] at hb
    rw [← hb]
    rfl
  | cons l ls ih =>
    intro fuel lineno s rest hs hb hh
    obtain ⟨hline, hstep⟩ := hh l (by simp)
    simp only [List.flatten_cons, List.append_assoc] at hb
    have hg := getline_line s l _ hline hs hb
    have h0 : s.eof = false := eof_false_of_sane s hs (by
      rw [hb]; simp [is_line_ne_nil l hline])
    show scan_header (fuel + ls.length + 1) lineno s = _
    rw [scan_header, hg]
    simp only [hstep]
    rw [ih fuel (lineno + 1) { s with buf := ls.flatten ++ rest } rest
      (sane_of_eof_false _ h0) rfl (fun l' hl' => hh l' (List.mem_cons_of_mem _ hl'))]
    simp only [List.length_cons]
    congr 1
    omega

theorem length_le_flatten (header : List (List Char)) (h : ∀ l ∈ header, l ≠ []) :
    header.length ≤ header.flatten.length := by
  induction header with
  | nil => simp
  | cons l ls ih =>
    have h1 : 0 < l.length := List.length_pos.mpr (h l (by simp))
    have h2 := ih (fun l' hl' => h l' (List.mem_cons_of_mem _ hl'))
    simp only [List.flatten_cons, List.length_append, List.length_cons]
    omega

theorem records_view_length :
    ∀ (recs : List Record) (mds : List Metadata) (m0 : Metadata), records_ok m0 recs mds →
      (records_view recs mds).length = recs.length := by
  intro recs
  induction recs with
  | nil => intro mds m0 _; cases mds <;> rfl
  | cons r rs ih =>
    intro mds m0 h
    cases mds with
    | nil => simp [records_ok] at h
    | cons m ms =>
      simp only [records_view, List.length_cons]
      rw [ih ms _ h.2.2.2.2]

/-- C1: on a well-formed archive (header lines, then records, each a blank
line, metadata lines that `handle_metadata` accepts and, for a regular file,
`---`, as many payload bytes as the declared size and `---`) `scan_archive`
returns 0 and calls the consumer once per record, in order, with the record's
metadata and, for a regular file, with the payload as the next unread bytes;
this for every consumer that takes the entries. For the archive of a
directory record followed by a five-byte regular file `hello` these are two
calls, the second with `h,e,l,l,o` unread. -/
theorem wellformed_archive_dispatch (c : Consumer) (w : World) (header : List (List Char))
    (recs : List Record) (mds : List Metadata)
    (heof : w.stdin.eof = false)
    (hbuf : w.stdin.buf = header.flatten ++ records_text recs mds)
    (hheader : ∀ l ∈ header, is_line l ∧ header_step l = .next)
    (hrecs : records_ok Metadata.init recs mds)
    (hc : ∀ m ∈ mds, c.accepts m) :
    (scan_archive c w).ret = 0
    ∧ (scan_archive c w).calls.length = recs.length
    ∧ (scan_archive c w).calls.map Dispatch.view = records_view recs mds := by
  have hs : w.stdin.sane := sane_of_eof_false _ heof
  have hflat := length_le_flatten header (fun l hl => is_line_ne_nil l (hheader l hl).1)
  have key : (scan_archive c w).ret = 0
      ∧ (scan_archive c w).calls.map Dispatch.view = records_view recs mds := by
    obtain ⟨F, hF⟩ : ∃ F, w.stdin.buf.length + 1 = (F + 1) + header.length := by
      refine ⟨w.stdin.buf.length - header.length, ?_⟩
      rw [hbuf, List.length_append]
      omega
    have hH := scan_header_lines header (F + 1) 1 w.stdin _ hs hbuf hheader
    unfold scan_archive
    rw [hF, hH]
    cases recs with
    | nil =>
      have hrt : records_text [] mds = [] := by cases mds <;> rfl
      have hrv : records_view [] mds = [] := by cases mds <;> rfl
      rw [hrt, hrv]
      simp [scan_header, getline]
    | cons r rs =>
      cases mds with
      | nil => simp [records_ok] at hrecs
      | cons m ms =>
        have hline : is_line ['\n'] := by decide
        have hstop : header_step ['\n'] = .stop := by decide
        have hg := getline_line { w.stdin with buf := records_text (r :: rs) (m :: ms) } ['\n']
          (r.text m ++ records_text rs ms) hline (sane_of_eof_false _ heof) rfl
        rw [scan_header, hg]
        simp only [hstop, Bool.false_eq_true, if_false]
        rw [if_neg (by simp [heof])]
        have := scan_entries_records c rs ms r m
          { state := .SEEKING_METADATA, lineno := 1 + header.length, md := Metadata.init,
            w := { w with stdin := { w.stdin with buf := r.text m ++ records_text rs ms } },
            calls := [] } rfl (sane_of_eof_false _ heof) hrecs hc rfl
        simpa using this
  refine ⟨key.1, ?_, key.2⟩
  have := congrArg List.length key.2
  rw [List.length_map, records_view_length recs mds _ hrecs] at this
  exact this

/-- C1 at the archive of the end-to-end example, listed. -/
theorem wellformed_archive_dispatch_witness :
    (scan_archive listfiles_consumer (World.start example_archive true fs_ok fs_nodir)).ret = 0
    ∧ (scan_archive listfiles_consumer
        (World.start example_archive true fs_ok fs_nodir)).calls.length = 2
    ∧ (scan_archive listfiles_consumer
        (World.start example_archive true fs_ok fs_nodir)).calls.map Dispatch.view
        = [(demo_dir, []), (demo_file, "hello".toList)] :=
  wellformed_archive_dispatch listfiles_consumer
    (World.start example_archive true fs_ok fs_nodir) [] example_records [demo_dir, demo_file]
    rfl (by decide) (by simp)
    ⟨by decide, by decide, by decide, by decide, by decide, by decide, by decide, by decide,
      trivial⟩
    (by
      intro m hm
      simp only [List.mem_cons, List.mem_singleton, List.not_mem_nil, or_false] at hm
      rcases hm with rfl | rfl <;> exact listfiles_accepts _ rfl)

/-! ## End of input in state `METADATA` -/

theorem fread_feed (q : Nat) (s : Stdin) (t : List Char) (h : q ≤ s.buf.length) :
    fread q (s.feed t) = ((fread q s).1, (fread q s).2.feed t) := by
  simp only [fread, Stdin.feed, List.take_append_of_le_length h, List.drop_append_of_le_length h,
    List.length_append]
  have h1 : ¬ s.buf.length < q := by omega
  have h2 : ¬ s.buf.length + t.length < q := by omega
  simp [h1, h2]

theorem skip_fread_feed (fuel : Nat) :
    ∀ (n : Nat) (s : Stdin) (t : List Char), (skip_fread_loop fuel n s).1 = 0 →
      skip_fread_loop fuel n (s.feed t) = (0, (skip_fread_loop fuel n s).2.feed t) := by
  induction fuel with
  | zero => intro n s t _; rfl
  | succ k ih =>
    intro n s t h
    by_cases hn : n = 0
    · simp [skip_fread_loop, hn]
    · by_cases hc : ((fread (min n WRITE_BLOCKSIZE) s).2.eof &&
          decide (0 < n - (fread (min n WRITE_BLOCKSIZE) s).1.length)) = true
      · simp only [skip_fread_loop, hn, if_false, if_pos hc] at h
        cases h
      · have hq : min n WRITE_BLOCKSIZE ≤ s.buf.length := by
          by_contra hlt
          have hlt' : s.buf.length < min n WRITE_BLOCKSIZE := by omega
          have hle := Nat.min_le_left n WRITE_BLOCKSIZE
          apply hc
          simp only [fread, List.length_take, Bool.and_eq_true, Bool.or_eq_true,
            decide_eq_true_eq]
          exact ⟨Or.inr hlt', by omega⟩
        simp only [skip_fread_loop, hn, if_false, if_neg hc] at h
        simp only [skip_fread_loop, hn, if_false, fread_feed _ s t hq]
        have hc' : ¬ ((((fread (min n WRITE_BLOCKSIZE) s).2.feed t).eof &&
            decide (0 < n - (fread (min n WRITE_BLOCKSIZE) s).1.length)) = true) := hc
        rw [if_neg hc', if_neg hc]
        exact ih _ _ t h

theorem listfiles_run : listfiles_consumer.run = listfiles := rfl

theorem skip_file_data_fread_feed (m : Metadata) (w : World) (t : List Char)
    (h : (skip_file_data_fread m w).1 = 0) :
    skip_file_data_fread m (w.feed t) = (0, (skip_file_data_fread m w).2.feed t) := by
  unfold skip_file_data_fread at h ⊢
  simp only [World.feed]
  rw [skip_fread_feed _ _ _ t h]

theorem listfiles_local : listfiles_consumer.local := by
  constructor
  · intro lineno m w s ht
    rw [listfiles_run]
    cases hp : m.fpath with
    | none => simp [listfiles, hp]
    | some p => simp [listfiles, hp, ht, printline]
  · intro lineno m w t h0 hne
    rw [listfiles_run] at h0 hne ⊢
    cases hp : m.fpath with
    | none => simp [listfiles, hp] at h0
    | some p =>
      by_cases ht : m.ftype = .REGULARFILE
      · cases hk : w.skip_file_data with
        | by_fread =>
          have e1 : listfiles lineno m w = skip_file_data_fread m (printline p w) := by
            simp [listfiles, hp, ht, printline, hk]
          have e2 : listfiles lineno m (w.feed t)
              = skip_file_data_fread m ((printline p w).feed t) := by
            simp [listfiles, hp, ht, printline, hk, World.feed]
          rw [e1] at h0 ⊢
          rw [e2]
          exact skip_file_data_fread_feed m _ t h0
        | by_fseek =>
          have e1 : listfiles lineno m w = skip_file_data_fseek m (printline p w) := by
            simp [listfiles, hp, ht, printline, hk]
          have e2 : listfiles lineno m (w.feed t)
              = skip_file_data_fseek m ((printline p w).feed t) := by
            simp [listfiles, hp, ht, printline, hk, World.feed]
          rw [e1] at h0 hne ⊢
          rw [e2]
          generalize printline p w = w1 at h0 hne ⊢
          unfold skip_file_data_fseek at h0 hne ⊢
          by_cases h1 : m.fsize ≤ LONG_MAX
          · by_cases h2 : w1.stdin.seekable = true
            · simp only [h1, if_true, fseek, h2, World.feed, Stdin.feed] at h0 hne ⊢
              have hlt : m.fsize ≤ w1.stdin.buf.length := by
                by_contra hlt
                exact hne (List.drop_eq_nil_of_le (by omega))
              simp [List.drop_append_of_le_length hlt]
            · have h2' : w1.stdin.seekable = false := by simpa using h2
              simp only [h1, if_true, fseek, h2', Bool.false_eq_true, if_false] at h0 hne ⊢
              have := skip_file_data_fread_feed m
                { w1 with skip_file_data := .by_fread } t h0
              simp only [World.feed, Stdin.feed, h2', Bool.false_eq_true, if_false] at this ⊢
              exact this
          · simp only [h1, if_false] at h0 hne ⊢
            exact skip_file_data_fread_feed m w1 t h0
      · simp [listfiles, hp, ht, printline, World.feed]

theorem extract_run : extract_consumer.run = extract := rfl

theorem extract_create_stdin (m : Metadata) (p : CStr) (w : World) (s : Stdin) :
    extract_create m p { w with stdin := s }
      = ((extract_create m p w).1, (extract_create m p w).2.1,
         { (extract_create m p w).2.2 with stdin := s }) := by
  unfold extract_create
  cases m.ftype <;> simp only [sys] <;> (try split) <;> (try split) <;> rfl

theorem extract_create_unread (m : Metadata) (p : CStr) (w : World) :
    (extract_create m p w).2.2.stdin = w.stdin := by
  unfold extract_create
  cases m.ftype <;> simp only [sys] <;> (try split) <;> (try split) <;> rfl

theorem extract_create_fp (m : Metadata) (p : CStr) (w : World) (h : m.ftype ≠ .REGULARFILE) :
    (extract_create m p w).2.1 = false := by
  unfold extract_create
  cases ht : m.ftype <;> simp only [sys] <;> (try split) <;> (try split) <;>
    first | rfl | exact absurd ht h

theorem extract_finish_stdin (m : Metadata) (p : CStr) (w : World) (s : Stdin) :
    extract_finish m p { w with stdin := s }
      = ((extract_finish m p w).1, { (extract_finish m p w).2 with stdin := s }) := by
  unfold extract_finish
  simp only [sys]
  split
  · rfl
  · split <;> rfl

theorem extract_finish_unread (m : Metadata) (p : CStr) (w : World) :
    (extract_finish m p w).2.stdin = w.stdin := by
  unfold extract_finish
  simp only [sys]
  split
  · rfl
  · split <;> rfl

theorem extract_copy_feed (fuel : Nat) :
    ∀ (n : Nat) (p : CStr) (w : World) (t : List Char), (extract_copy_loop fuel n p w).1 = 0 →
      extract_copy_loop fuel n p (w.feed t) = (0, (extract_copy_loop fuel n p w).2.feed t) := by
  induction fuel with
  | zero => intro n p w t _; rfl
  | succ k ih =>
    intro n p w t h
    by_cases hn : n = 0
    · simp [extract_copy_loop, hn]
    · by_cases hc : ((fread (min n WRITE_BLOCKSIZE) w.stdin).2.eof &&
          decide (0 < n - (fread (min n WRITE_BLOCKSIZE) w.stdin).1.length)) = true
      · simp only [extract_copy_loop, hn, if_false, if_pos hc] at h
        cases h
      · have hq : min n WRITE_BLOCKSIZE ≤ w.stdin.buf.length := by
          by_contra hlt
          have hlt' : w.stdin.buf.length < min n WRITE_BLOCKSIZE := by omega
          have hle := Nat.min_le_left n WRITE_BLOCKSIZE
          apply hc
          simp only [fread, List.length_take, Bool.and_eq_true, Bool.or_eq_true,
            decide_eq_true_eq]
          exact ⟨Or.inr hlt', by omega⟩
        simp only [extract_copy_loop, hn, if_false, if_neg hc] at h
        have hfeed : (w.feed t).stdin = w.stdin.feed t := rfl
        simp only [extract_copy_loop, hn, if_false, hfeed, fread_feed _ w.stdin t hq]
        have hc' : ¬ ((((fread (min n WRITE_BLOCKSIZE) w.stdin).2.feed t).eof &&
            decide (0 < n - (fread (min n WRITE_BLOCKSIZE) w.stdin).1.length)) = true) := hc
        rw [if_neg hc', if_neg hc]
        by_cases hw : (sys (.fwrite p (fread (min n WRITE_BLOCKSIZE) w.stdin).1)
            { w with stdin := (fread (min n WRITE_BLOCKSIZE) w.stdin).2 }).1 ≠ .ok
        · rw [if_pos hw] at h
          cases h
        · rw [if_neg hw] at h ⊢
          have hw' : ¬ (sys (.fwrite p (fread (min n WRITE_BLOCKSIZE) w.stdin).1)
              { w.feed t with stdin := (fread (min n WRITE_BLOCKSIZE) w.stdin).2.feed t }).1
              ≠ .ok := hw
          rw [if_neg hw']
          exact ih _ p _ t h

theorem extract_copy_stdin_nonreg (lineno : Nat) (m : Metadata) (w : World) (s : Stdin)
    (ht : m.ftype ≠ .REGULARFILE) :
    extract lineno m { w with stdin := s }
      = ((extract lineno m w).1, { (extract lineno m w).2 with stdin := s }) := by
  unfold extract
  by_cases hi : is_invalid_metadata m ≠ 0
  · rw [if_pos hi, if_pos hi]
  · rw [if_neg hi, if_neg hi]
    dsimp only
    have hu : (if m.ftype ≠ .DIRECTORY then sys (.unlink (m.fpath.getD [])) { w with stdin := s }
        else (SysRes.ok, { w with stdin := s }))
        = ((if m.ftype ≠ .DIRECTORY then sys (.unlink (m.fpath.getD [])) w
            else (SysRes.ok, w)).1,
           { (if m.ftype ≠ .DIRECTORY then sys (.unlink (m.fpath.getD [])) w
            else (SysRes.ok, w)).2 with stdin := s }) := by
      split <;> rfl
    rw [hu]
    generalize (if m.ftype ≠ .DIRECTORY then sys (.unlink (m.fpath.getD [])) w
        else (SysRes.ok, w)) = u
    dsimp only
    rw [extract_create_stdin]
    have hfp := extract_create_fp m (m.fpath.getD []) u.2 ht
    simp only [hfp, Bool.false_eq_true, if_false, extract_finish_stdin]
    split
    · rfl
    · split <;> rfl

theorem feed_eq (w : World) (t : List Char) :
    w.feed t = { w with stdin := w.stdin.feed t } := rfl

theorem with_stdin_feed (w' : World) (s : Stdin) (t : List Char) (h : w'.stdin = s) :
    ({ w' with stdin := s.feed t } : World) = w'.feed t := by
  rw [feed_eq, h]

theorem extract_create_feed (m : Metadata) (p : CStr) (w : World) (t : List Char) :
    extract_create m p (w.feed t)
      = ((extract_create m p w).1, (extract_create m p w).2.1,
         (extract_create m p w).2.2.feed t) := by
  rw [feed_eq, extract_create_stdin,
    with_stdin_feed _ _ t (extract_create_unread m p w)]

theorem extract_finish_feed (m : Metadata) (p : CStr) (w : World) (t : List Char) :
    extract_finish m p (w.feed t)
      = ((extract_finish m p w).1, (extract_finish m p w).2.feed t) := by
  rw [feed_eq, extract_finish_stdin,
    with_stdin_feed _ _ t (extract_finish_unread m p w)]

theorem sys_feed (op : FsOp) (w : World) (t : List Char) :
    sys op (w.feed t) = ((sys op w).1, (sys op w).2.feed t) := rfl

/-- When `extract` returns 0, it does the same with more bytes at the end of
the input, and leaves those bytes unread. -/
theorem extract_feed (lineno : Nat) (m : Metadata) (w : World) (t : List Char)
    (h0 : (extract lineno m w).1 = 0) :
    extract lineno m (w.feed t) = (0, (extract lineno m w).2.feed t) := by
  unfold extract at h0 ⊢
  by_cases hi : is_invalid_metadata m ≠ 0
  · rw [if_pos hi] at h0; cases h0
  · rw [if_neg hi] at h0
    rw [if_neg hi, if_neg hi]
    dsimp only at h0 ⊢
    have hu : (if m.ftype ≠ .DIRECTORY then sys (.unlink (m.fpath.getD [])) (w.feed t)
        else (SysRes.ok, w.feed t))
        = ((if m.ftype ≠ .DIRECTORY then sys (.unlink (m.fpath.getD [])) w
            else (SysRes.ok, w)).1,
           (if m.ftype ≠ .DIRECTORY then sys (.unlink (m.fpath.getD [])) w
            else (SysRes.ok, w)).2.feed t) := by
      split <;> rfl
    rw [hu]
    generalize (if m.ftype ≠ .DIRECTORY then sys (.unlink (m.fpath.getD [])) w
        else (SysRes.ok, w)) = u at h0 ⊢
    dsimp only
    rw [extract_create_feed]
    dsimp only
    by_cases h1 : u.1 ≠ .ok ∧ u.1 ≠ .ENOENT
    · rw [if_pos h1] at h0; cases h0
    · rw [if_neg h1] at h0
      rw [if_neg h1, if_neg h1]
      by_cases h2 : (extract_create m (m.fpath.getD []) u.2).1 = true
      · rw [if_pos h2] at h0; cases h0
      · rw [if_neg h2] at h0
        rw [if_neg h2, if_neg h2]
        by_cases h3 : (extract_create m (m.fpath.getD []) u.2).2.1 = true
        · rw [if_pos h3] at h0
          rw [if_pos h3, if_pos h3]
          by_cases h4 : (extract_copy_loop m.fsize m.fsize (m.fpath.getD [])
              (extract_create m (m.fpath.getD []) u.2).2.2).1 ≠ 0
          · rw [if_pos h4] at h0; cases h0
          · rw [if_neg h4] at h0
            have h4' := extract_copy_feed m.fsize m.fsize (m.fpath.getD [])
              (extract_create m (m.fpath.getD []) u.2).2.2 t (by simpa using h4)
            rw [h4', if_neg h4]
            dsimp only
            rw [if_neg (by simp)]
            simp only [sys_feed]
            by_cases h5 : (sys (.chmod (m.fpath.getD []) m.fmode)
                (sys (.fclose (m.fpath.getD []))
                  (extract_copy_loop m.fsize m.fsize (m.fpath.getD [])
                    (extract_create m (m.fpath.getD []) u.2).2.2).2).2).1 ≠ .ok
            · rw [if_pos h5] at h0; cases h0
            · rw [if_neg h5] at h0
              rw [if_neg h5, if_neg h5, extract_finish_feed, h0]
        · rw [if_neg h3] at h0
          rw [if_neg h3, if_neg h3, extract_finish_feed, h0]

theorem extract_local : extract_consumer.local := by
  constructor
  · intro lineno m w s ht
    rw [extract_run]
    exact extract_copy_stdin_nonreg lineno m w s ht
  · intro lineno m w t h0 _
    rw [extract_run] at h0 ⊢
    exact extract_feed lineno m w t h0

theorem scan_step_decision (c : Consumer) (line : List Char) (cfg : Config) :
    scan_step c line cfg =
      match scan_decision (parsemetadata (cstr line)) cfg.state cfg.md with
      | .fail md' => .stop ({ cfg with md := md' }.fail none)
      | .goon st md' => .next { cfg with state := st, md := md' }
      | .call st =>
        if (cfg.dispatch c).1 ≠ 0 then .stop ((cfg.dispatch c).2.consumer_failed none)
        else .next { (cfg.dispatch c).2 with md := clear_metadata cfg.md, state := st } := by
  rcases cfg with ⟨state, lineno, md, w, calls⟩
  unfold scan_step scan_decision
  cases state <;> dsimp only <;> cases parsemetadata (cstr line) <;> dsimp only <;>
    (repeat' split) <;> first | rfl | simp_all [Config.fail, Config.dispatch]

theorem scan_decision_call (p : Parsed) (state : PState) (md : Metadata) (st : PState)
    (h : scan_decision p state md = .call st) :
    state = .METADATA ∧ ((md.ftype = .REGULARFILE ∧ st = .CONTENTS_END)
      ∨ (md.ftype ≠ .REGULARFILE ∧ st = .SEEKING_METADATA)) := by
  unfold scan_decision at h
  cases state <;> cases p <;> simp only at h <;> (repeat' split at h) <;>
    first | (cases h; done) | (cases h; simp_all)

theorem trim_append_space (s : CStr) (c : Char) (hc : isspace c = true) :
    trim (s ++ [c]) = trim s := by
  unfold trim
  rw [List.dropWhile_append]
  by_cases h : (List.dropWhile isspace s).isEmpty = true
  · have h' : List.dropWhile isspace s = [] := List.isEmpty_iff.mp h
    simp [h, h', hc]
  · simp [h, hc]

theorem hascolon_append_newline (x : CStr) : hascolon (x ++ ['\n']) = hascolon x := by
  simp [hascolon]

theorem parsemetadata_append_newline (x : CStr) :
    parsemetadata (x ++ ['\n']) = parsemetadata x := by
  have hsp : isspace '\n' = true := by decide
  by_cases hc : hascolon x = true
  · obtain ⟨k, v, hkv, hk⟩ := hascolon_split x hc
    have hx2 : x ++ ['\n'] = k ++ ':' :: (v ++ ['\n']) := by rw [hkv]; simp
    obtain ⟨a1, a2, a3⟩ := split_at_colon k v hk
    obtain ⟨b1, b2, b3⟩ := split_at_colon k (v ++ ['\n']) hk
    have hv : isvalidkey (k ++ ':' :: (v ++ ['\n'])) = isvalidkey (k ++ ':' :: v) := by
      have e1 := isvalidkey_iff k v hk
      have e2 := isvalidkey_iff k (v ++ ['\n']) hk
      cases h1 : isvalidkey (k ++ ':' :: v) <;> cases h2 : isvalidkey (k ++ ':' :: (v ++ ['\n']))
        <;> simp_all
    have ht : trim (k ++ ':' :: (v ++ ['\n'])) = trim (k ++ ':' :: v) := by
      have : k ++ ':' :: (v ++ ['\n']) = (k ++ ':' :: v) ++ ['\n'] := by simp
      rw [this, trim_append_space _ _ hsp]
    unfold parsemetadata
    rw [hx2, hkv, a1, b1, a2, b2, a3, b3, hv, trim_append_space v _ hsp, ht]
  · have hc2 : hascolon (x ++ ['\n']) = false := by
      rw [hascolon_append_newline]; simpa using hc
    have hc1 : hascolon x = false := by simpa using hc
    unfold parsemetadata
    simp only [hc1, hc2, Bool.false_and, Bool.false_eq_true, if_false,
      trim_append_space x _ hsp]

theorem cstr_append_newline (l : List Char) :
    cstr (l ++ ['\n']) = cstr l ∨ cstr (l ++ ['\n']) = cstr l ++ ['\n'] := by
  induction l with
  | nil => right; decide
  | cons c l ih =>
    by_cases hc : c = NUL
    · left; simp [cstr, hc]
    · rcases ih with h | h
      · left
        simp only [cstr] at h ⊢
        simp [hc, h]
      · right
        simp only [cstr] at h ⊢
        simp [hc, h]

theorem parse_line_append_newline (l : List Char) :
    parsemetadata (cstr (l ++ ['\n'])) = parsemetadata (cstr l) := by
  rcases cstr_append_newline l with h | h
  · rw [h]
  · rw [h, parsemetadata_append_newline]

theorem takeline_feed (b t : List Char) (h : b.contains '\n' = true) :
    takeline (b ++ t) = ((takeline b).1, (takeline b).2 ++ t) := by
  induction b with
  | nil => simp at h
  | cons c cs ih =>
    by_cases hc : c = '\n'
    · simp [takeline, hc]
    · have h2 : cs.contains '\n' = true := by
        simp only [List.contains_cons, Bool.or_eq_true, beq_iff_eq] at h
        rcases h with h | h
        · exact absurd h.symm hc
        · exact h
      have := ih h2
      simp only [List.cons_append, takeline, hc, if_false]
      simp only [List.append_eq] at this ⊢
      rw [this]

theorem takeline_last (b : List Char) (h : b.contains '\n' = false) :
    takeline (b ++ ['\n']) = (b ++ ['\n'], []) := by
  induction b with
  | nil => simp [takeline]
  | cons c cs ih =>
    simp only [List.contains_cons, Bool.or_eq_false_iff, beq_eq_false_iff_ne, ne_eq] at h
    have hc : c ≠ '\n' := fun hc => h.1 hc.symm
    have := ih h.2
    simp only [List.cons_append, takeline, hc, if_false]
    simp only [List.append_eq] at this ⊢
    rw [this]

theorem takeline_fst_of_not_contains (b : List Char) (h : b.contains '\n' = false) :
    (takeline b).1 = b := by
  induction b with
  | nil => rfl
  | cons c cs ih =>
    simp only [List.contains_cons, Bool.or_eq_false_iff, beq_eq_false_iff_ne, ne_eq] at h
    have hc : c ≠ '\n' := fun hc => h.1 hc.symm
    simp only [takeline, hc, if_false, ih h.2]

/-- Reading a line that ends with a newline is not affected by bytes added
at the end of the input. -/
theorem getline_feed (s s1 : Stdin) (line t : List Char)
    (hg : getline s = (some line, s1)) (hnl : s.buf.contains '\n' = true) :
    getline (s.feed t) = (some line, s1.feed t) := by
  unfold getline at hg ⊢
  cases hb : s.buf with
  | nil => rw [hb] at hnl; simp at hnl
  | cons c cs =>
    rw [hb] at hg
    simp only [Prod.mk.injEq, Option.some.injEq] at hg
    obtain ⟨h1, h2⟩ := hg
    have hb' : (s.feed t).buf = c :: (cs ++ t) := by simp [Stdin.feed, hb]
    rw [hb']
    have hnl' : (c :: cs).contains '\n' = true := by rw [← hb]; exact hnl
    have hnl2 : (c :: (cs ++ t)).contains '\n' = true := by
      have : (c :: (cs ++ t)) = (c :: cs) ++ t := rfl
      rw [this]
      simp only [List.contains_eq_any_beq, List.any_append, Bool.or_eq_true] at hnl' ⊢
      exact Or.inl hnl'
    have htl : takeline (c :: (cs ++ t)) = ((takeline (c :: cs)).1, (takeline (c :: cs)).2 ++ t) :=
      takeline_feed (c :: cs) t hnl'
    simp only [htl, hnl2, ← h1, ← h2, hnl', Stdin.feed]

/-- Reading a last line that has no newline, and the same line with a
newline added. -/
theorem getline_feed_last (s s1 : Stdin) (line : List Char)
    (hg : getline s = (some line, s1)) (hnl : s.buf.contains '\n' = false) :
    line = s.buf ∧ s1 = { s with buf := [], eof := true }
    ∧ getline (s.feed ['\n']) = (some (line ++ ['\n']), { s with buf := [] }) := by
  unfold getline at hg ⊢
  cases hb : s.buf with
  | nil => rw [hb] at hg; simp at hg
  | cons c cs =>
    rw [hb] at hg
    simp only [Prod.mk.injEq, Option.some.injEq] at hg
    obtain ⟨h1, h2⟩ := hg
    have hnl' : (c :: cs).contains '\n' = false := by rw [← hb]; exact hnl
    have hl : line = c :: cs := by rw [← h1]; exact takeline_fst_of_not_contains _ hnl'
    have hb' : (s.feed ['\n']).buf = c :: (cs ++ ['\n']) := by simp [Stdin.feed, hb]
    refine ⟨hl, ?_, ?_⟩
    · rw [← h2, takeline_snd_nil _ hnl', hnl']
      simp
    · rw [hb']
      have htl : takeline (c :: (cs ++ ['\n'])) = ((c :: cs) ++ ['\n'], []) :=
        takeline_last (c :: cs) hnl'
      have hnl2 : (c :: (cs ++ ['\n'])).contains '\n' = true := by
        simp [List.contains_eq_any_beq]
      simp only [htl, hnl2, hl, Stdin.feed]
      simp

theorem scan_at_eof_eofstate (c : Consumer) (cfg : Config) :
    (scan_at_eof c cfg).eofstate = some cfg.state := by
  rcases scan_at_eof_cases c cfg with h | ⟨hst, h⟩ | ⟨hst, _, h⟩
  · rw [h]; rfl
  · rw [h, hst]
  · rw [h, hst]
    split <;> rfl

theorem scan_step_stop_eofstate (c : Consumer) (line : List Char) (cfg : Config) (r : Result)
    (h : scan_step c line cfg = .stop r) : r.eofstate = none := by
  rcases scan_step_cases c line cfg with ⟨md', h1⟩ | ⟨st, md', h1⟩ | ⟨_, h1, _, _⟩
  · rw [h1] at h; cases h; rfl
  · rw [h1] at h; cases h
  · rw [h1] at h
    split at h
    · cases h; rfl
    · cases h

theorem scan_entries_nil (c : Consumer) (cfg : Config) (hb : cfg.w.stdin.buf = []) :
    scan_entries c cfg
      = scan_at_eof c { cfg with w := { cfg.w with stdin := { cfg.w.stdin with eof := true } } } :=
  scan_entries_eof c cfg _ (getline_nil _ hb)

/-- At the end of the input, the calls made before matter only through
their line numbers and metadata. -/
theorem scan_at_eof_same_calls (c : Consumer) (cfg : Config) (calls2 : List Dispatch)
    (hk : calls2.map (fun d => (d.lineno, d.md)) = cfg.calls.map (fun d => (d.lineno, d.md))) :
    (scan_at_eof c cfg).same (scan_at_eof c { cfg with calls := calls2 }) := by
  rcases cfg with ⟨state, lineno, md, w, calls⟩
  unfold scan_at_eof Result.same
  cases state with
  | SEEKING_METADATA => exact ⟨rfl, rfl, hk, rfl, rfl, rfl⟩
  | CONTENTS_END => exact ⟨rfl, rfl, hk, rfl, rfl, rfl⟩
  | METADATA =>
    dsimp only
    by_cases ht : md.ftype = .REGULARFILE
    · simp only [ht, if_true]
      exact ⟨rfl, rfl, hk, rfl, rfl, rfl⟩
    · simp only [ht, if_false, Config.dispatch]
      simp only at hk
      split
      · refine ⟨rfl, rfl, ?_, rfl, rfl, rfl⟩
        simp [Config.consumer_failed, hk]
      · refine ⟨rfl, rfl, ?_, rfl, rfl, rfl⟩
        simp [hk]

/-- The end of the input in state `METADATA`, and a blank line there. -/
theorem feed_newline_eof (c : Consumer) (hc : c.local) (cfg : Config) (calls2 : List Dispatch)
    (hk : calls2.map (fun d => (d.lineno, d.md)) = cfg.calls.map (fun d => (d.lineno, d.md)))
    (hb : cfg.w.stdin.buf = []) (hst : cfg.state = .METADATA) :
    (scan_at_eof c { cfg with w := { cfg.w with stdin := { cfg.w.stdin with eof := true } } }).same
      (scan_entries c { cfg with calls := calls2, w := cfg.w.feed ['\n'] }) := by
  rcases cfg with ⟨state, lineno, md, w, calls⟩
  simp only at hk hb hst
  subst hst
  have hg2 : getline (w.feed ['\n']).stdin = (some ['\n'], { w.stdin with buf := [] }) := by
    simp [getline, World.feed, Stdin.feed, hb, takeline]
  have hp : parsemetadata (cstr ['\n']) = .blank := by decide
  rw [scan_entries_line c _ ['\n'] _ hg2, scan_step_decision]
  simp only [hp, scan_decision, scan_at_eof]
  by_cases ht : md.ftype = .REGULARFILE
  · simp only [ht, if_true]
    exact ⟨rfl, rfl, hk, rfl, rfl, rfl⟩
  · simp only [ht, if_false, Config.dispatch]
    have h1 := hc.1 lineno md w { w.stdin with eof := true } ht
    have h2 := hc.1 lineno md w { w.stdin with buf := [] } ht
    have e2 : ({ w.feed ['\n'] with stdin := { w.stdin with buf := [] } } : World)
        = { w with stdin := { w.stdin with buf := [] } } := rfl
    rw [e2, h1, h2]
    dsimp only
    by_cases hrc : (c.run lineno md w).1 = 0
    · simp only [hrc, ne_eq, not_true_eq_false, if_false]
      rw [scan_entries_nil c _ rfl]
      simp only [scan_at_eof]
      refine ⟨rfl, rfl, ?_, rfl, rfl, rfl⟩
      simp [hk]
    · simp only [ne_eq, hrc, not_false_eq_true, if_true]
      refine ⟨rfl, rfl, ?_, rfl, rfl, rfl⟩
      simp [Config.consumer_failed, hk]

theorem local_unread (c : Consumer) (hc : c.local) (lineno : Nat) (m : Metadata) (w : World)
    (ht : m.ftype ≠ .REGULARFILE) : (c.run lineno m w).2.stdin = w.stdin := by
  have h := hc.1 lineno m w w.stdin ht
  have h2 : c.run lineno m w = ((c.run lineno m w).1, { (c.run lineno m w).2 with stdin := w.stdin }) := h
  have := congrArg (fun x => x.2.stdin) h2
  simp only at this
  exact this

/-- A consumer that is local and returns 0 leaving bytes unread (or was
called for an entry that is not a regular file) does the same when a newline
is added at the end of the input. -/
theorem local_feed (c : Consumer) (hc : c.local) (lineno : Nat) (m : Metadata) (w : World)
    (t : List Char) (h0 : (c.run lineno m w).1 = 0)
    (h : m.ftype ≠ .REGULARFILE ∨ (c.run lineno m w).2.stdin.buf ≠ []) :
    c.run lineno m (w.feed t) = (0, (c.run lineno m w).2.feed t) := by
  by_cases ht : m.ftype = .REGULARFILE
  · rcases h with h | h
    · exact absurd ht h
    · exact hc.2 lineno m w t h0 h
  · have h1 := hc.1 lineno m w (w.stdin.feed t) ht
    rw [feed_eq, h1, h0, with_stdin_feed _ _ t (local_unread c hc lineno m w ht)]

/-- An iteration that reads a line ending with a newline and goes on does
the same when a newline is added at the end of the input, provided the rest
of the run ends at the end of the input in state `METADATA`. -/
theorem feed_newline_step (c : Consumer) (hc : c.local) (cfg cfg' : Config) (line : List Char)
    (s : Stdin) (calls2 : List Dispatch)
    (hg : getline cfg.w.stdin = (some line, s))
    (hs : scan_step c line { cfg with w := { cfg.w with stdin := s } } = .next cfg')
    (hnl : cfg.w.stdin.buf.contains '\n' = true)
    (hk : calls2.map (fun d => (d.lineno, d.md)) = cfg.calls.map (fun d => (d.lineno, d.md)))
    (he : (scan_entries c { cfg' with lineno := cfg'.lineno + 1 }).eofstate = some .METADATA) :
    ∃ calls3 : List Dispatch,
      calls3.map (fun d => (d.lineno, d.md)) = cfg'.calls.map (fun d => (d.lineno, d.md))
      ∧ scan_entries c { cfg with calls := calls2, w := cfg.w.feed ['\n'] }
        = scan_entries c { state := cfg'.state, lineno := cfg'.lineno + 1, md := cfg'.md,
                           w := cfg'.w.feed ['\n'], calls := calls3 } := by
  rcases cfg with ⟨state, lineno, md, w, calls⟩
  have hg2 : getline (w.feed ['\n']).stdin = (some line, s.feed ['\n']) :=
    getline_feed w.stdin s line ['\n'] hg hnl
  rw [scan_entries_line c ⟨state, lineno, md, w.feed ['\n'], calls2⟩ line _ hg2]
  rw [scan_step_decision] at hs ⊢
  dsimp only at hs hk ⊢
  cases hd : scan_decision (parsemetadata (cstr line)) state md with
  | fail md' => rw [hd] at hs; cases hs
  | goon st md' =>
    rw [hd] at hs
    simp only [Step.next.injEq] at hs
    subst hs
    exact ⟨calls2, hk, rfl⟩
  | call st =>
    rw [hd] at hs
    obtain ⟨_, hreg⟩ := scan_decision_call _ _ _ _ hd
    simp only [Config.dispatch] at hs ⊢
    by_cases hrc : (c.run lineno md { w with stdin := s }).1 = 0
    · rw [if_neg (by simp [hrc])] at hs
      simp only [Step.next.injEq] at hs
      subst hs
      dsimp only at he ⊢
      have hcond : md.ftype ≠ .REGULARFILE ∨
          (c.run lineno md { w with stdin := s }).2.stdin.buf ≠ [] := by
        rcases hreg with ⟨_, hst⟩ | ⟨hn, _⟩
        · right
          intro hnil
          rw [scan_entries_nil c ⟨st, lineno + 1, clear_metadata md,
            (c.run lineno md { w with stdin := s }).2,
            calls ++ [Dispatch.mk lineno md s.buf]⟩ hnil, scan_at_eof_eofstate] at he
          simp only [hst, Option.some.injEq] at he
          cases he
        · exact Or.inl hn
      have hrun := local_feed c hc lineno md { w with stdin := s } ['\n'] hrc hcond
      have e : ({ w.feed ['\n'] with stdin := s.feed ['\n'] } : World)
          = ({ w with stdin := s } : World).feed ['\n'] := rfl
      rw [e, hrun]
      rw [if_neg (by simp)]
      refine ⟨calls2 ++ [⟨lineno, md, (s.feed ['\n']).buf⟩], ?_, ?_⟩
      · rw [List.map_append, List.map_append, hk]
        rfl
      · rfl
    · rw [if_pos hrc] at hs
      cases hs

/-- An iteration that reads a last line without a newline and goes on, when
the run then ends in state `METADATA`, gives the same result when a newline
is added at the end of the input. -/
theorem feed_newline_last (c : Consumer) (cfg cfg' : Config) (line : List Char)
    (s : Stdin) (calls2 : List Dispatch)
    (hg : getline cfg.w.stdin = (some line, s))
    (hs : scan_step c line { cfg with w := { cfg.w with stdin := s } } = .next cfg')
    (hnl : cfg.w.stdin.buf.contains '\n' = false)
    (hk : calls2.map (fun d => (d.lineno, d.md)) = cfg.calls.map (fun d => (d.lineno, d.md)))
    (he : (scan_entries c { cfg' with lineno := cfg'.lineno + 1 }).eofstate = some .METADATA) :
    (scan_entries c { cfg' with lineno := cfg'.lineno + 1 }).same
      (scan_entries c { cfg with calls := calls2, w := cfg.w.feed ['\n'] }) := by
  rcases cfg with ⟨state, lineno, md, w, calls⟩
  obtain ⟨_, hs1, hg2⟩ := getline_feed_last w.stdin s line hg hnl
  subst hs1
  have hlen := scan_step_forward c line _ cfg' hs
  simp only [List.length_nil, Nat.le_zero, List.length_eq_zero] at hlen
  have hnil := scan_entries_nil c { cfg' with lineno := cfg'.lineno + 1 } hlen
  rw [hnil] at he ⊢
  rw [scan_at_eof_eofstate] at he
  simp only [Option.some.injEq] at he
  have hg2' : getline (w.feed ['\n']).stdin
      = (some (line ++ ['\n']), { w.stdin with buf := [] }) := hg2
  rw [scan_entries_line c ⟨state, lineno, md, w.feed ['\n'], calls2⟩ _ _ hg2',
    scan_step_decision, parse_line_append_newline]
  rw [scan_step_decision] at hs
  dsimp only at hs hk ⊢
  cases hd : scan_decision (parsemetadata (cstr line)) state md with
  | fail md' => rw [hd] at hs; cases hs
  | call st =>
    rw [hd] at hs
    obtain ⟨_, hreg⟩ := scan_decision_call _ _ _ _ hd
    exfalso
    simp only [Config.dispatch] at hs
    split at hs
    · cases hs
    · simp only [Step.next.injEq] at hs
      subst hs
      simp only at he
      rcases hreg with ⟨_, hst⟩ | ⟨_, hst⟩ <;> rw [hst] at he <;> cases he
  | goon st md' =>
    rw [hd] at hs
    simp only [Step.next.injEq] at hs
    subst hs
    dsimp only
    rw [scan_entries_nil c ⟨st, lineno + 1, md',
      { w.feed ['\n'] with stdin := { w.stdin with buf := [] } }, calls2⟩ rfl]
    exact scan_at_eof_same_calls c _ calls2 hk

theorem feed_newline_entries (c : Consumer) (hc : c.local) :
    ∀ cfg : Config, ∀ calls2 : List Dispatch,
      calls2.map (fun d => (d.lineno, d.md)) = cfg.calls.map (fun d => (d.lineno, d.md)) →
      (scan_entries c cfg).eofstate = some .METADATA →
      (scan_entries c cfg).same
        (scan_entries c { cfg with calls := calls2, w := cfg.w.feed ['\n'] }) := by
  apply scan_entries_induction c
    (fun cfg r => ∀ calls2 : List Dispatch,
      calls2.map (fun d => (d.lineno, d.md)) = cfg.calls.map (fun d => (d.lineno, d.md)) →
      r.eofstate = some .METADATA →
      r.same (scan_entries c { cfg with calls := calls2, w := cfg.w.feed ['\n'] }))
  · intro cfg s hg calls2 hk he
    obtain ⟨hb, hs⟩ := getline_none hg
    subst hs
    rw [scan_at_eof_eofstate] at he
    simp only [Option.some.injEq] at he
    exact feed_newline_eof c hc cfg calls2 hk hb he
  · intro cfg line s r _ hs calls2 _ he
    rw [scan_step_stop_eofstate c line _ r hs] at he
    cases he
  · intro cfg line s cfg' hg hs ih calls2 hk he
    by_cases hnl : cfg.w.stdin.buf.contains '\n' = true
    · obtain ⟨calls3, hk3, heq⟩ := feed_newline_step c hc cfg cfg' line s calls2 hg hs hnl hk he
      rw [heq]
      exact ih calls3 hk3 he
    · exact feed_newline_last c cfg cfg' line s calls2 hg hs (by simpa using hnl) hk he

theorem getline_eof_mono (s : Stdin) (h : s.eof = true) : (getline s).2.eof = true := by
  unfold getline
  cases s.buf with
  | nil => rfl
  | cons c cs => simp [h]

/-- Once the end-of-file indicator is set, the header loop leaves it set. -/
theorem scan_header_eof_mono (fuel : Nat) :
    ∀ (lineno : Nat) (s : Stdin), s.eof = true → (scan_header fuel lineno s).2.2.eof = true := by
  induction fuel with
  | zero => intro lineno s hs; exact hs
  | succ k ih =>
    intro lineno s hs
    have hg1 := getline_eof_mono s hs
    simp only [scan_header]
    cases hg : getline s with
    | mk o s' =>
      rw [hg] at hg1
      cases o with
      | none => exact hg1
      | some line =>
        dsimp only
        cases header_step line with
        | fail => exact hg1
        | stop => exact hg1
        | next => exact ih _ _ hg1

/-- A header loop that ends without failing and without meeting the end of
the input does the same with more bytes at the end of the input. -/
theorem scan_header_feed (t : List Char) (fuel : Nat) :
    ∀ (lineno : Nat) (s : Stdin) (ln2 : Nat) (s2 : Stdin),
      scan_header fuel lineno s = (false, ln2, s2) → s2.eof = false →
      scan_header (fuel + 1) lineno (s.feed t) = (false, ln2, s2.feed t) := by
  induction fuel with
  | zero => intro lineno s ln2 s2 h1 _; simp [scan_header] at h1
  | succ k ih =>
    intro lineno s ln2 s2 h1 h2
    rw [scan_header] at h1 ⊢
    cases hg : getline s with
    | mk o s' =>
      rw [hg] at h1
      cases o with
      | none =>
        obtain ⟨_, hs'⟩ := getline_none hg
        subst hs'
        simp only [Prod.mk.injEq, true_and] at h1
        rw [← h1.2] at h2
        cases h2
      | some line =>
        dsimp only at h1 ⊢
        by_cases hnl : s.buf.contains '\n' = true
        · rw [getline_feed s s' line t hg hnl]
          dsimp only
          cases hh : header_step line with
          | fail => rw [hh] at h1; simp at h1
          | stop =>
            rw [hh] at h1
            simp only [Prod.mk.injEq, true_and] at h1
            rw [← h1.1, ← h1.2]
          | next =>
            rw [hh] at h1
            exact ih _ _ _ _ h1 h2
        · exfalso
          obtain ⟨_, hs', _⟩ := getline_feed_last s s' line hg (by simpa using hnl)
          have he : s'.eof = true := by rw [hs']
          cases hh : header_step line with
          | fail => rw [hh] at h1; simp at h1
          | stop =>
            rw [hh] at h1
            simp only [Prod.mk.injEq, true_and] at h1
            rw [← h1.2, he] at h2
            cases h2
          | next =>
            rw [hh] at h1
            have := scan_header_eof_mono k (lineno + 1) s' he
            simp only at h1
            rw [h1] at this
            rw [h2] at this
            cases this

/-- A run of the entry loop that meets the end of the input in state
`METADATA` ends with the code after the loop, in a configuration with that
state, with nothing left to read, whose calls continue those made before. -/
theorem scan_entries_eof_metadata (c : Consumer) :
    ∀ cfg : Config, (scan_entries c cfg).eofstate = some .METADATA →
      ∃ cfg0 : Config, cfg0.state = .METADATA ∧ cfg0.w.stdin.buf = []
        ∧ scan_entries c cfg = scan_at_eof c cfg0 := by
  apply scan_entries_induction c
    (fun _ r => r.eofstate = some .METADATA →
      ∃ cfg0 : Config, cfg0.state = .METADATA ∧ cfg0.w.stdin.buf = [] ∧ r = scan_at_eof c cfg0)
  · intro cfg s hg he
    obtain ⟨hb, hs⟩ := getline_none hg
    subst hs
    rw [scan_at_eof_eofstate] at he
    simp only [Option.some.injEq] at he
    exact ⟨{ cfg with w := { cfg.w with stdin := { cfg.w.stdin with eof := true } } }, he, hb, rfl⟩
  · intro cfg line s r _ hs he
    rw [scan_step_stop_eofstate c line _ r hs] at he
    cases he
  · intro cfg line s cfg' _ _ ih he
    exact ih he

/-- When `scan_archive` meets the end of the input in the entry loop, the
header loop ended without failing and before the end of the input. -/
theorem scan_archive_eofstate (c : Consumer) (w : World) (st : PState)
    (he : (scan_archive c w).eofstate = some st) :
    (scan_header (w.stdin.buf.length + 1) 1 w.stdin).1 = false
    ∧ (scan_header (w.stdin.buf.length + 1) 1 w.stdin).2.2.eof = false
    ∧ scan_archive c w = scan_entries c
        { state := .SEEKING_METADATA, lineno := (scan_header (w.stdin.buf.length + 1) 1 w.stdin).2.1,
          md := Metadata.init,
          w := { w with stdin := (scan_header (w.stdin.buf.length + 1) 1 w.stdin).2.2 },
          calls := [] } := by
  unfold scan_archive at he ⊢
  dsimp only at he ⊢
  cases h1 : (scan_header (w.stdin.buf.length + 1) 1 w.stdin).1 with
  | true => rw [h1] at he; simp at he
  | false =>
    rw [h1] at he
    cases h2 : (scan_header (w.stdin.buf.length + 1) 1 w.stdin).2.2.eof with
    | true => rw [h2] at he; simp at he
    | false => simp

/-- A decode that meets the end of the input in state `METADATA` gives the
same result when a newline is added at the end of the input. -/
theorem scan_archive_feed_newline (c : Consumer) (hc : c.local) (w : World)
    (he : (scan_archive c w).eofstate = some .METADATA) :
    (scan_archive c w).same (scan_archive c (w.feed ['\n'])) := by
  obtain ⟨h1, h2, h3⟩ := scan_archive_eofstate c w _ he
  have hf := scan_header_feed ['\n'] _ 1 w.stdin _ _ (by rw [← h1]) h2
  have hlen : (w.feed ['\n']).stdin.buf.length + 1 = w.stdin.buf.length + 1 + 1 := by
    simp [World.feed, Stdin.feed]
  have h4 : scan_archive c (w.feed ['\n']) = scan_entries c
      { state := .SEEKING_METADATA,
        lineno := (scan_header (w.stdin.buf.length + 1) 1 w.stdin).2.1,
        md := Metadata.init,
        w := ({ w with stdin := (scan_header (w.stdin.buf.length + 1) 1 w.stdin).2.2 } : World).feed
          ['\n'],
        calls := [] } := by
    have e : (w.feed ['\n']).stdin = w.stdin.feed ['\n'] := rfl
    unfold scan_archive
    dsimp only
    rw [hlen, e, hf]
    simp only [Bool.false_eq_true, if_false]
    have e2 : ((scan_header (w.stdin.buf.length + 1) 1 w.stdin).2.2.feed ['\n']).eof = false := h2
    rw [e2]
    simp only [Bool.false_eq_true, if_false]
    rfl
  rw [h3] at he ⊢
  rw [h4]
  exact feed_newline_entries c hc _ [] rfl he

/-- C4: a decode whose input ends in state `METADATA` (with a consumer that
looks at `stdin` only to read a payload, as `listfiles` and `extract` do, see
`listfiles_local` and `extract_local`) gives the same return value, the same
diagnostic line, the same sequence of dispatched entries with the same line
numbers, and the same output and file system calls as the decode of the same
input followed by a newline. It ends in the code after the loop with a pending
entry: if its type is Regular File, `scan_archive` returns 1 with a
diagnostic and without a call of the consumer for it; otherwise the consumer
is called exactly once more, with the current line number, the pending
metadata and nothing left to read, and `scan_archive` returns 0 when the
consumer returned 0 and 1 otherwise. -/
theorem eof_in_metadata_as_blank_line (c : Consumer) (hc : c.local) (w : World)
    (he : (scan_archive c w).eofstate = some .METADATA) :
    (scan_archive c w).same (scan_archive c (w.feed ['\n']))
    ∧ ∃ cfg : Config, cfg.state = .METADATA ∧ cfg.w.stdin.buf = []
        ∧ scan_archive c w = scan_at_eof c cfg
        ∧ (cfg.md.ftype = .REGULARFILE →
            (scan_archive c w).ret = 1 ∧ (scan_archive c w).diag = some cfg.lineno
            ∧ (scan_archive c w).calls = cfg.calls)
        ∧ (cfg.md.ftype ≠ .REGULARFILE →
            (scan_archive c w).calls = cfg.calls ++ [⟨cfg.lineno, cfg.md, []⟩]
            ∧ (scan_archive c w).diag = none
            ∧ (scan_archive c w).ret = if (c.run cfg.lineno cfg.md cfg.w).1 = 0 then 0 else 1) := by
  refine ⟨scan_archive_feed_newline c hc w he, ?_⟩
  obtain ⟨_, _, h3⟩ := scan_archive_eofstate c w _ he
  rw [h3] at he
  obtain ⟨cfg, hst, hb, h⟩ := scan_entries_eof_metadata c _ he
  rw [← h3] at h
  refine ⟨cfg, hst, hb, h, ?_, ?_⟩
  · intro ht
    rw [h]
    simp [scan_at_eof, hst, ht, Config.fail]
  · intro ht
    rw [h]
    simp only [scan_at_eof, hst, ht, if_false, Config.dispatch, hb]
    by_cases hr : (c.run cfg.lineno cfg.md cfg.w).1 = 0
    · simp [hr]
    · simp [hr, Config.consumer_failed]

set_option maxRecDepth 100000 in
/-- C4 at an archive that ends after the metadata of a directory, listed. -/
theorem eof_in_metadata_as_blank_line_witness :
    (scan_archive listfiles_consumer
        (World.start pending_dir_archive true fs_ok fs_nodir)).eofstate = some .METADATA
    ∧ (scan_archive listfiles_consumer (World.start pending_dir_archive true fs_ok fs_nodir)).same
        (scan_archive listfiles_consumer
          ((World.start pending_dir_archive true fs_ok fs_nodir).feed ['\n'])) :=
  ⟨by decide,
   (eof_in_metadata_as_blank_line listfiles_consumer listfiles_local
      (World.start pending_dir_archive true fs_ok fs_nodir) (by decide)).1⟩

set_option maxRecDepth 100000 in
/-- C9 at the directory record without `User ID`: no diagnostic, a path in
the record, so the listing succeeds and prints the path. -/
theorem list_needs_path_extract_needs_all_witness :
    (scan_archive listfiles_consumer (World.start no_uid_archive true fs_ok fs_nodir)).diag = none
    ∧ (scan_archive listfiles_consumer (World.start no_uid_archive true fs_ok fs_nodir)).ret = 0
    ∧ (scan_archive listfiles_consumer (World.start no_uid_archive true fs_ok fs_nodir)).w.stdout.map
          some
        = (scan_archive listfiles_consumer (World.start no_uid_archive true fs_ok fs_nodir)).calls.map
            (fun d => d.md.fpath) :=
  ⟨by decide,
   (list_needs_path_extract_needs_all no_uid_archive true fs_ok fs_nodir).1 (by decide)
     (by decide)⟩

theorem IsKeyText.no_colon {k : CStr} (h : IsKeyText k) : ':' ∉ k := by
  obtain ⟨c, r, rfl, hc, hall⟩ := h
  intro hm
  rcases List.mem_cons.mp hm with h1 | h1
  · rw [← h1] at hc
    revert hc
    decide
  · rcases hall _ h1 with h2 | h2 | h2 | h2
    · revert h2; decide
    · revert h2; decide
    · revert h2; decide
    · revert h2; decide

/-- The parse of a line that starts with a valid key and a colon. -/
theorem parsemetadata_keyvalue (k v : CStr) (hk : IsKeyText k) :
    parsemetadata (k ++ ':' :: v) = .keyvalue (lower_nospace k) (trim v) := by
  obtain ⟨h1, h2, h3⟩ := split_at_colon k v hk.no_colon
  have h4 := (isvalidkey_iff k v hk.no_colon).mpr hk
  unfold parsemetadata
  rw [h1, h4, h2, h3, transformkey_spec k hk.no_NUL]
  rfl

theorem cstr_append_of_no_NUL (k rest : List Char) (hk : NUL ∉ k) :
    cstr (k ++ rest) = k ++ cstr rest := by
  induction k with
  | nil => rfl
  | cons c r ih =>
    have hc : c ≠ NUL := fun h => hk (by simp [h])
    have hr : NUL ∉ r := fun h => hk (by simp [h])
    rw [List.cons_append, cstr_cons_ne _ _ hc, ih hr]
    rfl

theorem cstr_keyvalue (k v : CStr) (hk : IsKeyText k) :
    cstr (k ++ ':' :: v) = k ++ ':' :: cstr v := by
  rw [cstr_append_of_no_NUL k _ hk.no_NUL, cstr_cons_ne _ _ (by decide)]

theorem cstr_of_no_NUL (s : List Char) (h : NUL ∉ s) : cstr s = s := by
  have := cstr_append_of_no_NUL s [] h
  simpa [cstr] using this

theorem file_size_key_examples :
    parsemetadata "File   Size: 5".toList = .keyvalue "filesize".toList "5".toList
    ∧ parsemetadata "file size: 5".toList = .keyvalue "filesize".toList "5".toList
    ∧ parsemetadata "FILE SIZE: 5".toList = .keyvalue "filesize".toList "5".toList
    ∧ handle_metadata "filesize".toList "5".toList Metadata.init
        = (0, { Metadata.init with fsize := 5, fsizegiven := true }) := by
  refine ⟨?_, ?_, ?_, ?_⟩ <;> decide

theorem regular_file_value_parses :
    parsemetadata "Type: Regular File".toList = .keyvalue "type".toList "Regular File".toList
    ∧ parsemetadata "Type: regularfile".toList = .keyvalue "type".toList "regularfile".toList
    ∧ parsemetadata "Type:  regular   file ".toList
        = .keyvalue "type".toList "regular   file".toList := by
  refine ⟨?_, ?_, ?_⟩ <;> decide

theorem regular_file_value_examples :
    handle_metadata "type".toList "Regular File".toList Metadata.init
        = (0, { Metadata.init with ftype := .REGULARFILE })
    ∧ handle_metadata "type".toList "regularfile".toList Metadata.init
        = (0, { Metadata.init with ftype := .REGULARFILE })
    ∧ handle_metadata "type".toList "regular   file".toList Metadata.init
        = (0, { Metadata.init with ftype := .REGULARFILE }) := by
  refine ⟨?_, ?_, ?_⟩ <;> decide

/-- C11: the treatment of a metadata line depends on its key only through
the key lower-cased and without its whitespace: two lines with valid keys that
agree in that form and with the same text after the colon are parsed into the
same key and value, so `handle_metadata` is called with the same arguments
and the entry loop does the same with both lines; `File   Size`, `file size`
and `FILE SIZE` all set the file size. The value of `Type` matters only
through its lower-cased form without whitespace, and `Regular File`,
`regularfile` and ` regular   file ` all select the type Regular File. -/
theorem key_and_type_normalized :
    (∀ k1 k2 v : CStr, IsKeyText k1 → IsKeyText k2 → lower_nospace k1 = lower_nospace k2 →
      parsemetadata (k1 ++ ':' :: v) = .keyvalue (lower_nospace k1) (trim v)
      ∧ parsemetadata (k2 ++ ':' :: v) = .keyvalue (lower_nospace k1) (trim v)
      ∧ ∀ (c : Consumer) (cfg : Config),
          scan_step c (k1 ++ ':' :: v) cfg = scan_step c (k2 ++ ':' :: v) cfg)
    ∧ (parsemetadata "File   Size: 5".toList = .keyvalue "filesize".toList "5".toList
      ∧ parsemetadata "file size: 5".toList = .keyvalue "filesize".toList "5".toList
      ∧ parsemetadata "FILE SIZE: 5".toList = .keyvalue "filesize".toList "5".toList
      ∧ handle_metadata "filesize".toList "5".toList Metadata.init
          = (0, { Metadata.init with fsize := 5, fsizegiven := true }))
    ∧ (∀ (v1 v2 : CStr) (m : Metadata), v1 ≠ [] → v2 ≠ [] → NUL ∉ v1 → NUL ∉ v2 →
        lower_nospace v1 = lower_nospace v2 →
        handle_metadata "type".toList v1 m = handle_metadata "type".toList v2 m)
    ∧ (parsemetadata "Type: Regular File".toList = .keyvalue "type".toList "Regular File".toList
      ∧ parsemetadata "Type: regularfile".toList = .keyvalue "type".toList "regularfile".toList
      ∧ parsemetadata "Type:  regular   file ".toList
          = .keyvalue "type".toList "regular   file".toList
      ∧ handle_metadata "type".toList "Regular File".toList Metadata.init
          = (0, { Metadata.init with ftype := .REGULARFILE })
      ∧ handle_metadata "type".toList "regularfile".toList Metadata.init
          = (0, { Metadata.init with ftype := .REGULARFILE })
      ∧ handle_metadata "type".toList "regular   file".toList Metadata.init
          = (0, { Metadata.init with ftype := .REGULARFILE })) := by
  refine ⟨?_, file_size_key_examples, ?_,
    ⟨regular_file_value_parses.1, regular_file_value_parses.2.1, regular_file_value_parses.2.2,
     regular_file_value_examples⟩⟩
  · intro k1 k2 v h1 h2 he
    refine ⟨parsemetadata_keyvalue k1 v h1, ?_, ?_⟩
    · rw [he]
      exact parsemetadata_keyvalue k2 v h2
    · intro c cfg
      have e1 : parsemetadata (cstr (k1 ++ ':' :: v)) = parsemetadata (cstr (k2 ++ ':' :: v)) := by
        rw [cstr_keyvalue k1 v h1, cstr_keyvalue k2 v h2, parsemetadata_keyvalue k1 _ h1,
          parsemetadata_keyvalue k2 _ h2, he]
      unfold scan_step
      rw [e1]
  · intro v1 v2 m hv1 hv2 hn1 hn2 he
    have e : transformkey v1 = transformkey v2 := by
      rw [transformkey_spec v1 hn1, transformkey_spec v2 hn2]
      exact he
    have hne : "type".toList ≠ "path".toList := by decide
    unfold handle_metadata
    rw [if_neg hv1, if_neg hv2, if_neg hne, if_neg hne, if_pos rfl, if_pos rfl, e]

/-- C11 at the keys `File   Size` and `FILE SIZE`. -/
theorem key_and_type_normalized_witness :
    parsemetadata "File   Size: 5".toList = .keyvalue "filesize".toList "5".toList
    ∧ parsemetadata "FILE SIZE: 5".toList = .keyvalue "filesize".toList "5".toList :=
  have h := key_and_type_normalized.1 "File   Size".toList "FILE SIZE".toList " 5".toList
    ⟨'F', "ile   Size".toList, rfl, by decide, by decide⟩
    ⟨'F', "ILE SIZE".toList, rfl, by decide, by decide⟩ (by decide)
  ⟨h.1, h.2.1⟩

/-- C12: a metadata line whose value is empty after trimming is parsed into a
key and an empty value; `handle_metadata` returns 1 for an empty value,
whatever the key, and leaves the metadata globals as they are; the entry loop
fails at such a line, in both states in which it reads metadata. -/
theorem empty_value_rejected (k v : CStr) (hk : IsKeyText k) (hv : trim v = []) :
    parsemetadata (k ++ ':' :: v) = .keyvalue (lower_nospace k) []
    ∧ (∀ (key : CStr) (m : Metadata), handle_metadata key [] m = (1, m))
    ∧ ∀ (c : Consumer) (cfg : Config), cfg.state ≠ .CONTENTS_END →
        scan_step c (k ++ ':' :: v) cfg = .stop (cfg.fail none) := by
  have hp := parsemetadata_keyvalue k v hk
  rw [hv] at hp
  refine ⟨hp, handle_metadata_empty, ?_⟩
  intro c cfg hst
  have hsp := (trim_eq_nil_iff v).mp hv
  have hn : NUL ∉ v := by
    intro h
    have := hsp _ h
    rw [isspace_NUL] at this
    cases this
  have e : parsemetadata (cstr (k ++ ':' :: v)) = .keyvalue (lower_nospace k) [] := by
    rw [cstr_keyvalue k v hk, cstr_of_no_NUL v hn]
    exact hp
  rcases cfg with ⟨state, lineno, md, w, calls⟩
  cases state with
  | CONTENTS_END => exact absurd rfl hst
  | SEEKING_METADATA => simp [scan_step, e, handle_metadata_empty]
  | METADATA => simp [scan_step, e, handle_metadata_empty]

/-- C12 at the lines `Path:` and `User Name:   `. -/
theorem empty_value_rejected_witness :
    parsemetadata "Path:".toList = .keyvalue "path".toList []
    ∧ parsemetadata "User Name:   ".toList = .keyvalue "username".toList [] :=
  ⟨(empty_value_rejected "Path".toList [] ⟨'P', "ath".toList, rfl, by decide, by decide⟩
      (by decide)).1,
   (empty_value_rejected "User Name".toList "   ".toList
      ⟨'U', "ser Name".toList, rfl, by decide, by decide⟩ (by decide)).1⟩

theorem cstr_no_NUL (l : List Char) : NUL ∉ cstr l := by
  intro h
  have := List.mem_takeWhile_imp h
  simp at this

theorem mem_trim (s : CStr) (x : Char) (h : x ∈ trim s) : x ∈ s := by
  obtain ⟨a, b, hs, _⟩ := trim_isTrimOf s
  rw [hs]
  simp [h]

/-- The value that `parsemetadata` hands over is a trimmed part of the line. -/
theorem parsemetadata_value (l key value : CStr) (h : parsemetadata l = .keyvalue key value) :
    (∃ x, value = trim x) ∧ ∀ c ∈ value, c ∈ l := by
  unfold parsemetadata at h
  split at h
  · simp only [Parsed.keyvalue.injEq] at h
    refine ⟨⟨_, h.2.symm⟩, ?_⟩
    intro c hc
    rw [← h.2] at hc
    have h1 := mem_trim _ _ hc
    have h2 := List.mem_of_mem_drop h1
    exact (List.dropWhile_sublist _).subset h2
  · dsimp only at h
    split at h <;> cases h

theorem trimmed_lower_nospace_nil (x : CStr) (h : lower_nospace (trim x) = []) : trim x = [] := by
  obtain ⟨_, _, _, _, _, hh, _⟩ := trim_isTrimOf x
  cases ht : trim x with
  | nil => rfl
  | cons c r =>
    have hc := hh c (by rw [ht]; rfl)
    rw [ht] at h
    simp [lower_nospace, hc] at h

/-- The verdict of the header loop on a key-value line, by key. -/
theorem header_step_keyvalue (line key value : CStr)
    (hp : parsemetadata (cstr line) = .keyvalue key value) :
    header_step line =
      if key = "metadataencoding".toList then
        if lower_nospace value ∈ known_encodings then .next else .fail
      else if key = "extensions".toList then
        if value = [] then .next else .fail
      else if key = "archivecreationdate".toList then .next
      else .fail := by
  obtain ⟨⟨x, hx⟩, hmem⟩ := parsemetadata_value _ _ _ hp
  have hn : NUL ∉ value := fun h => cstr_no_NUL line (hmem _ h)
  unfold header_step
  rw [hp]
  dsimp only
  rw [transformkey_spec value hn]
  by_cases h1 : key = "metadataencoding".toList
  · rw [if_pos h1, if_pos h1]
    show (if lower_nospace value ≠ "utf-8".toList ∧ lower_nospace value ≠ "utf8".toList
        ∧ lower_nospace value ≠ "ascii".toList then HeaderStep.fail else HeaderStep.next) = _
    by_cases hk : lower_nospace value ∈ known_encodings
    · rw [if_pos hk]
      simp only [known_encodings, List.mem_cons, List.mem_singleton, List.not_mem_nil,
        or_false] at hk
      rw [if_neg]
      intro ⟨a, b, c⟩
      rcases hk with h | h | h
      · exact a h
      · exact b h
      · exact c h
    · rw [if_neg hk]
      simp only [known_encodings, List.mem_cons, List.mem_singleton, List.not_mem_nil,
        or_false, not_or] at hk
      rw [if_pos hk]
  · rw [if_neg h1, if_neg h1]
    by_cases h2 : key = "extensions".toList
    · rw [if_pos h2, if_pos h2]
      show (if lower_nospace value ≠ [] then HeaderStep.fail else HeaderStep.next) = _
      by_cases hv : value = []
      · rw [if_pos hv, hv]
        rfl
      · rw [if_neg hv, if_pos]
        intro h
        rw [hx] at h hv
        exact hv (trimmed_lower_nospace_nil x h)
    · rw [if_neg h2, if_neg h2]
      by_cases h3 : key = "archivecreationdate".toList
      · rw [if_pos h3, if_neg (not_not.mpr h3)]
      · rw [if_neg h3, if_pos h3]

theorem header_step_bare (line value : CStr) (hp : parsemetadata (cstr line) = .bare value) :
    header_step line = .fail := by
  unfold header_step
  rw [hp]

/-- A header line on which the header loop fails, after lines it accepts:
`scan_archive` returns 1 with the number of that line in the diagnostic and
calls the consumer for nothing. -/
theorem scan_archive_header_fail (c : Consumer) (w : World) (header : List (List Char))
    (line rest : List Char) (heof : w.stdin.eof = false)
    (hbuf : w.stdin.buf = header.flatten ++ (line ++ rest))
    (hheader : ∀ l ∈ header, is_line l ∧ header_step l = .next)
    (hline : is_line line) (hfail : header_step line = .fail) :
    (scan_archive c w).ret = 1 ∧ (scan_archive c w).diag = some (header.length + 1)
      ∧ (scan_archive c w).calls = [] := by
  have hs : w.stdin.sane := sane_of_eof_false _ heof
  have hflat := length_le_flatten header (fun l hl => is_line_ne_nil l (hheader l hl).1)
  obtain ⟨F, hF⟩ : ∃ F, w.stdin.buf.length + 1 = (F + 1) + header.length := by
    refine ⟨w.stdin.buf.length - header.length, ?_⟩
    rw [hbuf, List.length_append]
    omega
  have hH := scan_header_lines header (F + 1) 1 w.stdin _ hs hbuf hheader
  have hs2 : ({ w.stdin with buf := line ++ rest } : Stdin).sane := sane_of_eof_false _ heof
  have hg := getline_line { w.stdin with buf := line ++ rest } line rest hline hs2 rfl
  unfold scan_archive
  rw [hF, hH]
  simp only [scan_header, hg, hfail]
  simp
  omega

/-- C13 fails on the code as stated: the value `u t f 8` of `Metadata
Encoding` is none of `utf-8`, `utf8`, `ascii` when only letter case is
ignored, and the header loop accepts the line; `scan_archive` returns 0. -/
theorem metadata_encoding_spaces_accepted :
    parsemetadata (cstr "Metadata Encoding: u t f 8\n".toList)
      = .keyvalue "metadataencoding".toList "u t f 8".toList
    ∧ (∀ e ∈ known_encodings, caseless_eq "u t f 8".toList e = false)
    ∧ header_step "Metadata Encoding: u t f 8\n".toList = .next
    ∧ (scan_archive listfiles_consumer
        (World.start "Metadata Encoding: u t f 8\n".toList true fs_ok fs_nodir)).ret = 0 := by
  refine ⟨?_, ?_, ?_, ?_⟩ <;> decide

/-- C13, amended: in the header loop a `Metadata Encoding` line is accepted
exactly when its value, lower-cased and without its whitespace, is `utf-8`,
`utf8` or `ascii`; an `Extensions` line exactly when its value is empty; a
key-value line with any other key than the three header keys fails, `Path`
among them; a bare line fails. A line that is not accepted fails, and then
`scan_archive` returns 1 with that line in the diagnostic and without any
call of the consumer. -/
theorem header_lines_accepted :
    (∀ line key value : CStr, parsemetadata (cstr line) = .keyvalue key value →
      (key = "metadataencoding".toList →
        (header_step line = .next ↔ lower_nospace value ∈ known_encodings)
        ∧ (header_step line ≠ .next → header_step line = .fail))
      ∧ (key = "extensions".toList →
        (header_step line = .next ↔ value = [])
        ∧ (header_step line ≠ .next → header_step line = .fail))
      ∧ (key ∉ header_keys → header_step line = .fail))
    ∧ (∀ line value : CStr, parsemetadata (cstr line) = .bare value → header_step line = .fail)
    ∧ (∀ (c : Consumer) (w : World) (header : List (List Char)) (line rest : List Char),
        w.stdin.eof = false → w.stdin.buf = header.flatten ++ (line ++ rest) →
        (∀ l ∈ header, is_line l ∧ header_step l = .next) → is_line line →
        header_step line = .fail →
        (scan_archive c w).ret = 1 ∧ (scan_archive c w).diag = some (header.length + 1)
          ∧ (scan_archive c w).calls = [])
    ∧ header_step "Path: a\n".toList = .fail := by
  refine ⟨?_, header_step_bare, scan_archive_header_fail, by decide⟩
  intro line key value hp
  have h := header_step_keyvalue line key value hp
  refine ⟨?_, ?_, ?_⟩
  · intro hk
    rw [if_pos hk] at h
    by_cases hv : lower_nospace value ∈ known_encodings
    · rw [if_pos hv] at h
      exact ⟨⟨fun _ => hv, fun _ => h⟩, fun hn => absurd h hn⟩
    · rw [if_neg hv] at h
      refine ⟨⟨fun hx => ?_, fun hx => absurd hx hv⟩, fun _ => h⟩
      rw [h] at hx
      cases hx
  · intro hk
    have hk1 : key ≠ "metadataencoding".toList := by rw [hk]; decide
    rw [if_neg hk1, if_pos hk] at h
    by_cases hv : value = []
    · rw [if_pos hv] at h
      exact ⟨⟨fun _ => hv, fun _ => h⟩, fun hn => absurd h hn⟩
    · rw [if_neg hv] at h
      refine ⟨⟨fun hx => ?_, fun hx => absurd hx hv⟩, fun _ => h⟩
      rw [h] at hx
      cases hx
  · intro hk
    simp only [header_keys, List.mem_cons, List.mem_singleton, List.not_mem_nil, or_false,
      not_or] at hk
    rw [if_neg hk.1, if_neg hk.2.1, if_neg hk.2.2] at h
    exact h

/-- C13, amended, at the header line `Metadata Encoding: UTF-8`. -/
theorem header_lines_accepted_witness :
    header_step "Metadata Encoding: UTF-8\n".toList = .next :=
  ((header_lines_accepted.1 "Metadata Encoding: UTF-8\n".toList "metadataencoding".toList
      "UTF-8".toList (by decide)).1 rfl).1.mpr (by decide)

/-- C14 fails on the code as stated: an `Archive Creation Date` line with an
empty value is accepted by the header loop, and `scan_archive` returns 0. -/
theorem empty_creation_date_accepted :
    parsemetadata (cstr "Archive Creation Date:\n".toList)
      = .keyvalue "archivecreationdate".toList []
    ∧ header_step "Archive Creation Date:\n".toList = .next
    ∧ (scan_archive listfiles_consumer
        (World.start "Archive Creation Date:\n".toList true fs_ok fs_nodir)).ret = 0
    ∧ (scan_archive listfiles_consumer
        (World.start "Archive Creation Date:\n".toList true fs_ok fs_nodir)).diag = none := by
  refine ⟨?_, ?_, ?_, ?_⟩ <;> decide

/-- C14, amended: an `Archive Creation Date` line is accepted by the header
loop whatever its value is, empty or not: the loop goes on with the next
line. -/
theorem creation_date_unchecked (line value : CStr)
    (hp : parsemetadata (cstr line) = .keyvalue "archivecreationdate".toList value) :
    header_step line = .next
    ∧ ∀ (fuel lineno : Nat) (s s1 : Stdin), getline s = (some line, s1) →
        scan_header (fuel + 1) lineno s = scan_header fuel (lineno + 1) s1 := by
  have h := header_step_keyvalue line _ value hp
  have h1 : "archivecreationdate".toList ≠ "metadataencoding".toList := by decide
  have h2 : "archivecreationdate".toList ≠ "extensions".toList := by decide
  rw [if_neg h1, if_neg h2, if_pos rfl] at h
  refine ⟨h, ?_⟩
  intro fuel lineno s s1 hg
  rw [scan_header, hg]
  dsimp only
  rw [h]

/-- C14, amended, at a line with a value that is no date. -/
theorem creation_date_unchecked_witness :
    header_step "Archive Creation Date: yesterday\n".toList = .next :=
  (creation_date_unchecked "Archive Creation Date: yesterday\n".toList "yesterday".toList
    (by decide)).1



theorem digitval_digitchar (base d : Nat) (hb : base ≤ 10) (hd : d < base) :
    digitval base (digitchar d) = some d := by
  have key : ∀ d, d < 10 → (digitchar d).toNat = 48 + d := by decide
  have h := key d (by omega)
  unfold digitval
  rw [h, if_pos ⟨by omega, by omega⟩]
  congr 1
  omega

theorem isbasedigit_digitchar (base d : Nat) (hb : base ≤ 10) (hd : d < base) :
    isbasedigit base (digitchar d) = true := by
  simp [isbasedigit, digitval_digitchar base d hb hd]

/-- The digits computed by `digits_rev`: all of the base, with the number as
their value, at least one, and the most significant one not zero unless the
number is zero. -/
theorem digits_rev_spec (base : Nat) (h2 : 2 ≤ base) (hb : base ≤ 10) :
    ∀ fuel n, n ≤ fuel →
      (∀ c ∈ digits_rev base (fuel + 1) n, isbasedigit base c = true)
      ∧ (digits_rev base (fuel + 1) n).foldr
          (fun c acc => acc * base + (digitval base c).getD 0) 0 = n
      ∧ digits_rev base (fuel + 1) n ≠ []
      ∧ (0 < n → (digits_rev base (fuel + 1) n).getLast? ≠ some '0') := by
  intro fuel
  induction fuel with
  | zero =>
    intro n hn
    have hn0 : n = 0 := by omega
    subst hn0
    have hd := digitval_digitchar base 0 hb (by omega)
    simp [digits_rev, isbasedigit, hd]
  | succ k ih =>
    intro n hn
    have hmod : n % base < base := Nat.mod_lt _ (by omega)
    have hd := digitval_digitchar base (n % base) hb hmod
    rw [digits_rev]
    by_cases hq : n / base = 0
    · rw [if_pos hq]
      have hlt : n < base := by
        by_contra hge
        have : 0 < n / base := Nat.div_pos (by omega) (by omega)
        omega
      have hm : n % base = n := Nat.mod_eq_of_lt hlt
      refine ⟨?_, ?_, by simp, ?_⟩
      · intro c hc
        simp only [List.mem_singleton] at hc
        rw [hc]
        exact isbasedigit_digitchar base _ hb hmod
      · simp only [List.foldr_cons, List.foldr_nil, hd, Option.getD_some]
        omega
      · intro hpos
        simp only [List.getLast?_singleton, ne_eq, Option.some.injEq]
        intro h0
        have hz : digitval base '0' = some 0 := by
          have := digitval_digitchar base 0 hb (by omega)
          exact this
        rw [h0, hz] at hd
        simp only [Option.some.injEq] at hd
        omega
    · rw [if_neg hq]
      have hlt : n / base ≤ k := by
        have hpos : 0 < n := by
          by_contra h0
          have : n = 0 := by omega
          rw [this] at hq
          simp at hq
        have : n / base < n := Nat.div_lt_self hpos (by omega)
        omega
      obtain ⟨i1, i2, i3, i4⟩ := ih (n / base) hlt
      refine ⟨?_, ?_, by simp, ?_⟩
      · intro c hc
        rcases List.mem_cons.mp hc with h | h
        · rw [h]; exact isbasedigit_digitchar base _ hb hmod
        · exact i1 c h
      · simp only [List.foldr_cons, i2, hd, Option.getD_some]
        have := Nat.div_add_mod n base
        rw [Nat.mul_comm] at this
        exact this
      · intro _
        obtain ⟨a, l, hal⟩ := List.exists_cons_of_ne_nil i3
        rw [hal] at i4 ⊢
        rw [List.getLast?_cons_cons]
        exact i4 (Nat.pos_of_ne_zero hq)

/-- The numeral of a number: digits of the base, with the number as their
value, at least one digit, and no leading zero unless the number is zero. -/
theorem numeral_spec (base n : Nat) (h2 : 2 ≤ base) (hb : base ≤ 10) :
    (∀ c ∈ numeral base n, isbasedigit base c = true)
    ∧ digitsval base (numeral base n) = n
    ∧ numeral base n ≠ []
    ∧ (0 < n → (numeral base n).head? ≠ some '0') := by
  obtain ⟨h1, h3, h4, h5⟩ := digits_rev_spec base h2 hb n n (Nat.le_refl n)
  unfold numeral
  refine ⟨?_, ?_, ?_, ?_⟩
  · intro c hc
    exact h1 c (List.mem_reverse.mp hc)
  · unfold digitsval
    rw [List.foldl_reverse]
    exact h3
  · simpa using h4
  · intro hpos
    rw [List.head?_reverse]
    exact h5 hpos

theorem isbasedigit_facts (base : Nat) (c : Char) (hb : base ≤ 10)
    (h : isbasedigit base c = true) :
    isspace c = false ∧ c ≠ '-' ∧ c ≠ '+' ∧ c ≠ NUL ∧ c ≠ '\n' := by
  have h1 : 48 ≤ c.toNat ∧ c.toNat < 58 := by
    unfold isbasedigit digitval at h
    by_cases hc : 48 ≤ c.toNat ∧ c.toNat < 48 + base
    · exact ⟨hc.1, by omega⟩
    · rw [if_neg hc] at h
      cases h
  refine ⟨?_, ?_, ?_, ?_, ?_⟩
  · simp only [isspace, Bool.or_eq_false_iff, decide_eq_false_iff_not, Bool.and_eq_false_iff]
    omega
  · intro hc; rw [hc] at h1; revert h1; decide
  · intro hc; rw [hc] at h1; revert h1; decide
  · intro hc; rw [hc] at h1; revert h1; decide
  · intro hc; rw [hc] at h1; revert h1; decide

/-- The subject sequence of a text made of digits only: no sign, all of the
text, nothing after it. -/
theorem strto_split_digits (base : Nat) (s : CStr) (hb : base ≤ 10)
    (hall : ∀ c ∈ s, isbasedigit base c = true) : strto_split base s = (false, s, []) := by
  cases s with
  | nil => rfl
  | cons c r =>
    obtain ⟨hsp, hm, hp, _, _⟩ := isbasedigit_facts base c hb (hall c (by simp))
    have h1 : (c :: r).dropWhile isspace = c :: r := by simp [hsp]
    have h2 : (c :: r).takeWhile (isbasedigit base) = c :: r :=
      List.takeWhile_eq_self_iff.mpr hall
    have h3 : (c :: r).dropWhile (isbasedigit base) = [] :=
      List.dropWhile_eq_nil_iff.mpr hall
    unfold strto_split
    rw [h1]
    dsimp only
    split
    · rename_i heq
      simp only [List.cons.injEq] at heq
      exact absurd heq.1 hm
    · rename_i heq
      simp only [List.cons.injEq] at heq
      exact absurd heq.1 hp
    · simp only [h2, h3]

theorem strtoull_digits (base : Nat) (s : CStr) (hb : base ≤ 10) (hs : s ≠ [])
    (hall : ∀ c ∈ s, isbasedigit base c = true) (hmax : digitsval base s ≤ ULLONG_MAX) :
    strtoull base s = ⟨digitsval base s, false⟩ := by
  unfold strtoull
  rw [strto_split_digits base s hb hall]
  simp [hs, Nat.not_lt.mpr hmax]

theorem strtol_digits (base : Nat) (s : CStr) (hb : base ≤ 10) (hs : s ≠ [])
    (hall : ∀ c ∈ s, isbasedigit base c = true) (hmax : digitsval base s ≤ LONG_MAX) :
    strtol base s = ⟨(digitsval base s : Int), false⟩ := by
  unfold strtol
  rw [strto_split_digits base s hb hall]
  simp [hs, Nat.not_lt.mpr hmax]

theorem digitsval_zeros (base k : Nat) (s : CStr) :
    digitsval base (List.replicate k '0' ++ s) = digitsval base s := by
  have hz : ∀ k, (List.replicate k '0').foldl
      (fun acc c => acc * base + (digitval base c).getD 0) 0 = 0 := by
    intro k
    induction k with
    | zero => rfl
    | succ j ih =>
      rw [List.replicate_succ, List.foldl_cons]
      have : 0 * base + (digitval base '0').getD 0 = 0 := by
        simp only [Nat.zero_mul, Nat.zero_add]
        unfold digitval
        split <;> rfl
      rw [this, ih]
  unfold digitsval
  rw [List.foldl_append, hz]

/-- The text of `%.7o`: at least seven octal digits, with the number as
their value, and no more digits than needed. -/
theorem octal7_spec (n : Nat) :
    (∀ c ∈ octal7 n, isbasedigit 8 c = true)
    ∧ digitsval 8 (octal7 n) = n
    ∧ 7 ≤ (octal7 n).length
    ∧ (7 < (octal7 n).length → (octal7 n).head? ≠ some '0') := by
  obtain ⟨h1, h2, h3, h4⟩ := numeral_spec 8 n (by decide) (by decide)
  unfold octal7
  refine ⟨?_, ?_, ?_, ?_⟩
  · intro c hc
    rcases List.mem_append.mp hc with h | h
    · rw [(List.mem_replicate.mp h).2]
      decide
    · exact h1 c h
  · rw [digitsval_zeros, h2]
  · simp only [List.length_append, List.length_replicate]
    omega
  · intro hlen
    simp only [List.length_append, List.length_replicate] at hlen
    have hk : 7 - (numeral 8 n).length = 0 := by omega
    rw [hk]
    simp only [List.replicate_zero, List.nil_append]
    apply h4
    by_contra h0
    have : n = 0 := by omega
    rw [this] at hlen
    revert hlen
    decide

theorem dropWhile_isspace_id (l : List Char) (h : isspace (l.headD NUL) = false) :
    l.dropWhile isspace = l := by
  cases l with
  | nil => rfl
  | cons c r =>
    simp only [List.headD_cons] at h
    simp [h]

theorem trim_id (v : CStr) (h1 : isspace (v.headD NUL) = false)
    (h2 : isspace (v.getLastD NUL) = false) : trim v = v := by
  unfold trim
  rw [dropWhile_isspace_id v h1, dropWhile_isspace_id, List.reverse_reverse]
  cases hv : v.reverse with
  | nil => exact isspace_NUL
  | cons c r =>
    have : v = r.reverse ++ [c] := by
      have := congrArg List.reverse hv
      simpa using this
    rw [this] at h2
    simpa using h2

theorem trim_tab_newline (v : CStr) (h1 : isspace (v.headD NUL) = false)
    (h2 : isspace (v.getLastD NUL) = false) : trim ('\t' :: (v ++ ['\n'])) = v := by
  have e : '\t' :: (v ++ ['\n']) = ('\t' :: v) ++ ['\n'] := rfl
  rw [e, trim_append_space _ _ (by decide)]
  have e2 : trim ('\t' :: v) = trim v := by
    unfold trim
    have : isspace '\t' = true := by decide
    simp [this]
  rw [e2, trim_id v h1 h2]

/-- The line that `write_metadata` writes is parsed into the key, lower-cased
and without whitespace, and the value as it was written. -/
theorem parse_write_metadata (k v : CStr) (hk : IsKeyText k) (hv : IsPlain v) :
    parsemetadata (cstr (write_metadata k v)) = .keyvalue (lower_nospace k) v := by
  obtain ⟨_, hn, _, h1, h2⟩ := hv
  have e : write_metadata k v = k ++ ':' :: ('\t' :: (v ++ ['\n'])) := by
    simp [write_metadata]
  have hn2 : NUL ∉ '\t' :: (v ++ ['\n']) := by
    intro h
    rcases List.mem_cons.mp h with h | h
    · revert h; decide
    · rcases List.mem_append.mp h with h | h
      · exact hn h
      · simp only [List.mem_singleton] at h
        revert h; decide
  rw [e, cstr_keyvalue k _ hk, cstr_of_no_NUL _ hn2, parsemetadata_keyvalue k _ hk,
    trim_tab_newline v h1 h2]

theorem is_line_write_metadata (k v : CStr) (hk : '\n' ∉ k) (hv : '\n' ∉ v) :
    is_line (write_metadata k v) := by
  have e : write_metadata k v = (k ++ ":\t".toList ++ v) ++ ['\n'] := rfl
  unfold is_line
  rw [e]
  refine ⟨List.getLast?_concat _, ?_⟩
  rw [List.dropLast_concat]
  intro h
  rcases List.mem_append.mp h with h | h
  · rcases List.mem_append.mp h with h | h
    · exact hk h
    · revert h; decide
  · exact hv h

theorem digits_plain (base : Nat) (s : CStr) (hb : base ≤ 10) (hs : s ≠ [])
    (hall : ∀ c ∈ s, isbasedigit base c = true) : IsPlain s := by
  have hf := fun c hc => isbasedigit_facts base c hb (hall c hc)
  refine ⟨hs, fun h => (hf _ h).2.2.2.1 rfl, fun h => (hf _ h).2.2.2.2 rfl, ?_, ?_⟩
  · cases s with
    | nil => exact absurd rfl hs
    | cons c r => exact (hf c (by simp)).1
  · have hmem : s.getLastD NUL ∈ s := by
      cases s with
      | nil => exact absurd rfl hs
      | cons c r =>
        rw [List.getLastD_cons]
        have := List.getLast_mem (List.cons_ne_nil c r)
        rw [List.getLast_eq_getLastD] at this
        simpa using this
    exact (hf _ hmem).1

theorem numeral_plain (n : Nat) : IsPlain (numeral 10 n) := by
  obtain ⟨h1, _, h3, _⟩ := numeral_spec 10 n (by decide) (by decide)
  exact digits_plain 10 _ (by decide) h3 h1

theorem octal7_ne_nil (n : Nat) : octal7 n ≠ [] := by
  intro h
  have := (octal7_spec n).2.2.1
  rw [h] at this
  simp at this

theorem octal7_plain (n : Nat) : IsPlain (octal7 n) :=
  digits_plain 8 _ (by decide) (octal7_ne_nil n) (octal7_spec n).1

theorem permission_bits_lt (mode : Nat) : permission_bits mode < 2 ^ 32 :=
  Nat.lt_of_le_of_lt Nat.and_le_right (by decide)

theorem permission_bits_type (mode : Nat) : permission_bits mode &&& S_IFMT = 0 := by
  unfold permission_bits
  rw [Nat.and_assoc]
  have : (2 ^ 32 - 1 - S_IFMT) &&& S_IFMT = 0 := by decide
  rw [this]
  exact Nat.and_zero _

/-- The bits of `st_mode & ~S_IFMT`: those of the mode, within the 32 bits of
`mode_t`, that are not file-type bits. -/
theorem permission_bits_testBit (mode i : Nat) :
    (permission_bits mode).testBit i
      = (mode.testBit i && (decide (i < 32) && !S_IFMT.testBit i)) := by
  unfold permission_bits
  rw [Nat.testBit_and]
  congr 1
  by_cases hi : i < 32
  · have key : ∀ j, j < 32 →
        (2 ^ 32 - 1 - S_IFMT).testBit j = (decide (j < 32) && !S_IFMT.testBit j) := by decide
    exact key i hi
  · have h1 : 2 ^ 32 - 1 - S_IFMT < 2 ^ i :=
      Nat.lt_of_lt_of_le (by decide : 2 ^ 32 - 1 - S_IFMT < 2 ^ 32)
        (Nat.pow_le_pow_right (by decide) (by omega))
    rw [Nat.testBit_lt_two_pow h1]
    simp [hi]

theorem mod_and_S_IFMT (n : Nat) : (n % 2 ^ 32) &&& S_IFMT = n &&& S_IFMT := by
  rw [← Nat.and_pow_two_sub_one_eq_mod, Nat.and_assoc]
  have : (2 ^ 32 - 1) &&& S_IFMT = S_IFMT := by decide
  rw [this]

/-- `handle_metadata` on a `Permissions` value made of octal digits whose
number fits the 32 bits of `mode_t` and has no file-type bit. -/
theorem handle_permissions_digits (s : CStr) (m : Metadata) (hm : m.fmodegiven = false)
    (hs : s ≠ []) (hall : ∀ c ∈ s, isbasedigit 8 c = true) (hlt : digitsval 8 s < 2 ^ 32)
    (hbits : digitsval 8 s &&& S_IFMT = 0) :
    handle_metadata "permissions".toList s m
      = (0, { m with fmode := digitsval 8 s, fmodegiven := true }) := by
  have hmax : digitsval 8 s ≤ ULLONG_MAX :=
    Nat.le_of_lt (Nat.lt_of_lt_of_le hlt (by decide))
  have hr := strtoull_digits 8 s (by decide) hs hall hmax
  have hmod : digitsval 8 s % 4294967296 = digitsval 8 s := Nat.mod_eq_of_lt hlt
  simp [handle_metadata, hs, hm, hr, hmod, hbits]

/-- `handle_metadata` rejects a `Permissions` value made of octal digits
whose number has a file-type bit. -/
theorem handle_permissions_type_bits (s : CStr) (m : Metadata) (hs : s ≠ [])
    (hall : ∀ c ∈ s, isbasedigit 8 c = true) (hbits : digitsval 8 s &&& S_IFMT ≠ 0) :
    (handle_metadata "permissions".toList s m).1 = 1 := by
  by_cases hm : m.fmodegiven = true
  · simp [handle_metadata, hs, hm]
  · by_cases hmax : digitsval 8 s ≤ ULLONG_MAX
    · have hr := strtoull_digits 8 s (by decide) hs hall hmax
      have hb : digitsval 8 s % 4294967296 &&& S_IFMT = digitsval 8 s &&& S_IFMT :=
        mod_and_S_IFMT (digitsval 8 s)
      simp [handle_metadata, hs, hm, hr, hb, hbits]
    · have hr : strtoull 8 s = ⟨ULLONG_MAX, true⟩ := by
        unfold strtoull
        rw [strto_split_digits 8 s (by decide) hall]
        simp [hs, Nat.lt_of_not_le hmax]
      simp [handle_metadata, hs, hm, hr]

/-- C18: the `Permissions` line that the encoder writes for a mode holds the
mode without its file-type bits (within the 32 bits of `mode_t`) as octal
digits, at least seven, with leading zeros only to reach seven;
`parsemetadata` and `handle_metadata` accept the line and store exactly that
number. `handle_metadata` rejects every `Permissions` value made of octal
digits whose number has a file-type bit set. -/
theorem permissions_octal_roundtrip (mode : Nat) (m : Metadata) (hm : m.fmodegiven = false) :
    (∀ i, (permission_bits mode).testBit i
        = (mode.testBit i && (decide (i < 32) && !S_IFMT.testBit i)))
    ∧ write_octal_metadata "Permissions".toList (permission_bits mode)
        = "Permissions:\t".toList ++ octal7 (permission_bits mode) ++ ['\n']
    ∧ ((∀ c ∈ octal7 (permission_bits mode), isbasedigit 8 c = true)
      ∧ digitsval 8 (octal7 (permission_bits mode)) = permission_bits mode
      ∧ 7 ≤ (octal7 (permission_bits mode)).length
      ∧ (7 < (octal7 (permission_bits mode)).length →
          (octal7 (permission_bits mode)).head? ≠ some '0'))
    ∧ parsemetadata (cstr (write_octal_metadata "Permissions".toList (permission_bits mode)))
        = .keyvalue "permissions".toList (octal7 (permission_bits mode))
    ∧ handle_metadata "permissions".toList (octal7 (permission_bits mode)) m
        = (0, { m with fmode := permission_bits mode, fmodegiven := true })
    ∧ (∀ (s : CStr) (m1 : Metadata), s ≠ [] → (∀ c ∈ s, isbasedigit 8 c = true) →
        digitsval 8 s &&& S_IFMT ≠ 0 → (handle_metadata "permissions".toList s m1).1 = 1) := by
  have hmod : permission_bits mode % 2 ^ 32 = permission_bits mode :=
    Nat.mod_eq_of_lt (permission_bits_lt mode)
  have hspec := octal7_spec (permission_bits mode)
  have hw : write_octal_metadata "Permissions".toList (permission_bits mode)
      = write_metadata "Permissions".toList (octal7 (permission_bits mode)) := by
    unfold write_octal_metadata write_metadata
    rw [hmod]
  refine ⟨permission_bits_testBit mode, ?_, hspec, ?_, ?_, handle_permissions_type_bits⟩
  · rw [hw]
    simp [write_metadata]
  · have hk : IsKeyText "Permissions".toList :=
      ⟨'P', "ermissions".toList, rfl, by decide, by decide⟩
    rw [hw, parse_write_metadata _ _ hk (octal7_plain _)]
    rfl
  · have h := handle_permissions_digits (octal7 (permission_bits mode)) m hm (octal7_ne_nil _)
      hspec.1 (by rw [hspec.2.1]; exact permission_bits_lt mode)
      (by rw [hspec.2.1]; exact permission_bits_type mode)
    rw [hspec.2.1] at h
    exact h

/-- C18 at the mode of a regular file with permissions 644. -/
theorem permissions_octal_roundtrip_witness :
    write_octal_metadata "Permissions".toList (permission_bits 33188)
        = "Permissions:\t".toList ++ octal7 (permission_bits 33188) ++ ['\n']
    ∧ handle_metadata "permissions".toList (octal7 (permission_bits 33188)) Metadata.init
        = (0, { Metadata.init with fmode := permission_bits 33188, fmodegiven := true }) :=
  have h := permissions_octal_roundtrip 33188 Metadata.init rfl
  ⟨h.2.1, h.2.2.2.2.1⟩

theorem copy_loop_eof (fuel : Nat) (s : Stdin) (out : List Char) (h : s.eof = true) :
    copy_loop fuel s out = (s, out) := by
  cases fuel with
  | zero => rfl
  | succ k => simp [copy_loop, h]

/-- The copy loop of `add_file` writes the contents of the file and ends at
its end. -/
theorem copy_loop_all (fuel : Nat) :
    ∀ (s : Stdin) (out : List Char), s.buf.length < fuel → s.eof = false →
      copy_loop fuel s out = ({ s with buf := [], eof := true }, out ++ s.buf) := by
  induction fuel with
  | zero => intro s out h _; omega
  | succ k ih =>
    intro s out hlen he
    rw [copy_loop]
    simp only [he, Bool.false_eq_true, if_false]
    by_cases hshort : s.buf.length < WRITE_BLOCKSIZE
    · have h1 : (fread WRITE_BLOCKSIZE s).2 = { s with buf := [], eof := true } := by
        simp [fread, hshort, he, List.drop_eq_nil_of_le (Nat.le_of_lt hshort)]
      have h2 : (fread WRITE_BLOCKSIZE s).1 = s.buf := by
        simp [fread, List.take_of_length_le (Nat.le_of_lt hshort)]
      rw [h1, h2, copy_loop_eof _ _ _ rfl]
    · have h1 : (fread WRITE_BLOCKSIZE s).2 = { s with buf := s.buf.drop WRITE_BLOCKSIZE } := by
        simp [fread, hshort, he]
      have h2 : (fread WRITE_BLOCKSIZE s).1 = s.buf.take WRITE_BLOCKSIZE := rfl
      have hpos : 0 < WRITE_BLOCKSIZE := by decide
      rw [h1, h2]
      have hi := ih { s with buf := s.buf.drop WRITE_BLOCKSIZE } (out ++ s.buf.take WRITE_BLOCKSIZE)
        (by simp only [List.length_drop]; omega) he
      rw [hi]
      simp [List.append_assoc]

theorem kind_of_mode_cases (mode : Nat) :
    (kind_of_mode mode = .REGULARFILE ∧ S_IS S_IFREG mode = true)
    ∨ (kind_of_mode mode = .DIRECTORY ∧ S_IS S_IFREG mode = false ∧ S_IS S_IFDIR mode = true)
    ∨ (kind_of_mode mode = .SYMLINK ∧ S_IS S_IFREG mode = false ∧ S_IS S_IFDIR mode = false
        ∧ S_IS S_IFLNK mode = true)
    ∨ (kind_of_mode mode = .CHARDEVICE ∧ S_IS S_IFREG mode = false ∧ S_IS S_IFDIR mode = false
        ∧ S_IS S_IFLNK mode = false ∧ S_IS S_IFCHR mode = true)
    ∨ (kind_of_mode mode = .BLOCKDEVICE ∧ S_IS S_IFREG mode = false ∧ S_IS S_IFDIR mode = false
        ∧ S_IS S_IFLNK mode = false ∧ S_IS S_IFCHR mode = false ∧ S_IS S_IFBLK mode = true)
    ∨ (kind_of_mode mode = .FIFO ∧ S_IS S_IFREG mode = false ∧ S_IS S_IFDIR mode = false
        ∧ S_IS S_IFLNK mode = false ∧ S_IS S_IFCHR mode = false ∧ S_IS S_IFBLK mode = false
        ∧ S_IS S_IFIFO mode = true)
    ∨ (kind_of_mode mode = .SOCKET ∧ S_IS S_IFREG mode = false ∧ S_IS S_IFDIR mode = false
        ∧ S_IS S_IFLNK mode = false ∧ S_IS S_IFCHR mode = false ∧ S_IS S_IFBLK mode = false
        ∧ S_IS S_IFIFO mode = false ∧ S_IS S_IFSOCK mode = true)
    ∨ (kind_of_mode mode = .UNKNOWN ∧ S_IS S_IFREG mode = false ∧ S_IS S_IFDIR mode = false
        ∧ S_IS S_IFLNK mode = false ∧ S_IS S_IFCHR mode = false ∧ S_IS S_IFBLK mode = false
        ∧ S_IS S_IFIFO mode = false ∧ S_IS S_IFSOCK mode = false) := by
  unfold kind_of_mode S_IS
  generalize mode &&& S_IFMT = x
  by_cases h1 : x = S_IFREG
  · subst h1; decide
  by_cases h2 : x = S_IFDIR
  · subst h2; decide
  by_cases h3 : x = S_IFLNK
  · subst h3; decide
  by_cases h4 : x = S_IFCHR
  · subst h4; decide
  by_cases h5 : x = S_IFBLK
  · subst h5; decide
  by_cases h6 : x = S_IFIFO
  · subst h6; decide
  by_cases h7 : x = S_IFSOCK
  · subst h7; decide
  · simp [h1, h2, h3, h4, h5, h6, h7]

/-- What `add_file_tail` writes. -/
theorem add_file_tail_stdout (sb : Stat) (pw gr : CStr) (fp : Option (List Char)) (e : Enc) :
    add_file_tail sb pw gr fp e =
      (0, { e with stdout := e.stdout
        ++ (field "User Name".toList pw ++ field "User ID".toList (numeral 10 (sb.st_uid % 2 ^ 64))
          ++ field "Group Name".toList gr
          ++ field "Group ID".toList (numeral 10 (sb.st_gid % 2 ^ 64))
          ++ field "Permissions".toList (octal7 (permission_bits sb.st_mode))
          ++ field "Modification Time".toList (numeral 10 (sb.st_mtime % 2 ^ 64).toNat)
          ++ (match fp with
              | some contents => "---\n".toList ++ contents ++ "---\n".toList
              | none => [])) }) := by
  have hmod : permission_bits sb.st_mode % 2 ^ 32 = permission_bits sb.st_mode :=
    Nat.mod_eq_of_lt (permission_bits_lt _)
  have hm2 : ((sb.st_mtime % 2 ^ 64).toNat) % 2 ^ 64 = (sb.st_mtime % 2 ^ 64).toNat := by
    apply Nat.mod_eq_of_lt
    have h1 : 0 ≤ sb.st_mtime % 2 ^ 64 := Int.emod_nonneg _ (by decide)
    have h2 : sb.st_mtime % 2 ^ 64 < 2 ^ 64 := Int.emod_lt_of_pos _ (by decide)
    omega
  cases fp with
  | none =>
    simp only [add_file_tail, Enc.put, write_metadata, write_numeric_metadata,
      write_octal_metadata, field, hmod, hm2, Nat.mod_mod]
    simp [List.append_assoc]
  | some contents =>
    have hc := copy_loop_all (contents.length + 1)
      { buf := contents, eof := false, seekable := true } [] (Nat.lt_succ_self _) rfl
    simp only [add_file_tail, Enc.put, write_metadata, write_numeric_metadata,
      write_octal_metadata, write_divider, field, hmod, hm2, Nat.mod_mod, hc]
    simp [List.append_assoc]

/-- The result of `add_file` for an entry of a recognized type that it does
not skip and whose owner, group, contents and link target it can read. -/
theorem add_file_eq (env : EncEnv) (fname : CStr) (sb : Stat) (e : Enc) (pw gr : CStr)
    (hskip : ¬ ((sb.st_dev = e.stdoutdev ∧ sb.st_ino = e.stdoutino) ∨ fname = ".".toList))
    (hpw : env.getpwuid sb.st_uid = some pw) (hgr : env.getgrgid sb.st_gid = some gr)
    (hkind : kind_of_mode sb.st_mode ≠ .UNKNOWN)
    (hopen : kind_of_mode sb.st_mode = .REGULARFILE → (env.fopen fname).isSome = true)
    (hlink : kind_of_mode sb.st_mode = .SYMLINK → (env.readlink fname).isSome = true) :
    add_file env fname sb e =
      (0, { e with
        stdout := e.stdout ++ sb.record env fname
          (cstr (store (((env.readlink fname).getD []).take (LINKPATH_SIZE - 1)) e.linkpath))
          pw gr ((env.fopen fname).getD []),
        linkpath := if kind_of_mode sb.st_mode = .SYMLINK then
            store (((env.readlink fname).getD []).take (LINKPATH_SIZE - 1)) e.linkpath
          else e.linkpath }) := by
  have hmm : ∀ x : Nat, x % 2 ^ 32 % 2 ^ 64 = x % 2 ^ 32 := fun x =>
    Nat.mod_eq_of_lt (Nat.lt_trans (Nat.mod_lt _ (by decide)) (by decide))
  have hmm2 : ∀ x : Nat, x % 4294967296 % 18446744073709551616 = x % 4294967296 := hmm
  unfold add_file
  rw [if_neg hskip]
  simp only [hpw, hgr]
  rcases kind_of_mode_cases sb.st_mode with h | h | h | h | h | h | h | h
  · obtain ⟨hk, h1⟩ := h
    obtain ⟨contents, hc⟩ := Option.isSome_iff_exists.mp (hopen hk)
    simp only [h1, if_true, hc, add_file_tail_stdout, Enc.put, write_blank, write_metadata,
      write_numeric_metadata, Stat.record, hk, entry_text, entry_fields, field, type_label]
    simp [List.append_assoc]
  · obtain ⟨hk, h1, h2⟩ := h
    simp only [h1, h2, if_true, add_file_tail_stdout, Enc.put, write_blank, write_metadata,
      Stat.record, hk, entry_text, entry_fields, field, type_label]
    simp [List.append_assoc]
  · obtain ⟨hk, h1, h2, h3⟩ := h
    obtain ⟨target, hc⟩ := Option.isSome_iff_exists.mp (hlink hk)
    simp only [h1, h2, h3, if_true, hc, add_file_tail_stdout, Enc.put, write_blank,
      write_metadata, Stat.record, hk, entry_text, entry_fields, field, type_label]
    simp [List.append_assoc]
  · obtain ⟨hk, h1, h2, h3, h4⟩ := h
    simp only [h1, h2, h3, h4, if_true, add_file_tail_stdout, Enc.put, write_blank,
      write_metadata, write_numeric_metadata, Stat.record, hk, entry_text, entry_fields, field,
      type_label, hmm]
    simp [List.append_assoc, hmm2]
  · obtain ⟨hk, h1, h2, h3, h4, h5⟩ := h
    simp only [h1, h2, h3, h4, h5, if_true, add_file_tail_stdout, Enc.put, write_blank,
      write_metadata, write_numeric_metadata, Stat.record, hk, entry_text, entry_fields, field,
      type_label, hmm]
    simp [List.append_assoc, hmm2]
  · obtain ⟨hk, h1, h2, h3, h4, h5, h6⟩ := h
    simp only [h1, h2, h3, h4, h5, h6, if_true, add_file_tail_stdout, Enc.put, write_blank,
      write_metadata, Stat.record, hk, entry_text, entry_fields, field, type_label]
    simp [List.append_assoc]
  · obtain ⟨hk, h1, h2, h3, h4, h5, h6, h7⟩ := h
    simp only [h1, h2, h3, h4, h5, h6, h7, if_true, add_file_tail_stdout, Enc.put, write_blank,
      write_metadata, Stat.record, hk, entry_text, entry_fields, field, type_label]
    simp [List.append_assoc]
  · exact absurd h.1 hkind

/-- C19: for an entry of one of the seven types that `add_file` does not skip
(it is not `stdout` and not `.`), whose owner and group are known and whose
contents (regular file) or target (symbolic link) can be read, `add_file`
returns 0 and writes, in this order: an empty line, `Path`, `Type` with the
label of the type, `File Size` for a regular file, `Link Target` for a
symbolic link, `Major` then `Minor` for a device, `User Name`, `User ID`,
`Group Name`, `Group ID`, `Permissions`, `Modification Time`, each as a line
`Key:<TAB>value`, the numbers in decimal digits; and for a regular file a
`---` line, the bytes of the file and a `---` line. -/
theorem add_file_emits (env : EncEnv) (fname : CStr) (sb : Stat) (e : Enc) (pw gr : CStr)
    (hskip : ¬ ((sb.st_dev = e.stdoutdev ∧ sb.st_ino = e.stdoutino) ∨ fname = ".".toList))
    (hpw : env.getpwuid sb.st_uid = some pw) (hgr : env.getgrgid sb.st_gid = some gr)
    (hkind : kind_of_mode sb.st_mode ≠ .UNKNOWN)
    (hopen : kind_of_mode sb.st_mode = .REGULARFILE → (env.fopen fname).isSome = true)
    (hlink : kind_of_mode sb.st_mode = .SYMLINK → (env.readlink fname).isSome = true) :
    (add_file env fname sb e).1 = 0
    ∧ (add_file env fname sb e).2.stdout
        = e.stdout ++ entry_text (kind_of_mode sb.st_mode) fname (sb.st_size % 2 ^ 64)
            (env.major sb.st_rdev % 2 ^ 32) (env.minor sb.st_rdev % 2 ^ 32)
            (cstr (store (((env.readlink fname).getD []).take (LINKPATH_SIZE - 1)) e.linkpath))
            pw (sb.st_uid % 2 ^ 64) gr (sb.st_gid % 2 ^ 64) (permission_bits sb.st_mode)
            (sb.st_mtime % 2 ^ 64).toNat ((env.fopen fname).getD [])
    ∧ (∀ n, (∀ c ∈ numeral 10 n, isbasedigit 10 c = true) ∧ digitsval 10 (numeral 10 n) = n
        ∧ numeral 10 n ≠ [] ∧ (0 < n → (numeral 10 n).head? ≠ some '0')) := by
  rw [add_file_eq env fname sb e pw gr hskip hpw hgr hkind hopen hlink]
  exact ⟨rfl, rfl, fun n => numeral_spec 10 n (by decide) (by decide)⟩

set_option maxRecDepth 100000 in
/-- C19 at the regular file `f` of the example system. -/
theorem add_file_emits_witness :
    (add_file demo_env "f".toList demo_stat demo_enc).2.stdout
      = ("\nPath:\tf\nType:\tRegular File\nFile Size:\t5\nUser Name:\tu\nUser ID:\t1000\n"
        ++ "Group Name:\tg\nGroup ID:\t100\nPermissions:\t0000644\n"
        ++ "Modification Time:\t1700000000\n---\nhello---\n").toList :=
  (add_file_emits demo_env "f".toList demo_stat demo_enc "u".toList "g".toList (by decide) rfl
    rfl (by decide) (by decide) (by decide)).2.1.trans (by decide)

set_option maxRecDepth 100000 in
/-- C17 fails on the code: `readlink` does not end the bytes it stores in
`linkpath` with a NUL and `add_file` does not either, so the value written
for `Link Target` is the target followed by what the buffer held after it.
For the link `l` to `t`, written first, these are the bytes of the archive
creation date: the value is `t013-01-01T00:00:00Z`, and this is the link
target the decoder hands to the consumer. Written after the link `k` to
`target`, the value for `l` is `target1-01T00:00:00Z`. -/
theorem link_target_stale_bytes :
    demo_env.readlink "l".toList = some "t".toList
    ∧ (main_create demo_env demo_date ["l".toList] false no_stdin).2.stdout
      = demo_header ++ ("\nPath:\tl\nType:\tSymbolic Link\nLink Target:\tt013-01-01T00:00:00Z\n"
        ++ "User Name:\tu\nUser ID:\t1000\nGroup Name:\tg\nGroup ID:\t100\n"
        ++ "Permissions:\t0000777\nModification Time:\t1700000000\n").toList
    ∧ (scan_archive listfiles_consumer
        (World.start (main_create demo_env demo_date ["l".toList] false no_stdin).2.stdout
          false fs_ok fs_nodir)).calls.map (fun d => d.md.flinktarget)
      = [some "t013-01-01T00:00:00Z".toList]
    ∧ (scan_archive listfiles_consumer
        (World.start
          (main_create demo_env demo_date ["k".toList, "l".toList] false no_stdin).2.stdout
          false fs_ok fs_nodir)).calls.map (fun d => (d.md.fpath, d.md.flinktarget))
      = [(some "k".toList, some "target1-01T00:00:00Z".toList),
         (some "l".toList, some "target1-01T00:00:00Z".toList)] := by
  refine ⟨?_, ?_, ?_, ?_⟩ <;> decide

theorem add_file_unknown (env : EncEnv) (fname : CStr) (sb : Stat) (e : Enc) (pw gr : CStr)
    (hskip : ¬ ((sb.st_dev = e.stdoutdev ∧ sb.st_ino = e.stdoutino) ∨ fname = ".".toList))
    (hpw : env.getpwuid sb.st_uid = some pw) (hgr : env.getgrgid sb.st_gid = some gr)
    (hkind : kind_of_mode sb.st_mode = .UNKNOWN) :
    add_file env fname sb e = (1, (e.put write_blank).put (write_metadata "Path".toList fname)) := by
  unfold add_file
  rw [if_neg hskip]
  simp only [hpw, hgr]
  rcases kind_of_mode_cases sb.st_mode with h | h | h | h | h | h | h | h
  all_goals first
    | (rw [hkind] at h; exact absurd h.1 (by decide))
    | skip
  obtain ⟨_, h1, h2, h3, h4, h5, h6, h7⟩ := h
  simp [h1, h2, h3, h4, h5, h6, h7]

/-- The tree walk stops at the first entry for which `add_file` returns
nonzero. -/
theorem nftw_loop_stops (env : EncEnv) :
    ∀ (pre post : List (CStr × Stat)) (e : Enc), (nftw_loop env pre e).1 ≠ 0 →
      nftw_loop env (pre ++ post) e = nftw_loop env pre e := by
  intro pre
  induction pre with
  | nil => intro post e h; simp [nftw_loop] at h
  | cons p ps ih =>
    intro post e h
    obtain ⟨f, sb⟩ := p
    simp only [List.cons_append, nftw_loop] at h ⊢
    by_cases hr : (add_file env f sb e).1 = 0
    · simp only [hr, ne_eq, not_true_eq_false, if_false] at h ⊢
      exact ih post _ h
    · simp [hr]

/-- The loop over the paths of the command line stops at the first path for
which `archive_file` returns nonzero. -/
theorem archive_args_stops (env : EncEnv) :
    ∀ (pre post : List CStr) (e : Enc), (archive_args env pre e).1 ≠ 0 →
      archive_args env (pre ++ post) e = archive_args env pre e := by
  intro pre
  induction pre with
  | nil => intro post e h; simp [archive_args] at h
  | cons p ps ih =>
    intro post e h
    simp only [List.cons_append, archive_args] at h ⊢
    by_cases hr : (archive_file env p e).1 = 0
    · simp only [hr, ne_eq, not_true_eq_false, if_false] at h ⊢
      exact ih post _ h
    · simp [hr]

theorem archive_args_append (env : EncEnv) :
    ∀ (pre post : List CStr) (e : Enc), (archive_args env pre e).1 = 0 →
      archive_args env (pre ++ post) e = archive_args env post (archive_args env pre e).2 := by
  intro pre
  induction pre with
  | nil => intro post e _; rfl
  | cons p ps ih =>
    intro post e h
    simp only [List.cons_append, archive_args] at h ⊢
    by_cases hr : (archive_file env p e).1 = 0
    · simp only [hr, ne_eq, not_true_eq_false, if_false] at h ⊢
      exact ih post _ h
    · simp [hr] at h

theorem is_line_concat_newline (l : List Char) (h : '\n' ∉ l) : is_line (l ++ ['\n']) :=
  ⟨List.getLast?_concat _, by rw [List.dropLast_concat]; exact h⟩

/-- The loop over the paths read from `stdin` calls `archive_file` for every
line, whatever the calls before returned. -/
theorem archive_stdin_lines (env : EncEnv) :
    ∀ (lines : List CStr) (fuel : Nat) (s : Stdin) (e : Enc), (∀ l ∈ lines, '\n' ∉ l) →
      s.eof = false → s.buf = (lines.map (fun l => l ++ ['\n'])).flatten →
      s.buf.length < fuel →
      archive_stdin env fuel s e = lines.foldl (fun e l => (archive_file env (cstr l) e).2) e := by
  intro lines
  induction lines with
  | nil =>
    intro fuel s e _ _ hb hf
    cases fuel with
    | zero => omega
    | succ k =>
      simp only [List.map_nil, List.flatten_nil] at hb
      rw [archive_stdin, getline_nil s hb]
      rfl
  | cons l ls ih =>
    intro fuel s e hl he hb hf
    cases fuel with
    | zero => omega
    | succ k =>
      have hline := is_line_concat_newline l (hl l (by simp))
      have hb2 : s.buf = (l ++ ['\n']) ++ (ls.map (fun l => l ++ ['\n'])).flatten := by
        rw [hb]; simp
      have hg := getline_line s (l ++ ['\n']) _ hline (sane_of_eof_false _ he) hb2
      rw [archive_stdin, hg]
      simp only [List.getLast?_concat, if_true, List.dropLast_concat, List.foldl_cons]
      apply ih
      · intro x hx; exact hl x (by simp [hx])
      · exact he
      · rfl
      · rw [hb2] at hf
        simp only [List.length_append, List.length_singleton] at hf
        show ((ls.map (fun l => l ++ ['\n'])).flatten).length < k
        omega

/-- Once the loop over the paths of the command line has failed, more paths
on the command line and the option `--paths-from-stdin` change nothing. -/
theorem main_create_failed (env : EncEnv) (date : CStr) (args post : List CStr)
    (pathsfromstdin : Bool) (stdin stdin2 : Stdin)
    (h : (main_create env date args false stdin).1 = 1) :
    main_create env date (args ++ post) pathsfromstdin stdin2
      = main_create env date args false stdin := by
  unfold main_create at h ⊢
  cases hf : env.fstat_stdout with
  | none => rfl
  | some sb =>
    rw [hf] at h
    dsimp only at h ⊢
    by_cases hd : date = [] ∨ LINKPATH_SIZE ≤ date.length
    · rw [if_pos hd, if_pos hd]
    · rw [if_neg hd] at h ⊢
      rw [if_neg hd]
      dsimp only at h ⊢
      have key : ∀ e0 : Enc, (if (archive_args env args e0).1 ≠ 0 then 1 else 0) = 1 →
          ((if (archive_args env (args ++ post) e0).1 ≠ 0 then 1 else 0,
            if pathsfromstdin = true ∧ (archive_args env (args ++ post) e0).1 = 0 then
              archive_stdin env (stdin2.buf.length + 1) stdin2
                (archive_args env (args ++ post) e0).2
            else (archive_args env (args ++ post) e0).2) : Nat × Enc)
          = (if (archive_args env args e0).1 ≠ 0 then 1 else 0,
            if false = true ∧ (archive_args env args e0).1 = 0 then
              archive_stdin env (stdin.buf.length + 1) stdin (archive_args env args e0).2
            else (archive_args env args e0).2) := by
        intro e0 h
        have hr : (archive_args env args e0).1 ≠ 0 := by
          intro h0
          rw [h0] at h
          simp at h
        rw [archive_args_stops env args post e0 hr]
        simp [hr]
      exact key _ h

set_option maxRecDepth 100000 in
/-- C20 fails on the code as stated: with the entry `x` of no recognized type
before the directory `d` on the command line, the encoder writes the empty
line and the `Path` line of `x`, nothing for `d`, and exits with failure;
alone on the command line, `d` is written. -/
theorem unsupported_entry_aborts :
    (demo_env.lstat "x".toList).map (fun sb => kind_of_mode sb.st_mode) = some .UNKNOWN
    ∧ (demo_env.lstat "d".toList).map (fun sb => kind_of_mode sb.st_mode) = some .DIRECTORY
    ∧ (main_create demo_env demo_date ["x".toList, "d".toList] false no_stdin).1 = 1
    ∧ (main_create demo_env demo_date ["x".toList, "d".toList] false no_stdin).2.stdout
        = demo_header ++ "\nPath:\tx\n".toList
    ∧ (main_create demo_env demo_date ["d".toList] false no_stdin).2.stdout
        = demo_header ++ ("\nPath:\td\nType:\tDirectory\nUser Name:\tu\nUser ID:\t1000\n"
          ++ "Group Name:\tg\nGroup ID:\t100\nPermissions:\t0000755\n"
          ++ "Modification Time:\t1700000000\n"
          ++ "\nPath:\td/f\nType:\tRegular File\nFile Size:\t5\nUser Name:\tu\nUser ID:\t1000\n"
          ++ "Group Name:\tg\nGroup ID:\t100\nPermissions:\t0000644\n"
          ++ "Modification Time:\t1700000000\n---\nhello---\n").toList := by
  refine ⟨?_, ?_, ?_, ?_, ?_⟩ <;> decide

/-- C20, amended: for an entry whose type is none of the seven, `add_file`
returns 1, and so does `archive_file` for a path that names it. A nonzero
return value of `add_file` ends the tree walk: the entries after it in the
walk are not visited. A nonzero return value of `archive_file` ends the loop
over the paths of the command line: once the encode of some paths has failed,
the exit status is failure, and paths after them on the command line and the
option `--paths-from-stdin` change nothing of what is written. Only the loop
over the paths read from `stdin` goes on after a failure: it calls
`archive_file` for every line. -/
theorem unsupported_entry_ends_encode (env : EncEnv) :
    (∀ (fname : CStr) (sb : Stat) (e : Enc) (pw gr : CStr),
        ¬ ((sb.st_dev = e.stdoutdev ∧ sb.st_ino = e.stdoutino) ∨ fname = ".".toList) →
        env.getpwuid sb.st_uid = some pw → env.getgrgid sb.st_gid = some gr →
        kind_of_mode sb.st_mode = .UNKNOWN →
        (add_file env fname sb e).1 = 1
        ∧ (env.lstat fname = some sb → (archive_file env fname e).1 = 1))
    ∧ (∀ (pre post : List (CStr × Stat)) (e : Enc), (nftw_loop env pre e).1 ≠ 0 →
        nftw_loop env (pre ++ post) e = nftw_loop env pre e)
    ∧ (∀ (date : CStr) (args post : List CStr) (pathsfromstdin : Bool) (stdin stdin2 : Stdin),
        (main_create env date args false stdin).1 = 1 →
        main_create env date (args ++ post) pathsfromstdin stdin2
          = main_create env date args false stdin)
    ∧ (∀ (lines : List CStr) (s : Stdin) (e : Enc), (∀ l ∈ lines, '\n' ∉ l) → s.eof = false →
        s.buf = (lines.map (fun l => l ++ ['\n'])).flatten →
        archive_stdin env (s.buf.length + 1) s e
          = lines.foldl (fun e l => (archive_file env (cstr l) e).2) e) := by
  refine ⟨?_, nftw_loop_stops env, main_create_failed env, ?_⟩
  · intro fname sb e pw gr hskip hpw hgr hk
    have h := add_file_unknown env fname sb e pw gr hskip hpw hgr hk
    refine ⟨by rw [h], ?_⟩
    intro hl
    have hd : S_IS S_IFDIR sb.st_mode = false := by
      rcases kind_of_mode_cases sb.st_mode with c | c | c | c | c | c | c | c
      all_goals first
        | (rw [hk] at c; exact absurd c.1 (by decide))
        | exact c.2.2.1
    unfold archive_file
    rw [hl]
    simp only [hd, Bool.false_eq_true, if_false]
    rw [h]
  · intro lines s e hl he hb
    exact archive_stdin_lines env lines _ s e hl he hb (Nat.lt_succ_self _)

set_option maxRecDepth 100000 in
/-- C20, amended, at the example: the path `d` after `x` changes nothing. -/
theorem unsupported_entry_ends_encode_witness :
    (main_create demo_env demo_date ["x".toList] false no_stdin).1 = 1
    ∧ main_create demo_env demo_date (["x".toList] ++ ["d".toList]) false no_stdin
        = main_create demo_env demo_date ["x".toList] false no_stdin :=
  ⟨by decide,
   (unsupported_entry_ends_encode demo_env).2.2.1 demo_date ["x".toList] ["d".toList] false
     no_stdin no_stdin (by decide)⟩

theorem field_eq_write_metadata (k v : CStr) : field k v = write_metadata k v := rfl

/-- A field that `handle_metadata` accepts, at the head of the lines. -/
theorem fold_lines_field (k key v : CStr) (m m1 : Metadata) (ls : List (List Char))
    (hk : IsKeyText k) (hkey : lower_nospace k = key) (hv : IsPlain v)
    (hh : handle_metadata key v m = (0, m1)) :
    fold_lines m (field k v :: ls) = fold_lines m1 ls := by
  rw [fold_lines, field_eq_write_metadata, parse_write_metadata k v hk hv, hkey]
  simp only [hh, if_true]

theorem handle_path (v : CStr) (m : Metadata) (hv : v ≠ []) (h : m.fpath = none) :
    handle_metadata "path".toList v m = (0, { m with fpath := some v }) := by
  simp [handle_metadata, hv, h]

theorem type_label_plain (t : FType) (ht : t ≠ .UNKNOWN) : IsPlain (type_label t) := by
  cases t <;> first | exact absurd rfl ht | decide

theorem handle_type (t : FType) (m : Metadata) (ht : t ≠ .UNKNOWN) (h : m.ftype = .UNKNOWN) :
    handle_metadata "type".toList (type_label t) m = (0, { m with ftype := t }) := by
  have hv : type_label t ≠ [] := (type_label_plain t ht).1
  have hn : ftype_of_name (transformkey (type_label t)) = some t := by
    cases t <;> first | exact absurd rfl ht | decide
  simp [handle_metadata, hv, h, hn]

theorem numeral_ne_nil (n : Nat) : numeral 10 n ≠ [] := (numeral_plain n).1

theorem strtoull_numeral (n : Nat) (hn : n ≤ ULLONG_MAX) :
    strtoull 10 (numeral 10 n) = ⟨n, false⟩ := by
  obtain ⟨h1, h2, h3, _⟩ := numeral_spec 10 n (by decide) (by decide)
  have := strtoull_digits 10 (numeral 10 n) (by decide) h3 h1 (by rw [h2]; exact hn)
  rw [h2] at this
  exact this

theorem strtol_numeral (n : Nat) (hn : n ≤ LONG_MAX) :
    strtol 10 (numeral 10 n) = ⟨(n : Int), false⟩ := by
  obtain ⟨h1, h2, h3, _⟩ := numeral_spec 10 n (by decide) (by decide)
  have := strtol_digits 10 (numeral 10 n) (by decide) h3 h1 (by rw [h2]; exact hn)
  rw [h2] at this
  exact this

theorem handle_filesize (n : Nat) (m : Metadata) (hn : n ≤ ULLONG_MAX)
    (h : m.fsizegiven = false) :
    handle_metadata "filesize".toList (numeral 10 n) m
      = (0, { m with fsize := n, fsizegiven := true }) := by
  simp [handle_metadata, numeral_ne_nil, h, strtoull_numeral n hn]

theorem handle_linktarget (v : CStr) (m : Metadata) (hv : v ≠ []) (h : m.flinktarget = none) :
    handle_metadata "linktarget".toList v m = (0, { m with flinktarget := some v }) := by
  simp [handle_metadata, hv, h]

theorem handle_major (n : Nat) (m : Metadata) (hn : n ≤ LONG_MAX) (h : m.fmajor = -1) :
    handle_metadata "major".toList (numeral 10 n) m = (0, { m with fmajor := (n : Int) }) := by
  simp [handle_metadata, numeral_ne_nil, h, strtol_numeral n hn]

theorem handle_minor (n : Nat) (m : Metadata) (hn : n ≤ LONG_MAX) (h : m.fminor = -1) :
    handle_metadata "minor".toList (numeral 10 n) m = (0, { m with fminor := (n : Int) }) := by
  simp [handle_metadata, numeral_ne_nil, h, strtol_numeral n hn]

theorem handle_username (v : CStr) (m : Metadata) (hv : v ≠ []) (h : m.fusername = none) :
    handle_metadata "username".toList v m = (0, { m with fusername := some v }) := by
  simp [handle_metadata, hv, h]

theorem handle_groupname (v : CStr) (m : Metadata) (hv : v ≠ []) (h : m.fgroupname = none) :
    handle_metadata "groupname".toList v m = (0, { m with fgroupname := some v }) := by
  simp [handle_metadata, hv, h]

theorem handle_userid (n : Nat) (m : Metadata) (hn : n ≤ ULLONG_MAX) (h : m.fuidgiven = false) :
    handle_metadata "userid".toList (numeral 10 n) m
      = (0, { m with fuid := n % 2 ^ 32, fuidgiven := true }) := by
  simp [handle_metadata, numeral_ne_nil, h, strtoull_numeral n hn]

theorem handle_groupid (n : Nat) (m : Metadata) (hn : n ≤ ULLONG_MAX) (h : m.fgidgiven = false) :
    handle_metadata "groupid".toList (numeral 10 n) m
      = (0, { m with fgid := n % 2 ^ 32, fgidgiven := true }) := by
  simp [handle_metadata, numeral_ne_nil, h, strtoull_numeral n hn]

theorem handle_modificationtime (n : Nat) (m : Metadata) (hn : n ≤ ULLONG_MAX)
    (h : m.fmtimegiven = false) :
    handle_metadata "modificationtime".toList (numeral 10 n) m
      = (0, { m with fmtime := to_time_t n, fmtimegiven := true }) := by
  simp [handle_metadata, numeral_ne_nil, h, strtoull_numeral n hn]

theorem handle_permissions (p : Nat) (m : Metadata) (hp : p < 2 ^ 32)
    (hbits : p &&& S_IFMT = 0) (h : m.fmodegiven = false) :
    handle_metadata "permissions".toList (octal7 p) m
      = (0, { m with fmode := p, fmodegiven := true }) := by
  have hspec := octal7_spec p
  have := handle_permissions_digits (octal7 p) m h (octal7_ne_nil p) hspec.1
    (by rw [hspec.2.1]; exact hp) (by rw [hspec.2.1]; exact hbits)
  rw [hspec.2.1] at this
  exact this

theorem fold_lines_append (a b : List (List Char)) :
    ∀ m : Metadata, fold_lines m (a ++ b) = (fold_lines m a).bind (fun m1 => fold_lines m1 b) := by
  induction a with
  | nil => intro m; rfl
  | cons l ls ih =>
    intro m
    simp only [List.cons_append, fold_lines]
    split
    · split
      · exact ih _
      · rfl
    · rfl

theorem key_texts :
    IsKeyText "Path".toList ∧ IsKeyText "Type".toList ∧ IsKeyText "File Size".toList
    ∧ IsKeyText "Link Target".toList ∧ IsKeyText "Major".toList ∧ IsKeyText "Minor".toList
    ∧ IsKeyText "User Name".toList ∧ IsKeyText "User ID".toList
    ∧ IsKeyText "Group Name".toList ∧ IsKeyText "Group ID".toList
    ∧ IsKeyText "Permissions".toList ∧ IsKeyText "Modification Time".toList :=
  ⟨⟨_, _, rfl, by decide, by decide⟩, ⟨_, _, rfl, by decide, by decide⟩,
   ⟨_, _, rfl, by decide, by decide⟩, ⟨_, _, rfl, by decide, by decide⟩,
   ⟨_, _, rfl, by decide, by decide⟩, ⟨_, _, rfl, by decide, by decide⟩,
   ⟨_, _, rfl, by decide, by decide⟩, ⟨_, _, rfl, by decide, by decide⟩,
   ⟨_, _, rfl, by decide, by decide⟩, ⟨_, _, rfl, by decide, by decide⟩,
   ⟨_, _, rfl, by decide, by decide⟩, ⟨_, _, rfl, by decide, by decide⟩⟩

theorem fold_path (v : CStr) (hv : IsPlain v) (ls : List (List Char)) (m : Metadata)
    (h : m.fpath = none) :
    fold_lines m (field "Path".toList v :: ls) = fold_lines { m with fpath := some v } ls :=
  fold_lines_field _ "path".toList v m _ ls key_texts.1 rfl hv (handle_path v m hv.1 h)

theorem fold_type (t : FType) (ht : t ≠ .UNKNOWN) (ls : List (List Char)) (m : Metadata)
    (h : m.ftype = .UNKNOWN) :
    fold_lines m (field "Type".toList (type_label t) :: ls)
      = fold_lines { m with ftype := t } ls :=
  fold_lines_field _ "type".toList _ m _ ls key_texts.2.1 rfl (type_label_plain t ht)
    (handle_type t m ht h)

theorem fold_filesize (n : Nat) (hn : n ≤ ULLONG_MAX) (ls : List (List Char)) (m : Metadata)
    (h : m.fsizegiven = false) :
    fold_lines m (field "File Size".toList (numeral 10 n) :: ls)
      = fold_lines { m with fsize := n, fsizegiven := true } ls :=
  fold_lines_field _ "filesize".toList _ m _ ls key_texts.2.2.1 rfl (numeral_plain n)
    (handle_filesize n m hn h)

theorem fold_linktarget (v : CStr) (hv : IsPlain v) (ls : List (List Char)) (m : Metadata)
    (h : m.flinktarget = none) :
    fold_lines m (field "Link Target".toList v :: ls)
      = fold_lines { m with flinktarget := some v } ls :=
  fold_lines_field _ "linktarget".toList v m _ ls key_texts.2.2.2.1 rfl hv
    (handle_linktarget v m hv.1 h)

theorem fold_major (n : Nat) (hn : n ≤ LONG_MAX) (ls : List (List Char)) (m : Metadata)
    (h : m.fmajor = -1) :
    fold_lines m (field "Major".toList (numeral 10 n) :: ls)
      = fold_lines { m with fmajor := (n : Int) } ls :=
  fold_lines_field _ "major".toList _ m _ ls key_texts.2.2.2.2.1 rfl (numeral_plain n)
    (handle_major n m hn h)

theorem fold_minor (n : Nat) (hn : n ≤ LONG_MAX) (ls : List (List Char)) (m : Metadata)
    (h : m.fminor = -1) :
    fold_lines m (field "Minor".toList (numeral 10 n) :: ls)
      = fold_lines { m with fminor := (n : Int) } ls :=
  fold_lines_field _ "minor".toList _ m _ ls key_texts.2.2.2.2.2.1 rfl (numeral_plain n)
    (handle_minor n m hn h)

theorem fold_username (v : CStr) (hv : IsPlain v) (ls : List (List Char)) (m : Metadata)
    (h : m.fusername = none) :
    fold_lines m (field "User Name".toList v :: ls)
      = fold_lines { m with fusername := some v } ls :=
  fold_lines_field _ "username".toList v m _ ls key_texts.2.2.2.2.2.2.1 rfl hv
    (handle_username v m hv.1 h)

theorem fold_userid (n : Nat) (hn : n ≤ ULLONG_MAX) (ls : List (List Char)) (m : Metadata)
    (h : m.fuidgiven = false) :
    fold_lines m (field "User ID".toList (numeral 10 n) :: ls)
      = fold_lines { m with fuid := n % 2 ^ 32, fuidgiven := true } ls :=
  fold_lines_field _ "userid".toList _ m _ ls key_texts.2.2.2.2.2.2.2.1 rfl (numeral_plain n)
    (handle_userid n m hn h)

theorem fold_groupname (v : CStr) (hv : IsPlain v) (ls : List (List Char)) (m : Metadata)
    (h : m.fgroupname = none) :
    fold_lines m (field "Group Name".toList v :: ls)
      = fold_lines { m with fgroupname := some v } ls :=
  fold_lines_field _ "groupname".toList v m _ ls key_texts.2.2.2.2.2.2.2.2.1 rfl hv
    (handle_groupname v m hv.1 h)

theorem fold_groupid (n : Nat) (hn : n ≤ ULLONG_MAX) (ls : List (List Char)) (m : Metadata)
    (h : m.fgidgiven = false) :
    fold_lines m (field "Group ID".toList (numeral 10 n) :: ls)
      = fold_lines { m with fgid := n % 2 ^ 32, fgidgiven := true } ls :=
  fold_lines_field _ "groupid".toList _ m _ ls key_texts.2.2.2.2.2.2.2.2.2.1 rfl
    (numeral_plain n) (handle_groupid n m hn h)

theorem fold_permissions (p : Nat) (hp : p < 2 ^ 32) (hbits : p &&& S_IFMT = 0)
    (ls : List (List Char)) (m : Metadata) (h : m.fmodegiven = false) :
    fold_lines m (field "Permissions".toList (octal7 p) :: ls)
      = fold_lines { m with fmode := p, fmodegiven := true } ls :=
  fold_lines_field _ "permissions".toList _ m _ ls key_texts.2.2.2.2.2.2.2.2.2.2.1 rfl
    (octal7_plain p) (handle_permissions p m hp hbits h)

theorem fold_modificationtime (n : Nat) (hn : n ≤ ULLONG_MAX) (ls : List (List Char))
    (m : Metadata) (h : m.fmtimegiven = false) :
    fold_lines m (field "Modification Time".toList (numeral 10 n) :: ls)
      = fold_lines { m with fmtime := to_time_t n, fmtimegiven := true } ls :=
  fold_lines_field _ "modificationtime".toList _ m _ ls key_texts.2.2.2.2.2.2.2.2.2.2.2 rfl
    (numeral_plain n) (handle_modificationtime n m hn h)

/-- The six fields that end every record, read by the decoder. -/
theorem fold_tail_fields (m : Metadata) (pw gr : CStr) (uid gid perm mtime : Nat)
    (h1 : m.fusername = none) (h2 : m.fuidgiven = false) (h3 : m.fgroupname = none)
    (h4 : m.fgidgiven = false) (h5 : m.fmodegiven = false) (h6 : m.fmtimegiven = false)
    (hpw : IsPlain pw) (hgr : IsPlain gr) (huid : uid ≤ ULLONG_MAX) (hgid : gid ≤ ULLONG_MAX)
    (hperm : perm < 2 ^ 32) (hbits : perm &&& S_IFMT = 0) (hmt : mtime ≤ ULLONG_MAX) :
    fold_lines m
      [field "User Name".toList pw, field "User ID".toList (numeral 10 uid),
       field "Group Name".toList gr, field "Group ID".toList (numeral 10 gid),
       field "Permissions".toList (octal7 perm),
       field "Modification Time".toList (numeral 10 mtime)]
      = some { m with fusername := some pw, fuid := uid % 2 ^ 32, fuidgiven := true,
                      fgroupname := some gr, fgid := gid % 2 ^ 32, fgidgiven := true,
                      fmode := perm, fmodegiven := true, fmtime := to_time_t mtime,
                      fmtimegiven := true } := by
  rw [fold_username pw hpw _ m h1, fold_userid uid huid _ _ (by exact h2),
    fold_groupname gr hgr _ _ (by exact h3), fold_groupid gid hgid _ _ (by exact h4),
    fold_permissions perm hperm hbits _ _ (by exact h5),
    fold_modificationtime mtime hmt _ _ (by exact h6)]
  rfl

/-- The decoder reads the fields of a record into the metadata they stand
for. -/
theorem fold_entry_fields (t : FType) (fname : CStr) (size major minor : Nat)
    (linktext pw gr : CStr) (uid gid perm mtime : Nat)
    (ht : t ≠ .UNKNOWN) (hf : IsPlain fname) (hpw : IsPlain pw) (hgr : IsPlain gr)
    (hl : t = .SYMLINK → IsPlain linktext)
    (hsize : size ≤ ULLONG_MAX) (hmaj : major ≤ LONG_MAX) (hmin : minor ≤ LONG_MAX)
    (huid : uid ≤ ULLONG_MAX) (hgid : gid ≤ ULLONG_MAX)
    (hperm : perm < 2 ^ 32) (hbits : perm &&& S_IFMT = 0) (hmt : mtime ≤ ULLONG_MAX) :
    fold_lines Metadata.init
        (entry_fields t fname size major minor linktext pw uid gr gid perm mtime)
      = some (entry_metadata t fname size major minor linktext pw (uid % 2 ^ 32) gr
          (gid % 2 ^ 32) perm (to_time_t mtime)) := by
  unfold entry_fields
  rw [fold_lines_append, fold_lines_append]
  rw [fold_path fname hf _ Metadata.init rfl, fold_type t ht _ _ (by exact rfl)]
  have h0 : ∀ m : Metadata, fold_lines m [] = some m := fun _ => rfl
  rw [h0]
  simp only [Option.bind_eq_bind, Option.some_bind]
  cases t with
  | UNKNOWN => exact absurd rfl ht
  | REGULARFILE =>
    simp only []
    rw [fold_filesize size hsize _ _ (by exact rfl), h0]
    simp only [Option.some_bind]
    rw [fold_tail_fields _ pw gr uid gid perm mtime rfl rfl rfl rfl rfl rfl hpw hgr huid hgid
      hperm hbits hmt]
    rfl
  | DIRECTORY =>
    simp only []
    rw [h0]
    simp only [Option.some_bind]
    rw [fold_tail_fields _ pw gr uid gid perm mtime rfl rfl rfl rfl rfl rfl hpw hgr huid hgid
      hperm hbits hmt]
    rfl
  | SYMLINK =>
    simp only []
    rw [fold_linktarget linktext (hl rfl) _ _ (by exact rfl), h0]
    simp only [Option.some_bind]
    rw [fold_tail_fields _ pw gr uid gid perm mtime rfl rfl rfl rfl rfl rfl hpw hgr huid hgid
      hperm hbits hmt]
    rfl
  | CHARDEVICE =>
    simp only []
    rw [fold_major major hmaj _ _ (by exact rfl), fold_minor minor hmin _ _ (by exact rfl), h0]
    simp only [Option.some_bind]
    rw [fold_tail_fields _ pw gr uid gid perm mtime rfl rfl rfl rfl rfl rfl hpw hgr huid hgid
      hperm hbits hmt]
    rfl
  | BLOCKDEVICE =>
    simp only []
    rw [fold_major major hmaj _ _ (by exact rfl), fold_minor minor hmin _ _ (by exact rfl), h0]
    simp only [Option.some_bind]
    rw [fold_tail_fields _ pw gr uid gid perm mtime rfl rfl rfl rfl rfl rfl hpw hgr huid hgid
      hperm hbits hmt]
    rfl
  | FIFO =>
    simp only []
    rw [h0]
    simp only [Option.some_bind]
    rw [fold_tail_fields _ pw gr uid gid perm mtime rfl rfl rfl rfl rfl rfl hpw hgr huid hgid
      hperm hbits hmt]
    rfl
  | SOCKET =>
    simp only []
    rw [h0]
    simp only [Option.some_bind]
    rw [fold_tail_fields _ pw gr uid gid perm mtime rfl rfl rfl rfl rfl rfl hpw hgr huid hgid
      hperm hbits hmt]
    rfl

/-- An archive that starts with an empty line has no header: the entry loop
starts right after that line, with line number 1. -/
theorem scan_archive_blank_start (c : Consumer) (w : World) (rest : List Char)
    (heof : w.stdin.eof = false) (hbuf : w.stdin.buf = '\n' :: rest) :
    scan_archive c w = scan_entries c
      { state := .SEEKING_METADATA, lineno := 1, md := Metadata.init,
        w := { w with stdin := { w.stdin with buf := rest } }, calls := [] } := by
  have hline : is_line ['\n'] := by decide
  have hstop : header_step ['\n'] = .stop := by decide
  have hg := getline_line w.stdin ['\n'] rest hline (sane_of_eof_false _ heof) hbuf
  unfold scan_archive
  simp only [scan_header, hg, hstop, heof, Bool.false_eq_true, if_false]

theorem is_line_field (k v : CStr) (hk : '\n' ∉ k) (hv : '\n' ∉ v) : is_line (field k v) :=
  is_line_write_metadata k v hk hv

theorem numeral_no_newline (n : Nat) : '\n' ∉ numeral 10 n := (numeral_plain n).2.2.1

theorem entry_fields_lines (t : FType) (fname : CStr) (size major minor : Nat)
    (linktext pw gr : CStr) (uid gid perm mtime : Nat)
    (hf : '\n' ∉ fname) (hpw : '\n' ∉ pw) (hgr : '\n' ∉ gr)
    (hl : t = .SYMLINK → '\n' ∉ linktext) :
    ∀ l ∈ entry_fields t fname size major minor linktext pw uid gr gid perm mtime, is_line l := by
  have htl : '\n' ∉ type_label t := by cases t <;> decide
  have ho : '\n' ∉ octal7 perm := (octal7_plain perm).2.2.1
  have A : ∀ l ∈ [field "Path".toList fname, field "Type".toList (type_label t)],
      is_line l := by
    intro l h
    simp only [List.mem_cons, List.mem_singleton, List.not_mem_nil, or_false] at h
    rcases h with rfl | rfl
    · exact is_line_field _ _ (by decide) hf
    · exact is_line_field _ _ (by decide) htl
  have D : ∀ a b : Nat, ∀ l ∈ [field "Major".toList (numeral 10 a),
      field "Minor".toList (numeral 10 b)], is_line l := by
    intro a b l h
    simp only [List.mem_cons, List.mem_singleton, List.not_mem_nil, or_false] at h
    rcases h with rfl | rfl
    · exact is_line_field _ _ (by decide) (numeral_no_newline _)
    · exact is_line_field _ _ (by decide) (numeral_no_newline _)
  have B : ∀ l ∈ (match t with
      | .REGULARFILE => [field "File Size".toList (numeral 10 size)]
      | .SYMLINK => [field "Link Target".toList linktext]
      | .CHARDEVICE =>
        [field "Major".toList (numeral 10 major), field "Minor".toList (numeral 10 minor)]
      | .BLOCKDEVICE =>
        [field "Major".toList (numeral 10 major), field "Minor".toList (numeral 10 minor)]
      | _ => []), is_line l := by
    intro l h
    cases t with
    | REGULARFILE =>
      simp only [List.mem_singleton] at h
      rw [h]; exact is_line_field _ _ (by decide) (numeral_no_newline _)
    | SYMLINK =>
      simp only [List.mem_singleton] at h
      rw [h]; exact is_line_field _ _ (by decide) (hl rfl)
    | CHARDEVICE => exact D _ _ l h
    | BLOCKDEVICE => exact D _ _ l h
    | UNKNOWN => simp at h
    | DIRECTORY => simp at h
    | FIFO => simp at h
    | SOCKET => simp at h
  have C : ∀ l ∈ [field "User Name".toList pw, field "User ID".toList (numeral 10 uid),
      field "Group Name".toList gr, field "Group ID".toList (numeral 10 gid),
      field "Permissions".toList (octal7 perm),
      field "Modification Time".toList (numeral 10 mtime)], is_line l := by
    intro l h
    simp only [List.mem_cons, List.mem_singleton, List.not_mem_nil, or_false] at h
    rcases h with rfl | rfl | rfl | rfl | rfl | rfl
    · exact is_line_field _ _ (by decide) hpw
    · exact is_line_field _ _ (by decide) (numeral_no_newline _)
    · exact is_line_field _ _ (by decide) hgr
    · exact is_line_field _ _ (by decide) (numeral_no_newline _)
    · exact is_line_field _ _ (by decide) ho
    · exact is_line_field _ _ (by decide) (numeral_no_newline _)
  intro l hl'
  unfold entry_fields at hl'
  rcases List.mem_append.mp hl' with h | h
  · rcases List.mem_append.mp h with h | h
    · exact A l h
    · exact B l h
  · exact C l h

theorem entry_fields_ne_nil (t : FType) (fname : CStr) (size major minor : Nat)
    (linktext pw gr : CStr) (uid gid perm mtime : Nat) :
    entry_fields t fname size major minor linktext pw uid gr gid perm mtime ≠ [] := by
  unfold entry_fields
  simp

/-- The metadata of a record of a recognized type are complete. -/
theorem entry_metadata_complete (t : FType) (fname : CStr) (size major minor : Nat)
    (linktext pw gr : CStr) (uid gid perm : Nat) (mtime : Int) (ht : t ≠ .UNKNOWN) :
    is_invalid_metadata
      (entry_metadata t fname size major minor linktext pw uid gr gid perm mtime) = 0 := by
  have h1 : (major : Int) ≠ -1 := by omega
  have h2 : (minor : Int) ≠ -1 := by omega
  cases t <;> first
    | exact absurd rfl ht
    | simp [is_invalid_metadata, entry_metadata, h1, h2]

theorem to_time_t_roundtrip (t : Int) (h1 : -2 ^ 63 ≤ t) (h2 : t < 2 ^ 63) :
    to_time_t (t % 2 ^ 64).toNat = t := by
  have e1 : 0 ≤ t % 2 ^ 64 := Int.emod_nonneg _ (by decide)
  have e2 : t % 2 ^ 64 < 2 ^ 64 := Int.emod_lt_of_pos _ (by decide)
  have e3 : ((t % 2 ^ 64).toNat : Int) = t % 2 ^ 64 := Int.toNat_of_nonneg e1
  have e4 : (t % 2 ^ 64).toNat < 2 ^ 64 := by omega
  have e5 : (t % 2 ^ 64).toNat % 2 ^ 64 = (t % 2 ^ 64).toNat := Nat.mod_eq_of_lt e4
  unfold to_time_t
  rw [e5]
  split
  · rename_i h
    rw [e3]
    omega
  · rename_i h
    rw [e3]
    omega

theorem path_of_complete (m : Metadata) (h : is_invalid_metadata m = 0) :
    m.fpath.isSome = true := by
  unfold is_invalid_metadata at h
  cases hp : m.fpath with
  | none => simp [hp] at h
  | some p => rfl

/-- The decode of the text of one record: the decode succeeds with one call
of the consumer, for the metadata of the record and, for a regular file, the
contents as the next unread bytes. -/
theorem decode_entry_text (c : Consumer) (w : World) (t : FType) (fname : CStr)
    (size major minor : Nat) (linktext pw gr : CStr) (uid gid perm mtime : Nat)
    (contents : List Char)
    (ht : t ≠ .UNKNOWN) (hf : IsPlain fname) (hpw : IsPlain pw) (hgr : IsPlain gr)
    (hl : t = .SYMLINK → IsPlain linktext)
    (hsize : size ≤ ULLONG_MAX) (hmaj : major ≤ LONG_MAX) (hmin : minor ≤ LONG_MAX)
    (huid : uid ≤ ULLONG_MAX) (hgid : gid ≤ ULLONG_MAX)
    (hperm : perm < 2 ^ 32) (hbits : perm &&& S_IFMT = 0) (hmt : mtime ≤ ULLONG_MAX)
    (hreg : t = .REGULARFILE → size = contents.length)
    (heof : w.stdin.eof = false)
    (hbuf : w.stdin.buf
      = entry_text t fname size major minor linktext pw uid gr gid perm mtime contents)
    (hc : c.accepts (entry_metadata t fname size major minor linktext pw (uid % 2 ^ 32) gr
      (gid % 2 ^ 32) perm (to_time_t mtime))) :
    (scan_archive c w).ret = 0
    ∧ (scan_archive c w).calls.map Dispatch.view
      = [(entry_metadata t fname size major minor linktext pw (uid % 2 ^ 32) gr
          (gid % 2 ^ 32) perm (to_time_t mtime), if t = .REGULARFILE then contents else [])] := by
  have hfold := fold_entry_fields t fname size major minor linktext pw gr uid gid perm mtime ht
    hf hpw hgr hl hsize hmaj hmin huid hgid hperm hbits hmt
  have hlines := entry_fields_lines t fname size major minor linktext pw gr uid gid perm mtime
    hf.2.2.1 hpw.2.2.1 hgr.2.2.1 (fun h => (hl h).2.2.1)
  have hne := entry_fields_ne_nil t fname size major minor linktext pw gr uid gid perm mtime
  rw [scan_archive_blank_start c w _ heof hbuf]
  have h := scan_entries_records c [] []
    ⟨entry_fields t fname size major minor linktext pw uid gr gid perm mtime, contents⟩
    (entry_metadata t fname size major minor linktext pw (uid % 2 ^ 32) gr (gid % 2 ^ 32) perm
      (to_time_t mtime))
    { state := .SEEKING_METADATA, lineno := 1, md := Metadata.init,
      w := { w with stdin := { w.stdin with buf :=
        (entry_fields t fname size major minor linktext pw uid gr gid perm mtime).flatten
          ++ (if t = .REGULARFILE then "---\n".toList ++ contents ++ "---\n".toList else []) } },
      calls := [] }
    rfl (sane_of_eof_false _ heof)
    ⟨hne, hlines, hfold, fun hr => by
      have hr2 : t = .REGULARFILE := hr
      refine ⟨by simp [entry_metadata, hr2], ?_⟩
      simp only [entry_metadata]
      rw [if_pos hr2]
      exact hreg hr2, trivial⟩
    (by intro m hm; simp only [List.mem_singleton] at hm; rw [hm]; exact hc)
    (by simp [Record.text, records_text, entry_metadata])
  simpa [records_view, entry_metadata] using h

set_option maxRecDepth 100000 in
/-- C16 fails on the code as stated: for a directory with the name `a `, with
a space at its end, `add_file` writes the line `Path:<TAB>a ` and the decoder,
which trims the value, dispatches the entry with the path `a`. -/
theorem path_with_space_not_kept :
    (add_file demo_env "a ".toList demo_dir_stat demo_enc).1 = 0
    ∧ (add_file demo_env "a ".toList demo_dir_stat demo_enc).2.stdout
      = ("\nPath:\ta \nType:\tDirectory\nUser Name:\tu\nUser ID:\t1000\nGroup Name:\tg\n"
        ++ "Group ID:\t100\nPermissions:\t0000755\nModification Time:\t1700000000\n").toList
    ∧ (scan_archive listfiles_consumer
        (World.start (add_file demo_env "a ".toList demo_dir_stat demo_enc).2.stdout false
          fs_ok fs_nodir)).calls.map (fun d => d.md.fpath) = [some "a".toList] := by
  refine ⟨?_, ?_, ?_⟩ <;> decide

/-- C16, amended: for an entry of one of the seven types that `add_file`
does not skip and can read, whose path, owner name and group name (and, for a
symbolic link, the text written as link target) are not empty, hold no NUL and
no newline and neither start nor end with whitespace, whose user and group ids
fit 32 bits, whose modification time fits a signed 64-bit number and, for a
regular file, whose contents have the length given by its size: the decode of
the record that `add_file` writes returns 0 and calls the consumer exactly
once (a consumer that takes complete entries), with the path, the type, the
permission bits without the file-type bits, the user and group ids and the
modification time of the entry. -/
theorem encoded_entry_decodes (env : EncEnv) (fname : CStr) (sb : Stat) (e : Enc)
    (pw gr : CStr) (c : Consumer) (w : World)
    (hskip : ¬ ((sb.st_dev = e.stdoutdev ∧ sb.st_ino = e.stdoutino) ∨ fname = ".".toList))
    (hpw : env.getpwuid sb.st_uid = some pw) (hgr : env.getgrgid sb.st_gid = some gr)
    (hkind : kind_of_mode sb.st_mode ≠ .UNKNOWN)
    (hopen : kind_of_mode sb.st_mode = .REGULARFILE → (env.fopen fname).isSome = true)
    (hlink : kind_of_mode sb.st_mode = .SYMLINK → (env.readlink fname).isSome = true)
    (hout : e.stdout = [])
    (hf : IsPlain fname) (hpwp : IsPlain pw) (hgrp : IsPlain gr)
    (hlt : kind_of_mode sb.st_mode = .SYMLINK →
      IsPlain (cstr (store (((env.readlink fname).getD []).take (LINKPATH_SIZE - 1)) e.linkpath)))
    (hsize : kind_of_mode sb.st_mode = .REGULARFILE →
      ((env.fopen fname).getD []).length = sb.st_size ∧ sb.st_size < 2 ^ 64)
    (huid : sb.st_uid < 2 ^ 32) (hgid : sb.st_gid < 2 ^ 32)
    (hmt : -2 ^ 63 ≤ sb.st_mtime ∧ sb.st_mtime < 2 ^ 63)
    (heof : w.stdin.eof = false) (hbuf : w.stdin.buf = (add_file env fname sb e).2.stdout)
    (hc : ∀ m, is_invalid_metadata m = 0 → c.accepts m) :
    (add_file env fname sb e).1 = 0 ∧ (scan_archive c w).ret = 0
    ∧ ∃ d, (scan_archive c w).calls = [d] ∧ d.md.fpath = some fname
        ∧ d.md.ftype = kind_of_mode sb.st_mode ∧ d.md.fmode = permission_bits sb.st_mode
        ∧ d.md.fuid = sb.st_uid ∧ d.md.fgid = sb.st_gid ∧ d.md.fmtime = sb.st_mtime := by
  have hadd := add_file_eq env fname sb e pw gr hskip hpw hgr hkind hopen hlink
  have hret : (add_file env fname sb e).1 = 0 := by rw [hadd]
  have hbuf2 : w.stdin.buf = entry_text (kind_of_mode sb.st_mode) fname (sb.st_size % 2 ^ 64)
      (env.major sb.st_rdev % 2 ^ 32) (env.minor sb.st_rdev % 2 ^ 32)
      (cstr (store (((env.readlink fname).getD []).take (LINKPATH_SIZE - 1)) e.linkpath)) pw
      (sb.st_uid % 2 ^ 64) gr (sb.st_gid % 2 ^ 64) (permission_bits sb.st_mode)
      (sb.st_mtime % 2 ^ 64).toNat ((env.fopen fname).getD []) := by
    rw [hbuf, hadd]
    show e.stdout ++ _ = _
    rw [hout]
    rfl
  clear hadd hbuf
  have hm1 : 0 ≤ sb.st_mtime % 2 ^ 64 := Int.emod_nonneg _ (by decide)
  have hm2 : sb.st_mtime % 2 ^ 64 < 2 ^ 64 := Int.emod_lt_of_pos _ (by decide)
  have hu : ∀ x : Nat, x % 2 ^ 64 ≤ ULLONG_MAX := by
    intro x
    have := Nat.mod_lt x (by decide : 0 < 2 ^ 64)
    simp only [ULLONG_MAX]
    omega
  have hl32 : ∀ x : Nat, x % 2 ^ 32 ≤ LONG_MAX := by
    intro x
    have := Nat.mod_lt x (by decide : 0 < 2 ^ 32)
    simp only [LONG_MAX]
    omega
  have hmt3 : (sb.st_mtime % 2 ^ 64).toNat ≤ ULLONG_MAX := by
    simp only [ULLONG_MAX]
    omega
  have hdec := decode_entry_text c w (kind_of_mode sb.st_mode) fname (sb.st_size % 2 ^ 64)
    (env.major sb.st_rdev % 2 ^ 32) (env.minor sb.st_rdev % 2 ^ 32)
    (cstr (store (((env.readlink fname).getD []).take (LINKPATH_SIZE - 1)) e.linkpath)) pw gr
    (sb.st_uid % 2 ^ 64) (sb.st_gid % 2 ^ 64) (permission_bits sb.st_mode)
    (sb.st_mtime % 2 ^ 64).toNat ((env.fopen fname).getD [])
    hkind hf hpwp hgrp hlt (hu _) (hl32 _) (hl32 _) (hu _) (hu _) (permission_bits_lt _)
    (permission_bits_type _) hmt3
    (fun hr => by
      obtain ⟨h1, h2⟩ := hsize hr
      rw [h1]
      exact Nat.mod_eq_of_lt h2)
    heof
  have hdec := hdec hbuf2 (hc _ (entry_metadata_complete _ _ _ _ _ _ _ _ _ _ _ _ hkind))
  refine ⟨hret, hdec.1, ?_⟩
  obtain ⟨_, hv⟩ := hdec
  cases hcalls : (scan_archive c w).calls with
  | nil => rw [hcalls] at hv; simp at hv
  | cons d ds =>
    rw [hcalls] at hv
    simp only [List.map_cons, List.cons.injEq, List.map_eq_nil_iff] at hv
    obtain ⟨hd, hds⟩ := hv
    have hmd : d.md = _ := congrArg Prod.fst hd
    refine ⟨d, by rw [hds], ?_⟩
    rw [hmd]
    refine ⟨rfl, rfl, rfl, ?_, ?_, to_time_t_roundtrip _ hmt.1 hmt.2⟩
    · show sb.st_uid % 2 ^ 64 % 2 ^ 32 = sb.st_uid
      omega
    · show sb.st_gid % 2 ^ 64 % 2 ^ 32 = sb.st_gid
      omega

set_option maxRecDepth 100000 in
/-- C16, amended, at the directory `d` of the example system, listed. -/
theorem encoded_entry_decodes_witness :
    (add_file demo_env "d".toList demo_dir_stat demo_enc).1 = 0
    ∧ (scan_archive listfiles_consumer
        (World.start (add_file demo_env "d".toList demo_dir_stat demo_enc).2.stdout false
          fs_ok fs_nodir)).ret = 0
    ∧ ∃ d, (scan_archive listfiles_consumer
        (World.start (add_file demo_env "d".toList demo_dir_stat demo_enc).2.stdout false
          fs_ok fs_nodir)).calls = [d] ∧ d.md.fpath = some "d".toList
        ∧ d.md.ftype = kind_of_mode demo_dir_stat.st_mode
        ∧ d.md.fmode = permission_bits demo_dir_stat.st_mode
        ∧ d.md.fuid = demo_dir_stat.st_uid ∧ d.md.fgid = demo_dir_stat.st_gid
        ∧ d.md.fmtime = demo_dir_stat.st_mtime :=
  encoded_entry_decodes demo_env "d".toList demo_dir_stat demo_enc "u".toList "g".toList
    listfiles_consumer
    (World.start (add_file demo_env "d".toList demo_dir_stat demo_enc).2.stdout false fs_ok
      fs_nodir)
    (by decide) rfl rfl (by decide) (by decide) (by decide) rfl (by decide) (by decide)
    (by decide) (by decide) (by decide) (by decide) (by decide) (by decide) rfl rfl
    (fun m hm => listfiles_accepts m (path_of_complete m hm))

theorem written_append (p : CStr) (a b : List FsOp) :
    written p (a ++ b) = written p a ++ written p b := by
  induction a with
  | nil => rfl
  | cons op ops ih =>
    cases op <;> simp [written, ih]

/-- With enough bytes to read and a file system on which every call
succeeds, the copy loop of `extract` returns 0 having read exactly `numleft`
bytes and written them to the file. -/
theorem extract_copy_enough (fuel : Nat) :
    ∀ (n : Nat) (p : CStr) (w : World), (∀ h op, w.fs h op = .ok) → w.stdin.sane →
      n ≤ fuel → n ≤ w.stdin.buf.length →
      (extract_copy_loop fuel n p w).1 = 0
      ∧ (extract_copy_loop fuel n p w).2.stdin = { w.stdin with buf := w.stdin.buf.drop n }
      ∧ (extract_copy_loop fuel n p w).2.fs = w.fs
      ∧ written p (extract_copy_loop fuel n p w).2.ops
          = written p w.ops ++ w.stdin.buf.take n := by
  induction fuel with
  | zero =>
    intro n p w _ _ h1 _
    have : n = 0 := by omega
    subst this
    simp [extract_copy_loop]
  | succ k ih =>
    intro n p w hfs hs h1 h2
    by_cases hn : n = 0
    · subst hn
      simp [extract_copy_loop]
    · have hne : w.stdin.buf ≠ [] := by
        intro h; rw [h] at h2; simp at h2; exact hn h2
      have h0 : w.stdin.eof = false := eof_false_of_sane _ hs hne
      have hge : ¬ w.stdin.buf.length < min n WRITE_BLOCKSIZE := by
        have := Nat.min_le_left n WRITE_BLOCKSIZE
        omega
      have hlen : (List.take (min n WRITE_BLOCKSIZE) w.stdin.buf).length
          = min n WRITE_BLOCKSIZE := by
        rw [List.length_take]; omega
      have hpos : 0 < min n WRITE_BLOCKSIZE := by
        simp only [WRITE_BLOCKSIZE]; omega
      have hi := ih (n - min n WRITE_BLOCKSIZE) p
        { w with stdin := { w.stdin with buf := w.stdin.buf.drop (min n WRITE_BLOCKSIZE) },
                 ops := w.ops ++ [.fwrite p (w.stdin.buf.take (min n WRITE_BLOCKSIZE))] }
        hfs (by intro he; rw [h0] at he; cases he) (by omega)
        (by simp only [List.length_drop]; omega)
      have hstep : extract_copy_loop (k + 1) n p w
          = extract_copy_loop k (n - min n WRITE_BLOCKSIZE) p
            { w with stdin := { w.stdin with buf := w.stdin.buf.drop (min n WRITE_BLOCKSIZE) },
                     ops := w.ops ++ [.fwrite p (w.stdin.buf.take (min n WRITE_BLOCKSIZE))] } := by
        simp only [extract_copy_loop, hn, if_false, fread, h0, Bool.false_or, hge, decide_False,
          Bool.false_and, Bool.false_eq_true, hlen, sys, hfs, ne_eq, not_true_eq_false]
      rw [hstep]
      obtain ⟨i1, i2, i3, i4⟩ := hi
      refine ⟨i1, ?_, i3, ?_⟩
      · rw [i2]
        simp only [List.drop_drop]
        have : min n WRITE_BLOCKSIZE + (n - min n WRITE_BLOCKSIZE) = n := by omega
        rw [Nat.add_comm] at this
        simp [this]
      · rw [i4]
        simp only [written_append, written, if_true, List.append_nil, List.append_assoc]
        congr 1
        have e : n = min n WRITE_BLOCKSIZE + (n - min n WRITE_BLOCKSIZE) := by omega
        conv => rhs; rw [e, List.take_add]

/-- `extract` for a complete regular file entry whose payload is there to
read, on a file system on which every call succeeds: it returns 0, reads
exactly the payload and writes it to the file. -/
theorem extract_regular_ok (lineno : Nat) (m : Metadata) (w : World)
    (hv : is_invalid_metadata m = 0) (ht : m.ftype = .REGULARFILE)
    (hfs : ∀ h op, w.fs h op = .ok) (hs : w.stdin.sane) (hlen : m.fsize ≤ w.stdin.buf.length) :
    (extract lineno m w).1 = 0
    ∧ (extract lineno m w).2.stdin = { w.stdin with buf := w.stdin.buf.drop m.fsize }
    ∧ written (m.fpath.getD []) (extract lineno m w).2.ops
        = written (m.fpath.getD []) w.ops ++ w.stdin.buf.take m.fsize := by
  have hc := extract_copy_enough m.fsize m.fsize (m.fpath.getD [])
    { w with ops := w.ops ++ [.unlink (m.fpath.getD []), .fopen (m.fpath.getD [])] }
    hfs hs (Nat.le_refl _) hlen
  obtain ⟨c1, c2, c3, c4⟩ := hc
  have hd : m.ftype ≠ .DIRECTORY := by rw [ht]; decide
  have hfs3 : ∀ h op, (extract_copy_loop m.fsize m.fsize (m.fpath.getD [])
      { w with ops := w.ops ++ [.unlink (m.fpath.getD []), .fopen (m.fpath.getD [])] }).2.fs
        h op = .ok := by
    intro h op
    rw [c3]
    exact hfs _ _
  have hex : extract lineno m w
      = (0, { (extract_copy_loop m.fsize m.fsize (m.fpath.getD [])
                { w with ops := w.ops ++ [.unlink (m.fpath.getD []),
                    .fopen (m.fpath.getD [])] }).2 with
              ops := (extract_copy_loop m.fsize m.fsize (m.fpath.getD [])
                { w with ops := w.ops ++ [.unlink (m.fpath.getD []),
                    .fopen (m.fpath.getD [])] }).2.ops
                ++ [.fclose (m.fpath.getD []), .chmod (m.fpath.getD []) m.fmode,
                    .utimensat (m.fpath.getD []) m.fmtime,
                    .lchown (m.fpath.getD []) m.fuid m.fgid] }) := by
    simp [extract, hv, hd, sys, hfs, extract_create, ht, c1, hfs3, extract_finish]
  rw [hex]
  refine ⟨rfl, c2, ?_⟩
  simp only [written_append, written, List.append_nil]
  rw [c4]
  simp [written_append, written]

/-- The opening `---`, the payload and the closing `---` of a regular
file, for a call of the consumer that returns 0 having read the payload: the
decoder is back in state `SEEKING_METADATA` after the closing `---`. -/
theorem scan_entries_payload_run (c : Consumer) (cfg : Config) (payload tail : List Char)
    (hst : cfg.state = .METADATA) (hs : cfg.w.stdin.sane)
    (hb : cfg.w.stdin.buf = "---\n".toList ++ (payload ++ "---\n".toList ++ tail))
    (ht : cfg.md.ftype = .REGULARFILE) (hg : cfg.md.fsizegiven = true)
    (h1 : (c.run cfg.lineno cfg.md { cfg.w with
      stdin := { cfg.w.stdin with buf := payload ++ "---\n".toList ++ tail } }).1 = 0)
    (h2 : (c.run cfg.lineno cfg.md { cfg.w with
      stdin := { cfg.w.stdin with buf := payload ++ "---\n".toList ++ tail } }).2.stdin.sane)
    (h3 : (c.run cfg.lineno cfg.md { cfg.w with
      stdin := { cfg.w.stdin with buf := payload ++ "---\n".toList ++ tail } }).2.stdin.buf
        = "---\n".toList ++ tail) :
    scan_entries c cfg = scan_entries c
      { state := .SEEKING_METADATA, lineno := cfg.lineno + 2, md := clear_metadata cfg.md,
        w := { (c.run cfg.lineno cfg.md { cfg.w with
            stdin := { cfg.w.stdin with buf := payload ++ "---\n".toList ++ tail } }).2 with
          stdin := { (c.run cfg.lineno cfg.md { cfg.w with
            stdin := { cfg.w.stdin with buf := payload ++ "---\n".toList ++ tail } }).2.stdin with
            buf := tail } },
        calls := cfg.calls ++ [⟨cfg.lineno, cfg.md, payload ++ "---\n".toList ++ tail⟩] } := by
  have hline : is_line "---\n".toList := by decide
  have hp : parsemetadata (cstr "---\n".toList) = .bare "---".toList := by decide
  rw [scan_entries_line c cfg "---\n".toList _ (getline_line _ _ _ hline hs hb)]
  have hstep : scan_step c "---\n".toList
      { cfg with w := { cfg.w with
          stdin := { cfg.w.stdin with buf := payload ++ "---\n".toList ++ tail } } }
      = .next { state := .CONTENTS_END, lineno := cfg.lineno, md := clear_metadata cfg.md,
                w := (c.run cfg.lineno cfg.md { cfg.w with
                  stdin := { cfg.w.stdin with buf := payload ++ "---\n".toList ++ tail } }).2,
                calls := cfg.calls ++ [⟨cfg.lineno, cfg.md, payload ++ "---\n".toList ++ tail⟩] } := by
    simp only [scan_step, hst, hp, ht, hg, Config.dispatch, h1]
    simp
  rw [hstep]
  simp only
  rw [scan_entries_line c _ "---\n".toList _ (getline_line _ _ _ hline h2 h3)]
  simp only [scan_step, hp]
  simp

/-- The decode, under `extract`, of the text of one regular file record
on a file system on which every call succeeds: one call, the contents
written to the file, and the end of the input met in state
`SEEKING_METADATA`. -/
theorem extract_decode_regular (w : World) (fname : CStr) (size major minor : Nat)
    (linktext pw gr : CStr) (uid gid perm mtime : Nat) (contents : List Char)
    (hf : IsPlain fname) (hpw : IsPlain pw) (hgr : IsPlain gr)
    (hsize : size ≤ ULLONG_MAX) (hmaj : major ≤ LONG_MAX) (hmin : minor ≤ LONG_MAX)
    (huid : uid ≤ ULLONG_MAX) (hgid : gid ≤ ULLONG_MAX)
    (hperm : perm < 2 ^ 32) (hbits : perm &&& S_IFMT = 0) (hmt : mtime ≤ ULLONG_MAX)
    (hreg : size = contents.length) (heof : w.stdin.eof = false)
    (hbuf : w.stdin.buf
      = entry_text .REGULARFILE fname size major minor linktext pw uid gr gid perm mtime contents)
    (hfs : ∀ h op, w.fs h op = .ok) :
    (scan_archive extract_consumer w).ret = 0
    ∧ (scan_archive extract_consumer w).eofstate = some .SEEKING_METADATA
    ∧ (scan_archive extract_consumer w).calls
      = [⟨1 + (entry_fields .REGULARFILE fname size major minor linktext pw uid gr gid perm
              mtime).length,
          entry_metadata .REGULARFILE fname size major minor linktext pw (uid % 2 ^ 32) gr
            (gid % 2 ^ 32) perm (to_time_t mtime),
          contents ++ "---\n".toList⟩]
    ∧ written fname (scan_archive extract_consumer w).w.ops = written fname w.ops ++ contents := by
  have hfold := fold_entry_fields .REGULARFILE fname size major minor linktext pw gr uid gid
    perm mtime (by decide) hf hpw hgr (fun h => by cases h) hsize hmaj hmin huid hgid hperm hbits
    hmt
  have hlines := entry_fields_lines .REGULARFILE fname size major minor linktext pw gr uid gid
    perm mtime hf.2.2.1 hpw.2.2.1 hgr.2.2.1 (fun h => by cases h)
  have hne := entry_fields_ne_nil .REGULARFILE fname size major minor linktext pw gr uid gid
    perm mtime
  have hcomplete := entry_metadata_complete .REGULARFILE fname size major minor linktext pw gr
    (uid % 2 ^ 32) (gid % 2 ^ 32) perm (to_time_t mtime) (by decide)
  generalize hF : entry_fields .REGULARFILE fname size major minor linktext pw uid gr gid perm
    mtime = fields at hfold hlines hne
  generalize hM : entry_metadata .REGULARFILE fname size major minor linktext pw (uid % 2 ^ 32)
    gr (gid % 2 ^ 32) perm (to_time_t mtime) = m at hfold hcomplete
  have hmt1 : m.ftype = .REGULARFILE := by rw [← hM]; rfl
  have hmg : m.fsizegiven = true := by rw [← hM]; rfl
  have hms : m.fsize = contents.length := by rw [← hM, ← hreg]; rfl
  have hmp : m.fpath.getD [] = fname := by rw [← hM]; rfl
  have hbuf2 : w.stdin.buf
      = '\n' :: (fields.flatten ++ ("---\n".toList ++ (contents ++ "---\n".toList ++ []))) := by
    rw [hbuf]
    simp [entry_text, hF]
  rw [scan_archive_blank_start extract_consumer w _ heof hbuf2]
  have hL := scan_entries_lines extract_consumer fields
    { state := .SEEKING_METADATA, lineno := 1, md := Metadata.init,
      w := { w with stdin := { w.stdin with buf :=
        fields.flatten ++ ("---\n".toList ++ (contents ++ "---\n".toList ++ [])) } },
      calls := [] }
    m ("---\n".toList ++ (contents ++ "---\n".toList ++ []))
    (by intro h; cases h) (sane_of_eof_false _ heof) hlines hfold rfl
  rw [hL]
  simp only [hne, if_false]
  have hrun := extract_regular_ok (1 + fields.length) m
    { w with stdin := { w.stdin with buf := contents ++ "---\n".toList ++ [] } }
    hcomplete hmt1 hfs (sane_of_eof_false _ heof) (by simp [hms])
  obtain ⟨r1, r2, r3⟩ := hrun
  have r2b : (extract (1 + fields.length) m
      { w with stdin := { w.stdin with buf := contents ++ "---\n".toList ++ [] } }).2.stdin.buf
        = "---\n".toList ++ [] := by
    rw [r2]
    simp [hms]
  have r2s : (extract (1 + fields.length) m
      { w with stdin := { w.stdin with buf := contents ++ "---\n".toList ++ [] } }).2.stdin.sane := by
    intro he
    rw [r2] at he
    rw [heof] at he
    cases he
  rw [scan_entries_payload_run extract_consumer
    { state := .METADATA, lineno := 1 + fields.length, md := m,
      w := { w with stdin := { w.stdin with buf :=
        "---\n".toList ++ (contents ++ "---\n".toList ++ []) } },
      calls := [] }
    contents [] rfl (sane_of_eof_false _ heof) rfl hmt1 hmg r1 r2s r2b]
  rw [scan_entries_nil extract_consumer _ rfl]
  simp only [scan_at_eof]
  refine ⟨trivial, trivial, by simp, ?_⟩
  show written fname (extract (1 + fields.length) m
      { w with stdin := { w.stdin with buf := contents ++ "---\n".toList ++ [] } }).2.ops = _
  rw [← hmp, r3]
  simp [hms]

/-- C15: for a regular file with contents `b` whose size is the length of
`b` (the file not skipped, its owner and group known, its path and their names
plain values), `add_file` returns 0, and the decode of the record it writes,
under `extract` on a file system on which every call succeeds, returns 0 with
exactly one call, for a Regular File entry of declared size the length of `b`
and with `b` and the closing `---` line as the unread bytes; the bytes written
to the file are exactly `b`; the decoder meets the end of the input in state
`SEEKING_METADATA`, having read the closing `---`. Under every consumer that
takes complete entries (`listfiles` with either way of skipping among them)
the decode returns 0 with one call whose next `fsize` unread bytes are `b`. -/
theorem regular_file_roundtrip (env : EncEnv) (fname : CStr) (sb : Stat) (e : Enc)
    (pw gr : CStr) (b : List Char)
    (hskip : ¬ ((sb.st_dev = e.stdoutdev ∧ sb.st_ino = e.stdoutino) ∨ fname = ".".toList))
    (hpw : env.getpwuid sb.st_uid = some pw) (hgr : env.getgrgid sb.st_gid = some gr)
    (hreg : kind_of_mode sb.st_mode = .REGULARFILE) (hopen : env.fopen fname = some b)
    (hsize : sb.st_size = b.length) (hlen : b.length < 2 ^ 64) (hout : e.stdout = [])
    (hf : IsPlain fname) (hpwp : IsPlain pw) (hgrp : IsPlain gr) :
    (add_file env fname sb e).1 = 0
    ∧ (∀ (seekable : Bool) (fs : List FsOp → FsOp → SysRes) (fs_isdir : List FsOp → CStr → Bool),
        (∀ h op, fs h op = .ok) →
        (scan_archive extract_consumer
          (World.start (add_file env fname sb e).2.stdout seekable fs fs_isdir)).ret = 0
        ∧ (scan_archive extract_consumer
          (World.start (add_file env fname sb e).2.stdout seekable fs fs_isdir)).eofstate
            = some .SEEKING_METADATA
        ∧ (∃ d, (scan_archive extract_consumer
            (World.start (add_file env fname sb e).2.stdout seekable fs fs_isdir)).calls = [d]
          ∧ d.md.ftype = .REGULARFILE ∧ d.md.fsize = b.length ∧ d.md.fpath = some fname
          ∧ d.unread = b ++ "---\n".toList)
        ∧ written fname (scan_archive extract_consumer
            (World.start (add_file env fname sb e).2.stdout seekable fs fs_isdir)).w.ops = b)
    ∧ (∀ (c : Consumer) (w : World), (∀ m, is_invalid_metadata m = 0 → c.accepts m) →
        w.stdin.eof = false → w.stdin.buf = (add_file env fname sb e).2.stdout →
        (scan_archive c w).ret = 0
        ∧ ∃ d, (scan_archive c w).calls = [d] ∧ d.md.ftype = .REGULARFILE
          ∧ d.md.fsize = b.length ∧ d.unread.take d.md.fsize = b) := by
  have hkind : kind_of_mode sb.st_mode ≠ .UNKNOWN := by rw [hreg]; decide
  have hadd := add_file_eq env fname sb e pw gr hskip hpw hgr hkind
    (fun _ => by rw [hopen]; rfl) (fun h => by rw [hreg] at h; cases h)
  have hret : (add_file env fname sb e).1 = 0 := by rw [hadd]
  have hs64 : sb.st_size % 2 ^ 64 = b.length := by
    rw [hsize]
    exact Nat.mod_eq_of_lt hlen
  have htext : (add_file env fname sb e).2.stdout
      = entry_text .REGULARFILE fname (sb.st_size % 2 ^ 64) (env.major sb.st_rdev % 2 ^ 32)
        (env.minor sb.st_rdev % 2 ^ 32)
        (cstr (store (((env.readlink fname).getD []).take (LINKPATH_SIZE - 1)) e.linkpath)) pw
        (sb.st_uid % 2 ^ 64) gr (sb.st_gid % 2 ^ 64) (permission_bits sb.st_mode)
        (sb.st_mtime % 2 ^ 64).toNat b := by
    rw [hadd]
    show e.stdout ++ _ = _
    rw [hout, Stat.record, hreg, hopen]
    rfl
  clear hadd
  have hm1 : 0 ≤ sb.st_mtime % 2 ^ 64 := Int.emod_nonneg _ (by decide)
  have hm2 : sb.st_mtime % 2 ^ 64 < 2 ^ 64 := Int.emod_lt_of_pos _ (by decide)
  have hu : ∀ x : Nat, x % 2 ^ 64 ≤ ULLONG_MAX := by
    intro x
    have := Nat.mod_lt x (by decide : 0 < 2 ^ 64)
    simp only [ULLONG_MAX]
    omega
  have hl32 : ∀ x : Nat, x % 2 ^ 32 ≤ LONG_MAX := by
    intro x
    have := Nat.mod_lt x (by decide : 0 < 2 ^ 32)
    simp only [LONG_MAX]
    omega
  have hmt3 : (sb.st_mtime % 2 ^ 64).toNat ≤ ULLONG_MAX := by
    simp only [ULLONG_MAX]
    omega
  refine ⟨hret, ?_, ?_⟩
  · intro seekable fs fs_isdir hfs
    have hx := extract_decode_regular
      (World.start (add_file env fname sb e).2.stdout seekable fs fs_isdir) fname
      (sb.st_size % 2 ^ 64) (env.major sb.st_rdev % 2 ^ 32) (env.minor sb.st_rdev % 2 ^ 32)
      (cstr (store (((env.readlink fname).getD []).take (LINKPATH_SIZE - 1)) e.linkpath)) pw gr
      (sb.st_uid % 2 ^ 64) (sb.st_gid % 2 ^ 64) (permission_bits sb.st_mode)
      (sb.st_mtime % 2 ^ 64).toNat b hf hpwp hgrp (hu _) (hl32 _) (hl32 _) (hu _) (hu _)
      (permission_bits_lt _) (permission_bits_type _) hmt3 hs64 rfl
    have hx := hx htext hfs
    obtain ⟨x1, x2, x3, x4⟩ := hx
    refine ⟨x1, x2, ⟨_, x3, rfl, ?_, rfl, rfl⟩, ?_⟩
    · show (if FType.REGULARFILE = FType.REGULARFILE then sb.st_size % 2 ^ 64 else 0) = b.length
      rw [if_pos rfl, hs64]
    · rw [x4]
      rfl
  · intro c w hc heof hbuf
    have hdec := decode_entry_text c w .REGULARFILE fname (sb.st_size % 2 ^ 64)
      (env.major sb.st_rdev % 2 ^ 32) (env.minor sb.st_rdev % 2 ^ 32)
      (cstr (store (((env.readlink fname).getD []).take (LINKPATH_SIZE - 1)) e.linkpath)) pw gr
      (sb.st_uid % 2 ^ 64) (sb.st_gid % 2 ^ 64) (permission_bits sb.st_mode)
      (sb.st_mtime % 2 ^ 64).toNat b (by decide) hf hpwp hgrp (fun h => by cases h) (hu _)
      (hl32 _) (hl32 _) (hu _) (hu _) (permission_bits_lt _) (permission_bits_type _) hmt3
      (fun _ => hs64) heof
    have hdec := hdec (hbuf.trans htext) (hc _ (entry_metadata_complete _ _ _ _ _ _ _ _ _ _ _ _
      (by decide)))
    refine ⟨hdec.1, ?_⟩
    obtain ⟨_, hv⟩ := hdec
    cases hcalls : (scan_archive c w).calls with
    | nil => rw [hcalls] at hv; simp at hv
    | cons d ds =>
      rw [hcalls] at hv
      simp only [List.map_cons, List.cons.injEq, List.map_eq_nil_iff] at hv
      obtain ⟨hd, hds⟩ := hv
      have hmd : d.md = _ := congrArg Prod.fst hd
      have hpl := congrArg Prod.snd hd
      have hty : d.md.ftype = .REGULARFILE := by rw [hmd]; rfl
      have hsz : d.md.fsize = b.length := by
        rw [hmd]
        show (if FType.REGULARFILE = FType.REGULARFILE then sb.st_size % 2 ^ 64 else 0) = b.length
        rw [if_pos rfl, hs64]
      refine ⟨d, by rw [hds], hty, hsz, ?_⟩
      simp only [Dispatch.view, hty, if_true] at hpl
      exact hpl

set_option maxRecDepth 100000 in
/-- C15 at the regular file `f` of the example system, which holds `hello`. -/
theorem regular_file_roundtrip_witness :
    (add_file demo_env "f".toList demo_stat demo_enc).1 = 0
    ∧ (scan_archive extract_consumer
        (World.start (add_file demo_env "f".toList demo_stat demo_enc).2.stdout false fs_ok
          fs_nodir)).ret = 0
    ∧ written "f".toList (scan_archive extract_consumer
        (World.start (add_file demo_env "f".toList demo_stat demo_enc).2.stdout false fs_ok
          fs_nodir)).w.ops = "hello".toList :=
  have h := regular_file_roundtrip demo_env "f".toList demo_stat demo_enc "u".toList "g".toList
    "hello".toList (by decide) rfl rfl (by decide) (by decide) (by decide) (by decide) rfl
    (by decide) (by decide) (by decide)
  ⟨h.1, (h.2.1 false fs_ok fs_nodir (fun _ _ => rfl)).1,
    (h.2.1 false fs_ok fs_nodir (fun _ _ => rfl)).2.2.2⟩

/-- With enough bytes to read and every `fwrite` succeeding, the copy loop
of `extract` returns 0 having read exactly `numleft` bytes; the calls it
makes are `fwrite` calls on the file, which write those bytes. -/
theorem extract_copy_calls (fuel : Nat) :
    ∀ (n : Nat) (p : CStr) (w : World), (∀ h bytes, w.fs h (.fwrite p bytes) = .ok) →
      w.stdin.sane → n ≤ fuel → n ≤ w.stdin.buf.length →
      ∃ blocks : List FsOp, (∀ op ∈ blocks, ∃ bytes, op = .fwrite p bytes)
        ∧ written p blocks = w.stdin.buf.take n
        ∧ extract_copy_loop fuel n p w
            = (0, { w with stdin := { w.stdin with buf := w.stdin.buf.drop n },
                           ops := w.ops ++ blocks }) := by
  induction fuel with
  | zero =>
    intro n p w _ _ h1 _
    have : n = 0 := by omega
    subst this
    exact ⟨[], by simp, by simp [written], by simp [extract_copy_loop]⟩
  | succ k ih =>
    intro n p w hfs hs h1 h2
    by_cases hn : n = 0
    · subst hn
      exact ⟨[], by simp, by simp [written], by simp [extract_copy_loop]⟩
    · have hne : w.stdin.buf ≠ [] := by
        intro h; rw [h] at h2; simp at h2; exact hn h2
      have h0 : w.stdin.eof = false := eof_false_of_sane _ hs hne
      have hge : ¬ w.stdin.buf.length < min n WRITE_BLOCKSIZE := by
        have := Nat.min_le_left n WRITE_BLOCKSIZE
        omega
      have hlen : (List.take (min n WRITE_BLOCKSIZE) w.stdin.buf).length
          = min n WRITE_BLOCKSIZE := by
        rw [List.length_take]; omega
      have hpos : 0 < min n WRITE_BLOCKSIZE := by
        simp only [WRITE_BLOCKSIZE]; omega
      obtain ⟨blocks, hb1, hb2, hb3⟩ := ih (n - min n WRITE_BLOCKSIZE) p
        { w with stdin := { w.stdin with buf := w.stdin.buf.drop (min n WRITE_BLOCKSIZE) },
                 ops := w.ops ++ [.fwrite p (w.stdin.buf.take (min n WRITE_BLOCKSIZE))] }
        hfs (sane_of_eof_false _ h0) (by omega) (by simp only [List.length_drop]; omega)
      dsimp only at hb2 hb3
      rw [h0] at hb3
      refine ⟨.fwrite p (w.stdin.buf.take (min n WRITE_BLOCKSIZE)) :: blocks, ?_, ?_, ?_⟩
      · intro op hop
        rcases List.mem_cons.mp hop with h | h
        · exact ⟨_, h⟩
        · exact hb1 op h
      · simp only [written, if_true, hb2, List.take_drop]
        have e : min n WRITE_BLOCKSIZE + (n - min n WRITE_BLOCKSIZE) = n := by omega
        rw [e]
        conv_rhs => rw [← List.take_append_drop (min n WRITE_BLOCKSIZE) (List.take n w.stdin.buf)]
        rw [List.take_take, List.drop_take]
        have e2 : min (min n WRITE_BLOCKSIZE) n = min n WRITE_BLOCKSIZE := by omega
        rw [e2]
      · simp only [extract_copy_loop, hn, if_false, fread, hlen, h0, Bool.false_or, hge,
          decide_False, Bool.false_and, sys, hfs, ne_eq, not_true_eq_false]
        simp only [Bool.false_eq_true, if_false]
        rw [hb3]
        simp only [List.drop_drop, List.append_assoc, List.singleton_append]
        have e : min n WRITE_BLOCKSIZE + (n - min n WRITE_BLOCKSIZE) = n := by omega
        rw [Nat.add_comm] at e
        simp [e]

/-- C21, as stated, fails: for a complete directory entry on a file system
on which every call succeeds, `extract` makes three calls, `mkdir`,
`utimensat` and `lchown`: nothing is removed at the path, and no call sets
the permission bits after the creation. For a complete symbolic link entry
the calls are `unlink`, `symlink`, `utimensat` and `lchown`: no call is given
the permission bits at all. -/
theorem directory_not_removed :
    (extract 1 (demo_entry .DIRECTORY) (World.start [] false fs_ok fs_nodir)).1 = 0
    ∧ (extract 1 (demo_entry .DIRECTORY) (World.start [] false fs_ok fs_nodir)).2.ops
        = [.mkdir "x".toList 493, .utimensat "x".toList 3, .lchown "x".toList 1 2]
    ∧ (extract 1 (demo_entry .SYMLINK) (World.start [] false fs_ok fs_nodir)).1 = 0
    ∧ (extract 1 (demo_entry .SYMLINK) (World.start [] false fs_ok fs_nodir)).2.ops
        = [.unlink "x".toList, .symlink "t".toList "x".toList, .utimensat "x".toList 3,
           .lchown "x".toList 1 2] := by
  decide

/-- C21, amended: for every complete entry (`is_invalid_metadata` returns
0), on a file system on which no call fails other than `unlink` with
`ENOENT`, and with the payload of a regular file there to read, `extract`
returns 0 and the calls it makes are, in order: `unlink` of the path unless
the entry is a directory; the call that creates the object (`fopen`,
`mkdir`, `symlink`, `mknod`, `mkfifo`), which for `mkdir`, `mknod` and
`mkfifo` is given the permissions as its mode; for a regular file the
`fwrite` calls that write exactly the payload, then `fclose` and `chmod` to
the permissions; `utimensat` with the modification time (the access time is
always passed as `UTIME_OMIT`); and `lchown` with the numeric owner and
group. -/
theorem extract_calls_in_order (lineno : Nat) (m : Metadata) (w : World)
    (hv : is_invalid_metadata m = 0)
    (hfs : ∀ h op, w.fs h op = .ok ∨ (w.fs h op = .ENOENT ∧ op = .unlink (m.fpath.getD [])))
    (hs : w.stdin.sane) (hlen : m.ftype = .REGULARFILE → m.fsize ≤ w.stdin.buf.length) :
    (extract lineno m w).1 = 0
    ∧ ∃ blocks : List FsOp,
        (∀ op ∈ blocks, ∃ bytes, op = .fwrite (m.fpath.getD []) bytes)
        ∧ written (m.fpath.getD []) blocks
            = (if m.ftype = .REGULARFILE then w.stdin.buf.take m.fsize else [])
        ∧ (extract lineno m w).2.ops = w.ops ++ extract_calls m blocks := by
  have hok : ∀ h op, (∀ q, op ≠ .unlink q) → w.fs h op = .ok := by
    intro h op hne
    rcases hfs h op with h1 | ⟨_, h1⟩
    · exact h1
    · exact absurd h1 (hne _)
  have h_fopen : ∀ h q, w.fs h (.fopen q) = .ok := fun h q => hok h _ (by intro _ e; cases e)
  have h_mkdir : ∀ h q a, w.fs h (.mkdir q a) = .ok := fun h q a => hok h _ (by intro _ e; cases e)
  have h_symlink : ∀ h q a, w.fs h (.symlink q a) = .ok :=
    fun h q a => hok h _ (by intro _ e; cases e)
  have h_mknod : ∀ h q a b c, w.fs h (.mknod q a b c) = .ok :=
    fun h q a b c => hok h _ (by intro _ e; cases e)
  have h_mkfifo : ∀ h q a, w.fs h (.mkfifo q a) = .ok :=
    fun h q a => hok h _ (by intro _ e; cases e)
  have h_fwrite : ∀ h q a, w.fs h (.fwrite q a) = .ok :=
    fun h q a => hok h _ (by intro _ e; cases e)
  have h_fclose : ∀ h q, w.fs h (.fclose q) = .ok := fun h q => hok h _ (by intro _ e; cases e)
  have h_chmod : ∀ h q a, w.fs h (.chmod q a) = .ok := fun h q a => hok h _ (by intro _ e; cases e)
  have h_utimensat : ∀ h q a, w.fs h (.utimensat q a) = .ok :=
    fun h q a => hok h _ (by intro _ e; cases e)
  have h_lchown : ∀ h q a b, w.fs h (.lchown q a b) = .ok :=
    fun h q a b => hok h _ (by intro _ e; cases e)
  have hun : w.fs w.ops (.unlink (m.fpath.getD [])) = .ok
      ∨ w.fs w.ops (.unlink (m.fpath.getD [])) = .ENOENT := by
    rcases hfs w.ops (.unlink (m.fpath.getD [])) with h | ⟨h, _⟩
    · exact Or.inl h
    · exact Or.inr h
  cases ht : m.ftype with
  | UNKNOWN => simp [is_invalid_metadata, ht] at hv
  | REGULARFILE =>
    obtain ⟨blocks, hb1, hb2, hb3⟩ := extract_copy_calls m.fsize m.fsize (m.fpath.getD [])
      { w with ops := w.ops ++ [.unlink (m.fpath.getD []), .fopen (m.fpath.getD [])] }
      (fun h b => h_fwrite h _ b) hs (Nat.le_refl _) (hlen ht)
    refine ⟨?_, blocks, hb1, by simpa using hb2, ?_⟩ <;>
      rcases hun with hu | hu <;>
      simp [extract, hv, ht, sys, extract_create, extract_finish, extract_calls, hu, h_fopen,
        h_fclose, h_chmod, h_utimensat, h_lchown, hb3]
  | DIRECTORY =>
    refine ⟨?_, [], by simp, by simp [written], ?_⟩ <;>
      simp [extract, hv, ht, sys, extract_create, extract_finish, extract_calls, h_mkdir,
        h_utimensat, h_lchown]
  | SYMLINK =>
    refine ⟨?_, [], by simp, by simp [written], ?_⟩ <;>
      rcases hun with hu | hu <;>
      simp [extract, hv, ht, sys, extract_create, extract_finish, extract_calls, hu, h_symlink,
        h_utimensat, h_lchown]
  | CHARDEVICE =>
    refine ⟨?_, [], by simp, by simp [written], ?_⟩ <;>
      rcases hun with hu | hu <;>
      simp [extract, hv, ht, sys, extract_create, extract_finish, extract_calls, hu, h_mknod,
        h_utimensat, h_lchown]
  | BLOCKDEVICE =>
    refine ⟨?_, [], by simp, by simp [written], ?_⟩ <;>
      rcases hun with hu | hu <;>
      simp [extract, hv, ht, sys, extract_create, extract_finish, extract_calls, hu, h_mknod,
        h_utimensat, h_lchown]
  | FIFO =>
    refine ⟨?_, [], by simp, by simp [written], ?_⟩ <;>
      rcases hun with hu | hu <;>
      simp [extract, hv, ht, sys, extract_create, extract_finish, extract_calls, hu, h_mkfifo,
        h_utimensat, h_lchown]
  | SOCKET =>
    refine ⟨?_, [], by simp, by simp [written], ?_⟩ <;>
      rcases hun with hu | hu <;>
      simp [extract, hv, ht, sys, extract_create, extract_finish, extract_calls, hu, h_mknod,
        h_utimensat, h_lchown]

/-- C21 at a complete regular file entry of five bytes, with `hello` and a
closing line to read, when nothing exists at the path (`unlink` fails with
`ENOENT`). -/
theorem extract_calls_in_order_witness :
    (extract 1 (demo_entry .REGULARFILE)
      (World.start "hello---\n".toList false
        (fun _ op => if op = .unlink "x".toList then .ENOENT else .ok) fs_nodir)).1 = 0
    ∧ ∃ blocks : List FsOp,
        (∀ op ∈ blocks, ∃ bytes, op = .fwrite "x".toList bytes)
        ∧ written "x".toList blocks = "hello".toList
        ∧ (extract 1 (demo_entry .REGULARFILE)
            (World.start "hello---\n".toList false
              (fun _ op => if op = .unlink "x".toList then .ENOENT else .ok) fs_nodir)).2.ops
            = [.unlink "x".toList, .fopen "x".toList] ++ blocks
              ++ [.fclose "x".toList, .chmod "x".toList 493, .utimensat "x".toList 3,
                  .lchown "x".toList 1 2] := by
  obtain ⟨h1, blocks, hb1, hb2, hb3⟩ := extract_calls_in_order 1 (demo_entry .REGULARFILE)
    (World.start "hello---\n".toList false
      (fun _ op => if op = .unlink "x".toList then .ENOENT else .ok) fs_nodir)
    (by decide)
    (fun _ op => by
      by_cases h : op = .unlink "x".toList
      · exact Or.inr ⟨if_pos h, h⟩
      · exact Or.inl (if_neg h))
    (fun h => by cases h) (fun _ => by decide)
  exact ⟨h1, blocks, hb1, hb2.trans (by decide), hb3.trans (by
    simp [extract_calls, demo_entry, entry_metadata, World.start])⟩

/-! ## Listing does not depend on the way payloads are skipped -/

theorem getline_congr (a b : Stdin) (h : a.buf = b.buf) :
    (getline a).1 = (getline b).1 ∧ (getline a).2.buf = (getline b).2.buf := by
  unfold getline
  cases hb : b.buf with
  | nil => simp [h, hb]
  | cons c cs => simp [h, hb]

/-- In state `CONTENTS_END` with nothing left to read the decode fails and
prints no further path. -/
theorem scan_entries_contents_end_stuck (c : Consumer) (cfg : Config)
    (hst : cfg.state = .CONTENTS_END) (hbuf : cfg.w.stdin.buf = []) :
    (scan_entries c cfg).ret = 1 ∧ (scan_entries c cfg).w.stdout = cfg.w.stdout := by
  rw [scan_entries_eof c cfg _ (getline_nil _ hbuf)]
  simp [scan_at_eof, hst, Config.fail]

/-- One call of `listfiles` in two worlds with the same unread bytes and the
same lines printed: the lines printed afterwards are the same; when both
calls return 0 the unread bytes are the same; and when only one returns 0,
the entry is a regular file and that call has left nothing unread. -/
theorem listfiles_skip_compare (la lb : Nat) (m : Metadata) (a b : World)
    (hbuf : a.stdin.buf = b.stdin.buf) (ha : a.stdin.sane) (hb : b.stdin.sane)
    (hout : a.stdout = b.stdout) :
    (listfiles la m a).2.stdout = (listfiles lb m b).2.stdout
    ∧ (listfiles la m a).2.stdin.sane ∧ (listfiles lb m b).2.stdin.sane
    ∧ ((listfiles la m a).1 = 0 → (listfiles lb m b).1 = 0 →
        (listfiles la m a).2.stdin.buf = (listfiles lb m b).2.stdin.buf)
    ∧ ((listfiles la m a).1 = 0 → (listfiles lb m b).1 ≠ 0 →
        m.ftype = .REGULARFILE ∧ (listfiles la m a).2.stdin.buf = [])
    ∧ ((listfiles lb m b).1 = 0 → (listfiles la m a).1 ≠ 0 →
        m.ftype = .REGULARFILE ∧ (listfiles lb m b).2.stdin.buf = []) := by
  refine ⟨by rw [listfiles_stdout, listfiles_stdout, hout], listfiles_sane la m a ha,
    listfiles_sane lb m b hb, ?_⟩
  cases hp : m.fpath with
  | none => simp [listfiles, hp]
  | some p =>
    have hsome : m.fpath.isSome = true := by rw [hp]; rfl
    by_cases hlen : m.ftype = .REGULARFILE → m.fsize ≤ a.stdin.buf.length
    · have h1 := listfiles_ok la m a ha hsome hlen
      have h2 := listfiles_ok lb m b hb hsome (by rw [← hbuf]; exact hlen)
      refine ⟨fun _ _ => by rw [h1.2, h2.2, hbuf], fun _ h => absurd h2.1 h,
        fun _ h => absurd h1.1 h⟩
    · have ht : m.ftype = .REGULARFILE := by
        by_contra hn; exact hlen (fun h => absurd h hn)
      have hshort : a.stdin.buf.length < m.fsize := by
        by_contra hn; exact hlen (fun _ => by omega)
      have h1 := listfiles_short la m a ht hshort
      have h2 := listfiles_short lb m b ht (by rw [← hbuf]; exact hshort)
      refine ⟨fun e1 e2 => ?_, fun e1 _ => ⟨ht, ?_⟩, fun e2 _ => ⟨ht, ?_⟩⟩
      · rw [h1.resolve_left (fun h => h e1), h2.resolve_left (fun h => h e2)]
      · exact h1.resolve_left (fun h => h e1)
      · exact h2.resolve_left (fun h => h e2)

theorem same_point_lineno (a b : Config) (h : a.same_point b) :
    Config.same_point { a with lineno := a.lineno + 1 } { b with lineno := b.lineno + 1 } := by
  obtain ⟨hst, hln, hmd, hbuf, hsa, hsb, hout⟩ := h
  exact ⟨hst, by simp only [hln], hmd, hbuf, hsa, hsb, hout⟩

/-- At the end of the input, listing ends the same way and has printed the
same paths from two configurations at the same point. -/
theorem listing_at_eof_same (a b : Config) (h : a.same_point b) :
    (scan_at_eof listfiles_consumer a).ret = (scan_at_eof listfiles_consumer b).ret
    ∧ (scan_at_eof listfiles_consumer a).w.stdout
        = (scan_at_eof listfiles_consumer b).w.stdout := by
  obtain ⟨hst, hln, hmd, hbuf, hsa, hsb, hout⟩ := h
  rcases a with ⟨sa, la, ma, wa, ca⟩
  rcases b with ⟨sb, lb, mb, wb, cb⟩
  simp only at hst hln hmd hbuf hout
  subst hst hln hmd
  cases sa with
  | SEEKING_METADATA => simp [scan_at_eof, hout]
  | CONTENTS_END => simp [scan_at_eof, Config.fail, hout]
  | METADATA =>
    by_cases ht : ma.ftype = .REGULARFILE
    · simp [scan_at_eof, ht, Config.fail, hout]
    · cases hp : ma.fpath <;>
        simp [scan_at_eof, ht, Config.dispatch, listfiles_consumer, listfiles, hp,
          Config.consumer_failed, printline, hout]

/-- One iteration of the entry loop under `listfiles`, for the same line,
from two configurations at the same point: both return with the same value
and the same paths printed, or both go on and are at the same point again,
or one returns 1 and the other goes on in state `CONTENTS_END` with nothing
left to read, the same paths printed. -/
theorem listing_step_same (line : List Char) (a b : Config) (h : a.same_point b) :
    match scan_step listfiles_consumer line a, scan_step listfiles_consumer line b with
    | .stop ra, .stop rb => ra.ret = rb.ret ∧ ra.w.stdout = rb.w.stdout
    | .next a2, .next b2 => a2.same_point b2
    | .stop ra, .next b2 =>
      ra.ret = 1 ∧ b2.state = .CONTENTS_END ∧ b2.w.stdin.buf = [] ∧ ra.w.stdout = b2.w.stdout
    | .next a2, .stop rb =>
      rb.ret = 1 ∧ a2.state = .CONTENTS_END ∧ a2.w.stdin.buf = [] ∧ a2.w.stdout = rb.w.stdout := by
  obtain ⟨hst, hln, hmd, hbuf, hsa, hsb, hout⟩ := h
  rcases a with ⟨sa, la, ma, wa, ca⟩
  rcases b with ⟨sb, lb, mb, wb, cb⟩
  simp only at hst hln hmd hbuf hsa hsb hout
  subst hst hln hmd
  rw [scan_step_decision, scan_step_decision]
  dsimp only
  cases hdec : scan_decision (parsemetadata (cstr line)) sa ma with
  | fail md2 => exact ⟨rfl, hout⟩
  | goon st md2 => exact ⟨rfl, rfl, rfl, hbuf, hsa, hsb, hout⟩
  | call st =>
    have hcall := (scan_decision_call _ _ _ _ hdec).2
    obtain ⟨c1, c2, c3, c4, c5, c6⟩ :=
      listfiles_skip_compare la la ma wa wb hbuf hsa hsb hout
    have hreg : ma.ftype = .REGULARFILE → st = .CONTENTS_END := by
      intro ht
      rcases hcall with ⟨_, h⟩ | ⟨hn, _⟩
      · exact h
      · exact absurd ht hn
    simp only [Config.dispatch, listfiles_consumer]
    by_cases ea : (listfiles la ma wa).1 = 0
    · by_cases eb : (listfiles la ma wb).1 = 0
      · rw [if_neg (not_not.mpr ea), if_neg (not_not.mpr eb)]
        exact ⟨rfl, rfl, rfl, c4 ea eb, c2, c3, c1⟩
      · rw [if_neg (not_not.mpr ea), if_pos eb]
        have := c5 ea eb
        exact ⟨rfl, hreg this.1, this.2, c1⟩
    · by_cases eb : (listfiles la ma wb).1 = 0
      · rw [if_pos ea, if_neg (not_not.mpr eb)]
        have := c6 eb ea
        exact ⟨rfl, hreg this.1, this.2, c1⟩
      · rw [if_pos ea, if_pos eb]
        exact ⟨rfl, c1⟩

/-- Listing from two configurations at the same point ends with the same
return value and the same paths printed. -/
theorem listing_same_point :
    ∀ cfg cfgB : Config, cfg.same_point cfgB →
      (scan_entries listfiles_consumer cfg).ret = (scan_entries listfiles_consumer cfgB).ret
      ∧ (scan_entries listfiles_consumer cfg).w.stdout
          = (scan_entries listfiles_consumer cfgB).w.stdout := by
  apply scan_entries_induction listfiles_consumer
    (fun cfg r => ∀ cfgB : Config, cfg.same_point cfgB →
      r.ret = (scan_entries listfiles_consumer cfgB).ret
      ∧ r.w.stdout = (scan_entries listfiles_consumer cfgB).w.stdout)
  · intro cfg s hg cfgB h
    obtain ⟨hnil, hs⟩ := getline_none hg
    obtain ⟨hst, hln, hmd, hbuf, hsa, hsb, hout⟩ := h
    rw [scan_entries_nil listfiles_consumer cfgB (by rw [← hbuf]; exact hnil)]
    apply listing_at_eof_same
    refine ⟨hst, hln, hmd, ?_, getline_sane hsa hg, fun _ => ?_, hout⟩
    · rw [hs]; exact hbuf
    · rw [← hbuf]; exact hnil
  · intro cfg line s r hg hstep cfgB h
    obtain ⟨hst, hln, hmd, hbuf, hsa, hsb, hout⟩ := h
    have hcg := getline_congr cfg.w.stdin cfgB.w.stdin hbuf
    rw [hg] at hcg
    have hgB : getline cfgB.w.stdin = (some line, (getline cfgB.w.stdin).2) :=
      Prod.ext hcg.1.symm rfl
    rw [scan_entries_line listfiles_consumer cfgB line _ hgB]
    have hsame : Config.same_point { cfg with w := { cfg.w with stdin := s } }
        { cfgB with w := { cfgB.w with stdin := (getline cfgB.w.stdin).2 } } :=
      ⟨hst, hln, hmd, hcg.2, getline_sane hsa hg, getline_sane hsb hgB, hout⟩
    have hcmp := listing_step_same line _ _ hsame
    rw [hstep] at hcmp
    cases hB : scan_step listfiles_consumer line
        { cfgB with w := { cfgB.w with stdin := (getline cfgB.w.stdin).2 } } with
    | stop rb =>
      rw [hB] at hcmp
      exact hcmp
    | next b2 =>
      rw [hB] at hcmp
      obtain ⟨e1, e2, e3, e4⟩ := hcmp
      have hstuck := scan_entries_contents_end_stuck listfiles_consumer
        { b2 with lineno := b2.lineno + 1 } e2 e3
      exact ⟨by rw [e1, hstuck.1], by rw [e4, hstuck.2]⟩
  · intro cfg line s cfg2 hg hstep ih cfgB h
    obtain ⟨hst, hln, hmd, hbuf, hsa, hsb, hout⟩ := h
    have hcg := getline_congr cfg.w.stdin cfgB.w.stdin hbuf
    rw [hg] at hcg
    have hgB : getline cfgB.w.stdin = (some line, (getline cfgB.w.stdin).2) :=
      Prod.ext hcg.1.symm rfl
    rw [scan_entries_line listfiles_consumer cfgB line _ hgB]
    have hsame : Config.same_point { cfg with w := { cfg.w with stdin := s } }
        { cfgB with w := { cfgB.w with stdin := (getline cfgB.w.stdin).2 } } :=
      ⟨hst, hln, hmd, hcg.2, getline_sane hsa hg, getline_sane hsb hgB, hout⟩
    have hcmp := listing_step_same line _ _ hsame
    rw [hstep] at hcmp
    cases hB : scan_step listfiles_consumer line
        { cfgB with w := { cfgB.w with stdin := (getline cfgB.w.stdin).2 } } with
    | stop rb =>
      rw [hB] at hcmp
      obtain ⟨e1, e2, e3, e4⟩ := hcmp
      have hstuck := scan_entries_contents_end_stuck listfiles_consumer
        { cfg2 with lineno := cfg2.lineno + 1 } e2 e3
      exact ⟨by rw [e1, hstuck.1], by rw [hstuck.2]; exact e4⟩
    | next b2 =>
      rw [hB] at hcmp
      exact ih _ (same_point_lineno _ _ hcmp)

/-- C23: for every archive, on a stream that can be positioned or not,
listing with `skip_file_data` pointing to `skip_file_data_fseek` (as at the
start of the program) returns the same value and prints the same paths as
listing with `skip_file_data` pointing to `skip_file_data_fread`. When the
stream cannot be positioned, `skip_file_data_fseek` (for a size up to
`LONG_MAX`) returns what `skip_file_data_fread` returns, leaves `stdin` as
`skip_file_data_fread` leaves it, and leaves the pointer at
`skip_file_data_fread`; and once the pointer is there, `listfiles` leaves it
there, so every later payload is skipped by reading. -/
theorem listing_skip_strategy (input : List Char) (seekable : Bool)
    (fs : List FsOp → FsOp → SysRes) (fs_isdir : List FsOp → CStr → Bool) :
    (scan_archive listfiles_consumer (World.start input seekable fs fs_isdir)).ret
      = (scan_archive listfiles_consumer
          { World.start input seekable fs fs_isdir with skip_file_data := .by_fread }).ret
    ∧ (scan_archive listfiles_consumer (World.start input seekable fs fs_isdir)).w.stdout
      = (scan_archive listfiles_consumer
          { World.start input seekable fs fs_isdir with skip_file_data := .by_fread }).w.stdout
    ∧ (∀ (m : Metadata) (w : World), w.stdin.seekable = false → m.fsize ≤ LONG_MAX →
        (skip_file_data_fseek m w).1 = (skip_file_data_fread m w).1
        ∧ (skip_file_data_fseek m w).2.stdin = (skip_file_data_fread m w).2.stdin
        ∧ (skip_file_data_fseek m w).2.skip_file_data = .by_fread)
    ∧ (∀ (lineno : Nat) (m : Metadata) (w : World), w.skip_file_data = .by_fread →
        (listfiles lineno m w).2.skip_file_data = .by_fread) := by
  have hmain : ∀ wa wb : World, wa.stdin = wb.stdin → wa.stdin.sane → wa.stdout = wb.stdout →
      (scan_archive listfiles_consumer wa).ret = (scan_archive listfiles_consumer wb).ret
      ∧ (scan_archive listfiles_consumer wa).w.stdout
          = (scan_archive listfiles_consumer wb).w.stdout := by
    intro wa wb hin hs hout
    simp only [scan_archive, ← hin]
    cases h1 : (scan_header (wa.stdin.buf.length + 1) 1 wa.stdin).1 with
    | true => simp [hout]
    | false =>
      cases h2 : (scan_header (wa.stdin.buf.length + 1) 1 wa.stdin).2.2.eof with
      | true => simp [hout]
      | false =>
        simp only [Bool.false_eq_true, if_false]
        exact listing_same_point _ _
          ⟨rfl, rfl, rfl, rfl, scan_header_sane _ _ _ hs, scan_header_sane _ _ _ hs, hout⟩
  have hm := hmain (World.start input seekable fs fs_isdir)
    { World.start input seekable fs fs_isdir with skip_file_data := .by_fread } rfl
    (fun h => by cases h) rfl
  refine ⟨hm.1, hm.2, ?_, ?_⟩
  · intro m w hseek hsize
    simp [skip_file_data_fseek, hsize, fseek, hseek, skip_file_data_fread]
  · intro lineno m w hw
    cases hp : m.fpath with
    | none => simpa [listfiles, hp] using hw
    | some p =>
      by_cases ht : m.ftype = .REGULARFILE
      · simp [listfiles, hp, ht, printline, hw, skip_file_data_fread]
      · simpa [listfiles, hp, ht, printline] using hw

/-- C23 at an archive with a regular file `f` of five bytes followed by a
directory `d`, read from a stream that cannot be positioned: both listings
return 0 and print `f` and `d`. -/
theorem listing_skip_strategy_witness :
    (scan_archive listfiles_consumer
      (World.start "\nPath: f\nType: Regular File\nFile Size: 5\n---\nhello---\nPath: d\nType: Directory\n".toList
        false fs_ok fs_nodir)).ret
      = (scan_archive listfiles_consumer
          { World.start "\nPath: f\nType: Regular File\nFile Size: 5\n---\nhello---\nPath: d\nType: Directory\n".toList
              false fs_ok fs_nodir with skip_file_data := .by_fread }).ret
    ∧ (skip_file_data_fseek demo_file (World.start "hel".toList false fs_ok fs_nodir)).1 = 1
    ∧ (skip_file_data_fseek demo_file
        (World.start "hel".toList false fs_ok fs_nodir)).2.skip_file_data = .by_fread :=
  have h := listing_skip_strategy
    "\nPath: f\nType: Regular File\nFile Size: 5\n---\nhello---\nPath: d\nType: Directory\n".toList
    false fs_ok fs_nodir
  ⟨h.1,
   (h.2.2.1 demo_file (World.start "hel".toList false fs_ok fs_nodir) rfl (by decide)).1.trans
     (by decide),
   (h.2.2.1 demo_file (World.start "hel".toList false fs_ok fs_nodir) rfl (by decide)).2.2⟩

/-! ## Records do not depend on earlier records -/

theorem seen_eq_iff (m m2 : Metadata) :
    m.seen = m2.seen ↔
      m.fpath = m2.fpath ∧ m.ftype = m2.ftype ∧ m.flinktarget = m2.flinktarget
      ∧ m.fmajor = m2.fmajor ∧ m.fminor = m2.fminor ∧ m.fusername = m2.fusername
      ∧ m.fgroupname = m2.fgroupname ∧ m.fsizegiven = m2.fsizegiven
      ∧ m.fuidgiven = m2.fuidgiven ∧ m.fgidgiven = m2.fgidgiven ∧ m.fmodegiven = m2.fmodegiven
      ∧ m.fmtimegiven = m2.fmtimegiven
      ∧ (m.fsizegiven = true → m.fsize = m2.fsize) ∧ (m.fuidgiven = true → m.fuid = m2.fuid)
      ∧ (m.fgidgiven = true → m.fgid = m2.fgid) ∧ (m.fmodegiven = true → m.fmode = m2.fmode)
      ∧ (m.fmtimegiven = true → m.fmtime = m2.fmtime) := by
  rcases m with ⟨a1, a2, a3, a4, a5, a6, a7, a8, a9, a10, a11, a12, f1, f2, f3, f4, f5⟩
  rcases m2 with ⟨b1, b2, b3, b4, b5, b6, b7, b8, b9, b10, b11, b12, g1, g2, g3, g4, g5⟩
  simp only [Metadata.seen, Metadata.mk.injEq]
  constructor
  · rintro ⟨h1, h2, h3, h4, h5, h6, h7, h8, h9, h10, h11, h12, e1, e2, e3, e4, e5⟩
    subst e1 e2 e3 e4 e5
    refine ⟨h1, h2, h4, h5, h6, h7, h8, rfl, rfl, rfl, rfl, rfl, ?_, ?_, ?_, ?_, ?_⟩ <;>
      intro h <;> simp_all
  · rintro ⟨h1, h2, h4, h5, h6, h7, h8, e1, e2, e3, e4, e5, h3, h9, h10, h11, h12⟩
    subst e1 e2 e3 e4 e5
    refine ⟨h1, h2, ?_, h4, h5, h6, h7, h8, ?_, ?_, ?_, ?_, rfl, rfl, rfl, rfl, rfl⟩
    · cases f1 <;> simp_all
    · cases f2 <;> simp_all
    · cases f3 <;> simp_all
    · cases f4 <;> simp_all
    · cases f5 <;> simp_all

/-- On metadata that read the same, `handle_metadata` returns the same value
and leaves metadata that read the same. -/
theorem handle_metadata_seen (key value : CStr) (m m2 : Metadata) (h : m.seen = m2.seen) :
    (handle_metadata key value m).1 = (handle_metadata key value m2).1
    ∧ (handle_metadata key value m).2.seen = (handle_metadata key value m2).2.seen := by
  have H := (seen_eq_iff m m2).mp h
  obtain ⟨h1, h2, h4, h5, h6, h7, h8, e1, e2, e3, e4, e5, h3, h9, h10, h11, h12⟩ := H
  have H := (seen_eq_iff m m2).mp h
  unfold handle_metadata
  dsimp only
  by_cases hv : value = []
  · rw [if_pos hv, if_pos hv]
    exact ⟨rfl, h⟩
  rw [if_neg hv, if_neg hv]
  clear hv
  by_cases hk : key = "path".toList
  · rw [if_pos hk, if_pos hk, ← h1]
    split
    · exact ⟨rfl, (seen_eq_iff _ _).mpr H⟩
    · exact ⟨rfl, (seen_eq_iff _ _).mpr ⟨rfl, h2, h4, h5, h6, h7, h8, e1, e2, e3, e4, e5, h3, h9, h10, h11, h12⟩⟩
  rw [if_neg hk, if_neg hk]
  clear hk
  by_cases hk : key = "type".toList
  · rw [if_pos hk, if_pos hk, ← h2]
    split
    · exact ⟨rfl, (seen_eq_iff _ _).mpr H⟩
    · cases ftype_of_name (transformkey value) with
      | none => exact ⟨rfl, (seen_eq_iff _ _).mpr H⟩
      | some t => exact ⟨rfl, (seen_eq_iff _ _).mpr ⟨h1, rfl, h4, h5, h6, h7, h8, e1, e2, e3, e4, e5, h3, h9, h10, h11, h12⟩⟩
  rw [if_neg hk, if_neg hk]
  clear hk
  by_cases hk : key = "filesize".toList
  · rw [if_pos hk, if_pos hk, ← e1]
    split
    · exact ⟨rfl, (seen_eq_iff _ _).mpr H⟩
    · split
      · exact ⟨rfl, (seen_eq_iff _ _).mpr ⟨h1, h2, h4, h5, h6, h7, h8, rfl, e2, e3, e4, e5, fun _ => rfl, h9, h10, h11, h12⟩⟩
      · exact ⟨rfl, (seen_eq_iff _ _).mpr ⟨h1, h2, h4, h5, h6, h7, h8, rfl, e2, e3, e4, e5, fun _ => rfl, h9, h10, h11, h12⟩⟩
  rw [if_neg hk, if_neg hk]
  clear hk
  by_cases hk : key = "linktarget".toList
  · rw [if_pos hk, if_pos hk, ← h4]
    split
    · exact ⟨rfl, (seen_eq_iff _ _).mpr H⟩
    · exact ⟨rfl, (seen_eq_iff _ _).mpr ⟨h1, h2, rfl, h5, h6, h7, h8, e1, e2, e3, e4, e5, h3, h9, h10, h11, h12⟩⟩
  rw [if_neg hk, if_neg hk]
  clear hk
  by_cases hk : key = "major".toList
  · rw [if_pos hk, if_pos hk, ← h5]
    split
    · exact ⟨rfl, (seen_eq_iff _ _).mpr H⟩
    · split
      · exact ⟨rfl, (seen_eq_iff _ _).mpr ⟨h1, h2, h4, rfl, h6, h7, h8, e1, e2, e3, e4, e5, h3, h9, h10, h11, h12⟩⟩
      · exact ⟨rfl, (seen_eq_iff _ _).mpr ⟨h1, h2, h4, rfl, h6, h7, h8, e1, e2, e3, e4, e5, h3, h9, h10, h11, h12⟩⟩
  rw [if_neg hk, if_neg hk]
  clear hk
  by_cases hk : key = "minor".toList
  · rw [if_pos hk, if_pos hk, ← h6]
    split
    · exact ⟨rfl, (seen_eq_iff _ _).mpr H⟩
    · split
      · exact ⟨rfl, (seen_eq_iff _ _).mpr ⟨h1, h2, h4, h5, rfl, h7, h8, e1, e2, e3, e4, e5, h3, h9, h10, h11, h12⟩⟩
      · exact ⟨rfl, (seen_eq_iff _ _).mpr ⟨h1, h2, h4, h5, rfl, h7, h8, e1, e2, e3, e4, e5, h3, h9, h10, h11, h12⟩⟩
  rw [if_neg hk, if_neg hk]
  clear hk
  by_cases hk : key = "username".toList
  · rw [if_pos hk, if_pos hk, ← h7]
    split
    · exact ⟨rfl, (seen_eq_iff _ _).mpr H⟩
    · exact ⟨rfl, (seen_eq_iff _ _).mpr ⟨h1, h2, h4, h5, h6, rfl, h8, e1, e2, e3, e4, e5, h3, h9, h10, h11, h12⟩⟩
  rw [if_neg hk, if_neg hk]
  clear hk
  by_cases hk : key = "userid".toList
  · rw [if_pos hk, if_pos hk, ← e2]
    split
    · exact ⟨rfl, (seen_eq_iff _ _).mpr H⟩
    · split
      · exact ⟨rfl, (seen_eq_iff _ _).mpr ⟨h1, h2, h4, h5, h6, h7, h8, e1, rfl, e3, e4, e5, h3, fun _ => rfl, h10, h11, h12⟩⟩
      · exact ⟨rfl, (seen_eq_iff _ _).mpr ⟨h1, h2, h4, h5, h6, h7, h8, e1, rfl, e3, e4, e5, h3, fun _ => rfl, h10, h11, h12⟩⟩
  rw [if_neg hk, if_neg hk]
  clear hk
  by_cases hk : key = "groupname".toList
  · rw [if_pos hk, if_pos hk, ← h8]
    split
    · exact ⟨rfl, (seen_eq_iff _ _).mpr H⟩
    · exact ⟨rfl, (seen_eq_iff _ _).mpr ⟨h1, h2, h4, h5, h6, h7, rfl, e1, e2, e3, e4, e5, h3, h9, h10, h11, h12⟩⟩
  rw [if_neg hk, if_neg hk]
  clear hk
  by_cases hk : key = "groupid".toList
  · rw [if_pos hk, if_pos hk, ← e3]
    split
    · exact ⟨rfl, (seen_eq_iff _ _).mpr H⟩
    · split
      · exact ⟨rfl, (seen_eq_iff _ _).mpr ⟨h1, h2, h4, h5, h6, h7, h8, e1, e2, rfl, e4, e5, h3, h9, fun _ => rfl, h11, h12⟩⟩
      · exact ⟨rfl, (seen_eq_iff _ _).mpr ⟨h1, h2, h4, h5, h6, h7, h8, e1, e2, rfl, e4, e5, h3, h9, fun _ => rfl, h11, h12⟩⟩
  rw [if_neg hk, if_neg hk]
  clear hk
  by_cases hk : key = "permissions".toList
  · rw [if_pos hk, if_pos hk, ← e4]
    split
    · exact ⟨rfl, (seen_eq_iff _ _).mpr H⟩
    · split
      · exact ⟨rfl, (seen_eq_iff _ _).mpr ⟨h1, h2, h4, h5, h6, h7, h8, e1, e2, e3, rfl, e5, h3, h9, h10, fun _ => rfl, h12⟩⟩
      · exact ⟨rfl, (seen_eq_iff _ _).mpr ⟨h1, h2, h4, h5, h6, h7, h8, e1, e2, e3, rfl, e5, h3, h9, h10, fun _ => rfl, h12⟩⟩
  rw [if_neg hk, if_neg hk]
  clear hk
  by_cases hk : key = "modificationtime".toList
  · rw [if_pos hk, if_pos hk, ← e5]
    split
    · exact ⟨rfl, (seen_eq_iff _ _).mpr H⟩
    · split
      · exact ⟨rfl, (seen_eq_iff _ _).mpr ⟨h1, h2, h4, h5, h6, h7, h8, e1, e2, e3, e4, rfl, h3, h9, h10, h11, fun _ => rfl⟩⟩
      · exact ⟨rfl, (seen_eq_iff _ _).mpr ⟨h1, h2, h4, h5, h6, h7, h8, e1, e2, e3, e4, rfl, h3, h9, h10, h11, fun _ => rfl⟩⟩
  rw [if_neg hk, if_neg hk]
  clear hk
  exact ⟨rfl, h⟩

/-- After `clear_metadata` the metadata read the same whatever they held. -/
theorem clear_metadata_seen (m m2 : Metadata) :
    (clear_metadata m).seen = (clear_metadata m2).seen := by
  simp [clear_metadata, Metadata.seen]

/-- Whether `is_invalid_metadata` accepts depends only on how the metadata read. -/
theorem is_invalid_metadata_seen (m m2 : Metadata) (h : m.seen = m2.seen) :
    is_invalid_metadata m = is_invalid_metadata m2 := by
  obtain ⟨h1, h2, h4, h5, h6, h7, h8, e1, e2, e3, e4, e5, -⟩ := (seen_eq_iff m m2).mp h
  unfold is_invalid_metadata
  rw [h1, h2, h4, h5, h6, h7, h8, e1, e2, e3, e4, e5]

theorem scan_decision_call_size (p : Parsed) (state : PState) (md : Metadata) (st : PState)
    (h : scan_decision p state md = .call st) :
    md.ftype = .REGULARFILE → md.fsizegiven = true := by
  unfold scan_decision at h
  cases state <;> cases p <;> simp only at h <;> (repeat' split at h) <;>
    first | (cases h; done) | (cases h; simp_all)

/-- The decision of an iteration of the entry loop depends only on how the
metadata read. -/
theorem scan_decision_seen (p : Parsed) (state : PState) (m m2 : Metadata)
    (h : m.seen = m2.seen) :
    match scan_decision p state m, scan_decision p state m2 with
    | .fail a, .fail b => a.seen = b.seen
    | .goon s a, .goon s2 b => s = s2 ∧ a.seen = b.seen
    | .call s, .call s2 => s = s2
    | _, _ => False := by
  obtain ⟨h1, h2, h4, h5, h6, h7, h8, e1, e2, e3, e4, e5, -⟩ := (seen_eq_iff m m2).mp h
  have hh := fun key value => handle_metadata_seen key value m m2 h
  unfold scan_decision
  cases state <;> cases p <;> dsimp only
  all_goals first
    | exact h
    | exact ⟨rfl, h⟩
    | (rename_i key value
       rw [← (hh key value).1]
       split_ifs
       · exact (hh key value).2
       · exact ⟨rfl, (hh key value).2⟩)
    | (rw [← h2, ← e1]
       split_ifs <;> first | exact h | rfl)
    | (rw [← h2]
       split_ifs <;> first | exact h | rfl)
    | (split_ifs <;> first | exact h | rfl | exact ⟨rfl, h⟩)

/-- `listfiles` reads the size only of a regular file. -/
theorem listfiles_reads_given : listfiles_consumer.reads_given := by
  intro lineno m m2 w h hreg
  obtain ⟨h1, h2, -, -, -, -, -, -, -, -, -, -, h3, -⟩ := (seen_eq_iff m m2).mp h
  show listfiles lineno m w = listfiles lineno m2 w
  unfold listfiles
  rw [← h1, ← h2]
  cases m.fpath with
  | none => rfl
  | some p =>
    dsimp only
    by_cases ht : m.ftype = .REGULARFILE
    · have hs : m.fsize = m2.fsize := h3 (hreg ht)
      simp only [ht, if_true, skip_file_data_fseek, skip_file_data_fread, hs]
    · simp only [ht, if_false]

/-- For a complete entry every numeric field but the size is given, and the
size is given for a regular file. -/
theorem is_invalid_zero_flags (m : Metadata) (h : is_invalid_metadata m = 0) :
    m.fuidgiven = true ∧ m.fgidgiven = true ∧ m.fmodegiven = true ∧ m.fmtimegiven = true
    ∧ (m.ftype = .REGULARFILE → m.fsizegiven = true) := by
  unfold is_invalid_metadata at h
  cases hp : m.fpath with
  | none => simp [hp] at h
  | some p =>
    cases ht : m.ftype <;> simp only [hp, ht, Option.isNone_some, Bool.false_eq_true, if_false]
      at h <;> (try split_ifs at h) <;> simp_all

/-- For an entry that is not a regular file, `extract` does not read the size. -/
theorem extract_fsize (lineno : Nat) (m : Metadata) (x : Nat) (w : World)
    (h : m.ftype ≠ .REGULARFILE) :
    extract lineno { m with fsize := x } w = extract lineno m w := by
  have hi : is_invalid_metadata { m with fsize := x } = is_invalid_metadata m := rfl
  have hc : ∀ p w2, extract_create { m with fsize := x } p w2 = extract_create m p w2 :=
    fun _ _ => rfl
  have hf : ∀ p w2, extract_finish { m with fsize := x } p w2 = extract_finish m p w2 :=
    fun _ _ => rfl
  unfold extract
  rw [hi]
  simp only [hc, hf, extract_create_fp m _ _ h]
  rfl

/-- `extract` reads the numeric fields of a complete entry only. -/
theorem extract_reads_given : extract_consumer.reads_given := by
  intro lineno m m2 w h _
  show extract lineno m w = extract lineno m2 w
  have hi := is_invalid_metadata_seen m m2 h
  by_cases hv : is_invalid_metadata m = 0
  · obtain ⟨g2, g3, g4, g5, g1⟩ := is_invalid_zero_flags m hv
    obtain ⟨h1, h2, h4, h5, h6, h7, h8, e1, e2, e3, e4, e5, h3, h9, h10, h11, h12⟩ :=
      (seen_eq_iff m m2).mp h
    have k9 := h9 g2
    have k10 := h10 g3
    have k11 := h11 g4
    have k12 := h12 g5
    by_cases ht : m.ftype = .REGULARFILE
    · have k3 := h3 (g1 ht)
      have : m = m2 := by
        rcases m with ⟨a1, a2, a3, a4, a5, a6, a7, a8, a9, a10, a11, a12, f1, f2, f3, f4, f5⟩
        rcases m2 with ⟨b1, b2, b3, b4, b5, b6, b7, b8, b9, b10, b11, b12, g1, g2, g3, g4, g5⟩
        simp only at h1 h2 h4 h5 h6 h7 h8 e1 e2 e3 e4 e5 k3 k9 k10 k11 k12
        subst h1 h2 h4 h5 h6 h7 h8 e1 e2 e3 e4 e5 k3 k9 k10 k11 k12
        rfl
      rw [this]
    · have : m2 = { m with fsize := m2.fsize } := by
        rcases m with ⟨a1, a2, a3, a4, a5, a6, a7, a8, a9, a10, a11, a12, f1, f2, f3, f4, f5⟩
        rcases m2 with ⟨b1, b2, b3, b4, b5, b6, b7, b8, b9, b10, b11, b12, g1, g2, g3, g4, g5⟩
        simp only at h1 h2 h4 h5 h6 h7 h8 e1 e2 e3 e4 e5 k9 k10 k11 k12
        subst h1 h2 h4 h5 h6 h7 h8 e1 e2 e3 e4 e5 k9 k10 k11 k12
        rfl
      rw [this]
      exact (extract_fsize lineno m _ w ht).symm
  · have hv2 : is_invalid_metadata m2 ≠ 0 := by rw [← hi]; exact hv
    simp only [extract, ne_eq, hv, hv2, not_false_eq_true, if_true]

theorem same_seen_lineno (a b : Config) (h : a.same_seen b) :
    Config.same_seen { a with lineno := a.lineno + 1 } { b with lineno := b.lineno + 1 } := by
  obtain ⟨hst, hln, hmd, hw, hcalls⟩ := h
  exact ⟨hst, by simp only [hln], hmd, hw, hcalls⟩

/-- One iteration of the entry loop, for the same line, from two
configurations whose metadata read the same: both return, or both go on, and
what they leave differs at most in numeric fields whose flag is off. -/
theorem scan_step_seen (c : Consumer) (hc : c.reads_given) (line : List Char) (a b : Config)
    (h : a.same_seen b) :
    match scan_step c line a, scan_step c line b with
    | .stop ra, .stop rb => ra.same_seen rb
    | .next a2, .next b2 => a2.same_seen b2
    | _, _ => False := by
  obtain ⟨hst, hln, hmd, hw, hcalls⟩ := h
  rcases a with ⟨sa, la, ma, wa, ca⟩
  rcases b with ⟨sb, lb, mb, wb, cb⟩
  simp only at hst hln hmd hw hcalls
  subst hst hln hw
  rw [scan_step_decision, scan_step_decision]
  dsimp only
  have hd := scan_decision_seen (parsemetadata (cstr line)) sa ma mb hmd
  cases h1 : scan_decision (parsemetadata (cstr line)) sa ma with
  | fail x =>
    cases h2 : scan_decision (parsemetadata (cstr line)) sa mb with
    | fail y =>
      rw [h1, h2] at hd
      exact ⟨rfl, rfl, rfl, hd, rfl, hcalls⟩
    | goon s2 y => rw [h1, h2] at hd; exact hd.elim
    | call s2 => rw [h1, h2] at hd; exact hd.elim
  | goon s1 x =>
    cases h2 : scan_decision (parsemetadata (cstr line)) sa mb with
    | fail y => rw [h1, h2] at hd; exact hd.elim
    | goon s2 y =>
      rw [h1, h2] at hd
      exact ⟨hd.1, rfl, hd.2, rfl, hcalls⟩
    | call s2 => rw [h1, h2] at hd; exact hd.elim
  | call s1 =>
    cases h2 : scan_decision (parsemetadata (cstr line)) sa mb with
    | fail y => rw [h1, h2] at hd; exact hd.elim
    | goon s2 y => rw [h1, h2] at hd; exact hd.elim
    | call s2 =>
      rw [h1, h2] at hd
      have hrun : c.run la ma wa = c.run la mb wa :=
        hc la ma mb wa hmd (scan_decision_call_size _ _ _ _ h1)
      have hcalls2 : (ca ++ [Dispatch.mk la ma wa.stdin.buf]).map Dispatch.seen
          = (cb ++ [Dispatch.mk la mb wa.stdin.buf]).map Dispatch.seen := by
        simp only [List.map_append, hcalls, List.map_cons, List.map_nil, Dispatch.seen, hmd]
      simp only [Config.dispatch, ← hrun]
      by_cases hr : (c.run la ma wa).1 ≠ 0
      · rw [if_pos hr, if_pos hr]
        exact ⟨rfl, rfl, rfl, hmd, rfl, hcalls2⟩
      · rw [if_neg hr, if_neg hr]
        exact ⟨hd, rfl, clear_metadata_seen _ _, rfl, hcalls2⟩

/-- At the end of the input, two configurations whose metadata read the same
end the same way. -/
theorem scan_at_eof_seen (c : Consumer) (hc : c.reads_given) (a b : Config)
    (h : a.same_seen b) : (scan_at_eof c a).same_seen (scan_at_eof c b) := by
  obtain ⟨hst, hln, hmd, hw, hcalls⟩ := h
  rcases a with ⟨sa, la, ma, wa, ca⟩
  rcases b with ⟨sb, lb, mb, wb, cb⟩
  simp only at hst hln hmd hw hcalls
  subst hst hln hw
  have h2 : ma.ftype = mb.ftype := ((seen_eq_iff ma mb).mp hmd).2.1
  cases sa with
  | SEEKING_METADATA => exact ⟨rfl, rfl, rfl, hmd, rfl, hcalls⟩
  | CONTENTS_END => exact ⟨rfl, rfl, rfl, hmd, rfl, hcalls⟩
  | METADATA =>
    simp only [scan_at_eof, ← h2]
    by_cases ht : ma.ftype = .REGULARFILE
    · rw [if_pos ht, if_pos ht]
      exact ⟨rfl, rfl, rfl, hmd, rfl, hcalls⟩
    · rw [if_neg ht, if_neg ht]
      have hrun : c.run la ma wa = c.run la mb wa :=
        hc la ma mb wa hmd (fun h => absurd h ht)
      have hcalls2 : (ca ++ [Dispatch.mk la ma wa.stdin.buf]).map Dispatch.seen
          = (cb ++ [Dispatch.mk la mb wa.stdin.buf]).map Dispatch.seen := by
        simp only [List.map_append, hcalls, List.map_cons, List.map_nil, Dispatch.seen, hmd]
      simp only [Config.dispatch, ← hrun]
      by_cases hr : (c.run la ma wa).1 ≠ 0
      · rw [if_pos hr, if_pos hr]
        exact ⟨rfl, rfl, rfl, hmd, rfl, hcalls2⟩
      · rw [if_neg hr, if_neg hr]
        exact ⟨rfl, rfl, rfl, clear_metadata_seen _ _, rfl, hcalls2⟩

/-- The entry loop from two configurations whose metadata read the same ends
the same way, with calls whose metadata read the same. -/
theorem scan_entries_seen (c : Consumer) (hc : c.reads_given) :
    ∀ cfg cfgB : Config, cfg.same_seen cfgB →
      (scan_entries c cfg).same_seen (scan_entries c cfgB) := by
  apply scan_entries_induction c
    (fun cfg r => ∀ cfgB : Config, cfg.same_seen cfgB → r.same_seen (scan_entries c cfgB))
  · intro cfg s hg cfgB h
    have hw := h.2.2.2.1
    rw [scan_entries_eof c cfgB s (by rw [← hw]; exact hg)]
    exact scan_at_eof_seen c hc _ _ ⟨h.1, h.2.1, h.2.2.1, by rw [hw], h.2.2.2.2⟩
  · intro cfg line s r hg hstep cfgB h
    have hw := h.2.2.2.1
    rw [scan_entries_line c cfgB line s (by rw [← hw]; exact hg)]
    have hcmp := scan_step_seen c hc line { cfg with w := { cfg.w with stdin := s } }
      { cfgB with w := { cfgB.w with stdin := s } } ⟨h.1, h.2.1, h.2.2.1, by rw [hw], h.2.2.2.2⟩
    rw [hstep] at hcmp
    cases hB : scan_step c line { cfgB with w := { cfgB.w with stdin := s } } with
    | stop rb => rw [hB] at hcmp; exact hcmp
    | next b2 => rw [hB] at hcmp; exact hcmp.elim
  · intro cfg line s cfg2 hg hstep ih cfgB h
    have hw := h.2.2.2.1
    rw [scan_entries_line c cfgB line s (by rw [← hw]; exact hg)]
    have hcmp := scan_step_seen c hc line { cfg with w := { cfg.w with stdin := s } }
      { cfgB with w := { cfgB.w with stdin := s } } ⟨h.1, h.2.1, h.2.2.1, by rw [hw], h.2.2.2.2⟩
    rw [hstep] at hcmp
    cases hB : scan_step c line { cfgB with w := { cfgB.w with stdin := s } } with
    | stop rb => rw [hB] at hcmp; exact hcmp.elim
    | next b2 =>
      rw [hB] at hcmp
      exact ih _ (same_seen_lineno _ _ hcmp)

/-- The metadata that a record's lines give, as they read, depend only on
how the metadata read before its first line. -/
theorem fold_lines_seen (ls : List (List Char)) :
    ∀ m m2 : Metadata, m.seen = m2.seen →
      (fold_lines m ls).map Metadata.seen = (fold_lines m2 ls).map Metadata.seen := by
  induction ls with
  | nil =>
    intro m m2 h
    simp only [fold_lines, Option.map_some', h]
  | cons l ls ih =>
    intro m m2 h
    simp only [fold_lines]
    cases parsemetadata (cstr l) with
    | blank => rfl
    | bare v => rfl
    | keyvalue key value =>
      dsimp only
      have hh := handle_metadata_seen key value m m2 h
      rw [← hh.1]
      by_cases h0 : (handle_metadata key value m).1 = 0
      · rw [if_pos h0, if_pos h0]
        exact ih _ _ hh.2
      · rw [if_neg h0, if_neg h0]

/-- C22: the consumer is called at a `---` line or a blank line (in
`scan_step`) or at the end of the input (in `scan_at_eof`). After a call
that returns 0 the metadata are `clear_metadata` of what they were; a call
that returns nonzero ends `scan_archive` with 1, and `main` calls
`clear_metadata` on what `scan_archive` has left. After `clear_metadata` there
is no path, the type is unknown, there is no link target, major and minor are
-1, there is no user or group name, and the five `given` flags are off (the
variables `fsize`, `fuid`, `fgid`, `fmode` and `fmtime` keep their numbers).
Consequently, whatever the metadata `m1` or `m2` of an earlier record were:
the metadata that the lines of a record give read the same from
`clear_metadata m1` as from the initial values; `is_invalid_metadata` returns
the same on metadata that read the same; and the rest of the decode from
`clear_metadata m1` and from `clear_metadata m2`, under a consumer that reads
a numeric field only when its flag is on, as `listfiles` and `extract` do,
returns the same value with the same diagnostic, leaves the same world
(`stdin`, printed paths, file system calls), and makes the same calls with
metadata that read the same. -/
theorem records_independent :
    (∀ m : Metadata,
      (clear_metadata m).fpath = none ∧ (clear_metadata m).ftype = .UNKNOWN
      ∧ (clear_metadata m).flinktarget = none ∧ (clear_metadata m).fmajor = -1
      ∧ (clear_metadata m).fminor = -1 ∧ (clear_metadata m).fusername = none
      ∧ (clear_metadata m).fgroupname = none ∧ (clear_metadata m).fsizegiven = false
      ∧ (clear_metadata m).fuidgiven = false ∧ (clear_metadata m).fgidgiven = false
      ∧ (clear_metadata m).fmodegiven = false ∧ (clear_metadata m).fmtimegiven = false)
    ∧ (∀ (c : Consumer) (line : List Char) (cfg cfg2 : Config),
        scan_step c line cfg = .next cfg2 → cfg2.calls ≠ cfg.calls →
        (c.run cfg.lineno cfg.md cfg.w).1 = 0
        ∧ cfg2.calls = cfg.calls ++ [⟨cfg.lineno, cfg.md, cfg.w.stdin.buf⟩]
        ∧ cfg2.md = clear_metadata cfg.md)
    ∧ (∀ (c : Consumer) (line : List Char) (cfg : Config) (r : Result),
        scan_step c line cfg = .stop r → r.calls ≠ cfg.calls →
        (c.run cfg.lineno cfg.md cfg.w).1 ≠ 0 ∧ r.ret = 1)
    ∧ (∀ (c : Consumer) (cfg : Config), (scan_at_eof c cfg).calls ≠ cfg.calls →
        ((c.run cfg.lineno cfg.md cfg.w).1 ≠ 0 ∧ (scan_at_eof c cfg).ret = 1)
        ∨ ((c.run cfg.lineno cfg.md cfg.w).1 = 0 ∧ (scan_at_eof c cfg).ret = 0
            ∧ (scan_at_eof c cfg).md = clear_metadata cfg.md))
    ∧ (∀ (c : Consumer) (w : World), (main_scan c w).2.1 = clear_metadata (scan_archive c w).md)
    ∧ (∀ (m : Metadata) (lines : List (List Char)),
        (fold_lines (clear_metadata m) lines).map Metadata.seen
          = (fold_lines Metadata.init lines).map Metadata.seen)
    ∧ (∀ m m2 : Metadata, m.seen = m2.seen → is_invalid_metadata m = is_invalid_metadata m2)
    ∧ listfiles_consumer.reads_given ∧ extract_consumer.reads_given
    ∧ (∀ (c : Consumer), c.reads_given → ∀ (cfg : Config) (m1 m2 : Metadata),
        (scan_entries c { cfg with md := clear_metadata m1 }).same_seen
          (scan_entries c { cfg with md := clear_metadata m2 })) := by
  refine ⟨fun m => ⟨rfl, rfl, rfl, rfl, rfl, rfl, rfl, rfl, rfl, rfl, rfl, rfl⟩, ?_, ?_, ?_,
    fun _ _ => rfl, ?_, is_invalid_metadata_seen, listfiles_reads_given, extract_reads_given, ?_⟩
  · intro c line cfg cfg2 h hne
    rw [scan_step_decision] at h
    cases hd : scan_decision (parsemetadata (cstr line)) cfg.state cfg.md with
    | fail x => rw [hd] at h; cases h
    | goon st x =>
      rw [hd] at h
      simp only [Step.next.injEq] at h
      rw [← h] at hne
      exact absurd rfl hne
    | call st =>
      rw [hd] at h
      dsimp only at h
      by_cases hr : (cfg.dispatch c).1 ≠ 0
      · rw [if_pos hr] at h; cases h
      · rw [if_neg hr] at h
        simp only [Step.next.injEq] at h
        rw [← h]
        exact ⟨not_not.mp hr, rfl, rfl⟩
  · intro c line cfg r h hne
    rw [scan_step_decision] at h
    cases hd : scan_decision (parsemetadata (cstr line)) cfg.state cfg.md with
    | fail x =>
      rw [hd] at h
      simp only [Step.stop.injEq] at h
      rw [← h] at hne
      exact absurd rfl hne
    | goon st x => rw [hd] at h; cases h
    | call st =>
      rw [hd] at h
      dsimp only at h
      by_cases hr : (cfg.dispatch c).1 ≠ 0
      · rw [if_pos hr] at h
        simp only [Step.stop.injEq] at h
        rw [← h]
        exact ⟨hr, rfl⟩
      · rw [if_neg hr] at h; cases h
  · intro c cfg hne
    rcases scan_at_eof_cases c cfg with h | ⟨_, h⟩ | ⟨_, _, h⟩
    · rw [h] at hne; exact absurd rfl hne
    · rw [h] at hne; exact absurd rfl hne
    · rw [h]
      by_cases hr : (cfg.dispatch c).1 ≠ 0
      · rw [if_pos hr]
        exact Or.inl ⟨hr, rfl⟩
      · rw [if_neg hr]
        exact Or.inr ⟨not_not.mp hr, rfl, rfl⟩
  · intro m lines
    exact fold_lines_seen lines _ _ (clear_metadata_seen m Metadata.init)
  · intro c hc cfg m1 m2
    exact scan_entries_seen c hc _ _ ⟨rfl, rfl, clear_metadata_seen m1 m2, rfl, rfl⟩

/-- C22 at the listing of a directory record, read once after a complete
entry with owner 1 and once after no entry at all. -/
theorem records_independent_witness :
    (scan_entries listfiles_consumer
      { demo_config .SEEKING_METADATA Metadata.init "Path: d\nType: Directory\n\n" with
        md := clear_metadata (demo_entry .FIFO) }).same_seen
      (scan_entries listfiles_consumer
        { demo_config .SEEKING_METADATA Metadata.init "Path: d\nType: Directory\n\n" with
          md := clear_metadata Metadata.init }) :=
  records_independent.2.2.2.2.2.2.2.2.2 listfiles_consumer records_independent.2.2.2.2.2.2.2.1
    (demo_config .SEEKING_METADATA Metadata.init "Path: d\nType: Directory\n\n")
    (demo_entry .FIFO) Metadata.init

set_option maxRecDepth 100000 in
/-- The variable `fuid` still holds the 7 of the first record when the
second record is dispatched, with `fuidgiven` off: the metadata of the second
call read as those of a record without user id. -/
theorem stale_uid_flag_off :
    (scan_archive listfiles_consumer
        (World.start two_dirs_archive false fs_ok fs_nodir)).calls.map
          (fun d => (d.md.fpath, d.md.fuid, d.md.fuidgiven))
      = [(some "a".toList, 7, true), (some "b".toList, 7, false)]
    ∧ (scan_archive listfiles_consumer
        (World.start two_dirs_archive false fs_ok fs_nodir)).calls.map
          (fun d => (d.seen.md.fpath, d.seen.md.fuid, d.seen.md.fuidgiven))
      = [(some "a".toList, 7, true), (some "b".toList, 0, false)] := by
  decide

theorem strtol_minus_one : strtol 10 ['-', '1'] = ⟨-1, false⟩ := by
  decide

set_option maxRecDepth 100000 in
/-- C2 fails on the code: `handle_metadata` accepts the line `Major: -1` and
leaves `fmajor` at -1, the value that stands for "not given" (the same for
`Minor`). All ten lines of the character device record
`major_minus_one_lines` are accepted, so every field of the record was given,
and `is_invalid_metadata` returns 1 for it: under `extract` the record is
dispatched and the decode returns 1 without a diagnostic of the decoder and
without a file system call. With `Major: 5` in the same record
`is_invalid_metadata` returns 0 and the device is created. -/
theorem major_minus_one_incomplete :
    (∀ m : Metadata, handle_metadata "major".toList "-1".toList { m with fmajor := -1 }
        = (0, { m with fmajor := -1 }))
    ∧ (∀ m : Metadata, handle_metadata "minor".toList "-1".toList { m with fminor := -1 }
        = (0, { m with fminor := -1 }))
    ∧ (fold_lines Metadata.init major_minus_one_lines).map
          (fun m => (m.ftype, m.fmajor, m.fminor, is_invalid_metadata m))
        = some (.CHARDEVICE, -1, 1, 1)
    ∧ (scan_archive extract_consumer
        (World.start major_minus_one_archive true fs_ok fs_nodir)).ret = 1
    ∧ (scan_archive extract_consumer
        (World.start major_minus_one_archive true fs_ok fs_nodir)).diag = none
    ∧ (scan_archive extract_consumer
        (World.start major_minus_one_archive true fs_ok fs_nodir)).calls.map
          (fun d => (d.md.fpath, d.md.fmajor, is_invalid_metadata d.md))
        = [(some "tty".toList, -1, 1)]
    ∧ (scan_archive extract_consumer
        (World.start major_minus_one_archive true fs_ok fs_nodir)).w.ops = []
    ∧ (scan_archive extract_consumer
        (World.start major_five_archive true fs_ok fs_nodir)).ret = 0
    ∧ (scan_archive extract_consumer
        (World.start major_five_archive true fs_ok fs_nodir)).w.ops
        = [.unlink "tty".toList, .mknod "tty".toList (S_IFCHR ||| 400) 5 1,
           .utimensat "tty".toList 3, .lchown "tty".toList 1 2] := by
  refine ⟨fun m => ?_, fun m => ?_, by decide, by decide, by decide, by decide, by decide,
    by decide, by decide⟩
  · simp [handle_metadata, strtol_minus_one]
  · simp [handle_metadata, strtol_minus_one]

end Ptar
